import Mathlib

/-!
# Blob sidecar storage: layout iteration, cache warm-up, pruning and migration

A shallow embedding of `beacon-chain/db/filesystem/iteration.go` and
`beacon-chain/db/filesystem/layout.go`, with `blobRetentionEpoch` of
`cmd/beacon-chain/storage/options.go`, `parseIndices` of `beacon-chain/rpc/eth/blob/handlers.go`,
`validatePendingAtts` of `beacon-chain/sync/pending_attestations_queue.go` and
`validateCommitteeIndexAndCount` of `beacon-chain/sync/validate_beacon_attestation.go`.

* Go `error` values are modelled by `GoError`, a tree of sentinels and wrappers on which
  `errorsIs` follows the `Is`/`Unwrap` chain the way `errors.Is` does. A `nil` error is `none`.
* Go strings are Lean strings; `len` is the UTF-8 byte size.
* `*identIterator` is the inductive `identIterator` with the nil pointer as a constructor.
* The filesystem handle `afero.Fs` is a record of operations over a state type.
* The summary cache and the storage service (`Save`, `Get`, `WithinRetentionPeriod`) are not
  in these two files; they are modelled from the specification and marked so.
* `walkIdents` is the depth-first walk in listing order as a list, against which the results
  of `identIterator.next` are compared.
* `MemFs` is a directory tree in memory on which the functions are run; its `Rename` and
  `Remove` follow `os.Rename` and `os.Remove` on a POSIX system.
-/

namespace Filesystem

set_option maxRecDepth 1000000

/-! ## Values -/

/-- The Go type `[32]byte`. -/
abbrev Bytes32 := { l : List (Fin 256) // l.length = 32 }

/-- The value `[32]byte{}`, which is also `params.BeaconConfig().ZeroHash`. -/
def zeroHash : Bytes32 := ⟨List.replicate 32 0, by simp⟩

/-- The struct `blobIdent` of layout.go. `epoch` is a `primitives.Epoch` and `index` a `uint64`. -/
structure blobIdent where
  root : Bytes32
  epoch : Nat
  index : Nat
deriving DecidableEq

/-- The zero value `blobIdent{}`. -/
def blobIdent.zero : blobIdent := ⟨zeroHash, 0, 0⟩

/-- A non-nil Go `error`. -/
inductive GoError where
  /-- A package-level `errors.New(msg)` value; two sentinels are the same error when they carry the same text. -/
  | sentinel (msg : String)
  /-- An error of another package that matches no sentinel (`*os.PathError`, `*strconv.NumError`). -/
  | foreign (msg : String)
  /-- The result of `errors.Wrap(err, msg)` and `errors.Wrapf`: unwraps to `err`. -/
  | wrap (err : GoError) (msg : String)
  /-- The result of `fmt.Errorf("%w: msg: %w", a, b)`: unwraps to both. -/
  | errorf2 (a : GoError) (msg : String) (b : GoError)
  /-- The struct `identificationError`: matches `errIdentFailure` and unwraps to `err`. -/
  | identification (err : GoError) (path : String) (ident : blobIdent)
deriving DecidableEq

def ioEOF : GoError := .sentinel "EOF"
def errIdentFailure : GoError := .sentinel "failed to determine blob metadata, ignoring all sub-paths."
def errMigrationFailure : GoError := .sentinel "unable to migrate blob directory between old and new layout"
def errCacheWarmFailed : GoError := .sentinel "failed to warm blob filesystem cache"
def errPruneFailed : GoError := .sentinel "failed to prune root"
def errInvalidRootString : GoError := .sentinel "Could not parse hex string as a [32]byte"
def errInvalidDirectoryLayout : GoError := .sentinel "Could not parse blob directory path"
def errInvalidLayoutName : GoError := .sentinel "unknown layout name"
def errLayoutNotDetected : GoError := .sentinel "given layout not observed in the blob filesystem tree"

/-- The method `Error()`. -/
def GoError.Error : GoError → String
  | .sentinel m => m
  | .foreign m => m
  | .wrap e m => m ++ ": " ++ e.Error
  | .errorf2 a m b => a.Error ++ ": " ++ m ++ ": " ++ b.Error
  | .identification e p _ =>
    "failed to determine blob metadata, ignoring all sub-paths." ++ " path=" ++ p ++ ", err=" ++ e.Error

/-- The function `errors.Is(err, target)` for a non-nil `err` and a sentinel `target`: the error
itself, then its `Is` method, then what it unwraps to. -/
def errorsIs : GoError → GoError → Bool
  | .sentinel m, target => decide (GoError.sentinel m = target)
  | .foreign _, _ => false
  | .wrap e _, target => errorsIs e target
  | .errorf2 a _ b, target => errorsIs a target || errorsIs b target
  | .identification e _ _, target => decide (target = errIdentFailure) || errorsIs e target

/-- The function `errors.Is` on a possibly nil error. -/
def errorsIsOpt : Option GoError → GoError → Bool
  | none, _ => false
  | some e, target => errorsIs e target

/-- The constructor `newIdentificationError(path, ident, err)`. -/
def newIdentificationError (path : String) (ident : blobIdent) (err : GoError) : GoError :=
  .identification err path ident

/-! ## The iterator -/

/-- What `Open` followed by `Readdirnames(-1)` gives on a path. -/
inductive DirRead where
  | openFailed (err : GoError)
  | readFailed (err : GoError)
  | names (entries : List String)

/-- The function `listDir` of iteration.go, over the result of reading `dir`. -/
def listDir (readdirnames : String → DirRead) (dir : String) : Except GoError (List String) :=
  match readdirnames dir with
  | .openFailed err => .error (.wrap err "failed to open directory descriptor")
  | .readFailed err => .error (.wrap err "failed to read directory listing")
  | .names dirs => .ok dirs

/-- The pieces of a path between its separators, `cur` being the piece being read. -/
def splitSlashes : List Char → List Char → List (List Char)
  | [], cur => [cur.reverse]
  | c :: rest, cur =>
    if c = '/' then cur.reverse :: splitSlashes rest [] else splitSlashes rest (c :: cur)

/-- The elements that `filepath.Clean` keeps, most recent first: empty elements and `.` are
dropped, `..` removes the element before it, and a leading `..` stays only in a path that is
not rooted. -/
def cleanElems (rooted : Bool) : List (List Char) → List (List Char) → List (List Char)
  | [], kept => kept
  | e :: rest, kept =>
    if e = [] ∨ e = ['.'] then cleanElems rooted rest kept
    else if e = ['.', '.'] then
      match kept with
      | [] => if rooted then cleanElems rooted rest [] else cleanElems rooted rest [e]
      | k :: ks =>
        if k = ['.', '.'] then cleanElems rooted rest (e :: k :: ks)
        else cleanElems rooted rest ks
    else cleanElems rooted rest (e :: kept)

/-- The function `filepath.Clean` (separator `/`, no volume name). -/
def filepathCleanChars (p : List Char) : List Char :=
  let rooted := p.head? = some '/'
  let elems := (cleanElems rooted (splitSlashes p []) []).reverse
  let body := List.intercalate ['/'] elems
  let out := if rooted then '/' :: body else body
  if out = [] then ['.'] else out

/-- The function `filepath.Join` on two elements: empty elements are ignored and the result is
cleaned. -/
def filepathJoin (dir name : String) : String :=
  if dir ≠ "" then ⟨filepathCleanChars (dir.data ++ '/' :: name.data)⟩
  else if name ≠ "" then ⟨filepathCleanChars name.data⟩
  else ""

/-- The function `filepath.Dir`: what precedes the last element, cleaned. -/
def filepathDir (p : String) : String :=
  ⟨filepathCleanChars (p.data.reverse.dropWhile (· ≠ '/')).reverse⟩

/-- The type `identPopulator`: the Go function returns a `blobIdent` and an `error`. -/
abbrev identPopulator := blobIdent → String → blobIdent × Option GoError

/-- The struct `layoutLayer`. -/
structure layoutLayer where
  populateIdent : identPopulator
  filter : String → Bool

/-- The type `*identIterator`: the nil pointer, or the struct (the `fs` handle is passed to
`next` instead of being stored). -/
inductive identIterator where
  | nil
  | mk (path : String) (child : identIterator) (ident : blobIdent)
      (layers : List layoutLayer) (entries : List String) (offset : Nat) (eof : Bool)

/-- What one call of `next` returns: the `blobIdent` and the `error`. -/
abbrev IterResult := blobIdent × Option GoError

/-- The method `atEOF`. A nil receiver panics (`none`). -/
def identIterator.atEOF : identIterator → Option Bool
  | .nil => none
  | .mk _ _ _ _ _ _ eof => some eof

/-- The `for` loop of `advanceChild` from index `i` on, over the entries not yet visited.
`layer` is `iter.layers[0]` and `deeper` is `iter.layers[1:]`; `descend p id es` is
`iter.child.next()` on the child freshly made for path `p`. Every `return` leaves
`iter.offset` at `i + 1` (the assignment in the loop and the deferred increment). -/
def advanceLoop (fs : String → DirRead) (layer : layoutLayer) (deeper : List layoutLayer)
    (descend : String → blobIdent → List String → Option (IterResult × identIterator))
    (path : String) (child : identIterator) (ident : blobIdent)
    (layers : List layoutLayer) (entries : List String) (eof : Bool) :
    List String → Nat → Option (IterResult × identIterator)
  | [], i => some ((blobIdent.zero, some ioEOF), .mk path child ident layers entries i eof)
  | e :: rest, i =>
    let nextPath := filepathJoin path e
    if !layer.filter nextPath then
      advanceLoop fs layer deeper descend path child ident layers entries eof rest (i + 1)
    else
      match layer.populateIdent ident nextPath with
      | (id, some err) =>
        some ((id, some (newIdentificationError nextPath id err)),
          .mk path child ident layers entries (i + 1) eof)
      | (id, none) =>
        if deeper.isEmpty then
          some ((id, none), .mk path child ident layers entries (i + 1) eof)
        else
          match listDir fs nextPath with
          | .error err =>
            some ((blobIdent.zero, some err), .mk path child ident layers entries (i + 1) eof)
          | .ok [] =>
            advanceLoop fs layer deeper descend path child ident layers entries eof rest (i + 1)
          | .ok (e0 :: es) =>
            match descend nextPath id (e0 :: es) with
            | none => none
            | some (r, c) => some (r, .mk path c ident layers entries (i + 1) eof)

/-- The method `advanceChild` on the iterator with the given fields. With no entry left the loop
body does not run and only the deferred increment happens. With an entry left and no layer,
`iter.layers[0]` panics (`none`). -/
def advanceChild (fs : String → DirRead) :
    List layoutLayer → String → identIterator → blobIdent → List layoutLayer → List String →
      Nat → Bool → Option (IterResult × identIterator)
  | [], path, child, ident, layers, entries, offset, eof =>
    if offset < entries.length then none
    else some ((blobIdent.zero, some ioEOF), .mk path child ident layers entries (offset + 1) eof)
  | layer :: deeper, path, child, ident, layers, entries, offset, eof =>
    if offset < entries.length then
      advanceLoop fs layer deeper
        (fun p id es => advanceChild fs deeper p .nil id deeper es 0 false)
        path child ident layers entries eof (entries.drop offset) offset
    else some ((blobIdent.zero, some ioEOF), .mk path child ident layers entries (offset + 1) eof)

/-- The method `next`. A nil receiver panics (`none`). -/
def identIterator.next (fs : String → DirRead) : identIterator → Option (IterResult × identIterator)
  | .nil => none
  | .mk path child ident layers entries offset eof =>
    if eof then
      some ((blobIdent.zero, some ioEOF), .mk path child ident layers entries offset eof)
    else
      match child with
      | .nil => advanceChild fs layers path .nil ident layers entries offset eof
      | .mk p c id ls es o f =>
        match identIterator.next fs (.mk p c id ls es o f) with
        | none => none
        | some ((nxt, none), c1) => some ((nxt, none), .mk path c1 ident layers entries offset eof)
        | some ((_, some err), c1) =>
          if !errorsIs err ioEOF then
            some ((blobIdent.zero, some err), .mk path c1 ident layers entries offset eof)
          else advanceChild fs layers path c1 ident layers entries offset eof

/-! ## Names and paths -/

def rootStringLen : Nat := 66
def sszExt : String := "ssz"
def partExt : String := "part"

def errNotBlobSSZ : GoError := .sentinel "not a blob ssz file"
def errIndexOutOfBounds : GoError := .sentinel "blob index in file name >= DefaultMaxBlobsPerBlock"

/-- The function `filepath.Base` on the characters of a path (separator `/`, no volume name). -/
def filepathBaseChars (p : List Char) : List Char :=
  if p = [] then ['.']
  else
    let stripped := (p.reverse.dropWhile (· = '/'))
    let last := (stripped.takeWhile (· ≠ '/')).reverse
    if last = [] then ['/'] else last

/-- The function `filepath.Base`. -/
def filepathBase (p : String) : String := ⟨filepathBaseChars p.data⟩

/-- The scan of `filepath.Ext` from the end of the path, on the reversed characters: `acc` holds
the characters already passed. -/
def filepathExtScan : List Char → List Char → List Char
  | [], _ => []
  | c :: rest, acc =>
    if c = '/' then []
    else if c = '.' then '.' :: acc
    else filepathExtScan rest (c :: acc)

/-- The function `filepath.Ext`. -/
def filepathExt (p : String) : String := ⟨filepathExtScan p.data.reverse []⟩

/-- The call `strings.Split(s, ".")` on characters: the pieces between the dots, `cur` being the
piece being read. -/
def splitDots : List Char → List Char → List (List Char)
  | [], cur => [cur.reverse]
  | c :: rest, cur => if c = '.' then cur.reverse :: splitDots rest [] else splitDots rest (c :: cur)

/-- The value of a decimal digit, `none` for any other character. -/
def digitValue (c : Char) : Option Nat :=
  if '0' ≤ c ∧ c ≤ '9' then some (c.toNat - '0'.toNat) else none

/-- The digits of `strconv.ParseUint(s, 10, 64)` read left to right from the value `n`. -/
def parseDigits : List Char → Nat → Option Nat
  | [], n => some n
  | c :: rest, n =>
    match digitValue c with
    | none => none
    | some d => parseDigits rest (10 * n + d)

/-- The call `strconv.ParseUint(s, 10, 64)`: the empty string, a character that is not a decimal
digit and a value of `2^64` or more are errors (a `*strconv.NumError`). -/
def parseUint64 (s : List Char) : Except GoError Nat :=
  if s = [] then .error (.foreign "strconv.ParseUint: invalid syntax")
  else
    match parseDigits s 0 with
    | none => .error (.foreign "strconv.ParseUint: invalid syntax")
    | some n =>
      if n < 2 ^ 64 then .ok n else .error (.foreign "strconv.ParseUint: value out of range")

/-- The value of a hexadecimal digit of either case, `none` for any other character. -/
def hexValue (c : Char) : Option (Fin 16) :=
  if '0' ≤ c ∧ c ≤ '9' then some (Fin.ofNat (c.toNat - '0'.toNat))
  else if 'a' ≤ c ∧ c ≤ 'f' then some (Fin.ofNat (c.toNat - 'a'.toNat + 10))
  else if 'A' ≤ c ∧ c ≤ 'F' then some (Fin.ofNat (c.toNat - 'A'.toNat + 10))
  else none

/-- The function `hex.DecodeString`: pairs of hexadecimal digits to bytes, `none` on a character
that is no digit or on an odd length. -/
def hexDecodeChars : List Char → Option (List (Fin 256))
  | [] => some []
  | [_] => none
  | a :: b :: rest =>
    match hexValue a, hexValue b, hexDecodeChars rest with
    | some x, some y, some bs => some (Fin.ofNat (16 * x.val + y.val) :: bs)
    | _, _, _ => none

/-- The function `hexutil.Decode`: the input has the prefix `0x` or `0X` and then hex digits. -/
def hexutilDecode (s : List Char) : Option (List (Fin 256)) :=
  match s with
  | '0' :: x :: rest => if x = 'x' ∨ x = 'X' then hexDecodeChars rest else none
  | _ => none

/-- The function `bytesutil.ToBytes32`: the first 32 bytes, zero padded. -/
def toBytes32 (l : List (Fin 256)) : Bytes32 :=
  ⟨(l ++ List.replicate 32 0).take 32, by simp⟩

def populateNoop (namer : blobIdent) (_ : String) : blobIdent × Option GoError := (namer, none)

def filterNoop (_ : String) : Bool := true

def isRootDir (p : String) : Bool :=
  let dir := filepathBase p
  decide (dir.utf8ByteSize = rootStringLen) && (['0', 'x'].isPrefixOf dir.data)

def isSszFile (s : String) : Bool := decide (filepathExt s = "." ++ sszExt)

def stringToRoot (str : String) : Bytes32 × Option GoError :=
  if str.utf8ByteSize ≠ rootStringLen then
    (zeroHash, some (.wrap errInvalidRootString ("incorrect len for input=" ++ str)))
  else
    match hexutilDecode str.data with
    | none => (zeroHash, some (.wrap errInvalidRootString ("input=" ++ str)))
    | some slice => (toBytes32 slice, none)

def rootFromPath (p : String) : Bytes32 × Option GoError :=
  let subdir := filepathBase p
  match stringToRoot subdir with
  | (root, some err) =>
    (root, some (.wrap err ("invalid directory, could not parse subdir as root " ++ p)))
  | (root, none) => (root, none)

def idxFromPath (p : String) : Nat × Option GoError :=
  let p := filepathBase p
  if !isSszFile p then (0, some (.wrap errNotBlobSSZ "does not have .ssz extension"))
  else
    let parts := splitDots p.data []
    if parts.length ≠ 2 then
      (0, some (.wrap errNotBlobSSZ "unexpected filename structure (want <index>.ssz)"))
    else
      match parseUint64 (parts.headD []) with
      | .error err => (0, some err)
      | .ok idx => (idx, none)

def populateRoot (namer : blobIdent) (dir : String) : blobIdent × Option GoError :=
  match rootFromPath dir with
  | (_, some err) => (namer, some err)
  | (root, none) => ({ namer with root := root }, none)

def populateIndex (namer : blobIdent) (fname : String) : blobIdent × Option GoError :=
  match idxFromPath fname with
  | (_, some err) => (namer, some err)
  | (idx, none) => ({ namer with index := idx }, none)

/-! ## The summary cache -/

/-- Modelled from the spec: the bound `MAX_BLOBS_PER_BLOCK` on a blob index, "currently 6"
(`fieldparams.MaxBlobsPerBlock`, the width of `blobIndexMask` in the test of blob_test.go). -/
def MAX_BLOBS_PER_BLOCK : Nat := 6

/-- Modelled from the spec: the type `blobIndexMask`, a fixed-width set of
`MAX_BLOBS_PER_BLOCK` booleans. -/
abbrev blobIndexMask := Fin MAX_BLOBS_PER_BLOCK → Bool

/-- Modelled from the spec: the all-zero mask, the summary of a root that is not cached. -/
def blobIndexMask.zero : blobIndexMask := fun _ => false

/-- Modelled from the spec: the type `blobStorageSummaryCache` of cache.go, a map from block
root to index mask. -/
abbrev blobStorageSummaryCache := Bytes32 → Option blobIndexMask

/-- Modelled from the spec: the cache of a fresh storage, with no root. -/
def blobStorageSummaryCache.empty : blobStorageSummaryCache := fun _ => none

/-- Modelled from the spec: the method `Summary(root)` of the cache, "zero-value mask if
absent". -/
def blobStorageSummaryCache.Summary (s : blobStorageSummaryCache) (root : Bytes32) :
    blobIndexMask :=
  (s root).getD blobIndexMask.zero

/-- Modelled from the spec: the method `HasIndex` of a summary, "has index i": the bit of the
mask, and false past its width. -/
def blobStorageSummaryCache.HasIndex (s : blobStorageSummaryCache) (root : Bytes32) (i : Nat) :
    Bool :=
  if h : i < MAX_BLOBS_PER_BLOCK then s.Summary root ⟨i, h⟩ else false

/-- Modelled from the spec: the method `ensure(ident)` of the cache of cache.go: "set
`mask[ident.root].bit(ident.index) = 1`; reject if `ident.index ≥ MAX_BLOBS_PER_BLOCK` with
`IndexOutOfBounds`". -/
def blobStorageSummaryCache.ensure (s : blobStorageSummaryCache) (ident : blobIdent) :
    Except GoError blobStorageSummaryCache :=
  if h : MAX_BLOBS_PER_BLOCK ≤ ident.index then .error errIndexOutOfBounds
  else
    .ok fun r =>
      if r = ident.root then
        some (Function.update (s.Summary r) ⟨ident.index, Nat.lt_of_not_le h⟩ true)
      else s r

/-! ## The filesystem handle and the layout interface -/

/-- The operations of `afero.Fs` that layout.go and iteration.go call, over filesystem states
`σ`. Each returns the `error` of the call and the state after it. -/
structure Fs (σ : Type) where
  /-- What `Open(dir)` and then `Readdirnames(-1)` give. -/
  readdirnames : σ → String → DirRead
  /-- The call `MkdirAll(path, perm)`. -/
  MkdirAll : σ → String → Option GoError × σ
  /-- The call `Rename(oldname, newname)`. -/
  Rename : σ → String → String → Option GoError × σ
  /-- The call `Remove(name)`. -/
  Remove : σ → String → Option GoError × σ

/-- The interface `fsLayout`, with the methods that `warmCache`, `migrateLayout` and
`pruneBefore` call. `remove` acts on the state and `iterateIdents` reads it. -/
structure fsLayout (σ : Type) where
  name : String
  dir : blobIdent → String
  sszPath : blobIdent → String
  iterateIdents : Nat → σ → identIterator × Option GoError
  remove : blobIdent → σ → (Int × Option GoError) × σ
  blockParentDirs : blobIdent → List String

/-- A call that a run makes, with what it returned: the observable trace of the functions
below, in the order of the calls. -/
inductive Event where
  /-- The call `iter.next()`. -/
  | next (ident : blobIdent) (err : Option GoError)
  /-- The call `cache.ensure(ident)`. -/
  | ensure (ident : blobIdent) (err : Option GoError)
  /-- The call `l.remove(ident)`. -/
  | remove (ident : blobIdent) (removed : Int) (err : Option GoError)
  /-- The call `fs.MkdirAll(path, perm)`. -/
  | mkdirAll (path : String) (err : Option GoError)
  /-- The call `fs.Rename(src, target)`. -/
  | rename (src target : String) (err : Option GoError)
  /-- The call `fs.Remove(dir)`. -/
  | fsRemove (dir : String) (err : Option GoError)
deriving DecidableEq

/-- How a run of a function ends. -/
inductive Outcome (α : Type) where
  /-- The function returned `val`. -/
  | returned (val : α)
  /-- A run-time panic: a nil dereference or an index out of range. -/
  | panicked
  /-- The loop was still running when the step budget of the model ran out. -/
  | unfinished
deriving DecidableEq

/-! ## Cache warm-up -/

/-- The `for` loop of `warmCache`, at most `fuel` calls of `iter.next()`. -/
def warmCacheLoop (fs : String → DirRead) (sszPath : blobIdent → String) :
    Nat → identIterator → blobStorageSummaryCache →
      Outcome (Option GoError) × blobStorageSummaryCache × List Event
  | 0, _, cache => (.unfinished, cache, [])
  | fuel + 1, iter, cache =>
    match iter.next fs with
    | none => (.panicked, cache, [])
    | some ((ident, err), iter) =>
      if errorsIsOpt err ioEOF then (.returned none, cache, [.next ident err])
      else if errorsIsOpt err errIdentFailure then
        let r := warmCacheLoop fs sszPath fuel iter cache
        (r.1, r.2.1, .next ident err :: r.2.2)
      else
        match err with
        | some e =>
          (.returned (some (.errorf2 errCacheWarmFailed "failed to populate blob data cache" e)),
            cache, [.next ident err])
        | none =>
          match cache.ensure ident with
          | .error e =>
            (.returned (some (.errorf2 errCacheWarmFailed
                ("failed to write cache entry for " ++ sszPath ident) e)),
              cache, [.next ident err, .ensure ident (some e)])
          | .ok cache1 =>
            let r := warmCacheLoop fs sszPath fuel iter cache1
            (r.1, r.2.1, .next ident err :: .ensure ident none :: r.2.2)

/-- The function `warmCache`. -/
def warmCache {σ : Type} (fs : Fs σ) (l : fsLayout σ) (cache : blobStorageSummaryCache)
    (w : σ) (fuel : Nat) : Outcome (Option GoError) × blobStorageSummaryCache × List Event :=
  match l.iterateIdents 0 w with
  | (_, some err) => (.returned (some (.wrap errCacheWarmFailed err.Error)), cache, [])
  | (iter, none) => warmCacheLoop (fs.readdirnames w) l.sszPath fuel iter cache

/-! ## Migration between layouts -/

/-- The struct `dirCleaner`: `layers` maps a depth to the set of directories recorded at that
depth, kept here in the order they were first added. -/
structure dirCleaner where
  maxDepth : Nat
  layers : Nat → Option (List String)

def newDirCleaner : dirCleaner := { maxDepth := 0, layers := fun _ => none }

/-- The method `dirCleaner.add`: `nLayers` is the number of pieces of `dir` between separators. -/
def dirCleaner.add (d : dirCleaner) (dir : String) : dirCleaner :=
  let nLayers := (splitSlashes dir.data []).length
  let set := (d.layers nLayers).getD []
  let set := if dir ∈ set then set else set ++ [dir]
  { maxDepth := if nLayers > d.maxDepth then nLayers else d.maxDepth
    layers := fun n => if n = nLayers then some set else d.layers n }

/-- The loop of `dirCleaner.cleanLayer` over the directories of one layer: one `fs.Remove` each
(what follows a failed removal only writes to the log). -/
def cleanDirs {σ : Type} (fs : Fs σ) : List String → σ → σ × List Event
  | [], w => (w, [])
  | dir :: rest, w =>
    let r := fs.Remove w dir
    let t := cleanDirs fs rest r.2
    (t.1, .fsRemove dir r.1 :: t.2)

/-- The method `dirCleaner.cleanLayer`. -/
def dirCleaner.cleanLayer {σ : Type} (d : dirCleaner) (fs : Fs σ) (layer : Nat) (w : σ) :
    σ × List Event :=
  match d.layers layer with
  | none => (w, [])
  | some dirs => cleanDirs fs dirs w

/-- The loop of `dirCleaner.clean` from layer `i` down to layer 0. -/
def dirCleaner.cleanFrom {σ : Type} (d : dirCleaner) (fs : Fs σ) : Nat → σ → σ × List Event
  | 0, w => d.cleanLayer fs 0 w
  | i + 1, w =>
    let r := d.cleanLayer fs (i + 1) w
    let t := d.cleanFrom fs i r.1
    (t.1, r.2 ++ t.2)

/-- The method `dirCleaner.clean`. -/
def dirCleaner.clean {σ : Type} (d : dirCleaner) (fs : Fs σ) (w : σ) : σ × List Event :=
  d.cleanFrom fs d.maxDepth w

/-- The local variables of `migrateLayout` that live across the iterations of its loop. -/
structure MigrateVars where
  lastMoved : String
  parentDirs : List String
  moved : Nat
  dc : dirCleaner

/-- What a run of `migrateLayout` gives: how it ended, the filesystem and the cache after it,
and the calls it made. -/
structure MigrateRun (σ : Type) where
  outcome : Outcome (Option GoError)
  fs : σ
  cache : blobStorageSummaryCache
  events : List Event

/-- The block of `migrateLayout` that makes the directory above `target`, unless it is empty,
`.` or already made: the error it returns, the set `parentDirs`, the filesystem and the calls
made. -/
def makeTargetParent {σ : Type} (fs : Fs σ) (parentDirs : List String) (source target : String)
    (w : σ) : Option GoError × List String × σ × List Event :=
  let targetParent := filepathDir target
  if targetParent ≠ "" ∧ targetParent ≠ "." ∧ targetParent ∉ parentDirs then
    match fs.MkdirAll w targetParent with
    | (some e, w1) =>
      (some (.wrap errMigrationFailure
        ("failed to make enclosing path before moving " ++ source ++ " to " ++ target)),
        parentDirs, w1, [.mkdirAll targetParent (some e)])
    | (none, w1) => (none, parentDirs ++ [targetParent], w1, [.mkdirAll targetParent none])
  else (none, parentDirs, w, [])

/-- The body of `if src != lastMoved` in `migrateLayout`, for the ident `ident`, `parents` being
`from.blockParentDirs(ident)`: the error it returns, the variables, the filesystem and the
calls made. -/
def moveDir {σ : Type} (fs : Fs σ) (parents : List String) (v : MigrateVars)
    (source target : String) (w : σ) : Option GoError × MigrateVars × σ × List Event :=
  match makeTargetParent fs v.parentDirs source target w with
  | (some e, pd, w1, evs) => (some e, { v with parentDirs := pd }, w1, evs)
  | (none, pd, w1, evs) =>
    match fs.Rename w1 source target with
    | (some e, w2) =>
      (some (.wrap errMigrationFailure ("could not rename " ++ source ++ " to " ++ target)),
        { v with parentDirs := pd }, w2, evs ++ [.rename source target (some e)])
    | (none, w2) =>
      (none,
        { lastMoved := source, parentDirs := pd, moved := v.moved + 1,
          dc := parents.foldl dirCleaner.add v.dc },
        w2, evs ++ [.rename source target none])

/-- The `for` loop of `migrateLayout` and what follows it, at most `fuel` calls of
`iter.next()`; `src` is the layout `from` and `tgt` the layout `to`. -/
def migrateLoop {σ : Type} (fs : Fs σ) (src tgt : fsLayout σ) :
    Nat → identIterator → MigrateVars → blobStorageSummaryCache → σ → MigrateRun σ
  | 0, _, _, cache, w => ⟨.unfinished, w, cache, []⟩
  | fuel + 1, iter, v, cache, w =>
    match iter.next (fs.readdirnames w) with
    | none => ⟨.panicked, w, cache, []⟩
    | some ((ident, err), iter) =>
      if errorsIsOpt err ioEOF then
        let r := v.dc.clean fs w
        ⟨.returned none, r.1, cache, .next ident err :: r.2⟩
      else
        match err with
        | some e =>
          if errorsIs e errIdentFailure then
            let r := migrateLoop fs src tgt fuel iter v cache w
            { r with events := .next ident err :: r.events }
          else
            ⟨.returned (some (.wrap errMigrationFailure
                ("failed to iterate previous layout structure while migrating blobs, err=" ++
                  e.Error))), w, cache, [.next ident err]⟩
        | none =>
          let m : Option GoError × MigrateVars × σ × List Event :=
            if src.dir ident ≠ v.lastMoved then
              moveDir fs (src.blockParentDirs ident) v (src.dir ident) (tgt.dir ident) w
            else (none, v, w, [])
          match m.1 with
          | some e => ⟨.returned (some e), m.2.2.1, cache, .next ident err :: m.2.2.2⟩
          | none =>
            match cache.ensure ident with
            | .error e =>
              ⟨.returned (some (.wrap errMigrationFailure
                  ("could not cache path " ++ tgt.sszPath ident ++ ", err=" ++ e.Error))),
                m.2.2.1, cache, .next ident err :: (m.2.2.2 ++ [.ensure ident (some e)])⟩
            | .ok cache1 =>
              let r := migrateLoop fs src tgt fuel iter m.2.1 cache1 m.2.2.1
              { r with
                events := .next ident err :: (m.2.2.2 ++ .ensure ident none :: r.events) }

/-- The function `migrateLayout(fs, from, to, cache)`. -/
def migrateLayout {σ : Type} (fs : Fs σ) (src tgt : fsLayout σ)
    (cache : blobStorageSummaryCache) (w : σ) (fuel : Nat) : MigrateRun σ :=
  match src.iterateIdents 0 w with
  | (_, some err) =>
    ⟨.returned (some (.wrap errMigrationFailure
        ("failed to iterate legacy structure while migrating blobs, err=" ++ err.Error))),
      w, cache, []⟩
  | (iter, none) =>
    match iter.atEOF with
    | none => ⟨.panicked, w, cache, []⟩
    | some true => ⟨.returned (some errLayoutNotDetected), w, cache, []⟩
    | some false =>
      migrateLoop fs src tgt fuel iter
        { lastMoved := "", parentDirs := [], moved := 0, dc := newDirCleaner } cache w

/-! ## Pruning -/

/-- The struct `pruneSummary`. -/
structure pruneSummary where
  blobsPruned : Int
  failedRemovals : List String
deriving DecidableEq

/-- The map `map[primitives.Epoch]*pruneSummary`. -/
abbrev PruneSums := Nat → Option pruneSummary

/-- The function `pruneOne`. -/
def pruneOne {σ : Type} (ident : blobIdent) (l : fsLayout σ) (sums : PruneSums) (w : σ) :
    PruneSums × σ × List Event :=
  if ident.root = zeroHash then (sums, w, [])
  else
    let s := (sums ident.epoch).getD { blobsPruned := 0, failedRemovals := [] }
    match l.remove ident w with
    | ((removed, err), w1) =>
      let s := if err.isSome then { s with failedRemovals := s.failedRemovals ++ [l.dir ident] }
        else s
      let s := { s with blobsPruned := s.blobsPruned + removed }
      (fun e => if e = ident.epoch then some s else sums e, w1, [.remove ident removed err])

/-- What a run of `pruneBefore` gives: how it ended (the map and the error it returned), the
state after it, and the calls it made. -/
structure PruneRun (σ : Type) where
  outcome : Outcome (Option PruneSums × Option GoError)
  fs : σ
  events : List Event

/-- The `for` loop of `pruneBefore` and what follows it, at most `fuel` calls of
`iter.next()`. -/
def pruneLoop {σ : Type} (fs : Fs σ) (l : fsLayout σ) (before : Nat) :
    Nat → identIterator → blobIdent → PruneSums → σ → PruneRun σ
  | 0, _, _, _, w => ⟨.unfinished, w, []⟩
  | fuel + 1, iter, lastIdent, sums, w =>
    match iter.next (fs.readdirnames w) with
    | none => ⟨.panicked, w, []⟩
    | some ((ident, err), iter) =>
      if errorsIsOpt err ioEOF then
        -- handle the final ident
        let r := pruneOne lastIdent l sums w
        ⟨.returned (some r.1, none), r.2.1, .next ident err :: r.2.2⟩
      else
        match err with
        | some e =>
          if errorsIs e errIdentFailure then
            let r := pruneLoop fs l before fuel iter lastIdent sums w
            { r with events := .next ident err :: r.events }
          else ⟨.returned (none, some (.wrap errPruneFailed e.Error)), w, [.next ident err]⟩
        | none =>
          if ident.epoch ≥ before then
            let r := pruneLoop fs l before fuel iter lastIdent sums w
            { r with events := .next ident err :: r.events }
          else if lastIdent.root ≠ ident.root then
            let p := pruneOne lastIdent l sums w
            let r := pruneLoop fs l before fuel iter ident p.1 p.2.1
            { r with events := .next ident err :: (p.2.2 ++ r.events) }
          else
            let r := pruneLoop fs l before fuel iter lastIdent sums w
            { r with events := .next ident err :: r.events }

/-- The function `pruneBefore(before, l)`. -/
def pruneBefore {σ : Type} (before : Nat) (fs : Fs σ) (l : fsLayout σ) (w : σ) (fuel : Nat) :
    PruneRun σ :=
  match l.iterateIdents before w with
  | (_, some err) =>
    ⟨.returned (none, some (.wrap err "failed to iterate blob paths for pruning")), w, []⟩
  | (iter, none) => pruneLoop fs l before fuel iter blobIdent.zero (fun _ => none) w

/-! ## A filesystem in memory, to run the functions on concrete trees -/

/-- What a path holds: a directory, or a regular file with its bytes. -/
inductive FileData where
  | dir
  | file (bytes : List Nat)
deriving DecidableEq

/-- A directory tree under the base directory `.`: each clean relative path with what it
holds, in the order in which a directory lists its entries. -/
abbrev MemFs := List (String × FileData)

/-- What `path` holds in the tree, the base directory always being there. -/
def MemFs.stat (m : MemFs) (path : String) : Option FileData :=
  if path = "." then some .dir else m.lookup path

/-- The name of `p` as an entry of the directory `dir`, when `p` lies directly in it. -/
def entryName (dir p : List Char) : Option String :=
  let rest := if dir = ['.'] then some p
    else if (dir ++ ['/']).isPrefixOf p then some (p.drop (dir.length + 1)) else none
  match rest with
  | none => none
  | some r => if r = [] ∨ '/' ∈ r then none else some ⟨r⟩

/-- Listing a directory: a missing path cannot be opened and a regular file cannot be listed. -/
def MemFs.readdirnames (m : MemFs) (dir : String) : DirRead :=
  let d : String := ⟨filepathCleanChars dir.data⟩
  match m.stat d with
  | none => .openFailed (.foreign "file does not exist")
  | some (.file _) => .readFailed (.foreign "not a dir")
  | some .dir => .names (m.filterMap fun e => entryName d.data e.1.data)

/-- Whether `p` is `dir` or lies under it. -/
def isUnder (dir p : List Char) : Bool :=
  decide (p = dir) || (dir ++ ['/']).isPrefixOf p

/-- The paths of the directories from the first element of a clean path down to the path. -/
def ancestorsAndSelf (path : String) : List String :=
  ((splitSlashes path.data []).inits.filter (· ≠ [])).map
    fun elems => ⟨List.intercalate ['/'] elems⟩

/-- Creating the missing directories of `dirs`, top down; a regular file in the way is an
error. -/
def MemFs.mkdirs (m : MemFs) : List String → Option GoError × MemFs
  | [] => (none, m)
  | d :: rest =>
    match m.stat d with
    | some (.file _) => (some (.foreign "not a directory"), m)
    | some .dir => MemFs.mkdirs m rest
    | none => MemFs.mkdirs (m ++ [(d, .dir)]) rest

/-- The call `MkdirAll`. -/
def MemFs.MkdirAll (m : MemFs) (path : String) : Option GoError × MemFs :=
  m.mkdirs (ancestorsAndSelf ⟨filepathCleanChars path.data⟩)

/-- The entries of a tree that lie under the path `dir`, the entry of `dir` itself apart. -/
def MemFs.below (m : MemFs) (dir : String) : MemFs :=
  m.filter fun e => decide (e.1 ≠ dir) && isUnder dir.data e.1.data

/-- The tree in which `o` and all that lies under it is at `n` instead. -/
def MemFs.move (m : MemFs) (o n : String) : MemFs :=
  m.map fun e =>
    if isUnder o.data e.1.data then (⟨n.data ++ e.1.data.drop o.data.length⟩, e.2) else e

/-- The call `Rename`, as `os.Rename` does it on a POSIX system (`rename(2)`): the source must
exist and is not the base directory; a path renamed to itself stays as it is; the target does
not lie under the source and the directory of the target must exist; a regular file does not
replace a directory nor a directory a regular file; a target with entries under it is not
replaced; otherwise the source and all that lies under it move to the target, in the place of
the regular file or of the empty directory that was there, if any. A call that fails leaves
the tree as it is. -/
def MemFs.Rename (m : MemFs) (oldname newname : String) : Option GoError × MemFs :=
  let o : String := ⟨filepathCleanChars oldname.data⟩
  let n : String := ⟨filepathCleanChars newname.data⟩
  if o = "." ∨ n = "." then (some (.foreign "rename: device or resource busy"), m)
  else
    match m.stat o with
    | none => (some (.foreign "rename: no such file or directory"), m)
    | some source =>
      if o = n then (none, m)
      else if isUnder o.data n.data then (some (.foreign "rename: invalid argument"), m)
      else if m.stat (filepathDir n) ≠ some .dir then
        (some (.foreign "rename: no such file or directory"), m)
      else
        match source, m.stat n with
        | .file _, some .dir => (some (.foreign "rename: is a directory"), m)
        | .dir, some (.file _) => (some (.foreign "rename: not a directory"), m)
        | _, _ =>
          if (m.below n).isEmpty then
            (none, MemFs.move (m.filter fun e => decide (e.1 ≠ n)) o n)
          else (some (.foreign "rename: directory not empty"), m)

/-- The call `Remove`: the path must exist and, when a directory, be empty. -/
def MemFs.Remove (m : MemFs) (name : String) : Option GoError × MemFs :=
  let p : String := ⟨filepathCleanChars name.data⟩
  if (m.lookup p).isNone then (some (.foreign "remove: file does not exist"), m)
  else if m.any (fun e => decide (e.1 ≠ p) && isUnder p.data e.1.data) then
    (some (.foreign "remove: directory not empty"), m)
  else (none, m.filter fun e => decide (e.1 ≠ p))

/-- The filesystem handle on a tree in memory. -/
def memFs : Fs MemFs where
  readdirnames := MemFs.readdirnames
  MkdirAll := MemFs.MkdirAll
  Rename := MemFs.Rename
  Remove := MemFs.Remove

/-- The results of the first `n` calls of `next`, with the iterator after them; `none` when one
of the calls panics. -/
def nexts (fs : String → DirRead) : Nat → identIterator → Option (List IterResult × identIterator)
  | 0, iter => some ([], iter)
  | n + 1, iter =>
    match iter.next fs with
    | none => none
    | some (r, iter1) =>
      match nexts fs n iter1 with
      | none => none
      | some (rs, iter2) => some (r :: rs, iter2)

/-- The results of `next` up to, and without, the first that matches `io.EOF`, within `fuel`
calls; `none` when a call panics or the budget runs out first. -/
def untilEOF (fs : String → DirRead) : Nat → identIterator → Option (List IterResult)
  | 0, _ => none
  | fuel + 1, iter =>
    match iter.next fs with
    | none => none
    | some (r, iter1) =>
      if errorsIsOpt r.2 ioEOF then some [] else (untilEOF fs fuel iter1).map (r :: ·)

/-- The character of a digit below 16, lower case. -/
def hexDigitChar (d : Nat) : Char :=
  if d < 10 then Char.ofNat (48 + d) else Char.ofNat (87 + d)

/-- The function `rootToString`: the verb `%#x` on a byte array. -/
def rootToString (root : Bytes32) : String :=
  ⟨'0' :: 'x' :: root.val.flatMap fun b => [hexDigitChar (b.val / 16), hexDigitChar (b.val % 16)]⟩

/-- The decimal digits of `n` in front of `acc`, most significant first. -/
def decimalChars : Nat → Nat → List Char → List Char
  | 0, _, acc => acc
  | fuel + 1, n, acc =>
    if n < 10 then Char.ofNat (48 + n) :: acc
    else decimalChars fuel (n / 10) (Char.ofNat (48 + n % 10) :: acc)

/-- The verb `%d` on an unsigned number. -/
def formatUint (n : Nat) : String := ⟨decimalChars (n + 1) n []⟩

def blobIdent.sszFname (n : blobIdent) : String := formatUint n.index ++ "." ++ sszExt

def blobIdent.partFname (n : blobIdent) (entropy : String) : String :=
  entropy ++ "-" ++ formatUint n.index ++ "." ++ partExt

/-- Modelled from the spec: the walk of the flat layout, whose `iterateIdents` is not in
iteration.go: "walks direct children of base (each name must match `0x[0-9a-f]{64}`); for each
root directory it reads children matching `<idx>.ssz`", with the filters and populators of
iteration.go. -/
def flatLayers : List layoutLayer :=
  [⟨populateRoot, isRootDir⟩, ⟨populateIndex, isSszFile⟩]

/-- Modelled from the spec: the iterator that the flat layout makes for a tree, over the
listing of the base directory; it is at EOF from the start when the base cannot be listed. -/
def flatIterator (m : MemFs) : identIterator :=
  match listDir m.readdirnames "." with
  | .error _ => .mk "." .nil blobIdent.zero flatLayers [] 0 true
  | .ok entries => .mk "." .nil blobIdent.zero flatLayers entries 0 false

/-- Modelled from the spec: the flat layout on a tree in memory, `dir(ident)` being
`{base}/{hex(root)}` and `ssz_path(ident)` the file `{index}.ssz` in it; `remove` deletes the
directory of the root with what it holds and returns the number of entries deleted in it. -/
def flatLayout : fsLayout MemFs where
  name := "flat"
  dir := fun n => rootToString n.root
  sszPath := fun n => filepathJoin (rootToString n.root) n.sszFname
  iterateIdents := fun _ m => (flatIterator m, none)
  remove := fun n m =>
    let d := rootToString n.root
    (((m.filter fun e => decide (e.1 ≠ d) && isUnder d.data e.1.data).length, none),
      m.filter fun e => !isUnder d.data e.1.data)
  blockParentDirs := fun _ => []

/-! ## Sample trees -/

def rootA : String := "0xaaaaaaaaaaaaaaaaaaaaaaaaaaaaaaaaaaaaaaaaaaaaaaaaaaaaaaaaaaaaaaaa"
def rootB : String := "0xbbbbbbbbbbbbbbbbbbbbbbbbbbbbbbbbbbbbbbbbbbbbbbbbbbbbbbbbbbbbbbbb"
def rootZ : String := "0xzzzzzzzzzzzzzzzzzzzzzzzzzzzzzzzzzzzzzzzzzzzzzzzzzzzzzzzzzzzzzzzz"

/-- The 32 bytes `0xbb`, the root that `rootB` names. -/
def bytesB : Bytes32 := ⟨List.replicate 32 187, by simp⟩

/-- A tree after an interrupted save: the directory of root A holds only a stale `.part` file,
the directory of root B holds the sidecar `0.ssz`. -/
def treeStalePart : MemFs :=
  [(rootA, .dir), (rootA ++ "/1f2e-0.part", .file [1]),
   (rootB, .dir), (rootB ++ "/0.ssz", .file [2])]

/-- The tree `treeStalePart` before the stale file came: the directory of root A is empty. -/
def treeEmptyDir : MemFs :=
  [(rootA, .dir), (rootB, .dir), (rootB ++ "/0.ssz", .file [2])]

/-- The idents among the results of `next`: those that came with a nil error. -/
def yieldedIdents (rs : List IterResult) : List blobIdent :=
  rs.filterMap fun r => if r.2 = none then some r.1 else none

/-- The results of the calls of `next` in a trace. -/
def nextResults : List Event → List IterResult
  | [] => []
  | .next ident err :: evs => (ident, err) :: nextResults evs
  | _ :: evs => nextResults evs

/-- The calls of `cache.ensure` in a trace, with the error each returned. -/
def ensureCalls : List Event → List (blobIdent × Option GoError)
  | [] => []
  | .ensure ident err :: evs => (ident, err) :: ensureCalls evs
  | _ :: evs => ensureCalls evs

/-- The results of the first `n` calls of `next`; `none` when one of the calls panics. -/
def firstResults (fs : String → DirRead) (n : Nat) (iter : identIterator) :
    Option (List IterResult) :=
  (nexts fs n iter).map (·.1)

/-- A tree in which the directory of root Z has a name that is no hex string and holds the file
`6.ssz`. -/
def treeBadRootName : MemFs :=
  [(rootZ, .dir), (rootZ ++ "/6.ssz", .file [3])]

/-- A tree in which a regular file has the name of root A, listed before the directory of root
B, which holds the file `6.ssz`. -/
def treeFileAsRoot : MemFs :=
  [(rootA, .file [0]), (rootB, .dir), (rootB ++ "/6.ssz", .file [3])]

/-- A tree in which the directory of root B, which holds the file `0.ssz`, is listed before a
regular file that has the name of root A. -/
def treeFileAfterRoot : MemFs :=
  [(rootB, .dir), (rootB ++ "/0.ssz", .file [2]), (rootA, .file [0])]

/-- A tree with a directory that cannot be identified, and the directory of root B with the
files `0.ssz`, `x.ssz` and `6.ssz`. -/
def treeOutOfBounds : MemFs :=
  [(rootZ, .dir), (rootB, .dir), (rootB ++ "/0.ssz", .file [2]), (rootB ++ "/x.ssz", .file [4]),
   (rootB ++ "/6.ssz", .file [3])]

/-- A tree with a directory that cannot be identified, and the directory of root B with the
files `0.ssz`, `x.ssz` and `5.ssz`. -/
def treeSomeUnidentified : MemFs :=
  [(rootZ, .dir), (rootB, .dir), (rootB ++ "/0.ssz", .file [2]), (rootB ++ "/x.ssz", .file [4]),
   (rootB ++ "/5.ssz", .file [3])]

/-- The calls of `cache.ensure` on the idents in turn, up to the first that fails. -/
def ensureAll (cache : blobStorageSummaryCache) :
    List blobIdent → Except GoError blobStorageSummaryCache
  | [] => .ok cache
  | ident :: rest =>
    match cache.ensure ident with
    | .error e => .error e
    | .ok cache1 => ensureAll cache1 rest

/-- The trace of a loop of `warmCache` over results that are idents whose `ensure` succeeds or
errors that are skipped. -/
def warmTrace : List IterResult → List Event
  | [] => []
  | (ident, none) :: rs => .next ident none :: .ensure ident none :: warmTrace rs
  | (ident, some e) :: rs => .next ident (some e) :: warmTrace rs

/-- The calls of `l.remove` in a trace, with the count and the error each returned. -/
def removeCalls : List Event → List (blobIdent × Int × Option GoError)
  | [] => []
  | .remove ident removed err :: evs => (ident, removed, err) :: removeCalls evs
  | _ :: evs => removeCalls evs

/-- The ident that `pruneOne` passes to `l.remove`, if any. -/
def pruneOneTarget (ident : blobIdent) : List blobIdent :=
  if ident.root = zeroHash then [] else [ident]

/-- The idents that the loop of `pruneBefore` passes to `l.remove`, as a function of the
variable `lastIdent` and of the results that `next` goes on to return. -/
def pruneTargets (before : Nat) : blobIdent → List IterResult → List blobIdent
  | _, [] => []
  | lastIdent, (ident, err) :: rs =>
    if errorsIsOpt err ioEOF then pruneOneTarget lastIdent
    else
      match err with
      | some e => if errorsIs e errIdentFailure then pruneTargets before lastIdent rs else []
      | none =>
        if ident.epoch ≥ before then pruneTargets before lastIdent rs
        else if lastIdent.root ≠ ident.root then
          pruneOneTarget lastIdent ++ pruneTargets before ident rs
        else pruneTargets before lastIdent rs

/-- The results of a walk that ran to its end: idents and identification errors, then a last
result that matches `io.EOF`. -/
def walkedToEOF : List IterResult → Bool
  | [] => false
  | (_, err) :: rs =>
    if errorsIsOpt err ioEOF then rs.isEmpty
    else
      match err with
      | some e => errorsIs e errIdentFailure && walkedToEOF rs
      | none => walkedToEOF rs

/-- The occurrences of each value in the list are adjacent: a value that comes again later
comes again at once. -/
def adjacentRuns {α : Type} : List α → Prop
  | [] => True
  | a :: l => adjacentRuns l ∧ (a ∈ l → l.head? = some a)

instance decAdjacentRuns {α : Type} [DecidableEq α] : (l : List α) → Decidable (adjacentRuns l)
  | [] => isTrue trivial
  | _ :: l => @instDecidableAnd _ _ (decAdjacentRuns l) inferInstance

/-- The entry of epoch `e` in the map that `pruneBefore` returns, from the calls of `l.remove`
it made: absent without a call for an ident of epoch `e`, else the sum of the counts of all
these calls, and the directories of those that returned an error. -/
def summaryAt (dir : blobIdent → String) (calls : List (blobIdent × Int × Option GoError))
    (e : Nat) : Option pruneSummary :=
  let cs := calls.filter fun c => decide (c.1.epoch = e)
  if cs = [] then none
  else some
    { blobsPruned := (cs.map fun c => c.2.1).sum
      failedRemovals := (cs.filter fun c => c.2.2.isSome).map fun c => dir c.1 }

/-- The sum of the counts that the calls of `l.remove` for idents of epoch `e` returned
together with a nil error. -/
def successfulCount (calls : List (blobIdent × Int × Option GoError)) (e : Nat) : Int :=
  ((calls.filter fun c => decide (c.1.epoch = e) && c.2.2.isNone).map fun c => c.2.1).sum

/-- The idents that start a group in a list of idents grouped by root, `lastIdent` being the
start of the group that is open. -/
def groupStarts : blobIdent → List blobIdent → List blobIdent
  | lastIdent, [] => pruneOneTarget lastIdent
  | lastIdent, ident :: rest =>
    if lastIdent.root ≠ ident.root then pruneOneTarget lastIdent ++ groupStarts ident rest
    else groupStarts lastIdent rest

/-- The update of the map of summaries that `pruneOne` makes for one call of `l.remove`. -/
def recordRemoval (dir : blobIdent → String) (sums : PruneSums)
    (c : blobIdent × Int × Option GoError) : PruneSums :=
  fun e =>
    if e = c.1.epoch then
      some
        { blobsPruned := ((sums c.1.epoch).getD ⟨0, []⟩).blobsPruned + c.2.1
          failedRemovals :=
            if c.2.2.isSome then ((sums c.1.epoch).getD ⟨0, []⟩).failedRemovals ++ [dir c.1]
            else ((sums c.1.epoch).getD ⟨0, []⟩).failedRemovals }
    else sums e

/-- The error that a run of `pruneBefore` returned, if it returned. -/
def PruneRun.returnedError {σ : Type} (r : PruneRun σ) : Option (Option GoError) :=
  match r.outcome with
  | .returned (_, err) => some err
  | _ => none

/-- The entry of epoch `e` in the map that a run of `pruneBefore` returned. -/
def PruneRun.summary {σ : Type} (r : PruneRun σ) (e : Nat) : Option pruneSummary :=
  match r.outcome with
  | .returned (some sums, _) => sums e
  | _ => none

/-- The calls of `fs.Rename` in a trace, with the error each returned. -/
def renameCalls : List Event → List (String × String × Option GoError)
  | [] => []
  | .rename source target err :: evs => (source, target, err) :: renameCalls evs
  | _ :: evs => renameCalls evs

/-- The paths of the calls of `fs.MkdirAll` in a trace. -/
def mkdirAllCalls : List Event → List String
  | [] => []
  | .mkdirAll path _ :: evs => path :: mkdirAllCalls evs
  | _ :: evs => mkdirAllCalls evs

/-- The paths of the calls of `fs.Remove` in a trace. -/
def fsRemoveCalls : List Event → List String
  | [] => []
  | .fsRemove dir _ :: evs => dir :: fsRemoveCalls evs
  | _ :: evs => fsRemoveCalls evs

/-- The idents for which `migrateLayout` moves a directory: those whose source directory is not
the one last moved. -/
def moveStarts (dir : blobIdent → String) : String → List blobIdent → List blobIdent
  | _, [] => []
  | lastMoved, ident :: rest =>
    if dir ident ≠ lastMoved then ident :: moveStarts dir (dir ident) rest
    else moveStarts dir lastMoved rest

/-- Modelled from the spec: the populator of the epoch layer of the by-epoch layout, which is
not in iteration.go: "Epoch is recovered from the chunk directory name", a decimal number. -/
def populateEpoch (namer : blobIdent) (dir : String) : blobIdent × Option GoError :=
  match parseUint64 (filepathBase dir).data with
  | .error err => (namer, some err)
  | .ok epoch => ({ namer with epoch := epoch }, none)

/-- Modelled from the spec: the by-epoch layout on a tree in memory, with `dir(ident)` at
`{base}/by-epoch/{epoch}/{hex(root)}` (one directory per epoch) and the walk "`by-epoch` →
chunk dir → root dir → `<idx>.ssz`"; its iterator is at EOF from the start when the directory
`by-epoch` cannot be listed. -/
def byEpochLayout : fsLayout MemFs where
  name := "by-epoch"
  dir := fun n => "by-epoch/" ++ formatUint n.epoch ++ "/" ++ rootToString n.root
  sszPath := fun n =>
    filepathJoin ("by-epoch/" ++ formatUint n.epoch ++ "/" ++ rootToString n.root) n.sszFname
  iterateIdents := fun _ m =>
    match listDir m.readdirnames "by-epoch" with
    | .error _ => (.mk "by-epoch" .nil blobIdent.zero [] [] 0 true, none)
    | .ok entries =>
      (.mk "by-epoch" .nil blobIdent.zero
        [⟨populateEpoch, filterNoop⟩, ⟨populateRoot, isRootDir⟩, ⟨populateIndex, isSszFile⟩]
        entries 0 false, none)
  remove := fun n m =>
    let d := "by-epoch/" ++ formatUint n.epoch ++ "/" ++ rootToString n.root
    (((m.filter fun e => decide (e.1 ≠ d) && isUnder d.data e.1.data).length, none),
      m.filter fun e => !isUnder d.data e.1.data)
  blockParentDirs := fun n => ["by-epoch/" ++ formatUint n.epoch]

/-- A tree whose base directory holds one directory, which is not named after a root. -/
def treeNoRoots : MemFs := [("lost+found", .dir)]

/-- The flat layout on a filesystem that refuses deletions: `remove` reports the files of the
root, which are dropped from the cache, together with the error of the deletion. -/
def readOnlyFlatLayout : fsLayout MemFs :=
  { flatLayout with
    remove := fun n m =>
      (((m.filter fun e =>
          decide (e.1 ≠ rootToString n.root) && isUnder (rootToString n.root).data e.1.data).length,
        some (.foreign "read-only file system")), m) }

/-- A tree with two sidecars of root B and one of root A. -/
def treeTwoRoots : MemFs :=
  [(rootB, .dir), (rootB ++ "/0.ssz", .file [2]), (rootB ++ "/3.ssz", .file [5]),
   (rootA, .dir), (rootA ++ "/1.ssz", .file [7])]

/-- A tree of the by-epoch layout: root B with two sidecars in epoch 3, root A with one in
epoch 9. -/
def treeByEpoch : MemFs :=
  [("by-epoch", .dir), ("by-epoch/3", .dir), ("by-epoch/3/" ++ rootB, .dir),
   ("by-epoch/3/" ++ rootB ++ "/0.ssz", .file [2]),
   ("by-epoch/3/" ++ rootB ++ "/3.ssz", .file [5]),
   ("by-epoch/9", .dir), ("by-epoch/9/" ++ rootA, .dir),
   ("by-epoch/9/" ++ rootA ++ "/1.ssz", .file [7])]

/-- The 32 bytes `0xaa`, the root that `rootA` names. -/
def bytesA : Bytes32 := ⟨List.replicate 32 170, by simp⟩

/-- A flat tree with one sidecar of root B, in which the directory that the by-epoch layout
gives to root B in epoch 0 is there already, with a file of its own. -/
def treeTargetExists : MemFs :=
  [(rootB, .dir), (rootB ++ "/0.ssz", .file [2]),
   ("by-epoch", .dir), ("by-epoch/0", .dir), ("by-epoch/0/" ++ rootB, .dir),
   ("by-epoch/0/" ++ rootB ++ "/0.ssz", .file [9])]

/-- The depth that `dirCleaner.add` gives to a directory: the number of pieces of its path
between separators, one more than the number of separators. -/
def nLayers (dir : String) : Nat := (splitSlashes dir.data []).length

/-- The directories of the layers of a cleaner from layer `i` down to layer 0, in the order in
which `dirCleaner.clean` visits them (the order inside a layer is that of a Go map, here the
order of insertion). -/
def dirCleaner.layersFrom (d : dirCleaner) : Nat → List String
  | 0 => (d.layers 0).getD []
  | i + 1 => (d.layers (i + 1)).getD [] ++ d.layersFrom i

/-- Whether a path of a tree in memory holds a regular file. -/
def isFileEntry (e : String × FileData) : Bool :=
  match e.2 with
  | .file _ => true
  | .dir => false

/-- A tree of the by-epoch layout after its roots have been moved away, but for the directory
of root A in epoch 9, which still holds a file. -/
def treeAfterMove : MemFs :=
  [("by-epoch", .dir), ("by-epoch/3", .dir), ("by-epoch/9", .dir),
   ("by-epoch/9/" ++ rootA, .dir), ("by-epoch/9/" ++ rootA ++ "/1.ssz", .file [7])]

/-! ## The storage service -/

/-- The largest value of a `uint64`, `math.MaxUint64`. -/
def maxUint64 : Nat := 2 ^ 64 - 1

/-- Modelled from the spec: saturating addition of two `uint64` values, the machine sum
where it fits and the largest value where the sum wraps around. -/
def saturatingAdd (a b : Nat) : Nat :=
  let sum := (a + b) % 2 ^ 64
  if sum < a then maxUint64 else sum

/-- Modelled from the spec: the method `WithinRetentionPeriod(requested, current)` of the
storage service with retention `retentionEpochs` (blob.go is not among the sources): "Return
`current_epoch ≤ requested_epoch + R` using saturating addition; overflow saturates to within
retention". -/
def WithinRetentionPeriod (retentionEpochs requested current : Nat) : Bool :=
  decide (current ≤ saturatingAdd requested retentionEpochs)

/-- Modelled from the spec: a verified sidecar as the storage reads it: the block root, the
slot, the index, and the rest of its content. -/
structure VerifiedROBlob where
  BlockRoot : Bytes32
  Slot : Nat
  Index : Nat
  content : List Nat
deriving DecidableEq

def newBlobIdent (root : Bytes32) (epoch index : Nat) : blobIdent :=
  { root := root, epoch := epoch, index := index }

/-- The function `identForSidecar` of layout.go; `toEpoch` is `slots.ToEpoch`, which is not
among the sources. -/
def identForSidecar (toEpoch : Nat → Nat) (sc : VerifiedROBlob) : blobIdent :=
  newBlobIdent sc.BlockRoot (toEpoch sc.Slot) sc.Index

/-- Modelled from the spec: the state of a storage service: the regular files on disk, each
path with its bytes, the directories made, and the summary cache. -/
structure BlobStorage where
  files : String → Option (List Nat)
  dirs : List String
  cache : blobStorageSummaryCache

/-- Modelled from the spec: a fresh storage, with no file and an empty cache. -/
def BlobStorage.fresh : BlobStorage :=
  { files := fun _ => none, dirs := [], cache := blobStorageSummaryCache.empty }

/-- Modelled from the spec: the methods of the layout that `Save` and `Get` call: `dir`,
`ssz_path`, `part_path`, and `ident(root, idx)`, which recovers an ident from what is on
disk. -/
structure storageLayout where
  dir : blobIdent → String
  sszPath : blobIdent → String
  partPath : blobIdent → String → String
  ident : BlobStorage → Bytes32 → Nat → Except GoError blobIdent

/-- Modelled from the spec: the error of an exclusive create on a path that exists. -/
def errFileExists : GoError := .foreign "file already exists"

/-- Modelled from the spec: the `NotFound` sentinel of `Get`, "indistinguishable from the
OS-level file does not exist". -/
def errNotExist : GoError := .sentinel "file does not exist"

/-- Modelled from the spec: the error of `Get` on bytes that do not decode. -/
def errDecode : GoError := .foreign "could not decode sidecar"

/-- Modelled from the spec: `rename(old, new)` on the files of a storage: the bytes of `old`
are then at `new`, in place of what was there, and `old` is gone. -/
def renameFile (files : String → Option (List Nat)) (old new : String) :
    Option GoError × (String → Option (List Nat)) :=
  match files old with
  | none => (some errNotExist, files)
  | some bytes =>
    if old = new then (none, files)
    else (none, Function.update (Function.update files old none) new (some bytes))

/-- Modelled from the spec: the method `Save(verified_sidecar)` of the storage service with
its save protocol (blob.go is not among the sources): derive the ident; a set bit of the cache
makes it a no-op; else `mkdir -p` of `layout.dir(ident)`, exclusive creation of
`layout.part_path(ident, entropy)` with the encoded sidecar, `rename(part_path, ssz_path)`,
and on success `cache.ensure(ident)`. -/
def BlobStorage.Save (l : storageLayout) (encode : VerifiedROBlob → List Nat)
    (toEpoch : Nat → Nat) (entropy : String) (bs : BlobStorage) (sc : VerifiedROBlob) :
    Option GoError × BlobStorage :=
  let ident := identForSidecar toEpoch sc
  if bs.cache.HasIndex ident.root ident.index then (none, bs)
  else
    let bs1 := { bs with dirs := l.dir ident :: bs.dirs }
    match bs1.files (l.partPath ident entropy) with
    | some _ => (some errFileExists, bs1)
    | none =>
      let bs2 :=
        { bs1 with files := Function.update bs1.files (l.partPath ident entropy) (some (encode sc)) }
      match renameFile bs2.files (l.partPath ident entropy) (l.sszPath ident) with
      | (some err, files) => (some err, { bs2 with files := files })
      | (none, files) =>
        match bs2.cache.ensure ident with
        | .error err => (some err, { bs2 with files := files })
        | .ok cache => (none, { bs2 with files := files, cache := cache })

/-- Modelled from the spec: the method `Get(root, index)` of the storage service (blob.go is
not among the sources): a clear bit of the cache is `NotFound`; else the path is
`ssz_path(layout.ident(root, index))`, and the file is read and decoded. -/
def BlobStorage.Get (l : storageLayout) (decode : List Nat → Option VerifiedROBlob)
    (bs : BlobStorage) (root : Bytes32) (idx : Nat) : Except GoError VerifiedROBlob :=
  if bs.cache.HasIndex root idx then
    match l.ident bs root idx with
    | .error err => .error err
    | .ok ident =>
      match bs.files (l.sszPath ident) with
      | none => .error errNotExist
      | some bytes =>
        match decode bytes with
        | none => .error errDecode
        | some sc => .ok sc
  else .error errNotExist

/-- Modelled from the spec: the method `Summary(root)` of the storage service, the mask of the
cache. -/
def BlobStorage.Summary (bs : BlobStorage) (root : Bytes32) : blobIndexMask :=
  bs.cache.Summary root

/-- A flat layout for the storage service: the directory of an ident is named after its root
and holds its files; the epoch of an ident is not in its path. -/
def flatStorageLayout : storageLayout where
  dir ident := rootToString ident.root
  sszPath ident := filepathJoin (rootToString ident.root) ident.sszFname
  partPath ident entropy := filepathJoin (rootToString ident.root) (ident.partFname entropy)
  ident _ root idx := .ok (newBlobIdent root 0 idx)

/-- A sidecar of block root `0xaa..aa` at slot 70 with index 2. -/
def sidecarA2 : VerifiedROBlob :=
  { BlockRoot := bytesA, Slot := 70, Index := 2, content := [1, 2, 3] }

/-- An encoding of sidecars for the sample runs: slot, index, the 32 bytes of the root, and
the content. -/
def encodeSidecar (sc : VerifiedROBlob) : List Nat :=
  sc.Slot :: sc.Index :: (sc.BlockRoot.val.map Fin.val ++ sc.content)

/-- The decoding of `encodeSidecar`. -/
def decodeSidecar : List Nat → Option VerifiedROBlob
  | slot :: index :: rest =>
    if rest.length < 32 then none
    else
      some { BlockRoot := toBytes32 ((rest.take 32).map fun n => (Fin.ofNat n : Fin 256)),
             Slot := slot, Index := index, content := rest.drop 32 }
  | _ => none

/-- The number that a string of decimal digits writes, most significant digit first. -/
def decimalValue (digits : List Char) : Nat :=
  digits.foldl (fun n c => 10 * n + (c.toNat - 48)) 0

/-! ## The depth-first walk as a list -/

/-- The depth-first walk in listing order as the spec words it, to compare `next` with: the
idents under the entries of a directory, entry after entry; an entry counts when it passes
the filter of its layer and the layer populates the ident, at the leaf layer it gives the
populated ident and above it the idents under its own entries. -/
def walkIdents (fs : String → DirRead) :
    List layoutLayer → String → blobIdent → List String → List blobIdent
  | [], _, _, _ => []
  | layer :: deeper, path, ident, entries =>
    entries.flatMap fun e =>
      if !layer.filter (filepathJoin path e) then []
      else
        match layer.populateIdent ident (filepathJoin path e) with
        | (_, some _) => []
        | (id, none) =>
          if deeper.isEmpty then [id]
          else
            match listDir fs (filepathJoin path e) with
            | .error _ => []
            | .ok es => walkIdents fs deeper (filepathJoin path e) id es

/-- The number of entries in the directories that a walk lists: the entries of a directory,
and for each of them that the walk descends into, the entries under it. -/
def walkSize (fs : String → DirRead) :
    List layoutLayer → String → blobIdent → List String → Nat
  | [], _, _, entries => entries.length
  | layer :: deeper, path, ident, entries =>
    (entries.map fun e =>
      1 + (if !layer.filter (filepathJoin path e) then 0
        else
          match layer.populateIdent ident (filepathJoin path e) with
          | (_, some _) => 0
          | (id, none) =>
            if deeper.isEmpty then 0
            else
              match listDir fs (filepathJoin path e) with
              | .error _ => 0
              | .ok es => walkSize fs deeper (filepathJoin path e) id es)).sum

/-- Whether the pointer is nil. -/
def identIterator.isNil : identIterator → Bool
  | .nil => true
  | .mk _ _ _ _ _ _ _ => false

/-- The shape of the iterators that `next` makes: each has a layer, and one with a child has
a layer for the child too. -/
def identIterator.wellFormed : identIterator → Bool
  | .nil => true
  | .mk _ child _ layers _ _ _ =>
    child.wellFormed && decide (1 ≤ layers.length) &&
      (child.isNil || decide (2 ≤ layers.length))

/-- The idents that an iterator has still to walk: those of its child, then those under its
entries from `offset` on. -/
def identIterator.remaining (fs : String → DirRead) : identIterator → List blobIdent
  | .nil => []
  | .mk path child ident layers entries offset eof =>
    if eof then []
    else child.remaining fs ++ walkIdents fs layers path ident (entries.drop offset)

/-- The number of entries that an iterator has still to visit: those of its child, then its
entries from `offset` on with what lies under them. -/
def identIterator.pending (fs : String → DirRead) : identIterator → Nat
  | .nil => 0
  | .mk path child ident layers entries offset _ =>
    child.pending fs + walkSize fs layers path ident (entries.drop offset)

/-- The ident that a result of `next` yields, if any, in front of `l`. -/
def consYield (r : IterResult) (l : List blobIdent) : List blobIdent :=
  match r.2 with
  | none => r.1 :: l
  | some _ => l

/-- Whether the loop of `advanceChild` passes over the entry `e` without returning: the filter
rejects it, or it is a directory with an empty listing above the leaf layer. -/
def passedOver (fs : String → DirRead) (layer : layoutLayer) (deeper : List layoutLayer)
    (path : String) (ident : blobIdent) (e : String) : Bool :=
  if !layer.filter (filepathJoin path e) then true
  else
    match layer.populateIdent ident (filepathJoin path e) with
    | (_, some _) => false
    | (_, none) =>
      if deeper.isEmpty then false
      else
        match listDir fs (filepathJoin path e) with
        | .ok [] => true
        | _ => false

/-- Whether a call of `next` on an iterator with this child goes on to `advanceChild`, and
with which child: there is no child, or the call of `next` on the child returns an error that
matches `io.EOF`. -/
def childAtEnd (fs : String → DirRead) (child : identIterator) : Option identIterator :=
  match child with
  | .nil => some .nil
  | .mk p c id ls es o f =>
    match identIterator.next fs (.mk p c id ls es o f) with
    | some ((_, some err), c1) => if errorsIs err ioEOF then some c1 else none
    | _ => none

/-- A populator for the leaf layer that fails with `io.EOF` itself on the file `eof.ssz`, and
is `populateIndex` on every other path. -/
def populateIndexOrEOF (namer : blobIdent) (fname : String) : blobIdent × Option GoError :=
  if filepathBase fname = "eof.ssz" then (namer, some ioEOF) else populateIndex namer fname

/-- The layers of the flat walk with `populateIndexOrEOF` at the leaf layer. -/
def eofLayers : List layoutLayer :=
  [⟨populateRoot, isRootDir⟩, ⟨populateIndexOrEOF, isSszFile⟩]

/-- A tree in which the directory of root B holds the files `0.ssz`, `eof.ssz` and `5.ssz`. -/
def treeEofFile : MemFs :=
  [(rootB, .dir), (rootB ++ "/0.ssz", .file [2]), (rootB ++ "/eof.ssz", .file []),
   (rootB ++ "/5.ssz", .file [3])]

/-! ## Layout names and the retention flag -/

def LayoutNameFlat : String := "flat"
def LayoutNameByEpoch : String := "by-epoch"

def LayoutNames : List String := [LayoutNameFlat, LayoutNameByEpoch]

/-- The function `newLayout` of layout.go. The constructors `newFlatLayout` and
`newPeriodicEpochLayout` are not among the sources: what they return for the given `fs`,
`cache` and `pruner` is passed in. A nil layout is `none`. -/
def newLayout {σ : Type} (name : String) (newFlatLayout newPeriodicEpochLayout : fsLayout σ) :
    Option (fsLayout σ) × Option GoError :=
  if name = LayoutNameFlat then (some newFlatLayout, none)
  else if name = LayoutNameByEpoch then (some newPeriodicEpochLayout, none)
  else (none, some (.wrap errInvalidLayoutName ("name=" ++ name)))

def errInvalidBlobRetentionEpochs : GoError := .sentinel "value is smaller than spec minimum"

/-- The function `blobRetentionEpoch` of cmd/beacon-chain/storage/options.go. Of the context
it reads `isSet`, which is `cliCtx.IsSet(BlobRetentionEpochFlag.Name)`, and `flagValue`, which
is `cliCtx.Uint64(BlobRetentionEpochFlag.Name)`; `minEpochs` is
`params.BeaconConfig().MinEpochsForBlobsSidecarsRequest`. -/
def blobRetentionEpoch (minEpochs : Nat) (isSet : Bool) (flagValue : Nat) :
    Nat × Option GoError :=
  let spec := minEpochs
  if !isSet then (spec, none)
  else
    let re := flagValue
    if re < minEpochs then
      (spec, some (.wrap errInvalidBlobRetentionEpochs
        ("blob-retention-epochs=" ++ formatUint re ++ ", spec=" ++ formatUint spec)))
    else (re, none)

/-- The name of the directory of the all-zero root. -/
def rootZero : String := "0x0000000000000000000000000000000000000000000000000000000000000000"

/-- A tree of the flat layout in which the directory of the all-zero root holds a sidecar,
listed before the directory of root B with its sidecar. -/
def treeZeroRoot : MemFs :=
  [(rootZero, .dir), (rootZero ++ "/0.ssz", .file [1]),
   (rootB, .dir), (rootB ++ "/0.ssz", .file [2])]

/-- Whether a character is one of `0` to `9` and `a` to `f`. -/
def isLowerHexDigit (c : Char) : Bool :=
  ('0' ≤ c && c ≤ '9') || ('a' ≤ c && c ≤ 'f')

/-- Whether a name matches `0x[0-9a-f]{64}`, the shape the spec gives to the name of a root
directory. -/
def matchesRootPattern (name : String) : Bool :=
  match name.data with
  | '0' :: 'x' :: digits => decide (digits.length = 64) && digits.all isLowerHexDigit
  | _ => false

/-! ## The indices of a blob request -/

/-- The verb `%v` on a slice of strings: the elements between brackets, a blank between
them. -/
def formatStrings (l : List String) : String :=
  "[" ++ " ".intercalate l ++ "]"

/-- The loop of `parseIndices` over the raw values left, with the slices `indices` and
`invalidIndices` as they stand. -/
def parseIndicesLoop (maxBlobs : Nat) :
    List String → List Nat → List String → List Nat × List String
  | [], indices, invalidIndices => (indices, invalidIndices)
  | raw :: rest, indices, invalidIndices =>
    match parseUint64 raw.data with
    | .error _ => parseIndicesLoop maxBlobs rest indices (invalidIndices ++ [raw])
    | .ok ix =>
      if ix ≥ maxBlobs then parseIndicesLoop maxBlobs rest indices (invalidIndices ++ [raw])
      else if ix ∈ indices then parseIndicesLoop maxBlobs rest indices invalidIndices
      else parseIndicesLoop maxBlobs rest (indices ++ [ix]) invalidIndices

/-- The function `parseIndices` of beacon-chain/rpc/eth/blob/handlers.go: `rawIndices` is
`url.Query()["indices"]` and `maxBlobs` is `params.BeaconConfig().MaxBlobsPerBlock(s)`. A nil
slice is `none`. -/
def parseIndices (rawIndices : List String) (maxBlobs : Nat) :
    Option (List Nat) × Option GoError :=
  match parseIndicesLoop maxBlobs rawIndices [] [] with
  | (indices, invalidIndices) =>
    if invalidIndices.length > 0 then
      (none, some (.foreign
        ("requested blob indices " ++ formatStrings invalidIndices ++ " are invalid")))
    else (some indices, none)

/-- Whether a raw value is a valid index: it parses as a base-10 unsigned 64-bit number, and
the number is below `maxBlobs`. -/
def validIndex (maxBlobs : Nat) (raw : String) : Bool :=
  match parseUint64 raw.data with
  | .error _ => false
  | .ok ix => decide (ix < maxBlobs)

/-- The number that a raw value writes, 0 when it does not parse. -/
def indexValue (raw : String) : Nat :=
  match parseUint64 raw.data with
  | .error _ => 0
  | .ok ix => ix

/-- The values of a list without the repetitions, each at the place of its first
occurrence. -/
def firstOccurrences : List Nat → List Nat
  | [] => []
  | x :: xs => x :: (firstOccurrences xs).filter (· ≠ x)

/-! ## The queue of pending attestations -/

/-- The type `ethpb.SignedAggregateAttAndProof` as `validatePendingAtts` reads it: `Slot` is
`AggregateAttestationAndProof().AggregateVal().GetData().Slot`, and `rest` stands for the
other content. -/
structure SignedAggregateAttAndProof where
  Slot : Nat
  rest : Nat
deriving DecidableEq

/-- The condition under which `validatePendingAtts` removes an attestation, in the 64-bit
arithmetic of `primitives.Slot`. -/
def attIsStale (slot slotsPerEpoch : Nat) (att : SignedAggregateAttAndProof) : Bool :=
  decide (slot ≥ (att.Slot + slotsPerEpoch) % 2 ^ 64)

/-- The inner loop of `validatePendingAtts`, `for i := len(atts) - 1; i >= 0; i--`, with
`n` indices left to visit, so that `i` is `n - 1`. An index past the end of `atts` panics
(`none`). -/
def removeStaleAtts (slot slotsPerEpoch : Nat) :
    Nat → List SignedAggregateAttAndProof → Option (List SignedAggregateAttAndProof)
  | 0, atts => some atts
  | i + 1, atts =>
    match atts[i]? with
    | none => none
    | some att =>
      if attIsStale slot slotsPerEpoch att then
        -- Remove the pending attestation from the list in place.
        removeStaleAtts slot slotsPerEpoch i (atts.take i ++ atts.drop (i + 1))
      else removeStaleAtts slot slotsPerEpoch i atts

/-- The map `blkRootToPendingAtts`, from block root to pending attestations. -/
abbrev PendingAtts := Bytes32 → Option (List SignedAggregateAttAndProof)

/-- The method `validatePendingAtts` of beacon-chain/sync/pending_attestations_queue.go on the
map `blkRootToPendingAtts`: `keys` are the keys of the map in the order in which the `range`
loop visits them, and `slotsPerEpoch` is `params.BeaconConfig().SlotsPerEpoch`. -/
def validatePendingAtts (slot slotsPerEpoch : Nat) :
    List Bytes32 → PendingAtts → Option PendingAtts
  | [], m => some m
  | bRoot :: keys, m =>
    match m bRoot with
    | none => validatePendingAtts slot slotsPerEpoch keys m
    | some atts =>
      match removeStaleAtts slot slotsPerEpoch atts.length atts with
      | none => none
      | some atts =>
        let m := Function.update m bRoot (some atts)
        if ((m bRoot).getD []).length = 0 then
          validatePendingAtts slot slotsPerEpoch keys (Function.update m bRoot none)
        else validatePendingAtts slot slotsPerEpoch keys m

/-- The pending list of a root after the attestations that are stale have gone, `none` when
no attestation is left. -/
def freshAtts (slot slotsPerEpoch : Nat) (pending : Option (List SignedAggregateAttAndProof)) :
    Option (List SignedAggregateAttAndProof) :=
  match pending with
  | none => none
  | some atts =>
    if atts.filter (fun att => !attIsStale slot slotsPerEpoch att) = [] then none
    else some (atts.filter fun att => !attIsStale slot slotsPerEpoch att)

/-- A queue with three attestations of slots 10, 70 and 40 pending for root A and one of slot
10 for root B. -/
def pendingSample : PendingAtts := fun r =>
  if r = bytesA then some [⟨10, 1⟩, ⟨70, 2⟩, ⟨40, 3⟩]
  else if r = bytesB then some [⟨10, 4⟩]
  else none

/-- A tree after an interrupted save, with two sidecars of root B: the directory of root A
holds only a stale `.part` file and is listed first. -/
def treeStalePartTwoFiles : MemFs :=
  [(rootA, .dir), (rootA ++ "/1f2e-0.part", .file [1]),
   (rootB, .dir), (rootB ++ "/0.ssz", .file [2]), (rootB ++ "/3.ssz", .file [5])]

/-! ## The committee index of an attestation -/

/-- The type `pubsub.ValidationResult`. -/
inductive ValidationResult where
  | ValidationAccept
  | ValidationReject
  | ValidationIgnore
deriving DecidableEq

/-- The interface `eth.Att` as `validateCommitteeIndexAndCount` reads it: `Version()`,
`GetData().Slot`, `GetData().CommitteeIndex` and `GetCommitteeIndex()`. -/
structure Att where
  Version : Nat
  Slot : Nat
  DataCommitteeIndex : Nat
  CommitteeIndex : Nat
deriving DecidableEq

/-- The method `validateCommitteeIndexAndCount` of
beacon-chain/sync/validate_beacon_attestation.go. Not among the sources and passed in:
`electra` is `version.Electra`, `toEpoch` is `slots.ToEpoch`, `ActiveValidatorCount epoch` is
`helpers.ActiveValidatorCount(ctx, bs, epoch)` on the state `bs`, and `SlotCommitteeCount` is
`helpers.SlotCommitteeCount`. -/
def validateCommitteeIndexAndCount (electra : Nat) (toEpoch : Nat → Nat)
    (ActiveValidatorCount : Nat → Except GoError Nat) (SlotCommitteeCount : Nat → Nat)
    (a : Att) : Nat × Nat × ValidationResult × Option GoError :=
  -- - [REJECT] attestation.data.index == 0
  if a.Version ≥ electra ∧ a.DataCommitteeIndex ≠ 0 then
    (0, 0, .ValidationReject, some (.foreign "attestation data's committee index must be 0"))
  else
    match ActiveValidatorCount (toEpoch a.Slot) with
    | .error err => (0, 0, .ValidationIgnore, some err)
    | .ok valCount =>
      let count := SlotCommitteeCount valCount
      let ci := a.CommitteeIndex
      if ci > count then
        (0, 0, .ValidationReject,
          some (.foreign ("committee index " ++ formatUint ci ++ " > " ++ formatUint count)))
      else (ci, valCount, .ValidationAccept, none)

/-- A stand-in for `helpers.SlotCommitteeCount`, which is not among the sources, for the
sample run: the number of committees per slot of the consensus specification, with 32 slots
per epoch, a target committee size of 128 and at most 64 committees. -/
def sampleSlotCommitteeCount (activeValidators : Nat) : Nat :=
  max 1 (min 64 (activeValidators / 32 / 128))

/-! ## The filesystem calls of a trace -/

/-- The filesystem after the call `ev` of a trace, made on the filesystem `w`: `MkdirAll`,
`Rename` and `Remove` act on it, and the calls of the iterator and of the cache leave it as it
is. -/
def applyFsCall {σ : Type} (fs : Fs σ) (w : σ) : Event → σ
  | .mkdirAll path _ => (fs.MkdirAll w path).2
  | .rename source target _ => (fs.Rename w source target).2
  | .fsRemove dir _ => (fs.Remove w dir).2
  | _ => w

/-- The filesystem after the calls of a trace, made in order from the filesystem `w`. -/
def replayFsCalls {σ : Type} (fs : Fs σ) (evs : List Event) (w : σ) : σ :=
  evs.foldl (applyFsCall fs) w

/-- Whether the error that a trace records with each call of `MkdirAll`, `Rename` and `Remove`
is the error that the call returns when the calls are made in order from the filesystem
`w`. -/
def recordsFsCalls {σ : Type} (fs : Fs σ) : List Event → σ → Prop
  | [], _ => True
  | ev :: evs, w =>
    (match ev with
      | .mkdirAll path err => (fs.MkdirAll w path).1 = err
      | .rename source target err => (fs.Rename w source target).1 = err
      | .fsRemove dir err => (fs.Remove w dir).1 = err
      | _ => True) ∧
    recordsFsCalls fs evs (applyFsCall fs w ev)

/-! ## What a migration keeps -/

/-- The last piece of a path between separators. -/
def lastPiece (p : List Char) : List Char := (p.reverse.takeWhile (· ≠ '/')).reverse

/-- The path without its last piece and the separator before it. -/
def dirPart (p : List Char) : List Char := ((p.reverse.dropWhile (· ≠ '/')).drop 1).reverse

/-- The sidecar files of a tree, in the order of the tree: for each regular file the name of
the directory it lies in (the root, in both layouts), its own name (the index) and its
bytes. -/
def sidecarFiles (m : MemFs) : List (String × String × List Nat) :=
  m.filterMap fun e =>
    match e.2 with
    | .dir => none
    | .file bytes => some (⟨lastPiece (dirPart e.1.data)⟩, ⟨lastPiece e.1.data⟩, bytes)

/-- Neither path lies at or under the other. -/
def apart (a b : String) : Bool := !isUnder a.data b.data && !isUnder b.data a.data

/-- Whether `filepath.Clean` leaves a path as it is. -/
def isCleanPath (p : String) : Bool := decide (filepathCleanChars p.data = p.data)

/-- What `migrateLayout` relies on in the layouts `from` and `to` (here `src` and `tgt`), for
the idents `ids`: in both layouts the file of an ident is the file `sszFname` in the directory
of the ident, which is a clean path whose last piece is the same in both (the root); no
directory of `from` lies at or under a directory of `to`, nor the other way round; two
directories of the same layout are the same directory or lie apart; idents that share a
directory in `from` share one in `to`; and the directories of `from.blockParentDirs` are clean
paths that do not lie at or under a directory of `to`. -/
def layoutsAgree {σ : Type} (src tgt : fsLayout σ) (ids : List blobIdent) : Prop :=
  ∀ i ∈ ids,
    src.sszPath i = src.dir i ++ "/" ++ i.sszFname ∧
    tgt.sszPath i = tgt.dir i ++ "/" ++ i.sszFname ∧
    isCleanPath (src.dir i) = true ∧ isCleanPath (tgt.dir i) = true ∧
    lastPiece (src.dir i).data = lastPiece (tgt.dir i).data ∧
    (∀ r ∈ src.blockParentDirs i, isCleanPath r = true) ∧
    ∀ j ∈ ids,
      apart (src.dir i) (tgt.dir j) = true ∧
      (src.dir i = src.dir j ∨ apart (src.dir i) (src.dir j) = true) ∧
      (tgt.dir i = tgt.dir j ∨ apart (tgt.dir i) (tgt.dir j) = true) ∧
      (src.dir i = src.dir j → tgt.dir i = tgt.dir j) ∧
      ∀ r ∈ src.blockParentDirs i, isUnder (tgt.dir j).data r.data = false

instance decLayoutsAgree {σ : Type} (src tgt : fsLayout σ) (ids : List blobIdent) :
    Decidable (layoutsAgree src tgt ids) := by
  unfold layoutsAgree
  infer_instance

/-- The directories that a migration of the idents `ids` deals with: for each ident its
directory in `from`, its directory in `to` and the directories of `from.blockParentDirs`. -/
def migrationDirs {σ : Type} (src tgt : fsLayout σ) (ids : List blobIdent) : List String :=
  ids.flatMap fun i => src.dir i :: tgt.dir i :: src.blockParentDirs i

/-- No path of `dirs` holds a regular file in the tree. -/
def noFileAt (dirs : List String) (m : MemFs) : Prop :=
  ∀ e ∈ m, isFileEntry e = true → e.1 ∉ dirs

instance decNoFileAt (dirs : List String) (m : MemFs) : Decidable (noFileAt dirs m) := by
  unfold noFileAt
  infer_instance

/-- The filesystem calls of a trace are those of a migration of the idents `ids`: each call of
`Rename` is of the directory of one of the idents in `from` to its directory in `to` and
returned nil, and each call of `Remove` is of a directory of `from.blockParentDirs` of one of
the idents. -/
def migrationCalls {σ : Type} (src tgt : fsLayout σ) (ids : List blobIdent)
    (evs : List Event) : Prop :=
  ∀ ev ∈ evs,
    match ev with
    | .rename source target err =>
      err = none ∧ ∃ f ∈ ids, source = src.dir f ∧ target = tgt.dir f
    | .fsRemove dir _ => ∃ i ∈ ids, dir ∈ src.blockParentDirs i
    | _ => True

/-! ## Walks that meet no early end -/

/-- Whether the loop of `advanceChild` of an iterator with the layers `layers` passes over the
entry `e` without returning. -/
def passedOverIn (fs : String → DirRead) (layers : List layoutLayer) (path : String)
    (ident : blobIdent) (e : String) : Bool :=
  match layers with
  | [] => true
  | layer :: deeper => passedOver fs layer deeper path ident e

/-- Whether the walk of these entries meets nothing that makes `next` return `io.EOF` before
the end of the walk: no error of a populator or of a listing matches `io.EOF`, and every
directory that the walk goes into has an entry that the loop of `advanceChild` does not pass
over. -/
def smoothWalk (fs : String → DirRead) :
    List layoutLayer → String → blobIdent → List String → Bool
  | [], _, _, _ => true
  | layer :: deeper, path, ident, entries =>
    entries.all fun e =>
      if !layer.filter (filepathJoin path e) then true
      else
        match layer.populateIdent ident (filepathJoin path e) with
        | (_, some err) => !errorsIs err ioEOF
        | (id, none) =>
          if deeper.isEmpty then true
          else
            match listDir fs (filepathJoin path e) with
            | .error err => !errorsIs err ioEOF
            | .ok es =>
              (es.isEmpty || es.any fun e1 => !passedOverIn fs deeper (filepathJoin path e) id e1)
                && smoothWalk fs deeper (filepathJoin path e) id es

/-- Whether what an iterator has still to walk is a smooth walk, at the iterator and at its
children, none of which has the flag `eof` set. -/
def identIterator.smooth (fs : String → DirRead) : identIterator → Bool
  | .nil => true
  | .mk path child ident layers entries offset eof =>
    !eof && child.smooth fs && smoothWalk fs layers path ident (entries.drop offset)

end Filesystem

/-! # Theorems -/

namespace Filesystem

set_option maxRecDepth 1000000

/-! ## Iteration -/

/-- C1, at the failing input `treeStalePart`: the first call of `next` on the flat walk returns
`io.EOF`, although the entry `0.ssz` in the directory of root B passes the filter and the
populator of both layers and has not been traversed; the second call then yields it. -/
theorem next_eof_before_all_branches_traversed :
    (nexts treeStalePart.readdirnames 2 (flatIterator treeStalePart)).map (·.1) =
        some [(blobIdent.zero, some ioEOF), (⟨bytesB, 0, 0⟩, none)] ∧
      untilEOF treeStalePart.readdirnames 1 (flatIterator treeStalePart) = some [] ∧
      isRootDir rootB = true ∧ populateRoot blobIdent.zero rootB = (⟨bytesB, 0, 0⟩, none) ∧
      isSszFile (filepathJoin rootB "0.ssz") = true ∧
      populateIndex ⟨bytesB, 0, 0⟩ (filepathJoin rootB "0.ssz") = (⟨bytesB, 0, 0⟩, none) := by
  decide

/-- C2, at the failing input: `treeStalePart` is `treeEmptyDir` with one more entry in the
directory of root A, the stale file `1f2e-0.part`, which fails the filter `isSszFile` of its
layer; before the first `io.EOF` the walk of `treeEmptyDir` yields the ident of `0.ssz` of root
B and the walk of `treeStalePart` yields nothing. -/
theorem stale_part_file_changes_yielded_idents :
    treeStalePart = treeEmptyDir.take 1 ++ (rootA ++ "/1f2e-0.part", .file [1]) ::
        treeEmptyDir.drop 1 ∧
      isSszFile (filepathJoin rootA "1f2e-0.part") = false ∧
      untilEOF treeEmptyDir.readdirnames 3 (flatIterator treeEmptyDir) =
        some [(⟨bytesB, 0, 0⟩, none)] ∧
      untilEOF treeStalePart.readdirnames 3 (flatIterator treeStalePart) = some [] := by
  decide

/-! ## Cache warm-up -/

/-- C3, at the failing input `treeStalePart`: `warmCache` on an empty cache returns nil after
one call of `next` and no call of `ensure`, and the summary of root B has bit 0 clear, although
the tree holds the file `0.ssz` in the directory of root B. -/
theorem warmCache_misses_file_after_stale_part :
    (warmCache memFs flatLayout blobStorageSummaryCache.empty treeStalePart 1).1 =
        .returned none ∧
      (warmCache memFs flatLayout blobStorageSummaryCache.empty treeStalePart 1).2.2 =
        [.next blobIdent.zero (some ioEOF)] ∧
      (warmCache memFs flatLayout blobStorageSummaryCache.empty treeStalePart 1).2.1.HasIndex
        bytesB 0 = false ∧
      flatLayout.sszPath ⟨bytesB, 0, 0⟩ = rootB ++ "/0.ssz" ∧
      treeStalePart.stat (flatLayout.sszPath ⟨bytesB, 0, 0⟩) = some (.file [2]) := by
  decide

theorem nexts_succ_eq {fs : String → DirRead} {n : Nat} {iter iter1 : identIterator}
    {rs : List IterResult} (h : nexts fs (n + 1) iter = some (rs, iter1)) :
    ∃ r it rest, iter.next fs = some (r, it) ∧ nexts fs n it = some (rest, iter1) ∧
      rs = r :: rest := by
  simp only [nexts] at h
  cases hn : iter.next fs with
  | none => simp [hn] at h
  | some p =>
    obtain ⟨r, it⟩ := p
    simp only [hn] at h
    cases hm : nexts fs n it with
    | none => simp [hm] at h
    | some q =>
      obtain ⟨rest, it2⟩ := q
      simp only [hm, Option.some.injEq, Prod.mk.injEq] at h
      exact ⟨r, it, rest, rfl, by rw [hm, h.2], h.1.symm⟩

theorem ensure_ok_of_lt (cache : blobStorageSummaryCache) (ident : blobIdent)
    (h : ident.index < MAX_BLOBS_PER_BLOCK) : ∃ c, cache.ensure ident = .ok c := by
  unfold blobStorageSummaryCache.ensure
  rw [dif_neg (Nat.not_le.mpr h)]
  exact ⟨_, rfl⟩

theorem ensure_error_of_le (cache : blobStorageSummaryCache) (ident : blobIdent)
    (h : MAX_BLOBS_PER_BLOCK ≤ ident.index) : cache.ensure ident = .error errIndexOutOfBounds := by
  unfold blobStorageSummaryCache.ensure
  rw [dif_pos h]

theorem ensure_hasIndex {cache c : blobStorageSummaryCache} {ident : blobIdent}
    (h : cache.ensure ident = .ok c) (root : Bytes32) (i : Nat) :
    c.HasIndex root i = true ↔
      cache.HasIndex root i = true ∨ (ident.root = root ∧ ident.index = i) := by
  unfold blobStorageSummaryCache.ensure at h
  by_cases hle : MAX_BLOBS_PER_BLOCK ≤ ident.index
  · rw [dif_pos hle] at h; cases h
  · rw [dif_neg hle] at h
    injection h with h
    subst h
    unfold blobStorageSummaryCache.HasIndex
    by_cases hi : i < MAX_BLOBS_PER_BLOCK
    · simp only [dif_pos hi]
      by_cases hr : root = ident.root
      · subst hr
        by_cases hidx : ident.index = i
        · subst hidx
          simp [blobStorageSummaryCache.Summary]
        · have hne : (⟨i, hi⟩ : Fin MAX_BLOBS_PER_BLOCK) ≠ ⟨ident.index, Nat.lt_of_not_le hle⟩ := by
            intro hc
            exact hidx (Fin.mk.inj hc).symm
          simp [blobStorageSummaryCache.Summary, Function.update_noteq hne, hidx]
      · have hr2 : ¬ ident.root = root := fun hc => hr hc.symm
        simp [blobStorageSummaryCache.Summary, hr, hr2]
    · simp only [dif_neg hi]
      constructor
      · intro hc; cases hc
      · rintro (hc | ⟨_, hc⟩)
        · cases hc
        · exact absurd (hc ▸ Nat.lt_of_not_le hle) hi

theorem ensureAll_hasIndex : ∀ (idents : List blobIdent) (cache c : blobStorageSummaryCache),
    ensureAll cache idents = .ok c → ∀ (root : Bytes32) (i : Nat),
      (c.HasIndex root i = true ↔
        cache.HasIndex root i = true ∨ ∃ ident ∈ idents, ident.root = root ∧ ident.index = i)
  | [], cache, c, h, root, i => by
    simp only [ensureAll] at h
    injection h with h
    subst h
    simp
  | ident :: rest, cache, c, h, root, i => by
    simp only [ensureAll] at h
    cases he : cache.ensure ident with
    | error e => simp [he] at h
    | ok c1 =>
      simp only [he] at h
      rw [ensureAll_hasIndex rest c1 c h root i, ensure_hasIndex he root i]
      simp only [List.mem_cons, exists_eq_or_imp]
      tauto

theorem warmCacheLoop_eof {fs : String → DirRead} {sszPath : blobIdent → String}
    {iter iter1 : identIterator} {r : IterResult} (cache : blobStorageSummaryCache) (fuel : Nat)
    (hn : iter.next fs = some (r, iter1)) (heof : errorsIsOpt r.2 ioEOF = true) :
    warmCacheLoop fs sszPath (fuel + 1) iter cache = (.returned none, cache, [.next r.1 r.2]) := by
  obtain ⟨ident, err⟩ := r
  simp only [warmCacheLoop, hn]
  simp only at heof
  simp [heof]

theorem warmCacheLoop_skip {fs : String → DirRead} {sszPath : blobIdent → String}
    {iter iter1 : identIterator} {ident : blobIdent} {e : GoError}
    (cache : blobStorageSummaryCache) (fuel : Nat)
    (hn : iter.next fs = some ((ident, some e), iter1))
    (heof : errorsIsOpt (some e) ioEOF = false)
    (hid : errorsIsOpt (some e) errIdentFailure = true) :
    warmCacheLoop fs sszPath (fuel + 1) iter cache =
      ((warmCacheLoop fs sszPath fuel iter1 cache).1,
        (warmCacheLoop fs sszPath fuel iter1 cache).2.1,
        .next ident (some e) :: (warmCacheLoop fs sszPath fuel iter1 cache).2.2) := by
  simp only [warmCacheLoop, hn]
  simp [heof, hid]

theorem warmCacheLoop_ensure_ok {fs : String → DirRead} {sszPath : blobIdent → String}
    {iter iter1 : identIterator} {ident : blobIdent} {cache c1 : blobStorageSummaryCache}
    (fuel : Nat) (hn : iter.next fs = some ((ident, none), iter1))
    (he : cache.ensure ident = .ok c1) :
    warmCacheLoop fs sszPath (fuel + 1) iter cache =
      ((warmCacheLoop fs sszPath fuel iter1 c1).1,
        (warmCacheLoop fs sszPath fuel iter1 c1).2.1,
        .next ident none :: .ensure ident none :: (warmCacheLoop fs sszPath fuel iter1 c1).2.2) := by
  simp only [warmCacheLoop, hn]
  simp [errorsIsOpt, he]

theorem warmCacheLoop_ensure_error {fs : String → DirRead} {sszPath : blobIdent → String}
    {iter iter1 : identIterator} {ident : blobIdent} {cache : blobStorageSummaryCache}
    {e : GoError} (fuel : Nat) (hn : iter.next fs = some ((ident, none), iter1))
    (he : cache.ensure ident = .error e) :
    warmCacheLoop fs sszPath (fuel + 1) iter cache =
      (.returned (some (.errorf2 errCacheWarmFailed
          ("failed to write cache entry for " ++ sszPath ident) e)),
        cache, [.next ident none, .ensure ident (some e)]) := by
  simp only [warmCacheLoop, hn]
  simp [errorsIsOpt, he]

theorem firstResults_succ_cons {fs : String → DirRead} {n : Nat} {iter : identIterator}
    {r : IterResult} {rest : List IterResult}
    (h : firstResults fs (n + 1) iter = some (r :: rest)) :
    ∃ it, iter.next fs = some (r, it) ∧ firstResults fs n it = some rest := by
  unfold firstResults at h
  cases hx : nexts fs (n + 1) iter with
  | none => simp [hx] at h
  | some p =>
    obtain ⟨rs, it1⟩ := p
    obtain ⟨r1, it, rest1, h1, h2, h3⟩ := nexts_succ_eq hx
    simp only [hx, Option.map_some', Option.some.injEq] at h
    subst h3
    simp only [List.cons.injEq] at h
    refine ⟨it, ?_, ?_⟩
    · rw [h1, h.1]
    · unfold firstResults
      rw [h2, Option.map_some', h.2]

/-- The loop of `warmCache` over results that are idents within bounds or identification
errors, followed by `io.EOF`: it returns nil after one `ensure` per ident. -/
theorem warmCacheLoop_of_results (fs : String → DirRead) (sszPath : blobIdent → String)
    (last : IterResult) (heof : errorsIsOpt last.2 ioEOF = true) :
    ∀ (rs : List IterResult) (iter : identIterator) (cache : blobStorageSummaryCache),
      firstResults fs (rs.length + 1) iter = some (rs ++ [last]) →
      (∀ r ∈ rs, errorsIsOpt r.2 ioEOF = false ∧
        (r.2 = none ∨ errorsIsOpt r.2 errIdentFailure = true)) →
      (∀ r ∈ rs, r.2 = none → r.1.index < MAX_BLOBS_PER_BLOCK) →
      ∀ fuel, rs.length < fuel →
        ∃ c, ensureAll cache (yieldedIdents rs) = .ok c ∧
          warmCacheLoop fs sszPath fuel iter cache =
            (.returned none, c, warmTrace rs ++ [.next last.1 last.2])
  | [], iter, cache, hrs, _, _, fuel, hfuel => by
    obtain ⟨it, hn, _⟩ := firstResults_succ_cons hrs
    obtain ⟨f, rfl⟩ : ∃ f, fuel = f + 1 := ⟨fuel - 1, by omega⟩
    exact ⟨cache, rfl, by rw [warmCacheLoop_eof cache f hn heof]; rfl⟩
  | (ident, none) :: rest, iter, cache, hrs, hres, hidx, fuel, hfuel => by
    obtain ⟨it, hn, hrest⟩ := firstResults_succ_cons hrs
    obtain ⟨f, rfl⟩ : ∃ f, fuel = f + 1 := ⟨fuel - 1, by omega⟩
    obtain ⟨c1, hc1⟩ := ensure_ok_of_lt cache ident
      (hidx (ident, none) (List.mem_cons_self _ _) rfl)
    obtain ⟨c, hc, hloop⟩ := warmCacheLoop_of_results fs sszPath last heof rest it c1 hrest
      (fun r hr => hres r (List.mem_cons_of_mem _ hr))
      (fun r hr => hidx r (List.mem_cons_of_mem _ hr)) f
      (by simp only [List.length_cons] at hfuel; omega)
    refine ⟨c, ?_, ?_⟩
    · simp only [yieldedIdents, List.filterMap_cons, if_true, ensureAll, hc1]
      exact hc
    · rw [warmCacheLoop_ensure_ok f hn hc1, hloop]
      rfl
  | (ident, some e) :: rest, iter, cache, hrs, hres, hidx, fuel, hfuel => by
    obtain ⟨it, hn, hrest⟩ := firstResults_succ_cons hrs
    obtain ⟨f, rfl⟩ : ∃ f, fuel = f + 1 := ⟨fuel - 1, by omega⟩
    have h1 := hres (ident, some e) (List.mem_cons_self _ _)
    have hid : errorsIsOpt (some e) errIdentFailure = true := by
      rcases h1.2 with h | h
      · cases h
      · exact h
    obtain ⟨c, hc, hloop⟩ := warmCacheLoop_of_results fs sszPath last heof rest it cache hrest
      (fun r hr => hres r (List.mem_cons_of_mem _ hr))
      (fun r hr => hidx r (List.mem_cons_of_mem _ hr)) f
      (by simp only [List.length_cons] at hfuel; omega)
    refine ⟨c, ?_, ?_⟩
    · simp only [yieldedIdents, List.filterMap_cons]
      exact hc
    · rw [warmCacheLoop_skip cache f hn h1.1 hid, hloop]
      rfl

theorem ensureCalls_warmTrace : ∀ (rs : List IterResult) (tail : List Event),
    ensureCalls (warmTrace rs ++ tail) =
      (yieldedIdents rs).map (fun i => (i, none)) ++ ensureCalls tail
  | [], tail => by simp [warmTrace, yieldedIdents]
  | (ident, none) :: rs, tail => by
    simp [warmTrace, yieldedIdents, ensureCalls, ensureCalls_warmTrace rs tail]
  | (ident, some e) :: rs, tail => by
    simp [warmTrace, yieldedIdents, ensureCalls, ensureCalls_warmTrace rs tail]

theorem nextResults_warmTrace : ∀ (rs : List IterResult) (tail : List Event),
    nextResults (warmTrace rs ++ tail) = rs ++ nextResults tail
  | [], tail => by simp [warmTrace]
  | (ident, none) :: rs, tail => by
    simp [warmTrace, nextResults, nextResults_warmTrace rs tail]
  | (ident, some e) :: rs, tail => by
    simp [warmTrace, nextResults, nextResults_warmTrace rs tail]

/-- C5: identification errors do not fail warm-up. When the results of `next` before its first
`io.EOF` are idents within bounds and identification errors, `warmCache` returns nil, it calls
`cache.ensure` on exactly the idents yielded, in order and with success, none for a path with an
identification error, and the cache afterwards has a bit set exactly when it was set before or
an ident yielded has that root and index. -/
theorem warmCache_skips_identification_errors {σ : Type} (fs : Fs σ) (l : fsLayout σ)
    (cache : blobStorageSummaryCache) (w : σ) (iter : identIterator) (rs : List IterResult)
    (last : IterResult) (fuel : Nat)
    (hiter : l.iterateIdents 0 w = (iter, none))
    (hrs : firstResults (fs.readdirnames w) (rs.length + 1) iter = some (rs ++ [last]))
    (heof : errorsIsOpt last.2 ioEOF = true)
    (hres : ∀ r ∈ rs, errorsIsOpt r.2 ioEOF = false ∧
      (r.2 = none ∨ errorsIsOpt r.2 errIdentFailure = true))
    (hidx : ∀ r ∈ rs, r.2 = none → r.1.index < MAX_BLOBS_PER_BLOCK)
    (hfuel : rs.length < fuel) :
    (warmCache fs l cache w fuel).1 = .returned none ∧
      nextResults (warmCache fs l cache w fuel).2.2 = rs ++ [last] ∧
      ensureCalls (warmCache fs l cache w fuel).2.2 =
        (yieldedIdents rs).map (fun i => (i, none)) ∧
      ∀ (root : Bytes32) (i : Nat),
        ((warmCache fs l cache w fuel).2.1.HasIndex root i = true ↔
          cache.HasIndex root i = true ∨
            ∃ ident ∈ yieldedIdents rs, ident.root = root ∧ ident.index = i) := by
  obtain ⟨c, hc, hloop⟩ := warmCacheLoop_of_results (fs.readdirnames w) l.sszPath last heof rs
    iter cache hrs hres hidx fuel hfuel
  have hw : warmCache fs l cache w fuel =
      (.returned none, c, warmTrace rs ++ [.next last.1 last.2]) := by
    unfold warmCache
    rw [hiter]
    exact hloop
  rw [hw]
  refine ⟨rfl, ?_, ?_, ?_⟩
  · simp [nextResults_warmTrace, nextResults]
  · simp [ensureCalls_warmTrace, ensureCalls]
  · exact ensureAll_hasIndex _ cache c hc

/-- C5, on the tree `treeSomeUnidentified`: the directory of root Z and the file `x.ssz` give
identification errors, and warm-up returns nil after `ensure` on the idents of `0.ssz` and
`5.ssz` of root B. -/
theorem warmCache_skips_identification_errors_witness :
    (warmCache memFs flatLayout blobStorageSummaryCache.empty treeSomeUnidentified 5).1 =
        .returned none ∧
      ensureCalls (warmCache memFs flatLayout blobStorageSummaryCache.empty
        treeSomeUnidentified 5).2.2 = [(⟨bytesB, 0, 0⟩, none), (⟨bytesB, 0, 5⟩, none)] :=
  have h := warmCache_skips_identification_errors memFs flatLayout
    blobStorageSummaryCache.empty treeSomeUnidentified (flatIterator treeSomeUnidentified)
    [(blobIdent.zero, some (newIdentificationError rootZ blobIdent.zero
        (.wrap (.wrap errInvalidRootString ("input=" ++ rootZ))
          ("invalid directory, could not parse subdir as root " ++ rootZ)))),
      (⟨bytesB, 0, 0⟩, none),
      (blobIdent.zero, some (newIdentificationError (rootB ++ "/x.ssz") ⟨bytesB, 0, 0⟩
        (.foreign "strconv.ParseUint: invalid syntax"))),
      (⟨bytesB, 0, 5⟩, none)]
    (blobIdent.zero, some ioEOF) 5 rfl (by decide) (by decide) (by decide) (by decide)
    (by decide)
  ⟨h.1, h.2.2.1⟩

theorem errorsIs_errorf2_warm_bounds (msg : String) :
    errorsIs (.errorf2 errCacheWarmFailed msg errIndexOutOfBounds) errIndexOutOfBounds = true ∧
      errorsIs (.errorf2 errCacheWarmFailed msg errIndexOutOfBounds) errCacheWarmFailed = true := by
  constructor
  · simp only [errorsIs, errCacheWarmFailed, errIndexOutOfBounds]
    decide
  · simp only [errorsIs, errCacheWarmFailed, errIndexOutOfBounds]
    decide

/-- The loop of `warmCache` over idents and identification errors followed by an ident whose
index is out of bounds: it returns an error that matches `errIndexOutOfBounds` and
`errCacheWarmFailed`. -/
theorem warmCacheLoop_out_of_bounds (fs : String → DirRead) (sszPath : blobIdent → String)
    (ident : blobIdent) (hoob : MAX_BLOBS_PER_BLOCK ≤ ident.index) :
    ∀ (rs : List IterResult) (iter : identIterator) (cache : blobStorageSummaryCache),
      firstResults fs (rs.length + 1) iter = some (rs ++ [(ident, none)]) →
      (∀ r ∈ rs, errorsIsOpt r.2 ioEOF = false ∧
        (r.2 = none ∨ errorsIsOpt r.2 errIdentFailure = true)) →
      ∀ fuel, rs.length < fuel →
        ∃ e, (warmCacheLoop fs sszPath fuel iter cache).1 = .returned (some e) ∧
          errorsIs e errIndexOutOfBounds = true ∧ errorsIs e errCacheWarmFailed = true
  | [], iter, cache, hrs, _, fuel, hfuel => by
    obtain ⟨it, hn, _⟩ := firstResults_succ_cons hrs
    obtain ⟨f, rfl⟩ : ∃ f, fuel = f + 1 := ⟨fuel - 1, by omega⟩
    rw [warmCacheLoop_ensure_error f hn (ensure_error_of_le cache ident hoob)]
    exact ⟨_, rfl, errorsIs_errorf2_warm_bounds _⟩
  | (id1, none) :: rest, iter, cache, hrs, hres, fuel, hfuel => by
    obtain ⟨it, hn, hrest⟩ := firstResults_succ_cons hrs
    obtain ⟨f, rfl⟩ : ∃ f, fuel = f + 1 := ⟨fuel - 1, by omega⟩
    by_cases h1 : MAX_BLOBS_PER_BLOCK ≤ id1.index
    · rw [warmCacheLoop_ensure_error f hn (ensure_error_of_le cache id1 h1)]
      exact ⟨_, rfl, errorsIs_errorf2_warm_bounds _⟩
    · obtain ⟨c1, hc1⟩ := ensure_ok_of_lt cache id1 (Nat.lt_of_not_le h1)
      rw [warmCacheLoop_ensure_ok f hn hc1]
      exact warmCacheLoop_out_of_bounds fs sszPath ident hoob rest it c1 hrest
        (fun r hr => hres r (List.mem_cons_of_mem _ hr)) f
        (by simp only [List.length_cons] at hfuel; omega)
  | (id1, some e) :: rest, iter, cache, hrs, hres, fuel, hfuel => by
    obtain ⟨it, hn, hrest⟩ := firstResults_succ_cons hrs
    obtain ⟨f, rfl⟩ : ∃ f, fuel = f + 1 := ⟨fuel - 1, by omega⟩
    have h1 := hres (id1, some e) (List.mem_cons_self _ _)
    have hid : errorsIsOpt (some e) errIdentFailure = true := by
      rcases h1.2 with h | h
      · cases h
      · exact h
    rw [warmCacheLoop_skip cache f hn h1.1 hid]
    exact warmCacheLoop_out_of_bounds fs sszPath ident hoob rest it cache hrest
      (fun r hr => hres r (List.mem_cons_of_mem _ hr)) f
      (by simp only [List.length_cons] at hfuel; omega)

/-- C4, as stated, fails on two trees that hold a file `6.ssz`. On `treeBadRootName` the
directory above the file cannot be identified, it is skipped with all its sub-paths, and
`warmCache` returns nil. On `treeFileAsRoot` listing an earlier entry fails, and `warmCache`
returns an error that matches `errCacheWarmFailed` and not `errIndexOutOfBounds`. -/
theorem warmCache_out_of_bounds_file_not_reached :
    treeBadRootName.stat (rootZ ++ "/6.ssz") = some (.file [3]) ∧
      (warmCache memFs flatLayout blobStorageSummaryCache.empty treeBadRootName 3).1 =
        .returned none ∧
      treeFileAsRoot.stat (rootB ++ "/6.ssz") = some (.file [3]) ∧
      (warmCache memFs flatLayout blobStorageSummaryCache.empty treeFileAsRoot 3).1 =
        .returned (some (.errorf2 errCacheWarmFailed "failed to populate blob data cache"
          (.wrap (.foreign "not a dir") "failed to read directory listing"))) ∧
      errorsIs (.errorf2 errCacheWarmFailed "failed to populate blob data cache"
          (.wrap (.foreign "not a dir") "failed to read directory listing"))
        errIndexOutOfBounds = false := by
  decide

/-- C4, amended: when `next` yields an ident whose index is `MAX_BLOBS_PER_BLOCK` or more, and
every result before it is an ident or an identification error, `warmCache` returns an error
that matches both `errIndexOutOfBounds` and `errCacheWarmFailed`. -/
theorem warmCache_out_of_bounds_ident_fails {σ : Type} (fs : Fs σ) (l : fsLayout σ)
    (cache : blobStorageSummaryCache) (w : σ) (iter : identIterator) (rs : List IterResult)
    (ident : blobIdent) (fuel : Nat)
    (hiter : l.iterateIdents 0 w = (iter, none))
    (hrs : firstResults (fs.readdirnames w) (rs.length + 1) iter = some (rs ++ [(ident, none)]))
    (hoob : MAX_BLOBS_PER_BLOCK ≤ ident.index)
    (hres : ∀ r ∈ rs, errorsIsOpt r.2 ioEOF = false ∧
      (r.2 = none ∨ errorsIsOpt r.2 errIdentFailure = true))
    (hfuel : rs.length < fuel) :
    ∃ e, (warmCache fs l cache w fuel).1 = .returned (some e) ∧
      errorsIs e errIndexOutOfBounds = true ∧ errorsIs e errCacheWarmFailed = true := by
  unfold warmCache
  rw [hiter]
  exact warmCacheLoop_out_of_bounds (fs.readdirnames w) l.sszPath ident hoob rs iter cache hrs
    hres fuel hfuel

/-- C4, amended, on the tree `treeOutOfBounds`: after an identification error, the ident of
`0.ssz` and another identification error, the ident of `6.ssz` makes warm-up fail. -/
theorem warmCache_out_of_bounds_ident_fails_witness :
    ∃ e, (warmCache memFs flatLayout blobStorageSummaryCache.empty treeOutOfBounds 4).1 =
        .returned (some e) ∧
      errorsIs e errIndexOutOfBounds = true ∧ errorsIs e errCacheWarmFailed = true :=
  warmCache_out_of_bounds_ident_fails memFs flatLayout blobStorageSummaryCache.empty
    treeOutOfBounds (flatIterator treeOutOfBounds)
    [(blobIdent.zero, some (newIdentificationError rootZ blobIdent.zero
        (.wrap (.wrap errInvalidRootString ("input=" ++ rootZ))
          ("invalid directory, could not parse subdir as root " ++ rootZ)))),
      (⟨bytesB, 0, 0⟩, none),
      (blobIdent.zero, some (newIdentificationError (rootB ++ "/x.ssz") ⟨bytesB, 0, 0⟩
        (.foreign "strconv.ParseUint: invalid syntax")))]
    ⟨bytesB, 0, 6⟩ 4 rfl (by decide) (by decide) (by decide) (by decide)

/-! ## Pruning -/

theorem removeCalls_append : ∀ (a b : List Event),
    removeCalls (a ++ b) = removeCalls a ++ removeCalls b
  | [], b => rfl
  | ev :: a, b => by
    cases ev <;> simp [removeCalls, removeCalls_append a b]

theorem nextResults_append : ∀ (a b : List Event),
    nextResults (a ++ b) = nextResults a ++ nextResults b
  | [], b => rfl
  | ev :: a, b => by
    cases ev <;> simp [nextResults, nextResults_append a b]

theorem pruneOne_events {σ : Type} (ident : blobIdent) (l : fsLayout σ) (sums : PruneSums)
    (w : σ) :
    (pruneOne ident l sums w).2.2 =
      if ident.root = zeroHash then []
      else [.remove ident (l.remove ident w).1.1 (l.remove ident w).1.2] := by
  unfold pruneOne
  split <;> rfl

theorem pruneOne_removeCalls {σ : Type} (ident : blobIdent) (l : fsLayout σ) (sums : PruneSums)
    (w : σ) :
    (removeCalls (pruneOne ident l sums w).2.2).map (·.1) = pruneOneTarget ident := by
  rw [pruneOne_events]
  unfold pruneOneTarget
  split <;> simp [removeCalls]

theorem pruneOne_nextResults {σ : Type} (ident : blobIdent) (l : fsLayout σ) (sums : PruneSums)
    (w : σ) : nextResults (pruneOne ident l sums w).2.2 = [] := by
  rw [pruneOne_events]
  split <;> simp [nextResults]

/-- The idents that the loop of `pruneBefore` passes to `l.remove` are those that
`pruneTargets` computes from the results of `next` in the same run. -/
theorem pruneLoop_targets {σ : Type} (fs : Fs σ) (l : fsLayout σ) (before : Nat) :
    ∀ (fuel : Nat) (iter : identIterator) (lastIdent : blobIdent) (sums : PruneSums) (w : σ),
      (removeCalls (pruneLoop fs l before fuel iter lastIdent sums w).events).map (·.1) =
        pruneTargets before lastIdent
          (nextResults (pruneLoop fs l before fuel iter lastIdent sums w).events)
  | 0, iter, lastIdent, sums, w => by
    simp [pruneLoop, removeCalls, nextResults, pruneTargets]
  | fuel + 1, iter, lastIdent, sums, w => by
    rw [pruneLoop]
    cases hn : iter.next (fs.readdirnames w) with
    | none => simp [removeCalls, nextResults, pruneTargets]
    | some p =>
      obtain ⟨⟨ident, err⟩, it⟩ := p
      simp only []
      by_cases heof : errorsIsOpt err ioEOF = true
      · simp only [heof, if_true, removeCalls, nextResults, pruneOne_nextResults, pruneTargets]
        exact pruneOne_removeCalls lastIdent l sums w
      · simp only [heof, Bool.false_eq_true, if_false]
        cases err with
        | some e =>
          simp only []
          by_cases hid : errorsIs e errIdentFailure = true
          · simp only [hid, if_true, removeCalls, nextResults, pruneTargets, heof,
              Bool.false_eq_true, if_false]
            exact pruneLoop_targets fs l before fuel it lastIdent sums w
          · simp [hid, removeCalls, nextResults, pruneTargets, heof]
        | none =>
          simp only []
          by_cases hep : ident.epoch ≥ before
          · simp only [hep, if_true, removeCalls, nextResults, pruneTargets, heof,
              Bool.false_eq_true, if_false]
            exact pruneLoop_targets fs l before fuel it lastIdent sums w
          · by_cases hroot : lastIdent.root ≠ ident.root
            · simp only [hep, hroot, if_true, if_false, removeCalls, nextResults, pruneTargets,
                heof, Bool.false_eq_true, removeCalls_append, nextResults_append,
                pruneOne_nextResults, List.nil_append, List.map_append, pruneOne_removeCalls,
                ne_eq, not_false_eq_true]
              rw [pruneLoop_targets fs l before fuel it ident _ _]
            · simp only [hep, hroot, if_false, removeCalls, nextResults, pruneTargets, heof,
                Bool.false_eq_true]
              exact pruneLoop_targets fs l before fuel it lastIdent sums w

theorem pruneOneTarget_mem {lastIdent i : blobIdent} (h : i ∈ pruneOneTarget lastIdent) :
    i = lastIdent ∧ lastIdent.root ≠ zeroHash := by
  unfold pruneOneTarget at h
  split at h
  · cases h
  · rename_i hz
    simp only [List.mem_singleton] at h
    exact ⟨h, hz⟩

theorem pruneTargets_epoch_lt (before : Nat) :
    ∀ (rs : List IterResult) (lastIdent : blobIdent),
      (lastIdent.root = zeroHash ∨ lastIdent.epoch < before) →
      ∀ i ∈ pruneTargets before lastIdent rs, i.epoch < before ∧ i.root ≠ zeroHash
  | [], _, _, i, hi => by simp [pruneTargets] at hi
  | (ident, err) :: rs, lastIdent, hl, i, hi => by
    have hflush : ∀ j ∈ pruneOneTarget lastIdent, j.epoch < before ∧ j.root ≠ zeroHash := by
      intro j hj
      obtain ⟨rfl, hz⟩ := pruneOneTarget_mem hj
      rcases hl with h | h
      · exact absurd h hz
      · exact ⟨h, hz⟩
    simp only [pruneTargets] at hi
    split at hi
    · exact hflush i hi
    · cases err with
      | some e =>
        simp only [] at hi
        split at hi
        · exact pruneTargets_epoch_lt before rs lastIdent hl i hi
        · cases hi
      | none =>
        simp only [] at hi
        split at hi
        · exact pruneTargets_epoch_lt before rs lastIdent hl i hi
        · rename_i hep
          split at hi
          · rcases List.mem_append.mp hi with h | h
            · exact hflush i h
            · exact pruneTargets_epoch_lt before rs ident (Or.inr (Nat.lt_of_not_le hep)) i h
          · exact pruneTargets_epoch_lt before rs lastIdent hl i hi

theorem pruneBefore_events {σ : Type} (before : Nat) (fs : Fs σ) (l : fsLayout σ) (w : σ)
    (fuel : Nat) :
    (pruneBefore before fs l w fuel).events = [] ∨
      ∃ iter, pruneBefore before fs l w fuel =
        pruneLoop fs l before fuel iter blobIdent.zero (fun _ => none) w := by
  unfold pruneBefore
  split
  · exact Or.inl rfl
  · exact Or.inr ⟨_, rfl⟩

/-- C6: whatever the iterator returns and however long the run, every call of `l.remove` that
`pruneBefore(before, l)` makes is for an ident whose epoch is strictly before `before`. -/
theorem pruneBefore_removes_only_before_threshold {σ : Type} (before : Nat) (fs : Fs σ)
    (l : fsLayout σ) (w : σ) (fuel : Nat) :
    ∀ c ∈ removeCalls (pruneBefore before fs l w fuel).events, c.1.epoch < before := by
  intro c hc
  rcases pruneBefore_events before fs l w fuel with h | ⟨iter, h⟩
  · rw [h] at hc
    cases hc
  · rw [h] at hc
    have hmem : c.1 ∈ (removeCalls (pruneLoop fs l before fuel iter blobIdent.zero
        (fun _ => none) w).events).map (·.1) := List.mem_map_of_mem _ hc
    rw [pruneLoop_targets] at hmem
    exact (pruneTargets_epoch_lt before _ blobIdent.zero (Or.inl rfl) c.1 hmem).1

/-- C6, on the tree `treeByEpoch` with the by-epoch layout and the threshold 5: the only call
of `l.remove` is for root B, of epoch 3. -/
theorem pruneBefore_removes_only_before_threshold_witness :
    removeCalls (pruneBefore 5 memFs byEpochLayout treeByEpoch 5).events =
        [(⟨bytesB, 3, 0⟩, 2, none)] ∧
      (3 : Nat) < 5 :=
  ⟨by decide,
    pruneBefore_removes_only_before_threshold 5 memFs byEpochLayout treeByEpoch 5
      (⟨bytesB, 3, 0⟩, 2, none) (by decide)⟩

theorem pruneTargets_eq_groupStarts (before : Nat) :
    ∀ (rs : List IterResult) (lastIdent : blobIdent), walkedToEOF rs = true →
      pruneTargets before lastIdent rs =
        groupStarts lastIdent ((yieldedIdents rs).filter fun i => decide (i.epoch < before))
  | [], _, h => by simp [walkedToEOF] at h
  | (ident, none) :: rs, lastIdent, h => by
    have hw : walkedToEOF rs = true := by
      simpa [walkedToEOF, errorsIsOpt] using h
    have ih := fun l => pruneTargets_eq_groupStarts before rs l hw
    by_cases hep : ident.epoch ≥ before
    · have hlt : ¬ ident.epoch < before := Nat.not_lt.mpr hep
      simp [pruneTargets, errorsIsOpt, yieldedIdents, hep, hlt, List.filter_cons, ih]
    · have hlt : ident.epoch < before := Nat.lt_of_not_le hep
      by_cases hroot : lastIdent.root = ident.root
      · simp [pruneTargets, errorsIsOpt, yieldedIdents, hlt, List.filter_cons, groupStarts,
          hroot, ih]
      · simp [pruneTargets, errorsIsOpt, yieldedIdents, hlt, List.filter_cons, groupStarts,
          hroot, ih]
  | (ident, some e) :: rs, lastIdent, h => by
    by_cases heof : errorsIs e ioEOF = true
    · have hnil : rs = [] := by
        simpa [walkedToEOF, errorsIsOpt, heof] using h
      subst hnil
      simp [pruneTargets, errorsIsOpt, heof, yieldedIdents, groupStarts]
    · have hw : errorsIs e errIdentFailure = true ∧ walkedToEOF rs = true := by
        simpa [walkedToEOF, errorsIsOpt, heof] using h
      simp [pruneTargets, errorsIsOpt, heof, yieldedIdents, hw.1,
        pruneTargets_eq_groupStarts before rs lastIdent hw.2]

theorem groupStarts_roots :
    ∀ (idents : List blobIdent) (lastIdent : blobIdent), lastIdent.root ≠ zeroHash →
      adjacentRuns (lastIdent.root :: idents.map (·.root)) →
      (∀ i ∈ idents, i.root ≠ zeroHash) →
      ((groupStarts lastIdent idents).map (·.root)).Nodup ∧
        ∀ r, r ∈ (groupStarts lastIdent idents).map (·.root) ↔
          r = lastIdent.root ∨ r ∈ idents.map (·.root)
  | [], lastIdent, hz, _, _ => by
    simp [groupStarts, pruneOneTarget, hz]
  | ident :: rest, lastIdent, hz, hadj, hnz => by
    have hadj1 : adjacentRuns (ident.root :: rest.map (·.root)) := hadj.1
    have hhead : lastIdent.root ∈ ident.root :: rest.map (·.root) →
        lastIdent.root = ident.root := by
      intro hm
      have := hadj.2 hm
      simpa using this.symm
    by_cases hroot : lastIdent.root = ident.root
    · have hadj2 : adjacentRuns (lastIdent.root :: rest.map (·.root)) := by
        rw [hroot]
        exact hadj1
      obtain ⟨hnd, hmem⟩ := groupStarts_roots rest lastIdent hz hadj2
        (fun i hi => hnz i (List.mem_cons_of_mem _ hi))
      simp only [groupStarts, hroot, ne_eq, not_true_eq_false, if_false]
      rw [← hroot]
      refine ⟨hnd, fun r => ?_⟩
      rw [hmem r]
      simp only [List.map_cons, List.mem_cons, ← hroot]
      tauto
    · obtain ⟨hnd, hmem⟩ := groupStarts_roots rest ident
        (hnz ident (List.mem_cons_self _ _)) hadj1
        (fun i hi => hnz i (List.mem_cons_of_mem _ hi))
      have hnotin : lastIdent.root ∉ (groupStarts ident rest).map (·.root) := by
        intro hc
        rw [hmem] at hc
        exact hroot (hhead (by simpa using hc))
      simp only [groupStarts, ne_eq, hroot, not_false_eq_true, if_true, pruneOneTarget, hz,
        if_false, List.singleton_append, List.map_cons, List.nodup_cons, List.mem_cons]
      refine ⟨⟨hnotin, hnd⟩, fun r => ?_⟩
      rw [hmem r]

theorem groupStarts_zero_roots (idents : List blobIdent)
    (hadj : adjacentRuns (idents.map (·.root))) (hnz : ∀ i ∈ idents, i.root ≠ zeroHash) :
    ((groupStarts blobIdent.zero idents).map (·.root)).Nodup ∧
      ∀ r, r ∈ (groupStarts blobIdent.zero idents).map (·.root) ↔ r ∈ idents.map (·.root) := by
  cases idents with
  | nil => simp [groupStarts, pruneOneTarget, blobIdent.zero]
  | cons ident rest =>
    have h1 : blobIdent.zero.root ≠ ident.root := fun hc =>
      hnz ident (List.mem_cons_self _ _) hc.symm
    obtain ⟨hnd, hmem⟩ := groupStarts_roots rest ident (hnz ident (List.mem_cons_self _ _))
      hadj (fun i hi => hnz i (List.mem_cons_of_mem _ hi))
    have hgs : groupStarts blobIdent.zero (ident :: rest) = groupStarts ident rest := by
      have h0 : blobIdent.zero.root = zeroHash := rfl
      have h2 : ¬ zeroHash = ident.root := h1
      simp only [groupStarts, ne_eq, not_false_eq_true, if_true, pruneOneTarget, h0, h2,
        List.nil_append]
    rw [hgs]
    refine ⟨hnd, fun r => ?_⟩
    rw [hmem r]
    simp

theorem head_filter_of_adjacent (p : blobIdent → Bool) (a : Bytes32) :
    ∀ (idents : List blobIdent), adjacentRuns (idents.map (·.root)) →
      a ∈ (idents.filter p).map (·.root) → (idents.map (·.root)).head? = some a →
      ((idents.filter p).map (·.root)).head? = some a
  | [], _, hm, _ => by simp at hm
  | ident :: rest, hadj, hm, hh => by
    have ha : ident.root = a := by simpa using hh
    by_cases hp : p ident = true
    · simp [List.filter_cons, hp, ha]
    · simp only [List.filter_cons, hp, Bool.false_eq_true, if_false] at hm ⊢
      have hin : ident.root ∈ rest.map (·.root) := by
        rw [ha]
        obtain ⟨i, hi, hr⟩ := List.mem_map.mp hm
        exact List.mem_map.mpr ⟨i, (List.mem_filter.mp hi).1, hr⟩
      have hh2 : (rest.map (·.root)).head? = some a := by
        rw [← ha]
        exact hadj.2 hin
      exact head_filter_of_adjacent p a rest hadj.1 hm hh2

theorem adjacentRuns_filter_roots (p : blobIdent → Bool) :
    ∀ (idents : List blobIdent), adjacentRuns (idents.map (·.root)) →
      adjacentRuns ((idents.filter p).map (·.root))
  | [], _ => by simp [adjacentRuns]
  | ident :: rest, hadj => by
    have ih := adjacentRuns_filter_roots p rest hadj.1
    by_cases hp : p ident = true
    · simp only [List.filter_cons, hp, if_true, List.map_cons, adjacentRuns]
      refine ⟨ih, fun hm => ?_⟩
      have hin : ident.root ∈ rest.map (·.root) := by
        obtain ⟨i, hi, hr⟩ := List.mem_map.mp hm
        exact List.mem_map.mpr ⟨i, (List.mem_filter.mp hi).1, hr⟩
      exact head_filter_of_adjacent p ident.root rest hadj.1 hm (hadj.2 hin)
    · simp only [List.filter_cons, hp, Bool.false_eq_true, if_false]
      exact ih

/-- C7, as stated, fails on the tree `treeFileAfterRoot` with the flat layout: the iterator
yields the ident of root B, of epoch 0, and no other, so the idents of each root are adjacent
and no root is all-zero; then the listing of the regular file named after root A fails, which
is no identification error, and `pruneBefore(1)` returns at once an error that matches
`errPruneFailed`, without any call of `remove`: root B has an ident with an epoch before 1 and
is not removed. -/
theorem pruneBefore_fatal_error_removes_nothing :
    nextResults (pruneBefore 1 memFs flatLayout treeFileAfterRoot 5).events =
        [(⟨bytesB, 0, 0⟩, none), (blobIdent.zero,
          some (.wrap (.foreign "not a dir") "failed to read directory listing"))] ∧
      adjacentRuns ((yieldedIdents (nextResults
        (pruneBefore 1 memFs flatLayout treeFileAfterRoot 5).events)).map (·.root)) ∧
      (∀ i ∈ yieldedIdents (nextResults
        (pruneBefore 1 memFs flatLayout treeFileAfterRoot 5).events),
          i.root ≠ zeroHash ∧ i.epoch < 1) ∧
      removeCalls (pruneBefore 1 memFs flatLayout treeFileAfterRoot 5).events = [] ∧
      (pruneBefore 1 memFs flatLayout treeFileAfterRoot 5).returnedError =
        some (some (.wrap errPruneFailed
          (GoError.Error (.wrap (.foreign "not a dir") "failed to read directory listing")))) ∧
      errorsIs (.wrap errPruneFailed
          (GoError.Error (.wrap (.foreign "not a dir") "failed to read directory listing")))
        errPruneFailed = true := by
  decide

/-- C7, amended: in a run of `pruneBefore(before, l)` whose iterator is walked to its `io.EOF`
without a fatal error, that is with no error but identification errors before it, when the
idents yielded come with the idents of each root adjacent and no root is all-zero, the roots
of the calls of `l.remove` have no duplicate, so each is removed once however many indices it
has, and they are exactly the roots that have an ident yielded with an epoch before
`before`. -/
theorem pruneBefore_removes_each_root_once {σ : Type} (before : Nat) (fs : Fs σ)
    (l : fsLayout σ) (w : σ) (fuel : Nat)
    (hrun : walkedToEOF (nextResults (pruneBefore before fs l w fuel).events) = true)
    (hadj : adjacentRuns
      ((yieldedIdents (nextResults (pruneBefore before fs l w fuel).events)).map (·.root)))
    (hnz : ∀ i ∈ yieldedIdents (nextResults (pruneBefore before fs l w fuel).events),
      i.root ≠ zeroHash) :
    ((removeCalls (pruneBefore before fs l w fuel).events).map (·.1.root)).Nodup ∧
      ∀ r, r ∈ (removeCalls (pruneBefore before fs l w fuel).events).map (·.1.root) ↔
        ∃ i ∈ yieldedIdents (nextResults (pruneBefore before fs l w fuel).events),
          i.root = r ∧ i.epoch < before := by
  rcases pruneBefore_events before fs l w fuel with h | ⟨iter, h⟩
  · rw [h] at hrun
    simp [nextResults, walkedToEOF] at hrun
  · rw [h] at hrun hadj hnz ⊢
    have htargets := pruneLoop_targets fs l before fuel iter blobIdent.zero (fun _ => none) w
    rw [pruneTargets_eq_groupStarts before _ _ hrun] at htargets
    have hmap : (removeCalls (pruneLoop fs l before fuel iter blobIdent.zero
        (fun _ => none) w).events).map (·.1.root) =
        ((removeCalls (pruneLoop fs l before fuel iter blobIdent.zero
          (fun _ => none) w).events).map (·.1)).map (·.root) := by
      rw [List.map_map]
      rfl
    rw [hmap, htargets]
    obtain ⟨hnd, hmem⟩ := groupStarts_zero_roots _
      (adjacentRuns_filter_roots (fun i => decide (i.epoch < before)) _ hadj)
      (fun i hi => hnz i (List.mem_filter.mp hi).1)
    refine ⟨hnd, fun r => ?_⟩
    rw [hmem r]
    simp only [List.mem_map, List.mem_filter, decide_eq_true_eq]
    constructor
    · rintro ⟨i, ⟨hi, hlt⟩, hr⟩
      exact ⟨i, hi, hr, hlt⟩
    · rintro ⟨i, hi, hr, hlt⟩
      exact ⟨i, ⟨hi, hlt⟩, hr⟩

theorem pruneOne_sums {σ : Type} (ident : blobIdent) (l : fsLayout σ) (sums : PruneSums)
    (w : σ) :
    (pruneOne ident l sums w).1 =
      (removeCalls (pruneOne ident l sums w).2.2).foldl (recordRemoval l.dir) sums := by
  rw [pruneOne_events]
  unfold pruneOne
  by_cases hz : ident.root = zeroHash
  · simp [hz, removeCalls]
  · simp only [hz, if_false, removeCalls, List.foldl_cons, List.foldl_nil]
    funext e
    unfold recordRemoval
    cases (l.remove ident w).1.2 <;> simp

/-- A run of `pruneBefore` whose iterator is walked to its `io.EOF` without another fatal error
returns a nil error and the map that the calls of `l.remove` build up. -/
theorem pruneLoop_returns {σ : Type} (fs : Fs σ) (l : fsLayout σ) (before : Nat) :
    ∀ (fuel : Nat) (iter : identIterator) (lastIdent : blobIdent) (sums : PruneSums) (w : σ),
      walkedToEOF (nextResults (pruneLoop fs l before fuel iter lastIdent sums w).events) = true →
      (pruneLoop fs l before fuel iter lastIdent sums w).outcome =
        .returned (some ((removeCalls
          (pruneLoop fs l before fuel iter lastIdent sums w).events).foldl
            (recordRemoval l.dir) sums), none)
  | 0, iter, lastIdent, sums, w => by
    simp [pruneLoop, nextResults, walkedToEOF]
  | fuel + 1, iter, lastIdent, sums, w => by
    rw [pruneLoop]
    cases hn : iter.next (fs.readdirnames w) with
    | none => simp [nextResults, walkedToEOF]
    | some p =>
      obtain ⟨⟨ident, err⟩, it⟩ := p
      simp only []
      by_cases heof : errorsIsOpt err ioEOF = true
      · intro _
        simp only [heof, if_true, removeCalls]
        rw [← pruneOne_sums]
      · simp only [heof, Bool.false_eq_true, if_false]
        cases err with
        | some e =>
          simp only []
          by_cases hid : errorsIs e errIdentFailure = true
          · simp only [hid, if_true, removeCalls, nextResults, walkedToEOF, heof,
              Bool.false_eq_true, if_false, Bool.true_and]
            exact pruneLoop_returns fs l before fuel it lastIdent sums w
          · simp [hid, nextResults, walkedToEOF, heof]
        | none =>
          simp only []
          by_cases hep : ident.epoch ≥ before
          · simp only [hep, if_true, removeCalls, nextResults, walkedToEOF, heof,
              Bool.false_eq_true, if_false]
            exact pruneLoop_returns fs l before fuel it lastIdent sums w
          · by_cases hroot : lastIdent.root ≠ ident.root
            · simp only [hep, hroot, if_true, if_false, removeCalls, nextResults, walkedToEOF,
                heof, Bool.false_eq_true, removeCalls_append, nextResults_append,
                pruneOne_nextResults, List.nil_append, List.foldl_append, ne_eq,
                not_false_eq_true]
              rw [← pruneOne_sums]
              exact pruneLoop_returns fs l before fuel it ident _ _
            · simp only [hep, hroot, if_false, removeCalls, nextResults, walkedToEOF, heof,
                Bool.false_eq_true]
              exact pruneLoop_returns fs l before fuel it lastIdent sums w

theorem foldl_recordRemoval (dir : blobIdent → String) (e : Nat) :
    ∀ (calls : List (blobIdent × Int × Option GoError)) (sums : PruneSums),
      (calls.foldl (recordRemoval dir) sums) e =
        if (calls.filter fun c => decide (c.1.epoch = e)) = [] then sums e
        else some
          { blobsPruned := ((sums e).getD ⟨0, []⟩).blobsPruned +
              ((calls.filter fun c => decide (c.1.epoch = e)).map fun c => c.2.1).sum
            failedRemovals := ((sums e).getD ⟨0, []⟩).failedRemovals ++
              (((calls.filter fun c => decide (c.1.epoch = e)).filter
                fun c => c.2.2.isSome).map fun c => dir c.1) }
  | [], sums => by simp
  | c :: cs, sums => by
    rw [List.foldl_cons, foldl_recordRemoval dir e cs]
    by_cases hc : c.1.epoch = e
    · subst hc
      by_cases hcs : (cs.filter fun x => decide (x.1.epoch = c.1.epoch)) = []
      · cases hs : c.2.2 <;> simp [hcs, List.filter_cons, recordRemoval, hs]
      · cases hs : c.2.2 <;>
          simp [hcs, List.filter_cons, recordRemoval, hs, add_assoc]
    · have hne : ¬ e = c.1.epoch := fun h => hc h.symm
      have hf : (List.filter (fun x => decide (x.1.epoch = e)) (c :: cs)) =
          List.filter (fun x => decide (x.1.epoch = e)) cs := by
        simp [List.filter_cons, hc]
      rw [hf]
      simp [recordRemoval, hne]

/-- C8, as stated, fails with the layout `readOnlyFlatLayout` on the tree `treeTwoRoots`: both
calls of `l.remove` return an error, so the counts of the successful calls add up to 0, and the
summary of epoch 0 has `blobsPruned` at 3, the sum of the counts of the failed calls; the error
returned is nil. -/
theorem pruneBefore_counts_failed_removals :
    (pruneBefore 1 memFs readOnlyFlatLayout treeTwoRoots 5).returnedError = some none ∧
      removeCalls (pruneBefore 1 memFs readOnlyFlatLayout treeTwoRoots 5).events =
        [(⟨bytesB, 0, 0⟩, 2, some (.foreign "read-only file system")),
          (⟨bytesA, 0, 1⟩, 1, some (.foreign "read-only file system"))] ∧
      successfulCount
        (removeCalls (pruneBefore 1 memFs readOnlyFlatLayout treeTwoRoots 5).events) 0 = 0 ∧
      (pruneBefore 1 memFs readOnlyFlatLayout treeTwoRoots 5).summary 0 =
        some ⟨3, [rootB, rootA]⟩ := by
  decide

/-- C8, amended: a run of `pruneBefore` whose iterator is walked to its `io.EOF` without
another fatal error returns a nil error, whatever the calls of `l.remove` returned, and a map
in which the entry of each epoch `e` is absent when no call of `l.remove` was for an ident of
epoch `e`, and else has for `blobsPruned` the sum of the counts returned by all these calls,
failed ones included, and for `failedRemovals` the `l.dir(ident)` of exactly those that returned
an error, in the order of the calls. -/
theorem pruneBefore_summary_of_removals {σ : Type} (before : Nat) (fs : Fs σ) (l : fsLayout σ)
    (w : σ) (fuel : Nat)
    (hrun : walkedToEOF (nextResults (pruneBefore before fs l w fuel).events) = true) :
    ∃ sums, (pruneBefore before fs l w fuel).outcome = .returned (some sums, none) ∧
      ∀ e, sums e = summaryAt l.dir (removeCalls (pruneBefore before fs l w fuel).events) e := by
  rcases pruneBefore_events before fs l w fuel with h | ⟨iter, h⟩
  · rw [h] at hrun
    simp [nextResults, walkedToEOF] at hrun
  · rw [h] at hrun ⊢
    refine ⟨_, pruneLoop_returns fs l before fuel iter blobIdent.zero (fun _ => none) w hrun,
      fun e => ?_⟩
    rw [foldl_recordRemoval]
    unfold summaryAt
    simp

/-- C8, amended, on the tree `treeTwoRoots` with the layout `readOnlyFlatLayout`, whose removals
all fail. -/
theorem pruneBefore_summary_of_removals_witness :
    ∃ sums, (pruneBefore 1 memFs readOnlyFlatLayout treeTwoRoots 5).outcome =
        .returned (some sums, none) ∧
      ∀ e, sums e = summaryAt readOnlyFlatLayout.dir
        (removeCalls (pruneBefore 1 memFs readOnlyFlatLayout treeTwoRoots 5).events) e :=
  pruneBefore_summary_of_removals 1 memFs readOnlyFlatLayout treeTwoRoots 5 (by decide)

/-- C7, amended, on the tree `treeTwoRoots` with the flat layout: root B, with two indices, and
root A are removed once each. -/
theorem pruneBefore_removes_each_root_once_witness :
    ((removeCalls (pruneBefore 1 memFs flatLayout treeTwoRoots 5).events).map
        (·.1.root)).Nodup ∧
      (removeCalls (pruneBefore 1 memFs flatLayout treeTwoRoots 5).events).map (·.1.root) =
        [bytesB, bytesA] :=
  ⟨(pruneBefore_removes_each_root_once 1 memFs flatLayout treeTwoRoots 5 (by decide)
      (by decide) (by decide)).1, by decide⟩

/-! ## Migration between layouts -/

theorem cleanDirs_calls {σ : Type} (fs : Fs σ) : ∀ (dirs : List String) (w : σ),
    nextResults (cleanDirs fs dirs w).2 = [] ∧ ensureCalls (cleanDirs fs dirs w).2 = [] ∧
      renameCalls (cleanDirs fs dirs w).2 = []
  | [], w => by simp [cleanDirs, nextResults, ensureCalls, renameCalls]
  | d :: rest, w => by
    simp only [cleanDirs, nextResults, ensureCalls, renameCalls]
    exact cleanDirs_calls fs rest _

theorem cleanLayer_calls {σ : Type} (d : dirCleaner) (fs : Fs σ) (layer : Nat) (w : σ) :
    nextResults (d.cleanLayer fs layer w).2 = [] ∧ ensureCalls (d.cleanLayer fs layer w).2 = [] ∧
      renameCalls (d.cleanLayer fs layer w).2 = [] := by
  unfold dirCleaner.cleanLayer
  split
  · simp [nextResults, ensureCalls, renameCalls]
  · exact cleanDirs_calls fs _ w

theorem ensureCalls_append : ∀ (a b : List Event),
    ensureCalls (a ++ b) = ensureCalls a ++ ensureCalls b
  | [], b => rfl
  | ev :: a, b => by
    cases ev <;> simp [ensureCalls, ensureCalls_append a b]

theorem renameCalls_append : ∀ (a b : List Event),
    renameCalls (a ++ b) = renameCalls a ++ renameCalls b
  | [], b => rfl
  | ev :: a, b => by
    cases ev <;> simp [renameCalls, renameCalls_append a b]

theorem cleanFrom_calls {σ : Type} (d : dirCleaner) (fs : Fs σ) : ∀ (i : Nat) (w : σ),
    nextResults (d.cleanFrom fs i w).2 = [] ∧ ensureCalls (d.cleanFrom fs i w).2 = [] ∧
      renameCalls (d.cleanFrom fs i w).2 = []
  | 0, w => cleanLayer_calls d fs 0 w
  | i + 1, w => by
    simp only [dirCleaner.cleanFrom, nextResults_append, ensureCalls_append, renameCalls_append]
    obtain ⟨h1, h2, h3⟩ := cleanLayer_calls d fs (i + 1) w
    obtain ⟨h4, h5, h6⟩ := cleanFrom_calls d fs i (d.cleanLayer fs (i + 1) w).1
    rw [h1, h2, h3, h4, h5, h6]
    simp

theorem clean_calls {σ : Type} (d : dirCleaner) (fs : Fs σ) (w : σ) :
    nextResults (d.clean fs w).2 = [] ∧ ensureCalls (d.clean fs w).2 = [] ∧
      renameCalls (d.clean fs w).2 = [] :=
  cleanFrom_calls d fs d.maxDepth w

theorem newDirCleaner_clean {σ : Type} (fs : Fs σ) (w : σ) :
    newDirCleaner.clean fs w = (w, []) := rfl

/-- C10, as stated, fails on the tree `treeNoRoots`: the iterator of the flat layout yields
nothing before its `io.EOF`, its flag `eof` is not set, and `migrateLayout` returns nil instead
of `errLayoutNotDetected`, after the one call of `next`. -/
theorem migrateLayout_nil_when_nothing_yielded :
    (flatLayout.iterateIdents 0 treeNoRoots).1.atEOF = some false ∧
      untilEOF treeNoRoots.readdirnames 1 (flatLayout.iterateIdents 0 treeNoRoots).1 = some [] ∧
      (migrateLayout memFs flatLayout byEpochLayout blobStorageSummaryCache.empty
        treeNoRoots 1).outcome = .returned none ∧
      (migrateLayout memFs flatLayout byEpochLayout blobStorageSummaryCache.empty
        treeNoRoots 1).events = [.next blobIdent.zero (some ioEOF)] := by
  decide

/-- C10, amended: when the iterator of the legacy layout is at EOF as `atEOF` sees it, the flag
`eof` set, `migrateLayout` returns `errLayoutNotDetected` without any call: no `next`, no
rename, no mkdir, no removal and no cache update. When the flag is not set and the first call of
`next` returns `io.EOF`, so that the iterator yields nothing, `migrateLayout` returns nil, and
that call of `next` is the only call it makes: the filesystem and the cache are unchanged. -/
theorem migrateLayout_without_idents {σ : Type} (fs : Fs σ) (src tgt : fsLayout σ)
    (cache : blobStorageSummaryCache) (w : σ) (iter : identIterator) (fuel : Nat)
    (hiter : src.iterateIdents 0 w = (iter, none)) :
    (iter.atEOF = some true →
        migrateLayout fs src tgt cache w fuel =
          ⟨.returned (some errLayoutNotDetected), w, cache, []⟩) ∧
      (iter.atEOF = some false → ∀ r : IterResult,
        firstResults (fs.readdirnames w) 1 iter = some [r] → errorsIsOpt r.2 ioEOF = true →
        0 < fuel →
        migrateLayout fs src tgt cache w fuel = ⟨.returned none, w, cache, [.next r.1 r.2]⟩) := by
  constructor
  · intro h
    unfold migrateLayout
    rw [hiter]
    simp only [h]
  · intro h r hr heof hfuel
    obtain ⟨f, rfl⟩ : ∃ f, fuel = f + 1 := ⟨fuel - 1, by omega⟩
    obtain ⟨it, hn, _⟩ := firstResults_succ_cons hr
    obtain ⟨ident, err⟩ := r
    unfold migrateLayout
    rw [hiter]
    simp only [h, migrateLoop, hn]
    simp only at heof
    simp only [heof, if_true, newDirCleaner_clean]

/-- C10, amended, on two trees: the tree `treeTwoRoots` has no directory `by-epoch`, so the
iterator of the by-epoch layout has its flag `eof` set; the tree `treeNoRoots` gives the flat
layout an iterator that yields nothing. -/
theorem migrateLayout_without_idents_witness :
    migrateLayout memFs byEpochLayout flatLayout blobStorageSummaryCache.empty treeTwoRoots 0 =
        ⟨.returned (some errLayoutNotDetected), treeTwoRoots, blobStorageSummaryCache.empty, []⟩ ∧
      migrateLayout memFs flatLayout byEpochLayout blobStorageSummaryCache.empty treeNoRoots 1 =
        ⟨.returned none, treeNoRoots, blobStorageSummaryCache.empty,
          [.next blobIdent.zero (some ioEOF)]⟩ :=
  ⟨(migrateLayout_without_idents memFs byEpochLayout flatLayout blobStorageSummaryCache.empty
      treeTwoRoots (byEpochLayout.iterateIdents 0 treeTwoRoots).1 0 rfl).1 (by decide),
    (migrateLayout_without_idents memFs flatLayout byEpochLayout blobStorageSummaryCache.empty
      treeNoRoots (flatLayout.iterateIdents 0 treeNoRoots).1 1 rfl).2 (by decide)
      (blobIdent.zero, some ioEOF) (by decide) (by decide) (by decide)⟩

theorem makeTargetParent_calls {σ : Type} (fs : Fs σ) (parentDirs : List String)
    (source target : String) (w : σ) :
    nextResults (makeTargetParent fs parentDirs source target w).2.2.2 = [] ∧
      ensureCalls (makeTargetParent fs parentDirs source target w).2.2.2 = [] ∧
      renameCalls (makeTargetParent fs parentDirs source target w).2.2.2 = [] := by
  unfold makeTargetParent
  simp only []
  split
  · split <;> simp [nextResults, ensureCalls, renameCalls]
  · simp [nextResults, ensureCalls, renameCalls]

theorem moveDir_calls {σ : Type} (fs : Fs σ) (parents : List String) (v : MigrateVars)
    (source target : String) (w : σ) :
    nextResults (moveDir fs parents v source target w).2.2.2 = [] ∧
      ensureCalls (moveDir fs parents v source target w).2.2.2 = [] ∧
      ((moveDir fs parents v source target w).1 = none →
        renameCalls (moveDir fs parents v source target w).2.2.2 = [(source, target, none)] ∧
          (moveDir fs parents v source target w).2.1.lastMoved = source) := by
  obtain ⟨h1, h2, h3⟩ := makeTargetParent_calls fs v.parentDirs source target w
  unfold moveDir
  split
  · rename_i e pd w1 evs heq
    rw [heq] at h1 h2 h3
    simp only at h1 h2 h3
    exact ⟨h1, h2, fun h => by cases h⟩
  · rename_i pd w1 evs heq
    rw [heq] at h1 h2 h3
    simp only at h1 h2 h3
    split
    · simp only [nextResults_append, ensureCalls_append, h1, h2, nextResults, ensureCalls]
      exact ⟨rfl, rfl, fun h => by cases h⟩
    · simp only [nextResults_append, ensureCalls_append, renameCalls_append, h1, h2, h3,
        nextResults, ensureCalls, renameCalls]
      simp

/-- A run of the loop of `migrateLayout` that returns nil: the iterator was walked to its
`io.EOF`, one rename was made, with success, for each ident yielded whose source directory is
not the one last moved, and `ensure` was called with success on each ident yielded. -/
theorem migrateLoop_returns_nil {σ : Type} (fs : Fs σ) (src tgt : fsLayout σ) :
    ∀ (fuel : Nat) (iter : identIterator) (v : MigrateVars) (cache : blobStorageSummaryCache)
      (w : σ), (migrateLoop fs src tgt fuel iter v cache w).outcome = .returned none →
      walkedToEOF (nextResults (migrateLoop fs src tgt fuel iter v cache w).events) = true ∧
      renameCalls (migrateLoop fs src tgt fuel iter v cache w).events =
        (moveStarts src.dir v.lastMoved
          (yieldedIdents (nextResults (migrateLoop fs src tgt fuel iter v cache w).events))).map
            (fun f => (src.dir f, tgt.dir f, none)) ∧
      ensureCalls (migrateLoop fs src tgt fuel iter v cache w).events =
        (yieldedIdents (nextResults (migrateLoop fs src tgt fuel iter v cache w).events)).map
          (fun i => (i, none)) ∧
      ensureAll cache
          (yieldedIdents (nextResults (migrateLoop fs src tgt fuel iter v cache w).events)) =
        .ok (migrateLoop fs src tgt fuel iter v cache w).cache
  | 0, iter, v, cache, w => by
    intro h
    simp [migrateLoop] at h
  | fuel + 1, iter, v, cache, w => by
    rw [migrateLoop]
    cases hn : iter.next (fs.readdirnames w) with
    | none => intro h; simp at h
    | some p =>
      obtain ⟨⟨ident, err⟩, it⟩ := p
      simp only []
      by_cases heof : errorsIsOpt err ioEOF = true
      · intro _
        obtain ⟨h1, h2, h3⟩ := clean_calls v.dc fs w
        have hsome : err ≠ none := by
          intro hc
          rw [hc] at heof
          simp [errorsIsOpt] at heof
        simp only [heof, if_true, nextResults, ensureCalls, renameCalls, h1, h2, h3,
          walkedToEOF, List.isEmpty_nil, yieldedIdents, List.filterMap_cons, hsome, if_false,
          List.filterMap_nil, moveStarts, List.map_nil, ensureAll, and_self]
      · simp only [heof, Bool.false_eq_true, if_false]
        cases err with
        | some e =>
          simp only []
          by_cases hid : errorsIs e errIdentFailure = true
          · intro h
            simp only [hid, if_true] at h ⊢
            obtain ⟨h1, h2, h3, h4⟩ := migrateLoop_returns_nil fs src tgt fuel it v cache w h
            simp only [nextResults, walkedToEOF, heof, Bool.false_eq_true, if_false, hid,
              Bool.true_and, h1, renameCalls, ensureCalls, yieldedIdents, List.filterMap_cons]
            exact ⟨trivial, h2, h3, h4⟩
          · intro h
            simp [hid] at h
        | none =>
          simp only []
          generalize hm : (if src.dir ident ≠ v.lastMoved then
            moveDir fs (src.blockParentDirs ident) v (src.dir ident) (tgt.dir ident) w
            else (none, v, w, [])) = m
          have hmcalls : nextResults m.2.2.2 = [] ∧ ensureCalls m.2.2.2 = [] ∧
              (m.1 = none →
                renameCalls m.2.2.2 = (if src.dir ident ≠ v.lastMoved then
                  [(src.dir ident, tgt.dir ident, none)] else []) ∧
                m.2.1.lastMoved = src.dir ident) := by
            by_cases hsrc : src.dir ident ≠ v.lastMoved
            · rw [if_pos hsrc] at hm
              subst hm
              obtain ⟨h1, h2, h3⟩ := moveDir_calls fs (src.blockParentDirs ident) v
                (src.dir ident) (tgt.dir ident) w
              refine ⟨h1, h2, fun h => ?_⟩
              rw [if_pos hsrc]
              exact h3 h
            · rw [if_neg hsrc] at hm
              subst hm
              refine ⟨rfl, rfl, fun _ => ?_⟩
              rw [if_neg hsrc]
              exact ⟨rfl, (not_not.mp hsrc).symm⟩
          cases hm1 : m.1 with
          | some e => intro h; simp at h
          | none =>
            simp only []
            cases hens : cache.ensure ident with
            | error e => intro h; simp at h
            | ok cache1 =>
              intro h
              simp only [] at h ⊢
              obtain ⟨h1, h2, h3, h4⟩ :=
                migrateLoop_returns_nil fs src tgt fuel it m.2.1 cache1 m.2.2.1 h
              obtain ⟨hc1, hc2, hc3⟩ := hmcalls
              obtain ⟨hc4, hc5⟩ := hc3 hm1
              simp only [nextResults, nextResults_append, hc1, List.nil_append, walkedToEOF,
                heof, Bool.false_eq_true, if_false, h1, renameCalls, renameCalls_append, hc4,
                ensureCalls, ensureCalls_append, hc2, yieldedIdents, List.filterMap_cons,
                if_true, moveStarts, ensureAll, hens, List.map_cons]
              refine ⟨trivial, ?_, ?_, h4⟩
              · rw [h2, hc5]
                by_cases hsrc : src.dir ident ≠ v.lastMoved
                · simp only [hsrc, if_true, ne_eq, not_false_eq_true, List.singleton_append,
                    List.map_cons]
                  rfl
                · have hsrc2 : src.dir ident = v.lastMoved := not_not.mp hsrc
                  simp only [hsrc, if_false, List.nil_append, ne_eq, hsrc2, not_true_eq_false]
                  rfl
              · rw [h3]
                rfl

theorem moveStarts_dirs (dir : blobIdent → String) :
    ∀ (idents : List blobIdent) (lastMoved : String),
      adjacentRuns (lastMoved :: idents.map dir) →
      ((moveStarts dir lastMoved idents).map dir).Nodup ∧
        ∀ d, d ∈ (moveStarts dir lastMoved idents).map dir ↔ d ∈ idents.map dir ∧ d ≠ lastMoved
  | [], lastMoved, _ => by simp [moveStarts]
  | ident :: rest, lastMoved, hadj => by
    have hadj1 : adjacentRuns (dir ident :: rest.map dir) := hadj.1
    have hhead : lastMoved ∈ dir ident :: rest.map dir → lastMoved = dir ident := by
      intro hm
      have := hadj.2 hm
      simpa using this.symm
    by_cases hsrc : dir ident = lastMoved
    · have hadj2 : adjacentRuns (lastMoved :: rest.map dir) := by
        rw [← hsrc]
        exact hadj1
      obtain ⟨hnd, hmem⟩ := moveStarts_dirs dir rest lastMoved hadj2
      simp only [moveStarts, hsrc, ne_eq, not_true_eq_false, if_false]
      refine ⟨hnd, fun d => ?_⟩
      rw [hmem d]
      simp only [List.map_cons, List.mem_cons, hsrc]
      tauto
    · obtain ⟨hnd, hmem⟩ := moveStarts_dirs dir rest (dir ident) hadj1
      have hnotin : dir ident ∉ (moveStarts dir (dir ident) rest).map dir := by
        intro hc
        exact ((hmem _).mp hc).2 rfl
      simp only [moveStarts, ne_eq, hsrc, not_false_eq_true, if_true, List.map_cons,
        List.nodup_cons, List.mem_cons]
      refine ⟨⟨hnotin, hnd⟩, fun d => ?_⟩
      rw [hmem d]
      constructor
      · rintro (h | ⟨h1, _⟩)
        · exact ⟨Or.inl h, fun hc => hsrc (h ▸ hc)⟩
        · refine ⟨Or.inr h1, fun hc => ?_⟩
          exact hsrc (hhead (by rw [hc] at h1; exact List.mem_cons_of_mem _ h1)).symm
      · rintro ⟨h | h, _⟩
        · exact Or.inl h
        · by_cases hd : d = dir ident
          · exact Or.inl hd
          · exact Or.inr ⟨h, hd⟩

theorem mkdirAllCalls_append : ∀ (a b : List Event),
    mkdirAllCalls (a ++ b) = mkdirAllCalls a ++ mkdirAllCalls b
  | [], b => rfl
  | ev :: a, b => by
    cases ev <;> simp [mkdirAllCalls, mkdirAllCalls_append a b]

theorem fsRemoveCalls_append : ∀ (a b : List Event),
    fsRemoveCalls (a ++ b) = fsRemoveCalls a ++ fsRemoveCalls b
  | [], b => rfl
  | ev :: a, b => by
    cases ev <;> simp [fsRemoveCalls, fsRemoveCalls_append a b]

theorem cleanDirs_fs_calls {σ : Type} (fs : Fs σ) : ∀ (dirs : List String) (w : σ),
    mkdirAllCalls (cleanDirs fs dirs w).2 = [] ∧ removeCalls (cleanDirs fs dirs w).2 = [] ∧
      fsRemoveCalls (cleanDirs fs dirs w).2 = dirs
  | [], w => by simp [cleanDirs, mkdirAllCalls, removeCalls, fsRemoveCalls]
  | d :: rest, w => by
    simp only [cleanDirs, mkdirAllCalls, removeCalls, fsRemoveCalls]
    obtain ⟨h1, h2, h3⟩ := cleanDirs_fs_calls fs rest (fs.Remove w d).2
    exact ⟨h1, h2, by rw [h3]⟩

theorem cleanLayer_fs_calls {σ : Type} (d : dirCleaner) (fs : Fs σ) (layer : Nat) (w : σ) :
    mkdirAllCalls (d.cleanLayer fs layer w).2 = [] ∧
      removeCalls (d.cleanLayer fs layer w).2 = [] ∧
      ∀ x ∈ fsRemoveCalls (d.cleanLayer fs layer w).2,
        ∃ n dirs, d.layers n = some dirs ∧ x ∈ dirs := by
  unfold dirCleaner.cleanLayer
  split
  · simp [mkdirAllCalls, removeCalls, fsRemoveCalls]
  · rename_i dirs heq
    obtain ⟨h1, h2, h3⟩ := cleanDirs_fs_calls fs dirs w
    refine ⟨h1, h2, fun x hx => ⟨layer, dirs, heq, ?_⟩⟩
    rw [h3] at hx
    exact hx

theorem cleanFrom_fs_calls {σ : Type} (d : dirCleaner) (fs : Fs σ) : ∀ (i : Nat) (w : σ),
    mkdirAllCalls (d.cleanFrom fs i w).2 = [] ∧ removeCalls (d.cleanFrom fs i w).2 = [] ∧
      ∀ x ∈ fsRemoveCalls (d.cleanFrom fs i w).2, ∃ n dirs, d.layers n = some dirs ∧ x ∈ dirs
  | 0, w => cleanLayer_fs_calls d fs 0 w
  | i + 1, w => by
    simp only [dirCleaner.cleanFrom, mkdirAllCalls_append, removeCalls_append,
      fsRemoveCalls_append]
    obtain ⟨h1, h2, h3⟩ := cleanLayer_fs_calls d fs (i + 1) w
    obtain ⟨h4, h5, h6⟩ := cleanFrom_fs_calls d fs i (d.cleanLayer fs (i + 1) w).1
    rw [h1, h2, h4, h5]
    refine ⟨rfl, rfl, fun x hx => ?_⟩
    rcases List.mem_append.mp hx with h | h
    · exact h3 x h
    · exact h6 x h

theorem dirCleaner_add_layers (d : dirCleaner) (dir : String) (n : Nat) (dirs : List String)
    (h : (d.add dir).layers n = some dirs) :
    ∀ x ∈ dirs, x = dir ∨ ∃ m old, d.layers m = some old ∧ x ∈ old := by
  intro x hx
  unfold dirCleaner.add at h
  simp only [] at h
  split at h
  · rename_i hn
    injection h with h
    subst h
    split at hx
    · cases hl : d.layers (splitSlashes dir.data []).length with
      | none => rw [hl] at hx; simp at hx
      | some old =>
        rw [hl] at hx
        exact Or.inr ⟨_, old, hl, by simpa using hx⟩
    · rcases List.mem_append.mp hx with h1 | h1
      · cases hl : d.layers (splitSlashes dir.data []).length with
        | none => rw [hl] at h1; simp at h1
        | some old =>
          rw [hl] at h1
          exact Or.inr ⟨_, old, hl, by simpa using h1⟩
      · exact Or.inl (by simpa using h1)
  · exact Or.inr ⟨n, dirs, h, hx⟩

theorem dirCleaner_foldl_add_layers : ∀ (parents : List String) (d : dirCleaner) (n : Nat)
    (dirs : List String), (parents.foldl dirCleaner.add d).layers n = some dirs →
    ∀ x ∈ dirs, x ∈ parents ∨ ∃ m old, d.layers m = some old ∧ x ∈ old
  | [], d, n, dirs, h, x, hx => Or.inr ⟨n, dirs, h, hx⟩
  | p :: rest, d, n, dirs, h, x, hx => by
    rw [List.foldl_cons] at h
    rcases dirCleaner_foldl_add_layers rest (d.add p) n dirs h x hx with h1 | ⟨m, old, h2, h3⟩
    · exact Or.inl (List.mem_cons_of_mem _ h1)
    · rcases dirCleaner_add_layers d p m old h2 x h3 with h4 | h4
      · exact Or.inl (h4 ▸ List.mem_cons_self _ _)
      · exact Or.inr h4

theorem makeTargetParent_fs_calls {σ : Type} (fs : Fs σ) (parentDirs : List String)
    (source target : String) (w : σ) :
    (∀ p ∈ mkdirAllCalls (makeTargetParent fs parentDirs source target w).2.2.2,
        p = filepathDir target) ∧
      removeCalls (makeTargetParent fs parentDirs source target w).2.2.2 = [] ∧
      fsRemoveCalls (makeTargetParent fs parentDirs source target w).2.2.2 = [] := by
  unfold makeTargetParent
  simp only []
  split
  · split <;> simp [mkdirAllCalls, removeCalls, fsRemoveCalls]
  · simp [mkdirAllCalls, removeCalls, fsRemoveCalls]

theorem moveDir_fs_calls {σ : Type} (fs : Fs σ) (parents : List String) (v : MigrateVars)
    (source target : String) (w : σ) :
    (∀ p ∈ mkdirAllCalls (moveDir fs parents v source target w).2.2.2,
        p = filepathDir target) ∧
      removeCalls (moveDir fs parents v source target w).2.2.2 = [] ∧
      fsRemoveCalls (moveDir fs parents v source target w).2.2.2 = [] ∧
      ∀ n dirs, (moveDir fs parents v source target w).2.1.dc.layers n = some dirs →
        ∀ x ∈ dirs, x ∈ parents ∨ ∃ m old, v.dc.layers m = some old ∧ x ∈ old := by
  obtain ⟨h1, h2, h3⟩ := makeTargetParent_fs_calls fs v.parentDirs source target w
  unfold moveDir
  split
  · rename_i e pd w1 evs heq
    rw [heq] at h1 h2 h3
    simp only at h1 h2 h3
    exact ⟨h1, h2, h3, fun n dirs h x hx => Or.inr ⟨n, dirs, h, hx⟩⟩
  · rename_i pd w1 evs heq
    rw [heq] at h1 h2 h3
    simp only at h1 h2 h3
    split
    · simp only [mkdirAllCalls_append, removeCalls_append, fsRemoveCalls_append, h2, h3,
        mkdirAllCalls, removeCalls, fsRemoveCalls, List.append_nil]
      exact ⟨h1, trivial, trivial, fun n dirs h x hx => Or.inr ⟨n, dirs, h, hx⟩⟩
    · simp only [mkdirAllCalls_append, removeCalls_append, fsRemoveCalls_append, h2, h3,
        mkdirAllCalls, removeCalls, fsRemoveCalls, List.append_nil]
      exact ⟨h1, trivial, trivial,
        fun n dirs h x hx => dirCleaner_foldl_add_layers parents v.dc n dirs h x hx⟩

/-- The filesystem calls of the loop of `migrateLayout`, in any run: `MkdirAll` only on the
directory above the target of an ident yielded, `Remove` only on a directory recorded in the
cleaner, from `from.blockParentDirs` of an ident yielded, and no call of `l.remove`. -/
theorem migrateLoop_fs_calls {σ : Type} (fs : Fs σ) (src tgt : fsLayout σ)
    (P Q : String → Prop) :
    ∀ (fuel : Nat) (iter : identIterator) (v : MigrateVars) (cache : blobStorageSummaryCache)
      (w : σ), (∀ n dirs, v.dc.layers n = some dirs → ∀ x ∈ dirs, Q x) →
      (∀ i ∈ yieldedIdents (nextResults (migrateLoop fs src tgt fuel iter v cache w).events),
        P (filepathDir (tgt.dir i)) ∧ ∀ x ∈ src.blockParentDirs i, Q x) →
      (∀ p ∈ mkdirAllCalls (migrateLoop fs src tgt fuel iter v cache w).events, P p) ∧
        (∀ x ∈ fsRemoveCalls (migrateLoop fs src tgt fuel iter v cache w).events, Q x) ∧
        removeCalls (migrateLoop fs src tgt fuel iter v cache w).events = []
  | 0, iter, v, cache, w => by
    intro _ _
    simp [migrateLoop, mkdirAllCalls, fsRemoveCalls, removeCalls]
  | fuel + 1, iter, v, cache, w => by
    rw [migrateLoop]
    cases hn : iter.next (fs.readdirnames w) with
    | none => intro _ _; simp [mkdirAllCalls, fsRemoveCalls, removeCalls]
    | some p =>
      obtain ⟨⟨ident, err⟩, it⟩ := p
      simp only []
      by_cases heof : errorsIsOpt err ioEOF = true
      · intro hdc _
        obtain ⟨h1, h2, h3⟩ := cleanFrom_fs_calls v.dc fs v.dc.maxDepth w
        simp only [heof, if_true, mkdirAllCalls, fsRemoveCalls, removeCalls]
        refine ⟨?_, ?_, h2⟩
        · intro p hp
          rw [show (v.dc.clean fs w).2 = (v.dc.cleanFrom fs v.dc.maxDepth w).2 from rfl, h1] at hp
          cases hp
        · intro x hx
          obtain ⟨n, dirs, hl, hm⟩ := h3 x hx
          exact hdc n dirs hl x hm
      · simp only [heof, Bool.false_eq_true, if_false]
        cases err with
        | some e =>
          simp only []
          by_cases hid : errorsIs e errIdentFailure = true
          · intro hdc hY
            simp only [hid, if_true] at hY ⊢
            simp only [nextResults, yieldedIdents, List.filterMap_cons] at hY
            simp only [mkdirAllCalls, fsRemoveCalls, removeCalls]
            exact migrateLoop_fs_calls fs src tgt P Q fuel it v cache w hdc hY
          · intro _ _
            simp [hid, mkdirAllCalls, fsRemoveCalls, removeCalls]
        | none =>
          simp only []
          generalize hm : (if src.dir ident ≠ v.lastMoved then
            moveDir fs (src.blockParentDirs ident) v (src.dir ident) (tgt.dir ident) w
            else (none, v, w, [])) = m
          have hmcalls : nextResults m.2.2.2 = [] ∧
              (∀ p ∈ mkdirAllCalls m.2.2.2, p = filepathDir (tgt.dir ident)) ∧
              removeCalls m.2.2.2 = [] ∧ fsRemoveCalls m.2.2.2 = [] ∧
              ∀ n dirs, m.2.1.dc.layers n = some dirs →
                ∀ x ∈ dirs, x ∈ src.blockParentDirs ident ∨
                  ∃ k old, v.dc.layers k = some old ∧ x ∈ old := by
            by_cases hsrc : src.dir ident ≠ v.lastMoved
            · rw [if_pos hsrc] at hm
              subst hm
              obtain ⟨h1, h2, h3, h4⟩ := moveDir_fs_calls fs (src.blockParentDirs ident) v
                (src.dir ident) (tgt.dir ident) w
              exact ⟨(moveDir_calls fs (src.blockParentDirs ident) v
                (src.dir ident) (tgt.dir ident) w).1, h1, h2, h3, h4⟩
            · rw [if_neg hsrc] at hm
              subst hm
              refine ⟨rfl, ?_, rfl, rfl, fun n dirs h x hx => Or.inr ⟨n, dirs, h, hx⟩⟩
              intro p hp
              simp [mkdirAllCalls] at hp
          obtain ⟨hc0, hc1, hc2, hc3, hc4⟩ := hmcalls
          cases hm1 : m.1 with
          | some e =>
            intro _ hY
            simp only [] at hY ⊢
            simp only [nextResults, hc0, yieldedIdents, List.filterMap_cons, if_true,
              List.filterMap_nil, List.mem_singleton, forall_eq] at hY
            simp only [mkdirAllCalls, fsRemoveCalls, removeCalls, hc2, hc3]
            exact ⟨fun p hp => hc1 p hp ▸ hY.1, fun x hx => by simp at hx, trivial⟩
          | none =>
            simp only []
            cases hens : cache.ensure ident with
            | error e =>
              intro _ hY
              simp only [] at hY ⊢
              simp only [nextResults, nextResults_append, hc0, yieldedIdents,
                List.filterMap_cons, if_true, List.filterMap_nil, List.nil_append,
                List.mem_singleton, forall_eq] at hY
              simp only [mkdirAllCalls, fsRemoveCalls, removeCalls, mkdirAllCalls_append,
                fsRemoveCalls_append, removeCalls_append, hc2, hc3, List.append_nil]
              exact ⟨fun p hp => hc1 p hp ▸ hY.1, fun x hx => by simp at hx, trivial⟩
            | ok cache1 =>
              intro hdc hY
              simp only [] at hY ⊢
              simp only [nextResults, nextResults_append, hc0, yieldedIdents,
                List.filterMap_cons, if_true, List.nil_append, List.mem_cons,
                forall_eq_or_imp] at hY
              obtain ⟨hY1, hY2⟩ := hY
              have hdc1 : ∀ n dirs, m.2.1.dc.layers n = some dirs → ∀ x ∈ dirs, Q x := by
                intro n dirs h x hx
                rcases hc4 n dirs h x hx with h1 | ⟨k, old, h2, h3⟩
                · exact hY1.2 x h1
                · exact hdc k old h2 x h3
              obtain ⟨h1, h2, h3⟩ :=
                migrateLoop_fs_calls fs src tgt P Q fuel it m.2.1 cache1 m.2.2.1 hdc1 hY2
              simp only [mkdirAllCalls, fsRemoveCalls, removeCalls, mkdirAllCalls_append,
                fsRemoveCalls_append, removeCalls_append, hc2, hc3, h3, List.nil_append,
                List.mem_append]
              refine ⟨?_, h2, trivial⟩
              rintro p (hp | hp)
              · exact hc1 p hp ▸ hY1.1
              · exact h1 p hp

/-- The calls of a run of `migrateLayout` that returns nil, on any filesystem and with any
layouts: the renames it made are, in order, one successful
`Rename(from.dir(ident), to.dir(ident))` for each ident yielded whose source directory is not
the one last moved, the first ident of each run of idents that share a source directory;
`cache.ensure` was called with success on every ident yielded, so that the cache
has a bit set exactly when it was set before or an ident yielded has that root and index; when
the idents of each source directory are yielded adjacently and no source directory is the
empty path, each distinct source directory has been renamed exactly once; and apart from the
renames the only filesystem calls are `MkdirAll` on the directory above the target of an ident
yielded and `Remove` on a directory of `from.blockParentDirs` of an ident yielded, with no call
of `remove` of a layout. -/
theorem migrateLayout_renames_each_source_dir {σ : Type} (fs : Fs σ) (src tgt : fsLayout σ)
    (cache : blobStorageSummaryCache) (w : σ) (fuel : Nat)
    (h : (migrateLayout fs src tgt cache w fuel).outcome = .returned none) :
    renameCalls (migrateLayout fs src tgt cache w fuel).events =
        (moveStarts src.dir ""
          (yieldedIdents (nextResults (migrateLayout fs src tgt cache w fuel).events))).map
            (fun f => (src.dir f, tgt.dir f, none)) ∧
      ensureCalls (migrateLayout fs src tgt cache w fuel).events =
        (yieldedIdents (nextResults (migrateLayout fs src tgt cache w fuel).events)).map
          (fun i => (i, none)) ∧
      (∀ (root : Bytes32) (i : Nat),
        ((migrateLayout fs src tgt cache w fuel).cache.HasIndex root i = true ↔
          cache.HasIndex root i = true ∨
            ∃ ident ∈ yieldedIdents
                (nextResults (migrateLayout fs src tgt cache w fuel).events),
              ident.root = root ∧ ident.index = i)) ∧
      (adjacentRuns ((yieldedIdents
            (nextResults (migrateLayout fs src tgt cache w fuel).events)).map src.dir) →
        "" ∉ (yieldedIdents
            (nextResults (migrateLayout fs src tgt cache w fuel).events)).map src.dir →
        ((renameCalls (migrateLayout fs src tgt cache w fuel).events).map (·.1)).Nodup ∧
          ∀ d, d ∈ (renameCalls (migrateLayout fs src tgt cache w fuel).events).map (·.1) ↔
            d ∈ (yieldedIdents
              (nextResults (migrateLayout fs src tgt cache w fuel).events)).map src.dir) ∧
      (∀ p ∈ mkdirAllCalls (migrateLayout fs src tgt cache w fuel).events,
        ∃ i ∈ yieldedIdents (nextResults (migrateLayout fs src tgt cache w fuel).events),
          p = filepathDir (tgt.dir i)) ∧
      (∀ x ∈ fsRemoveCalls (migrateLayout fs src tgt cache w fuel).events,
        ∃ i ∈ yieldedIdents (nextResults (migrateLayout fs src tgt cache w fuel).events),
          x ∈ src.blockParentDirs i) ∧
      removeCalls (migrateLayout fs src tgt cache w fuel).events = [] := by
  have hloop : ∃ iter, migrateLayout fs src tgt cache w fuel =
      migrateLoop fs src tgt fuel iter
        { lastMoved := "", parentDirs := [], moved := 0, dc := newDirCleaner } cache w := by
    unfold migrateLayout at h ⊢
    split at h
    · simp at h
    · rename_i iter heq
      split at h
      · simp at h
      · simp at h
      · exact ⟨iter, rfl⟩
  obtain ⟨iter, hrun⟩ := hloop
  rw [hrun] at h ⊢
  obtain ⟨_, h2, h3, h4⟩ := migrateLoop_returns_nil fs src tgt fuel iter _ cache w h
  obtain ⟨h5, h6, h7⟩ := migrateLoop_fs_calls fs src tgt
    (fun p => ∃ i ∈ yieldedIdents (nextResults (migrateLoop fs src tgt fuel iter
      { lastMoved := "", parentDirs := [], moved := 0, dc := newDirCleaner }
      cache w).events), p = filepathDir (tgt.dir i))
    (fun x => ∃ i ∈ yieldedIdents (nextResults (migrateLoop fs src tgt fuel iter
      { lastMoved := "", parentDirs := [], moved := 0, dc := newDirCleaner }
      cache w).events), x ∈ src.blockParentDirs i)
    fuel iter { lastMoved := "", parentDirs := [], moved := 0, dc := newDirCleaner } cache w
    (fun n dirs hl => by cases hl)
    (fun i hi => ⟨⟨i, hi, rfl⟩, fun x hx => ⟨i, hi, hx⟩⟩)
  refine ⟨h2, h3, ensureAll_hasIndex _ cache _ h4, fun hadj hne => ?_, h5, h6, h7⟩
  have hadj2 : adjacentRuns ("" :: (yieldedIdents (nextResults (migrateLoop fs src tgt fuel iter
      { lastMoved := "", parentDirs := [], moved := 0, dc := newDirCleaner }
      cache w).events)).map src.dir) := ⟨hadj, fun hm => absurd hm hne⟩
  obtain ⟨hnd, hmem⟩ := moveStarts_dirs src.dir _ "" hadj2
  have hmap : (renameCalls (migrateLoop fs src tgt fuel iter
      { lastMoved := "", parentDirs := [], moved := 0, dc := newDirCleaner }
      cache w).events).map (·.1) =
      (moveStarts src.dir "" (yieldedIdents (nextResults (migrateLoop fs src tgt fuel iter
        { lastMoved := "", parentDirs := [], moved := 0, dc := newDirCleaner }
        cache w).events))).map src.dir := by
    rw [h2, List.map_map]
    rfl
  rw [hmap]
  refine ⟨hnd, fun d => ?_⟩
  rw [hmem d]
  constructor
  · exact fun hd => hd.1
  · exact fun hd => ⟨hd, fun hc => hne (hc ▸ hd)⟩

theorem errorsIs_wrap_migration (msg : String) :
    errorsIs (.wrap errMigrationFailure msg) errMigrationFailure = true := by
  simp only [errorsIs, errMigrationFailure]
  decide

theorem moveDir_failed_rename {σ : Type} (fs : Fs σ) (parents : List String) (v : MigrateVars)
    (source target : String) (w : σ) (s t : String) (e : GoError)
    (h : (s, t, some e) ∈ renameCalls (moveDir fs parents v source target w).2.2.2) :
    s = source ∧ t = target ∧
      (∃ msg, (moveDir fs parents v source target w).1 =
        some (.wrap errMigrationFailure msg)) ∧
      (∃ pre, (moveDir fs parents v source target w).2.2.2 =
        pre ++ [.rename source target (some e)]) ∧
      ∃ w0, fs.Rename w0 source target = (some e, (moveDir fs parents v source target w).2.2.1) := by
  obtain ⟨_, _, h3⟩ := makeTargetParent_calls fs v.parentDirs source target w
  unfold moveDir at h ⊢
  split at h
  · rename_i e1 pd w1 evs heq
    rw [heq] at h3
    simp only at h3
    simp only [h3] at h
    cases h
  · rename_i pd w1 evs heq
    rw [heq] at h3
    simp only at h3
    split at h
    · rename_i e2 w2 hren
      simp only [renameCalls_append, h3, renameCalls, List.nil_append, List.mem_singleton,
        Prod.mk.injEq, Option.some.injEq] at h
      obtain ⟨rfl, rfl, rfl⟩ := h
      exact ⟨rfl, rfl, ⟨_, rfl⟩, ⟨evs, rfl⟩, ⟨w1, hren⟩⟩
    · simp only [renameCalls_append, h3, renameCalls, List.nil_append, List.mem_singleton,
        Prod.mk.injEq] at h
      exact absurd h.2.2 (by simp)

/-- A run of the loop of `migrateLayout` in which a call of `Rename` fails: it returns an error
that matches `errMigrationFailure`, the failed call is the last call of the run, and the
filesystem left is the one that call returned. -/
theorem migrateLoop_failed_rename {σ : Type} (fs : Fs σ) (src tgt : fsLayout σ) (s t : String)
    (e : GoError) :
    ∀ (fuel : Nat) (iter : identIterator) (v : MigrateVars) (cache : blobStorageSummaryCache)
      (w : σ), (s, t, some e) ∈ renameCalls (migrateLoop fs src tgt fuel iter v cache w).events →
      (∃ err, (migrateLoop fs src tgt fuel iter v cache w).outcome = .returned (some err) ∧
        errorsIs err errMigrationFailure = true) ∧
      (∃ pre, (migrateLoop fs src tgt fuel iter v cache w).events =
        pre ++ [.rename s t (some e)]) ∧
      ∃ w0, fs.Rename w0 s t = (some e, (migrateLoop fs src tgt fuel iter v cache w).fs)
  | 0, iter, v, cache, w => by
    intro h
    simp [migrateLoop, renameCalls] at h
  | fuel + 1, iter, v, cache, w => by
    rw [migrateLoop]
    cases hn : iter.next (fs.readdirnames w) with
    | none => intro h; simp [renameCalls] at h
    | some p =>
      obtain ⟨⟨ident, err⟩, it⟩ := p
      simp only []
      by_cases heof : errorsIsOpt err ioEOF = true
      · intro h
        simp only [heof, if_true, renameCalls, (clean_calls v.dc fs w).2.2] at h
        cases h
      · simp only [heof, Bool.false_eq_true, if_false]
        cases err with
        | some e1 =>
          simp only []
          by_cases hid : errorsIs e1 errIdentFailure = true
          · intro h
            simp only [hid, if_true, renameCalls] at h ⊢
            obtain ⟨h1, ⟨pre, h2⟩, h3⟩ := migrateLoop_failed_rename fs src tgt s t e fuel it v
              cache w h
            exact ⟨h1, ⟨.next ident (some e1) :: pre, by rw [h2]; rfl⟩, h3⟩
          · intro h
            simp [hid, renameCalls] at h
        | none =>
          simp only []
          generalize hm : (if src.dir ident ≠ v.lastMoved then
            moveDir fs (src.blockParentDirs ident) v (src.dir ident) (tgt.dir ident) w
            else (none, v, w, [])) = m
          have hmf : (s, t, some e) ∈ renameCalls m.2.2.2 →
              (∃ msg, m.1 = some (.wrap errMigrationFailure msg)) ∧
              (∃ pre, m.2.2.2 = pre ++ [.rename s t (some e)]) ∧
              ∃ w0, fs.Rename w0 s t = (some e, m.2.2.1) := by
            intro hmem
            by_cases hsrc : src.dir ident ≠ v.lastMoved
            · rw [if_pos hsrc] at hm
              subst hm
              obtain ⟨rfl, rfl, h1, h2, h3⟩ := moveDir_failed_rename fs
                (src.blockParentDirs ident) v (src.dir ident) (tgt.dir ident) w s t e hmem
              exact ⟨h1, h2, h3⟩
            · rw [if_neg hsrc] at hm
              subst hm
              simp [renameCalls] at hmem
          have hmok : m.1 = none → (s, t, some e) ∉ renameCalls m.2.2.2 := by
            intro h1 hmem
            obtain ⟨⟨msg, h2⟩, _⟩ := hmf hmem
            rw [h1] at h2
            cases h2
          cases hm1 : m.1 with
          | some e2 =>
            intro h
            simp only [renameCalls] at h ⊢
            obtain ⟨⟨msg, h1⟩, ⟨pre, h2⟩, h3⟩ := hmf h
            rw [hm1] at h1
            injection h1 with h1
            subst h1
            exact ⟨⟨_, rfl, errorsIs_wrap_migration msg⟩,
              ⟨.next ident none :: pre, by rw [h2]; rfl⟩, h3⟩
          | none =>
            simp only []
            cases hens : cache.ensure ident with
            | error e2 =>
              intro h
              simp only [renameCalls, renameCalls_append, List.append_nil] at h
              exact absurd h (hmok hm1)
            | ok cache1 =>
              intro h
              simp only [renameCalls, renameCalls_append, List.mem_append] at h ⊢
              rcases h with h | h
              · exact absurd h (hmok hm1)
              · obtain ⟨h1, ⟨pre, h2⟩, h3⟩ := migrateLoop_failed_rename fs src tgt s t e fuel
                  it m.2.1 cache1 m.2.2.1 h
                refine ⟨h1, ⟨.next ident none :: (m.2.2.2 ++ .ensure ident none :: pre), ?_⟩, h3⟩
                rw [h2]
                simp

theorem replayFsCalls_append {σ : Type} (fs : Fs σ) (a b : List Event) (w : σ) :
    replayFsCalls fs (a ++ b) w = replayFsCalls fs b (replayFsCalls fs a w) := by
  simp [replayFsCalls, List.foldl_append]

theorem replayFsCalls_cons {σ : Type} (fs : Fs σ) (ev : Event) (evs : List Event) (w : σ) :
    replayFsCalls fs (ev :: evs) w = replayFsCalls fs evs (applyFsCall fs w ev) := rfl

theorem recordsFsCalls_append {σ : Type} (fs : Fs σ) : ∀ (a b : List Event) (w : σ),
    recordsFsCalls fs (a ++ b) w ↔
      recordsFsCalls fs a w ∧ recordsFsCalls fs b (replayFsCalls fs a w)
  | [], b, w => by simp [recordsFsCalls, replayFsCalls]
  | ev :: a, b, w => by
    have ih := recordsFsCalls_append fs a b (applyFsCall fs w ev)
    show (_ ∧ recordsFsCalls fs (a ++ b) (applyFsCall fs w ev)) ↔
      (_ ∧ recordsFsCalls fs a (applyFsCall fs w ev)) ∧
        recordsFsCalls fs b (replayFsCalls fs a (applyFsCall fs w ev))
    rw [ih]
    exact and_assoc.symm

theorem cleanDirs_replay {σ : Type} (fs : Fs σ) : ∀ (dirs : List String) (w : σ),
    (cleanDirs fs dirs w).1 = replayFsCalls fs (cleanDirs fs dirs w).2 w ∧
      recordsFsCalls fs (cleanDirs fs dirs w).2 w
  | [], w => by simp [cleanDirs, replayFsCalls, recordsFsCalls]
  | dir :: rest, w => by
    obtain ⟨h1, h2⟩ := cleanDirs_replay fs rest (fs.Remove w dir).2
    simp only [cleanDirs, replayFsCalls_cons, recordsFsCalls, applyFsCall]
    exact ⟨h1, trivial, h2⟩

theorem cleanLayer_replay {σ : Type} (d : dirCleaner) (fs : Fs σ) (layer : Nat) (w : σ) :
    (d.cleanLayer fs layer w).1 = replayFsCalls fs (d.cleanLayer fs layer w).2 w ∧
      recordsFsCalls fs (d.cleanLayer fs layer w).2 w := by
  unfold dirCleaner.cleanLayer
  split
  · simp [replayFsCalls, recordsFsCalls]
  · exact cleanDirs_replay fs _ w

theorem cleanFrom_replay {σ : Type} (d : dirCleaner) (fs : Fs σ) : ∀ (i : Nat) (w : σ),
    (d.cleanFrom fs i w).1 = replayFsCalls fs (d.cleanFrom fs i w).2 w ∧
      recordsFsCalls fs (d.cleanFrom fs i w).2 w
  | 0, w => cleanLayer_replay d fs 0 w
  | i + 1, w => by
    obtain ⟨h1, h2⟩ := cleanLayer_replay d fs (i + 1) w
    obtain ⟨h3, h4⟩ := cleanFrom_replay d fs i (d.cleanLayer fs (i + 1) w).1
    simp only [dirCleaner.cleanFrom, replayFsCalls_append, recordsFsCalls_append]
    rw [← h1]
    exact ⟨h3, h2, h4⟩

theorem makeTargetParent_replay {σ : Type} (fs : Fs σ) (parentDirs : List String)
    (source target : String) (w : σ) :
    (makeTargetParent fs parentDirs source target w).2.2.1 =
        replayFsCalls fs (makeTargetParent fs parentDirs source target w).2.2.2 w ∧
      recordsFsCalls fs (makeTargetParent fs parentDirs source target w).2.2.2 w := by
  unfold makeTargetParent
  simp only []
  split
  · split
    · rename_i e w1 heq
      simp [replayFsCalls, recordsFsCalls, applyFsCall, heq]
    · rename_i w1 heq
      simp [replayFsCalls, recordsFsCalls, applyFsCall, heq]
  · simp [replayFsCalls, recordsFsCalls]

theorem moveDir_replay {σ : Type} (fs : Fs σ) (parents : List String) (v : MigrateVars)
    (source target : String) (w : σ) :
    (moveDir fs parents v source target w).2.2.1 =
        replayFsCalls fs (moveDir fs parents v source target w).2.2.2 w ∧
      recordsFsCalls fs (moveDir fs parents v source target w).2.2.2 w := by
  obtain ⟨h1, h2⟩ := makeTargetParent_replay fs v.parentDirs source target w
  unfold moveDir
  split
  · rename_i e pd w1 evs heq
    rw [heq] at h1 h2
    exact ⟨h1, h2⟩
  · rename_i pd w1 evs heq
    rw [heq] at h1 h2
    simp only at h1 h2
    split
    · rename_i e w2 hren
      simp only [replayFsCalls_append, recordsFsCalls_append, ← h1]
      simp [replayFsCalls, recordsFsCalls, applyFsCall, hren, h2]
    · rename_i w2 hren
      simp only [replayFsCalls_append, recordsFsCalls_append, ← h1]
      simp [replayFsCalls, recordsFsCalls, applyFsCall, hren, h2]

/-- The filesystem that a run of the loop of `migrateLayout` leaves is the one that its calls
of `MkdirAll`, `Rename` and `Remove` make, in the order of the trace, from the filesystem it
started on, and the trace records the error of each as the call returned it. -/
theorem migrateLoop_replay {σ : Type} (fs : Fs σ) (src tgt : fsLayout σ) :
    ∀ (fuel : Nat) (iter : identIterator) (v : MigrateVars) (cache : blobStorageSummaryCache)
      (w : σ),
      (migrateLoop fs src tgt fuel iter v cache w).fs =
          replayFsCalls fs (migrateLoop fs src tgt fuel iter v cache w).events w ∧
        recordsFsCalls fs (migrateLoop fs src tgt fuel iter v cache w).events w
  | 0, iter, v, cache, w => by simp [migrateLoop, replayFsCalls, recordsFsCalls]
  | fuel + 1, iter, v, cache, w => by
    rw [migrateLoop]
    cases hn : iter.next (fs.readdirnames w) with
    | none => simp [replayFsCalls, recordsFsCalls]
    | some p =>
      obtain ⟨⟨ident, err⟩, it⟩ := p
      simp only []
      by_cases heof : errorsIsOpt err ioEOF = true
      · simp only [heof, if_true, replayFsCalls_cons, recordsFsCalls, applyFsCall, true_and]
        exact cleanFrom_replay v.dc fs v.dc.maxDepth w
      · simp only [heof, Bool.false_eq_true, if_false]
        cases err with
        | some e1 =>
          simp only []
          by_cases hid : errorsIs e1 errIdentFailure = true
          · simp only [hid, if_true, replayFsCalls_cons, recordsFsCalls, applyFsCall, true_and]
            exact migrateLoop_replay fs src tgt fuel it v cache w
          · simp [hid, replayFsCalls, recordsFsCalls, applyFsCall]
        | none =>
          simp only []
          generalize hm : (if src.dir ident ≠ v.lastMoved then
            moveDir fs (src.blockParentDirs ident) v (src.dir ident) (tgt.dir ident) w
            else (none, v, w, [])) = m
          have hmr : m.2.2.1 = replayFsCalls fs m.2.2.2 w ∧ recordsFsCalls fs m.2.2.2 w := by
            by_cases hsrc : src.dir ident ≠ v.lastMoved
            · rw [if_pos hsrc] at hm
              subst hm
              exact moveDir_replay fs _ v _ _ w
            · rw [if_neg hsrc] at hm
              subst hm
              simp [replayFsCalls, recordsFsCalls]
          cases hm1 : m.1 with
          | some e2 =>
            simp only [replayFsCalls_cons, recordsFsCalls, applyFsCall, true_and]
            exact hmr
          | none =>
            simp only []
            cases hens : cache.ensure ident with
            | error e2 =>
              simp only [replayFsCalls_cons, recordsFsCalls, applyFsCall, true_and,
                replayFsCalls_append, recordsFsCalls_append, ← hmr.1]
              simp [replayFsCalls, recordsFsCalls, applyFsCall, hmr.2]
            | ok cache1 =>
              obtain ⟨h1, h2⟩ := migrateLoop_replay fs src tgt fuel it m.2.1 cache1 m.2.2.1
              simp only [replayFsCalls_cons, recordsFsCalls, applyFsCall, true_and,
                replayFsCalls_append, recordsFsCalls_append, ← hmr.1]
              exact ⟨h1, hmr.2, h2⟩

theorem migrateLayout_replay {σ : Type} (fs : Fs σ) (src tgt : fsLayout σ)
    (cache : blobStorageSummaryCache) (w : σ) (fuel : Nat) :
    (migrateLayout fs src tgt cache w fuel).fs =
        replayFsCalls fs (migrateLayout fs src tgt cache w fuel).events w ∧
      recordsFsCalls fs (migrateLayout fs src tgt cache w fuel).events w := by
  unfold migrateLayout
  split
  · simp [replayFsCalls, recordsFsCalls]
  · split
    · simp [replayFsCalls, recordsFsCalls]
    · simp [replayFsCalls, recordsFsCalls]
    · exact migrateLoop_replay fs src tgt fuel _ _ cache w

/-- A call of `Rename` on a tree in memory that returns an error leaves the tree as it is. -/
theorem memFs_failed_rename_unchanged (m m1 : MemFs) (a b : String) (e : GoError)
    (h : memFs.Rename m a b = (some e, m1)) : m1 = m := by
  simp only [memFs, MemFs.Rename] at h
  split at h
  · exact (Prod.mk.inj h).2.symm
  · split at h
    · exact (Prod.mk.inj h).2.symm
    · split at h
      · cases (Prod.mk.inj h).1
      · split at h
        · exact (Prod.mk.inj h).2.symm
        · split at h
          · exact (Prod.mk.inj h).2.symm
          · split at h
            · exact (Prod.mk.inj h).2.symm
            · exact (Prod.mk.inj h).2.symm
            · split at h
              · cases (Prod.mk.inj h).1
              · exact (Prod.mk.inj h).2.symm

/-- A call of `Rename` on a tree in memory whose target is another path than the source and
has entries under it returns an error and leaves the tree as it is. -/
theorem memFs_rename_onto_contents_fails (m : MemFs) (a b : String)
    (hne : filepathCleanChars a.data ≠ filepathCleanChars b.data)
    (hbelow : m.below ⟨filepathCleanChars b.data⟩ ≠ []) :
    ∃ e, memFs.Rename m a b = (some e, m) := by
  have hne2 : (⟨filepathCleanChars a.data⟩ : String) ≠ ⟨filepathCleanChars b.data⟩ := by
    intro hc
    exact hne (congrArg String.data hc)
  have hemp : (m.below ⟨filepathCleanChars b.data⟩).isEmpty = false := by
    cases hb : m.below ⟨filepathCleanChars b.data⟩ with
    | nil => exact absurd hb hbelow
    | cons x l => rfl
  simp only [memFs, MemFs.Rename]
  repeat' split
  all_goals first | exact ⟨_, rfl⟩ | contradiction | simp_all

/-- C11: in a run of `migrateLayout` on a tree in memory, when a call `Rename(src, target)`
fails, `migrateLayout` returns an error that matches `errMigrationFailure`; the failed call is
the last call of the run, so that no further directory is renamed and nothing is removed; the
call was made on the tree that the earlier calls of the run had made of the tree at the start,
and it left that tree as it was, which is the tree after the run: the target, the listing of
the target and every path under the target hold after the run what they held before the call,
nothing being overwritten. In particular the call fails, leaving the tree as it is, whenever
the target is another path than the source and has entries under it. -/
theorem migrateLayout_stops_at_failed_rename (src tgt : fsLayout MemFs)
    (cache : blobStorageSummaryCache) (w : MemFs) (fuel : Nat) (s t : String) (e : GoError)
    (h : (s, t, some e) ∈ renameCalls (migrateLayout memFs src tgt cache w fuel).events) :
    (∃ err, (migrateLayout memFs src tgt cache w fuel).outcome = .returned (some err) ∧
        errorsIs err errMigrationFailure = true) ∧
      (∃ pre,
        (migrateLayout memFs src tgt cache w fuel).events = pre ++ [.rename s t (some e)] ∧
        memFs.Rename (replayFsCalls memFs pre w) s t =
          (some e, replayFsCalls memFs pre w) ∧
        (migrateLayout memFs src tgt cache w fuel).fs = replayFsCalls memFs pre w ∧
        (migrateLayout memFs src tgt cache w fuel).fs.stat t =
          (replayFsCalls memFs pre w).stat t ∧
        (migrateLayout memFs src tgt cache w fuel).fs.readdirnames t =
          (replayFsCalls memFs pre w).readdirnames t ∧
        ∀ p : String, isUnder t.data p.data = true →
          (migrateLayout memFs src tgt cache w fuel).fs.stat p =
            (replayFsCalls memFs pre w).stat p) ∧
      ∀ m : MemFs, filepathCleanChars s.data ≠ filepathCleanChars t.data →
        m.below ⟨filepathCleanChars t.data⟩ ≠ [] → ∃ e1, memFs.Rename m s t = (some e1, m) := by
  have hrun : (∃ err, (migrateLayout memFs src tgt cache w fuel).outcome =
        .returned (some err) ∧ errorsIs err errMigrationFailure = true) ∧
      ∃ pre, (migrateLayout memFs src tgt cache w fuel).events =
        pre ++ [.rename s t (some e)] := by
    unfold migrateLayout at h ⊢
    split at h
    · simp [renameCalls] at h
    · rename_i iter heq
      split at h
      · simp [renameCalls] at h
      · simp [renameCalls] at h
      · obtain ⟨h1, h2, _⟩ := migrateLoop_failed_rename memFs src tgt s t e fuel iter _ cache w h
        exact ⟨h1, h2⟩
  obtain ⟨hout, pre, hpre⟩ := hrun
  obtain ⟨hfs, hrec⟩ := migrateLayout_replay memFs src tgt cache w fuel
  rw [hpre, replayFsCalls_append] at hfs
  rw [hpre, recordsFsCalls_append] at hrec
  have hcall : (memFs.Rename (replayFsCalls memFs pre w) s t).1 = some e := hrec.2.1
  have hsame : (memFs.Rename (replayFsCalls memFs pre w) s t).2 = replayFsCalls memFs pre w :=
    memFs_failed_rename_unchanged _ _ s t e (Prod.ext hcall rfl)
  have hfinal : (migrateLayout memFs src tgt cache w fuel).fs = replayFsCalls memFs pre w := by
    rw [hfs]
    exact hsame
  refine ⟨hout, ⟨pre, hpre, Prod.ext hcall hsame, hfinal, ?_, ?_, ?_⟩,
    fun m hne hbelow => memFs_rename_onto_contents_fails m s t hne hbelow⟩
  · rw [hfinal]
  · rw [hfinal]
  · intro p _
    rw [hfinal]

/-- C11, on the tree `treeTargetExists`, from the flat layout to the by-epoch layout: the
rename of the directory of root B fails because its target is there with a file in it,
`migrateLayout` returns an error that matches `errMigrationFailure` after that call, and the
tree is as it was, the file in the target included. -/
theorem migrateLayout_stops_at_failed_rename_witness :
    (rootB, "by-epoch/0/" ++ rootB, some (.foreign "rename: directory not empty")) ∈
        renameCalls (migrateLayout memFs flatLayout byEpochLayout blobStorageSummaryCache.empty
          treeTargetExists 4).events ∧
      (∃ err, (migrateLayout memFs flatLayout byEpochLayout blobStorageSummaryCache.empty
        treeTargetExists 4).outcome = .returned (some err) ∧
        errorsIs err errMigrationFailure = true) ∧
      (migrateLayout memFs flatLayout byEpochLayout blobStorageSummaryCache.empty
        treeTargetExists 4).fs = treeTargetExists ∧
      treeTargetExists.stat ("by-epoch/0/" ++ rootB ++ "/0.ssz") = some (.file [9]) ∧
      treeTargetExists.stat (rootB ++ "/0.ssz") = some (.file [2]) :=
  ⟨by decide,
    (migrateLayout_stops_at_failed_rename flatLayout byEpochLayout
      blobStorageSummaryCache.empty treeTargetExists 4 rootB ("by-epoch/0/" ++ rootB)
      (.foreign "rename: directory not empty") (by decide)).1,
    by decide, by decide, by decide⟩

/-! ## Reaping directories -/

theorem dirCleaner_add_maxDepth (d : dirCleaner) (dir : String) :
    d.maxDepth ≤ (d.add dir).maxDepth ∧ nLayers dir ≤ (d.add dir).maxDepth := by
  unfold dirCleaner.add nLayers
  simp only []
  split <;> omega

/-- What `dirCleaner.add` keeps true of a cleaner that has recorded the directories `dirs`:
each layer is a set, holds the recorded directories of its depth and no other, and is no deeper
than `maxDepth`. -/
theorem dirCleaner_add_invariant (d : dirCleaner) (dirs : List String) (dir : String)
    (h1 : ∀ n l, d.layers n = some l →
      l.Nodup ∧ (∀ x ∈ l, nLayers x = n ∧ x ∈ dirs) ∧ n ≤ d.maxDepth)
    (h2 : ∀ x ∈ dirs, ∃ l, d.layers (nLayers x) = some l ∧ x ∈ l) :
    (∀ n l, (d.add dir).layers n = some l →
      l.Nodup ∧ (∀ x ∈ l, nLayers x = n ∧ x ∈ dirs ++ [dir]) ∧ n ≤ (d.add dir).maxDepth) ∧
      ∀ x ∈ dirs ++ [dir], ∃ l, (d.add dir).layers (nLayers x) = some l ∧ x ∈ l := by
  have hmax := dirCleaner_add_maxDepth d dir
  have hlay : ∀ n, (d.add dir).layers n =
      if n = nLayers dir then
        some (if dir ∈ (d.layers (nLayers dir)).getD [] then (d.layers (nLayers dir)).getD []
          else (d.layers (nLayers dir)).getD [] ++ [dir])
      else d.layers n := fun n => rfl
  have hold : ∀ x ∈ (d.layers (nLayers dir)).getD [], nLayers x = nLayers dir ∧ x ∈ dirs := by
    intro x hx
    cases hl : d.layers (nLayers dir) with
    | none => rw [hl] at hx; simp at hx
    | some l =>
      rw [hl] at hx
      exact (h1 _ l hl).2.1 x (by simpa using hx)
  have hnd : ((d.layers (nLayers dir)).getD []).Nodup := by
    cases hl : d.layers (nLayers dir) with
    | none => simp
    | some l => simpa using (h1 _ l hl).1
  constructor
  · intro n l hl
    rw [hlay] at hl
    by_cases hn : n = nLayers dir
    · rw [if_pos hn] at hl
      injection hl with hl
      subst hl
      subst hn
      refine ⟨?_, ?_, hmax.2⟩
      · split
        · exact hnd
        · rename_i hmem
          exact List.Nodup.append hnd (List.nodup_singleton _) (by simpa using hmem)
      · intro x hx
        split at hx
        · exact ⟨(hold x hx).1, List.mem_append_left _ (hold x hx).2⟩
        · rcases List.mem_append.mp hx with h | h
          · exact ⟨(hold x h).1, List.mem_append_left _ (hold x h).2⟩
          · have hxd : x = dir := by simpa using h
            subst hxd
            exact ⟨rfl, by simp⟩
    · rw [if_neg hn] at hl
      obtain ⟨ha, hb, hc⟩ := h1 n l hl
      exact ⟨ha, fun x hx => ⟨(hb x hx).1, List.mem_append_left _ (hb x hx).2⟩,
        Nat.le_trans hc hmax.1⟩
  · intro x hx
    rw [hlay]
    by_cases hn : nLayers x = nLayers dir
    · rw [if_pos hn]
      refine ⟨_, rfl, ?_⟩
      rcases List.mem_append.mp hx with h | h
      · obtain ⟨l, hl, hxl⟩ := h2 x h
        rw [hn] at hl
        have hxg : x ∈ (d.layers (nLayers dir)).getD [] := by rw [hl]; simpa using hxl
        split
        · exact hxg
        · exact List.mem_append_left _ hxg
      · have hxd : x = dir := by simpa using h
        subst hxd
        split
        · assumption
        · simp
    · rw [if_neg hn]
      rcases List.mem_append.mp hx with h | h
      · exact h2 x h
      · have hxd : x = dir := by simpa using h
        exact absurd (hxd ▸ rfl) hn

theorem dirCleaner_foldl_add_invariant : ∀ (more : List String) (d : dirCleaner)
    (dirs : List String),
    (∀ n l, d.layers n = some l →
      l.Nodup ∧ (∀ x ∈ l, nLayers x = n ∧ x ∈ dirs) ∧ n ≤ d.maxDepth) →
    (∀ x ∈ dirs, ∃ l, d.layers (nLayers x) = some l ∧ x ∈ l) →
    (∀ n l, (more.foldl dirCleaner.add d).layers n = some l →
      l.Nodup ∧ (∀ x ∈ l, nLayers x = n ∧ x ∈ dirs ++ more) ∧
        n ≤ (more.foldl dirCleaner.add d).maxDepth) ∧
      ∀ x ∈ dirs ++ more, ∃ l, (more.foldl dirCleaner.add d).layers (nLayers x) = some l ∧ x ∈ l
  | [], d, dirs, h1, h2 => by
    simp only [List.foldl_nil, List.append_nil]
    exact ⟨h1, h2⟩
  | dir :: more, d, dirs, h1, h2 => by
    obtain ⟨h3, h4⟩ := dirCleaner_add_invariant d dirs dir h1 h2
    have := dirCleaner_foldl_add_invariant more (d.add dir) (dirs ++ [dir]) h3 h4
    simpa [List.foldl_cons, List.append_assoc] using this

theorem mem_layersFrom (d : dirCleaner) (x : String) : ∀ (i : Nat),
    x ∈ d.layersFrom i ↔ ∃ n l, n ≤ i ∧ d.layers n = some l ∧ x ∈ l
  | 0 => by
    simp only [dirCleaner.layersFrom]
    constructor
    · intro h
      cases hl : d.layers 0 with
      | none => rw [hl] at h; simp at h
      | some l => rw [hl] at h; exact ⟨0, l, Nat.le_refl _, hl, by simpa using h⟩
    · rintro ⟨n, l, hn, hl, hx⟩
      obtain rfl : n = 0 := by omega
      rw [hl]
      simpa using hx
  | i + 1 => by
    simp only [dirCleaner.layersFrom, List.mem_append, mem_layersFrom d x i]
    constructor
    · rintro (h | ⟨n, l, hn, hl, hx⟩)
      · cases hl : d.layers (i + 1) with
        | none => rw [hl] at h; simp at h
        | some l => rw [hl] at h; exact ⟨i + 1, l, Nat.le_refl _, hl, by simpa using h⟩
      · exact ⟨n, l, by omega, hl, hx⟩
    · rintro ⟨n, l, hn, hl, hx⟩
      by_cases hni : n = i + 1
      · subst hni
        left
        rw [hl]
        simpa using hx
      · exact Or.inr ⟨n, l, by omega, hl, hx⟩

theorem layersFrom_ordered (d : dirCleaner)
    (h : ∀ n l, d.layers n = some l → l.Nodup ∧ ∀ x ∈ l, nLayers x = n) : ∀ (i : Nat),
    (d.layersFrom i).Nodup ∧ (d.layersFrom i).Pairwise (fun a b => nLayers b ≤ nLayers a)
  | 0 => by
    simp only [dirCleaner.layersFrom]
    cases hl : d.layers 0 with
    | none => simp
    | some l =>
      simp only [Option.getD_some]
      refine ⟨(h 0 l hl).1, List.pairwise_iff_forall_sublist.mpr ?_⟩
      intro a b hab
      have ha := (h 0 l hl).2 a (hab.subset (by simp))
      have hb := (h 0 l hl).2 b (hab.subset (by simp))
      omega
  | i + 1 => by
    obtain ⟨ih1, ih2⟩ := layersFrom_ordered d h i
    simp only [dirCleaner.layersFrom]
    have hbelow : ∀ y ∈ d.layersFrom i, nLayers y ≤ i := by
      intro y hy
      obtain ⟨n, l, hn, hl, hx⟩ := (mem_layersFrom d y i).mp hy
      rw [(h n l hl).2 y hx]
      exact hn
    cases hl : d.layers (i + 1) with
    | none => simpa using ⟨ih1, ih2⟩
    | some l =>
      simp only [Option.getD_some]
      have hdepth : ∀ x ∈ l, nLayers x = i + 1 := (h (i + 1) l hl).2
      constructor
      · refine List.Nodup.append (h (i + 1) l hl).1 ih1 ?_
        intro x hx hy
        have := hdepth x hx
        have := hbelow x hy
        omega
      · rw [List.pairwise_append]
        refine ⟨List.pairwise_iff_forall_sublist.mpr ?_, ih2, ?_⟩
        · intro a b hab
          have ha := hdepth a (hab.subset (by simp))
          have hb := hdepth b (hab.subset (by simp))
          omega
        · intro a ha b hb
          have := hdepth a ha
          have := hbelow b hb
          omega

theorem cleanDirs_events {σ : Type} (fs : Fs σ) : ∀ (dirs : List String) (w : σ),
    ∀ ev ∈ (cleanDirs fs dirs w).2, ∃ dir err, ev = Event.fsRemove dir err
  | [], w, ev, h => by simp [cleanDirs] at h
  | d :: rest, w, ev, h => by
    simp only [cleanDirs, List.mem_cons] at h
    rcases h with h | h
    · exact ⟨_, _, h⟩
    · exact cleanDirs_events fs rest _ ev h

theorem cleanDirs_preserves {σ : Type} (fs : Fs σ) (P : σ → Prop) :
    ∀ (dirs : List String) (w : σ), (∀ w x, x ∈ dirs → P w → P (fs.Remove w x).2) → P w →
      P (cleanDirs fs dirs w).1
  | [], w, _, hw => hw
  | d :: rest, w, h, hw => by
    simp only [cleanDirs]
    exact cleanDirs_preserves fs P rest _ (fun w x hx => h w x (List.mem_cons_of_mem _ hx))
      (h w d (List.mem_cons_self _ _) hw)

theorem cleanFrom_trace {σ : Type} (d : dirCleaner) (fs : Fs σ) (P : σ → Prop) :
    ∀ (i : Nat) (w : σ),
      fsRemoveCalls (d.cleanFrom fs i w).2 = d.layersFrom i ∧
      (∀ ev ∈ (d.cleanFrom fs i w).2, ∃ dir err, ev = Event.fsRemove dir err) ∧
      ((∀ w x, x ∈ d.layersFrom i → P w → P (fs.Remove w x).2) → P w →
        P (d.cleanFrom fs i w).1)
  | 0, w => by
    simp only [dirCleaner.cleanFrom, dirCleaner.cleanLayer, dirCleaner.layersFrom]
    cases hl : d.layers 0 with
    | none => simp [fsRemoveCalls]
    | some l =>
      simp only [Option.getD_some]
      exact ⟨(cleanDirs_fs_calls fs l w).2.2, cleanDirs_events fs l w,
        cleanDirs_preserves fs P l w⟩
  | i + 1, w => by
    simp only [dirCleaner.cleanFrom, dirCleaner.layersFrom, fsRemoveCalls_append]
    have hlayer : fsRemoveCalls (d.cleanLayer fs (i + 1) w).2 = (d.layers (i + 1)).getD [] ∧
        (∀ ev ∈ (d.cleanLayer fs (i + 1) w).2, ∃ dir err, ev = Event.fsRemove dir err) ∧
        ((∀ w x, x ∈ (d.layers (i + 1)).getD [] → P w → P (fs.Remove w x).2) → P w →
          P (d.cleanLayer fs (i + 1) w).1) := by
      simp only [dirCleaner.cleanLayer]
      cases hl : d.layers (i + 1) with
      | none => simp [fsRemoveCalls]
      | some l =>
        simp only [Option.getD_some]
        exact ⟨(cleanDirs_fs_calls fs l w).2.2, cleanDirs_events fs l w,
          cleanDirs_preserves fs P l w⟩
    obtain ⟨h1, h2, h3⟩ := hlayer
    obtain ⟨h4, h5, h6⟩ := cleanFrom_trace d fs P i (d.cleanLayer fs (i + 1) w).1
    refine ⟨by rw [h1, h4], ?_, ?_⟩
    · intro ev hev
      rcases List.mem_append.mp hev with h | h
      · exact h2 ev h
      · exact h5 ev h
    · intro hP hw
      exact h6 (fun w x hx => hP w x (List.mem_append_right _ hx))
        (h3 (fun w x hx => hP w x (List.mem_append_left _ hx)) hw)

theorem memFs_Remove_keeps_files (m : MemFs) (name : String)
    (h : ∀ e ∈ m, isFileEntry e = true → e.1 ≠ ⟨filepathCleanChars name.data⟩) :
    (memFs.Remove m name).2.filter isFileEntry = m.filter isFileEntry := by
  simp only [memFs, MemFs.Remove]
  split
  · rfl
  · split
    · rfl
    · simp only [List.filter_filter]
      apply List.filter_congr
      intro e he
      by_cases hf : isFileEntry e = true
      · simp [hf, h e he hf]
      · simp [hf]

/-- C12: for a cleaner that has recorded the directories `dirs`, `dirCleaner.clean` makes
calls of the plain `fs.Remove` only, one for each recorded directory and for no other path,
and a directory whose path has more pieces between separators is visited before any with
fewer; the filesystem changes only through these calls, so whatever a plain `Remove` of a
recorded directory keeps true of a filesystem, such as the files it holds and the directories
that are not empty when `Remove` refuses these, is still true after `clean`. -/
theorem dirCleaner_clean_removes_bottom_up {σ : Type} (fs : Fs σ) (dirs : List String) (w : σ) :
    (∀ ev ∈ ((dirs.foldl dirCleaner.add newDirCleaner).clean fs w).2,
        ∃ dir err, ev = Event.fsRemove dir err) ∧
      (fsRemoveCalls ((dirs.foldl dirCleaner.add newDirCleaner).clean fs w).2).Nodup ∧
      (∀ x, x ∈ fsRemoveCalls ((dirs.foldl dirCleaner.add newDirCleaner).clean fs w).2 ↔
        x ∈ dirs) ∧
      (fsRemoveCalls ((dirs.foldl dirCleaner.add newDirCleaner).clean fs w).2).Pairwise
        (fun a b => nLayers b ≤ nLayers a) ∧
      ∀ P : σ → Prop, (∀ w x, x ∈ dirs → P w → P (fs.Remove w x).2) → P w →
        P ((dirs.foldl dirCleaner.add newDirCleaner).clean fs w).1 := by
  obtain ⟨hinv1, hinv2⟩ := dirCleaner_foldl_add_invariant dirs newDirCleaner []
    (fun n l hl => by cases hl) (fun x hx => by cases hx)
  simp only [List.nil_append] at hinv1 hinv2
  have hmem : ∀ x, x ∈ (dirs.foldl dirCleaner.add newDirCleaner).layersFrom
      (dirs.foldl dirCleaner.add newDirCleaner).maxDepth ↔ x ∈ dirs := by
    intro x
    rw [mem_layersFrom]
    constructor
    · rintro ⟨n, l, _, hl, hx⟩
      exact ((hinv1 n l hl).2.1 x hx).2
    · intro hx
      obtain ⟨l, hl, hxl⟩ := hinv2 x hx
      exact ⟨_, l, (hinv1 _ l hl).2.2, hl, hxl⟩
  obtain ⟨hnd, hpw⟩ := layersFrom_ordered (dirs.foldl dirCleaner.add newDirCleaner)
    (fun n l hl => ⟨(hinv1 n l hl).1, fun x hx => ((hinv1 n l hl).2.1 x hx).1⟩)
    (dirs.foldl dirCleaner.add newDirCleaner).maxDepth
  have htrace := fun P => cleanFrom_trace (dirs.foldl dirCleaner.add newDirCleaner) fs P
    (dirs.foldl dirCleaner.add newDirCleaner).maxDepth w
  have hcalls := (htrace (fun _ => True)).1
  unfold dirCleaner.clean
  rw [hcalls]
  refine ⟨(htrace (fun _ => True)).2.1, hnd, hmem, hpw, fun P hP hw => ?_⟩
  exact (htrace P).2.2 (fun w x hx => hP w x ((hmem x).mp hx)) hw

/-- C12, on the tree `treeAfterMove` with the recorded directories `by-epoch`, `by-epoch/9`
and `by-epoch/3`: the two deeper ones are visited first, `by-epoch/3` is removed, `by-epoch/9`
and `by-epoch` still hold an entry and stay, and the files of the tree are as they were. -/
theorem dirCleaner_clean_removes_bottom_up_witness :
    fsRemoveCalls ((["by-epoch", "by-epoch/9", "by-epoch/3"].foldl dirCleaner.add
        newDirCleaner).clean memFs treeAfterMove).2 = ["by-epoch/9", "by-epoch/3", "by-epoch"] ∧
      ((["by-epoch", "by-epoch/9", "by-epoch/3"].foldl dirCleaner.add
        newDirCleaner).clean memFs treeAfterMove).1 =
        [("by-epoch", .dir), ("by-epoch/9", .dir), ("by-epoch/9/" ++ rootA, .dir),
          ("by-epoch/9/" ++ rootA ++ "/1.ssz", .file [7])] ∧
      ((["by-epoch", "by-epoch/9", "by-epoch/3"].foldl dirCleaner.add
        newDirCleaner).clean memFs treeAfterMove).1.filter isFileEntry =
        treeAfterMove.filter isFileEntry :=
  ⟨by decide, by decide,
    (dirCleaner_clean_removes_bottom_up memFs ["by-epoch", "by-epoch/9", "by-epoch/3"]
      treeAfterMove).2.2.2.2
      (fun m => m.filter isFileEntry = treeAfterMove.filter isFileEntry)
      (fun m x hx hm => by
        have hm : m.filter isFileEntry = treeAfterMove.filter isFileEntry := hm
        show List.filter isFileEntry (memFs.Remove m x).2 = _
        rw [memFs_Remove_keeps_files m x, hm]
        intro e he hf
        have hmem : e ∈ treeAfterMove.filter isFileEntry := by
          rw [← hm]
          exact List.mem_filter.mpr ⟨he, hf⟩
        have hx3 : x = "by-epoch" ∨ x = "by-epoch/9" ∨ x = "by-epoch/3" := by simpa using hx
        have he1 : e = ("by-epoch/9/" ++ rootA ++ "/1.ssz", .file [7]) := by
          have : treeAfterMove.filter isFileEntry =
              [("by-epoch/9/" ++ rootA ++ "/1.ssz", .file [7])] := by decide
          rw [this] at hmem
          simpa using hmem
        subst he1
        rcases hx3 with rfl | rfl | rfl <;> decide)
      rfl⟩

/-! ## The storage service -/

theorem saturatingAdd_eq_min (a b : Nat) (ha : a < 2 ^ 64) (hb : b < 2 ^ 64) :
    saturatingAdd a b = min (a + b) (2 ^ 64 - 1) := by
  unfold saturatingAdd maxUint64
  simp only []
  by_cases h : a + b < 2 ^ 64
  · rw [Nat.mod_eq_of_lt h, if_neg (by omega)]
    omega
  · have hmod : (a + b) % 2 ^ 64 = a + b - 2 ^ 64 := by
      rw [Nat.mod_eq_sub_mod (by omega), Nat.mod_eq_of_lt (by omega)]
    rw [hmod, if_pos (by omega)]
    omega

/-- C13: for 64-bit values of the retention `R`, the requested epoch and the current epoch,
`WithinRetentionPeriod(requested, current)` is true exactly when
`current ≤ min(requested + R, 2^64 - 1)`; with `R = 2^64 - 1` it is true for all inputs, and
with `R = 16` it is true for (0, 16) and (15, 16) and false for (0, 17). -/
theorem WithinRetentionPeriod_saturates (R requested current : Nat) (hR : R < 2 ^ 64)
    (hreq : requested < 2 ^ 64) (hcur : current < 2 ^ 64) :
    (WithinRetentionPeriod R requested current = true ↔
        current ≤ min (requested + R) (2 ^ 64 - 1)) ∧
      WithinRetentionPeriod (2 ^ 64 - 1) requested current = true ∧
      WithinRetentionPeriod 16 0 16 = true ∧ WithinRetentionPeriod 16 15 16 = true ∧
      WithinRetentionPeriod 16 0 17 = false := by
  refine ⟨?_, ?_, ?_, ?_, ?_⟩
  · unfold WithinRetentionPeriod
    rw [saturatingAdd_eq_min requested R hreq hR, decide_eq_true_iff]
  · unfold WithinRetentionPeriod
    rw [saturatingAdd_eq_min requested (2 ^ 64 - 1) hreq (by omega), decide_eq_true_iff]
    omega
  · unfold WithinRetentionPeriod
    rw [saturatingAdd_eq_min 0 16 (by omega) (by omega), decide_eq_true_iff]
    omega
  · unfold WithinRetentionPeriod
    rw [saturatingAdd_eq_min 15 16 (by omega) (by omega), decide_eq_true_iff]
    omega
  · unfold WithinRetentionPeriod
    rw [saturatingAdd_eq_min 0 16 (by omega) (by omega), decide_eq_false_iff_not]
    omega

/-- C13, at the largest retention with requested and current epoch 1, the overflow case of
the test of blob_test.go. -/
theorem WithinRetentionPeriod_saturates_witness :
    (WithinRetentionPeriod (2 ^ 64 - 1) 1 1 = true ↔ 1 ≤ min (1 + (2 ^ 64 - 1)) (2 ^ 64 - 1)) ∧
      WithinRetentionPeriod (2 ^ 64 - 1) 1 1 = true ∧
      WithinRetentionPeriod 16 0 16 = true ∧ WithinRetentionPeriod 16 15 16 = true ∧
      WithinRetentionPeriod 16 0 17 = false :=
  WithinRetentionPeriod_saturates (2 ^ 64 - 1) 1 1 (by omega) (by omega) (by omega)

theorem renameFile_fresh_part (files : String → Option (List Nat)) (part ssz : String)
    (bytes : List Nat) :
    (renameFile (Function.update files part (some bytes)) part ssz).1 = none ∧
      (renameFile (Function.update files part (some bytes)) part ssz).2 ssz = some bytes := by
  unfold renameFile
  simp only [Function.update_same]
  by_cases h : part = ssz
  · subst h
    simp
  · simp [h]

/-- What `Save` does for a sidecar whose bit is clear in the cache, whose index is in bounds
and whose temporary file is not there yet. -/
theorem Save_not_cached (l : storageLayout) (encode : VerifiedROBlob → List Nat)
    (toEpoch : Nat → Nat) (entropy : String) (bs : BlobStorage) (sc : VerifiedROBlob)
    (hbit : bs.cache.HasIndex sc.BlockRoot sc.Index = false)
    (hpart : bs.files (l.partPath (identForSidecar toEpoch sc) entropy) = none)
    (hidx : sc.Index < MAX_BLOBS_PER_BLOCK) :
    ∃ c, bs.cache.ensure (identForSidecar toEpoch sc) = .ok c ∧
      BlobStorage.Save l encode toEpoch entropy bs sc =
        (none, { files := (renameFile (Function.update bs.files
                    (l.partPath (identForSidecar toEpoch sc) entropy) (some (encode sc)))
                    (l.partPath (identForSidecar toEpoch sc) entropy)
                    (l.sszPath (identForSidecar toEpoch sc))).2,
                 dirs := l.dir (identForSidecar toEpoch sc) :: bs.dirs,
                 cache := c }) := by
  obtain ⟨c, hc⟩ := ensure_ok_of_lt bs.cache (identForSidecar toEpoch sc) hidx
  refine ⟨c, hc, ?_⟩
  have hren := (renameFile_fresh_part bs.files (l.partPath (identForSidecar toEpoch sc) entropy)
    (l.sszPath (identForSidecar toEpoch sc)) (encode sc)).1
  have hbit2 : bs.cache.HasIndex (identForSidecar toEpoch sc).root
      (identForSidecar toEpoch sc).index = false := hbit
  unfold BlobStorage.Save
  simp only [hbit2, hpart, hc, Bool.false_eq_true, if_false]
  generalize hr : renameFile _ _ _ = r at hren ⊢
  obtain ⟨e, files⟩ := r
  simp only at hren
  subst hren
  rfl

/-- What a call of `Save` that returns no error has done to the cache. -/
theorem Save_cache (l : storageLayout) (encode : VerifiedROBlob → List Nat)
    (toEpoch : Nat → Nat) (entropy : String) (bs : BlobStorage) (sc : VerifiedROBlob)
    (h : (BlobStorage.Save l encode toEpoch entropy bs sc).1 = none) (root : Bytes32) (i : Nat) :
    (BlobStorage.Save l encode toEpoch entropy bs sc).2.cache.HasIndex root i = true ↔
      bs.cache.HasIndex root i = true ∨ (sc.BlockRoot = root ∧ sc.Index = i) := by
  unfold BlobStorage.Save at h ⊢
  simp only [] at h ⊢
  split at h
  · rename_i hbit
    rw [if_pos hbit]
    constructor
    · exact Or.inl
    · rintro (h1 | ⟨h1, h2⟩)
      · exact h1
      · subst h1; subst h2; exact hbit
  · rename_i hbit
    rw [if_neg hbit]
    split at h
    · cases h
    · split at h
      · cases h
      · split at h
        · cases h
        · rename_i c hc
          exact ensure_hasIndex hc root i

/-- C14: on a fresh storage, `Save(S)` of a sidecar with index below `MAX_BLOBS_PER_BLOCK`
returns no error, the file at `layout.sszPath(identForSidecar(S))` then holds exactly
`encode(S)`, and `Get(S.root, S.index)` succeeds and returns `S`, for a codec that decodes
`encode(S)` to `S` and a layout whose `ident(root, idx)` recovers an ident of the same path
from a storage that holds the file. -/
theorem Save_then_Get_round_trip (l : storageLayout) (encode : VerifiedROBlob → List Nat)
    (decode : List Nat → Option VerifiedROBlob) (toEpoch : Nat → Nat) (entropy : String)
    (sc : VerifiedROBlob) (hidx : sc.Index < MAX_BLOBS_PER_BLOCK)
    (hcodec : decode (encode sc) = some sc)
    (hident : ∀ bs : BlobStorage,
      bs.files (l.sszPath (identForSidecar toEpoch sc)) = some (encode sc) →
      ∃ ident, l.ident bs sc.BlockRoot sc.Index = .ok ident ∧
        l.sszPath ident = l.sszPath (identForSidecar toEpoch sc)) :
    (BlobStorage.Save l encode toEpoch entropy BlobStorage.fresh sc).1 = none ∧
      (BlobStorage.Save l encode toEpoch entropy BlobStorage.fresh sc).2.files
        (l.sszPath (identForSidecar toEpoch sc)) = some (encode sc) ∧
      BlobStorage.Get l decode (BlobStorage.Save l encode toEpoch entropy BlobStorage.fresh sc).2
        sc.BlockRoot sc.Index = .ok sc := by
  have hbit : BlobStorage.fresh.cache.HasIndex sc.BlockRoot sc.Index = false := by
    unfold blobStorageSummaryCache.HasIndex
    rw [dif_pos hidx]
    rfl
  obtain ⟨c, hc, hsave⟩ := Save_not_cached l encode toEpoch entropy BlobStorage.fresh sc hbit rfl
    hidx
  have hfile := (renameFile_fresh_part BlobStorage.fresh.files
    (l.partPath (identForSidecar toEpoch sc) entropy) (l.sszPath (identForSidecar toEpoch sc))
    (encode sc)).2
  have hset : c.HasIndex sc.BlockRoot sc.Index = true :=
    (ensure_hasIndex hc sc.BlockRoot sc.Index).mpr (Or.inr ⟨rfl, rfl⟩)
  rw [hsave]
  refine ⟨rfl, hfile, ?_⟩
  obtain ⟨ident, hid, hpath⟩ := hident
    { files := (renameFile (Function.update BlobStorage.fresh.files
        (l.partPath (identForSidecar toEpoch sc) entropy) (some (encode sc)))
        (l.partPath (identForSidecar toEpoch sc) entropy)
        (l.sszPath (identForSidecar toEpoch sc))).2,
      dirs := l.dir (identForSidecar toEpoch sc) :: BlobStorage.fresh.dirs,
      cache := c } hfile
  unfold BlobStorage.Get
  simp only [hset, if_true, hid, hpath, hfile, hcodec]

/-- C14, for the sidecar of root `0xaa..aa` with index 2 and the flat storage layout. -/
theorem Save_then_Get_round_trip_witness :
    (BlobStorage.Save flatStorageLayout encodeSidecar (· / 32) "1f2e" BlobStorage.fresh
        sidecarA2).1 = none ∧
      (BlobStorage.Save flatStorageLayout encodeSidecar (· / 32) "1f2e" BlobStorage.fresh
        sidecarA2).2.files (flatStorageLayout.sszPath (identForSidecar (· / 32) sidecarA2)) =
        some (encodeSidecar sidecarA2) ∧
      BlobStorage.Get flatStorageLayout decodeSidecar
        (BlobStorage.Save flatStorageLayout encodeSidecar (· / 32) "1f2e" BlobStorage.fresh
          sidecarA2).2 sidecarA2.BlockRoot sidecarA2.Index = .ok sidecarA2 :=
  Save_then_Get_round_trip flatStorageLayout encodeSidecar decodeSidecar (· / 32) "1f2e"
    sidecarA2 (by decide) (by decide) (fun _ _ => ⟨newBlobIdent bytesA 0 2, rfl, by decide⟩)

/-- C15: `cache.ensure(ident)` with an index below `MAX_BLOBS_PER_BLOCK` succeeds, sets the
bit of the index in the mask of the root, leaves every other bit of that mask and the entry
of every other root as they were, and a second `ensure(ident)` changes nothing; a `Save(S)`
that returns no error leaves the bit of `S.index` set in the summary of `S.root` and every
other bit at its prior value, and saving index 2 on a fresh storage gives the mask
`{false, false, true, false, false, false}`. -/
theorem ensure_sets_exactly_one_bit (cache : blobStorageSummaryCache) (ident : blobIdent)
    (h : ident.index < MAX_BLOBS_PER_BLOCK) :
    (∃ c, cache.ensure ident = .ok c ∧
      c.Summary ident.root ⟨ident.index, h⟩ = true ∧
      (∀ i : Fin MAX_BLOBS_PER_BLOCK, i.val ≠ ident.index →
        c.Summary ident.root i = cache.Summary ident.root i) ∧
      (∀ root, root ≠ ident.root → c root = cache root) ∧
      c.ensure ident = .ok c) ∧
    (∀ (l : storageLayout) (encode : VerifiedROBlob → List Nat) (toEpoch : Nat → Nat)
        (entropy : String) (bs : BlobStorage) (sc : VerifiedROBlob),
      (BlobStorage.Save l encode toEpoch entropy bs sc).1 = none →
        (BlobStorage.Save l encode toEpoch entropy bs sc).2.cache.HasIndex sc.BlockRoot sc.Index
          = true ∧
        ∀ root i, ¬ (root = sc.BlockRoot ∧ i = sc.Index) →
          (BlobStorage.Save l encode toEpoch entropy bs sc).2.cache.HasIndex root i =
            bs.cache.HasIndex root i) ∧
    ∀ (l : storageLayout) (encode : VerifiedROBlob → List Nat) (toEpoch : Nat → Nat)
        (entropy : String) (sc : VerifiedROBlob), sc.Index = 2 →
      List.ofFn ((BlobStorage.Save l encode toEpoch entropy BlobStorage.fresh sc).2.Summary
        sc.BlockRoot) = [false, false, true, false, false, false] := by
  refine ⟨?_, ?_, ?_⟩
  · have hc : cache.ensure ident = .ok (fun r =>
        if r = ident.root then
          some (Function.update (cache.Summary r) ⟨ident.index, h⟩ true)
        else cache r) := by
      unfold blobStorageSummaryCache.ensure
      rw [dif_neg (Nat.not_le.mpr h)]
    refine ⟨_, hc, ?_, ?_, ?_, ?_⟩
    · simp [blobStorageSummaryCache.Summary]
    · intro i hi
      have hne : i ≠ ⟨ident.index, h⟩ := fun heq => hi (by rw [heq])
      simp [blobStorageSummaryCache.Summary, Function.update_noteq hne]
    · intro root hroot
      simp [hroot]
    · unfold blobStorageSummaryCache.ensure
      rw [dif_neg (Nat.not_le.mpr h)]
      congr 1
      funext r
      by_cases hr : r = ident.root
      · subst hr
        simp [blobStorageSummaryCache.Summary]
      · simp [hr]
  · intro l encode toEpoch entropy bs sc hnil
    have hiff := Save_cache l encode toEpoch entropy bs sc hnil
    refine ⟨(hiff _ _).mpr (Or.inr ⟨rfl, rfl⟩), fun root i hne => ?_⟩
    have := hiff root i
    rw [Bool.eq_iff_iff, this]
    constructor
    · rintro (h1 | ⟨h1, h2⟩)
      · exact h1
      · exact absurd ⟨h1.symm, h2.symm⟩ hne
    · exact Or.inl
  · intro l encode toEpoch entropy sc h2
    have hidx : sc.Index < MAX_BLOBS_PER_BLOCK := by rw [h2]; decide
    have hbit : BlobStorage.fresh.cache.HasIndex sc.BlockRoot sc.Index = false := by
      unfold blobStorageSummaryCache.HasIndex
      rw [dif_pos hidx]
      rfl
    obtain ⟨c, hc, hsave⟩ := Save_not_cached l encode toEpoch entropy BlobStorage.fresh sc hbit
      rfl hidx
    rw [hsave]
    unfold blobStorageSummaryCache.ensure at hc
    rw [dif_neg (show ¬ MAX_BLOBS_PER_BLOCK ≤ (identForSidecar toEpoch sc).index from
      Nat.not_le.mpr hidx)] at hc
    injection hc with hc
    subst hc
    simp only [BlobStorage.Summary, blobStorageSummaryCache.Summary, identForSidecar,
      newBlobIdent, if_true, Option.getD_some]
    have hfin : (⟨sc.Index, hidx⟩ : Fin MAX_BLOBS_PER_BLOCK) = ⟨2, by decide⟩ :=
      Fin.ext h2
    rw [hfin]
    have hzero : (BlobStorage.fresh.cache sc.BlockRoot).getD blobIndexMask.zero =
        blobIndexMask.zero := rfl
    rw [hzero]
    decide

/-- C15, on the empty cache with the ident of root `0xaa..aa`, epoch 2 and index 2, and for
`Save` of the sidecar of that root with index 2 on a fresh storage with the flat layout. -/
theorem ensure_sets_exactly_one_bit_witness :
    (∃ c, blobStorageSummaryCache.empty.ensure ⟨bytesA, 2, 2⟩ = .ok c ∧
      c.Summary bytesA ⟨2, by decide⟩ = true ∧
      (∀ i : Fin MAX_BLOBS_PER_BLOCK, i.val ≠ 2 →
        c.Summary bytesA i = blobStorageSummaryCache.empty.Summary bytesA i) ∧
      (∀ root, root ≠ bytesA → c root = blobStorageSummaryCache.empty root) ∧
      c.ensure ⟨bytesA, 2, 2⟩ = .ok c) ∧
    List.ofFn ((BlobStorage.Save flatStorageLayout encodeSidecar (· / 32) "1f2e"
        BlobStorage.fresh sidecarA2).2.Summary bytesA) =
      [false, false, true, false, false, false] :=
  ⟨(ensure_sets_exactly_one_bit blobStorageSummaryCache.empty ⟨bytesA, 2, 2⟩ (by decide)).1,
    (ensure_sets_exactly_one_bit blobStorageSummaryCache.empty ⟨bytesA, 2, 2⟩ (by decide)).2.2
      flatStorageLayout encodeSidecar (· / 32) "1f2e" sidecarA2 rfl⟩

/-! ## Parsing roots and indices -/

theorem hexValue_ascii (c : Char) (v : Fin 16) (h : hexValue c = some v) : c.utf8Size = 1 := by
  have hle : c.val.toNat ≤ 102 := by
    unfold hexValue at h
    split at h
    · rename_i hc
      have h1 : c.val.toNat ≤ ('9' : Char).val.toNat := hc.2
      have h2 : ('9' : Char).val.toNat = 57 := rfl
      omega
    · split at h
      · rename_i hc
        have h1 : c.val.toNat ≤ ('f' : Char).val.toNat := hc.2
        have h2 : ('f' : Char).val.toNat = 102 := rfl
        omega
      · split at h
        · rename_i hc
          have h1 : c.val.toNat ≤ ('F' : Char).val.toNat := hc.2
          have h2 : ('F' : Char).val.toNat = 70 := rfl
          omega
        · cases h
  unfold Char.utf8Size
  have h127 : c.val ≤ UInt32.ofNatCore 127 (by decide) := by
    show c.val.toNat ≤ (UInt32.ofNatCore 127 (by decide)).toNat
    have : (UInt32.ofNatCore 127 (by decide)).toNat = 127 := rfl
    omega
  simp only [h127, if_true]

theorem hexDecodeChars_ascii : ∀ (l : List Char) (bs : List (Fin 256)),
    hexDecodeChars l = some bs → l.length = 2 * bs.length ∧ String.utf8Len l = l.length
  | [], bs, h => by
    simp only [hexDecodeChars] at h
    injection h with h
    subst h
    simp
  | [_], bs, h => by simp [hexDecodeChars] at h
  | a :: b :: rest, bs, h => by
    simp only [hexDecodeChars] at h
    cases ha : hexValue a with
    | none => simp [ha] at h
    | some x =>
      cases hb : hexValue b with
      | none => simp [ha, hb] at h
      | some y =>
        cases hr : hexDecodeChars rest with
        | none => simp [ha, hb, hr] at h
        | some bs1 =>
          simp only [ha, hb, hr] at h
          injection h with h
          subst h
          obtain ⟨h1, h2⟩ := hexDecodeChars_ascii rest bs1 hr
          have hxa := hexValue_ascii a x ha
          have hyb := hexValue_ascii b y hb
          refine ⟨?_, ?_⟩
          · simp only [List.length_cons]
            omega
          · simp only [List.length_cons, String.utf8Len_cons]
            omega

theorem hexutilDecode_ascii (l : List Char) (bs : List (Fin 256))
    (h : hexutilDecode l = some bs) :
    l.length = 2 + 2 * bs.length ∧ String.utf8Len l = l.length := by
  unfold hexutilDecode at h
  split at h
  · rename_i x rest
    split at h
    · obtain ⟨h1, h2⟩ := hexDecodeChars_ascii rest bs h
      rename_i hx
      have hx1 : x.utf8Size = 1 := by rcases hx with rfl | rfl <;> rfl
      have h0 : ('0' : Char).utf8Size = 1 := rfl
      refine ⟨?_, ?_⟩
      · simp only [List.length_cons]
        omega
      · simp only [List.length_cons, String.utf8Len_cons]
        omega
    · cases h
  · cases h

theorem toBytes32_of_length (bs : List (Fin 256)) (h : bs.length = 32) :
    (toBytes32 bs).val = bs := by
  unfold toBytes32
  simp only []
  rw [List.take_append_of_le_length (by omega), List.take_of_length_le (by omega)]

/-- C16: `stringToRoot(s)` returns an error exactly when `len(s) != 66` or `hexutil.Decode(s)`
fails, the error then matches `errInvalidRootString` and the root returned is the zero value;
for every other string the decoded bytes are 32 and `stringToRoot` returns them with a nil
error. `rootFromPath(p)` returns the root of `stringToRoot` on the basename of `p`, fails
exactly when that call fails, and its error matches `errInvalidRootString` too. -/
theorem stringToRoot_fails_iff (s p : String) :
    ((stringToRoot s).2 ≠ none ↔
        s.utf8ByteSize ≠ 66 ∨ hexutilDecode s.data = none) ∧
      (∀ err, (stringToRoot s).2 = some err →
        errorsIs err errInvalidRootString = true ∧ (stringToRoot s).1 = zeroHash) ∧
      (∀ bytes, s.utf8ByteSize = 66 → hexutilDecode s.data = some bytes →
        bytes.length = 32 ∧ (stringToRoot s).2 = none ∧ (stringToRoot s).1.val = bytes) ∧
      (rootFromPath p).1 = (stringToRoot (filepathBase p)).1 ∧
      ((rootFromPath p).2 ≠ none ↔ (stringToRoot (filepathBase p)).2 ≠ none) ∧
      ∀ err, (rootFromPath p).2 = some err → errorsIs err errInvalidRootString = true := by
  have hfail : ∀ t : String, ∀ err, (stringToRoot t).2 = some err →
      errorsIs err errInvalidRootString = true ∧ (stringToRoot t).1 = zeroHash := by
    intro t err herr
    unfold stringToRoot at herr ⊢
    split at herr
    · rename_i hlen
      rw [if_pos hlen]
      simp only [Option.some.injEq] at herr
      subst herr
      exact ⟨by simp [errorsIs, errInvalidRootString], rfl⟩
    · rename_i hlen
      rw [if_neg hlen]
      split at herr
      · simp only [Option.some.injEq] at herr
        subst herr
        exact ⟨by simp [errorsIs, errInvalidRootString], rfl⟩
      · cases herr
  refine ⟨?_, hfail s, ?_, ?_, ?_, ?_⟩
  · unfold stringToRoot rootStringLen
    by_cases hlen : s.utf8ByteSize ≠ 66
    · simp [hlen]
    · rw [if_neg hlen]
      cases hd : hexutilDecode s.data with
      | none => simp
      | some bs => simp [hlen]
  · intro bytes hlen hd
    obtain ⟨h1, h2⟩ := hexutilDecode_ascii s.data bytes hd
    have hsize : s.utf8ByteSize = String.utf8Len s.data := rfl
    have h32 : bytes.length = 32 := by omega
    unfold stringToRoot rootStringLen
    rw [if_neg (by simp [hlen])]
    simp only [hd]
    exact ⟨h32, trivial, toBytes32_of_length bytes h32⟩
  · unfold rootFromPath
    simp only []
    split <;> simp_all
  · unfold rootFromPath
    simp only []
    split <;> simp_all
  · intro err herr
    unfold rootFromPath at herr
    simp only [] at herr
    split at herr
    · rename_i root e heq
      simp only [Option.some.injEq] at herr
      subst herr
      have := (hfail (filepathBase p) e (by rw [heq])).1
      simpa [errorsIs] using this
    · cases herr

/-- C16, for the root string `0xaa..aa`, which decodes to the 32 bytes `0xaa`. -/
theorem stringToRoot_fails_iff_witness :
    bytesA.val.length = 32 ∧ (stringToRoot rootA).2 = none ∧
      (stringToRoot rootA).1.val = bytesA.val :=
  (stringToRoot_fails_iff rootA ("blobs/" ++ rootA)).2.2.1 bytesA.val (by decide) (by decide)
theorem filepathExtScan_cons : ∀ (r acc out : List Char), filepathExtScan r acc = out →
    out ≠ [] → ∃ passed rest, r = passed ++ '.' :: rest ∧ out = '.' :: (passed.reverse ++ acc)
  | [], acc, out, h, hne => by
    simp only [filepathExtScan] at h
    exact absurd h.symm hne
  | c :: r, acc, out, h, hne => by
    simp only [filepathExtScan] at h
    split at h
    · exact absurd h.symm hne
    · split at h
      · rename_i hc
        subst hc
        exact ⟨[], r, rfl, by simp [← h]⟩
      · obtain ⟨passed, rest, h1, h2⟩ := filepathExtScan_cons r (c :: acc) out h hne
        exact ⟨c :: passed, rest, by simp [h1], by simp [h2]⟩

theorem filepathExtScan_ssz (b : List Char) :
    filepathExtScan b.reverse [] = ['.', 's', 's', 'z'] ↔ ∃ stem, b = stem ++ ['.', 's', 's', 'z'] := by
  constructor
  · intro h
    obtain ⟨passed, rest, h1, h2⟩ := filepathExtScan_cons _ _ _ h (by simp)
    simp only [List.append_nil, List.cons.injEq, true_and] at h2
    refine ⟨rest.reverse, ?_⟩
    have hb : b = (passed ++ '.' :: rest).reverse := by rw [← h1, List.reverse_reverse]
    rw [hb, List.reverse_append, List.reverse_cons, ← h2]
    simp
  · rintro ⟨stem, rfl⟩
    simp [filepathExtScan]

theorem splitDots_length : ∀ (l cur : List Char), (splitDots l cur).length = l.count '.' + 1
  | [], cur => by simp [splitDots]
  | c :: l, cur => by
    simp only [splitDots]
    split
    · rename_i hc
      subst hc
      simp [splitDots_length l []]
    · rename_i hc
      rw [splitDots_length l (c :: cur), List.count_cons_of_ne (fun h => hc h.symm)]

theorem splitDots_stem : ∀ (stem rest cur : List Char), '.' ∉ stem →
    splitDots (stem ++ '.' :: rest) cur = (cur.reverse ++ stem) :: splitDots rest []
  | [], rest, cur, _ => by simp [splitDots]
  | c :: stem, rest, cur, h => by
    have hc : c ≠ '.' := fun hc => h (by simp [hc])
    have hs : '.' ∉ stem := fun hs => h (List.mem_cons_of_mem _ hs)
    show splitDots (c :: (stem ++ '.' :: rest)) cur = _
    rw [splitDots, if_neg hc, splitDots_stem stem rest (c :: cur) hs]
    simp

theorem digitValue_eq (c : Char) :
    digitValue c = if c.isDigit then some (c.toNat - 48) else none := by
  unfold digitValue Char.isDigit
  have h0 : ('0' : Char).val = 48 := rfl
  have h9 : ('9' : Char).val = 57 := rfl
  have hle : ∀ a b : Char, a ≤ b ↔ a.val ≤ b.val := fun _ _ => Iff.rfl
  simp only [hle, h0, h9, ge_iff_le, Bool.and_eq_true, decide_eq_true_eq]
  rfl

theorem parseDigits_eq : ∀ (l : List Char) (n : Nat),
    parseDigits l n =
      if l.all Char.isDigit then some (l.foldl (fun n c => 10 * n + (c.toNat - 48)) n) else none
  | [], n => by simp [parseDigits]
  | c :: l, n => by
    simp only [parseDigits, digitValue_eq, List.all_cons, List.foldl_cons]
    by_cases hc : c.isDigit = true
    · simp only [hc, if_true, Bool.true_and]
      exact parseDigits_eq l _
    · simp [hc]

theorem errorsIs_foreign_not (m : String) (target : GoError) :
    errorsIs (.foreign m) target = false := rfl

/-- What `idxFromPath` returns on a path whose basename is `stem.ssz` with no dot in `stem`:
what `strconv.ParseUint` makes of `stem`. -/
theorem idxFromPath_stem (p : String) (stem : List Char) (hdot : '.' ∉ stem)
    (hbase : (filepathBase p).data = stem ++ ['.', 's', 's', 'z']) :
    idxFromPath p =
      match parseUint64 stem with
      | .error err => (0, some err)
      | .ok idx => (idx, none) := by
  have hext : isSszFile (filepathBase p) = true := by
    unfold isSszFile filepathExt
    rw [decide_eq_true_iff]
    have : filepathExtScan (filepathBase p).data.reverse [] = ['.', 's', 's', 'z'] :=
      (filepathExtScan_ssz _).mpr ⟨stem, hbase⟩
    rw [this]
    rfl
  have hparts : splitDots (filepathBase p).data [] = [stem, ['s', 's', 'z']] := by
    rw [hbase, splitDots_stem stem _ [] hdot]
    simp [splitDots]
  unfold idxFromPath
  simp only [hext, hparts]
  rfl

/-- What `idxFromPath` returns on a path whose basename is not `stem.ssz` with no dot in
`stem`. -/
theorem idxFromPath_not_stem (p : String)
    (h : ¬ ∃ stem, '.' ∉ stem ∧ (filepathBase p).data = stem ++ ['.', 's', 's', 'z']) :
    ∃ msg, idxFromPath p = (0, some (.wrap errNotBlobSSZ msg)) := by
  unfold idxFromPath
  simp only []
  by_cases hext : isSszFile (filepathBase p) = true
  · have hscan : filepathExtScan (filepathBase p).data.reverse [] = ['.', 's', 's', 'z'] := by
      unfold isSszFile filepathExt at hext
      rw [decide_eq_true_iff] at hext
      have := congrArg String.data hext
      exact this
    obtain ⟨stem, hstem⟩ := (filepathExtScan_ssz _).mp hscan
    have hdot : '.' ∈ stem := by
      by_contra hd
      exact h ⟨stem, hd, hstem⟩
    have hlen : (splitDots (filepathBase p).data []).length ≠ 2 := by
      rw [splitDots_length, hstem, List.count_append]
      have : 0 < stem.count '.' := List.count_pos_iff.mpr hdot
      have h1 : List.count '.' ['.', 's', 's', 'z'] = 1 := by decide
      omega
    simp only [hext, Bool.not_true, Bool.false_eq_true, if_false, hlen, ne_eq, not_false_eq_true,
      if_true]
    exact ⟨_, rfl⟩
  · simp only [hext, Bool.not_false, if_true]
    exact ⟨_, rfl⟩

theorem parseUint64_ok_iff (stem : List Char) (n : Nat) :
    parseUint64 stem = .ok n ↔
      stem ≠ [] ∧ stem.all Char.isDigit = true ∧ decimalValue stem = n ∧ n < 2 ^ 64 := by
  unfold parseUint64 decimalValue
  by_cases hs : stem = []
  · simp [hs]
  · rw [if_neg hs, parseDigits_eq]
    by_cases hd : stem.all Char.isDigit = true
    · rw [if_pos hd]
      simp only [hs, hd, ne_eq, not_false_eq_true, true_and]
      split
      · rename_i hlt
        constructor
        · intro h
          injection h with h
          subst h
          exact ⟨rfl, hlt⟩
        · rintro ⟨h1, _⟩
          rw [h1]
      · rename_i hlt
        constructor
        · intro h
          cases h
        · rintro ⟨h1, h2⟩
          rw [h1] at hlt
          exact absurd h2 hlt
    · rw [if_neg hd]
      simp [hd]

theorem parseUint64_error_foreign (stem : List Char) (err : GoError)
    (h : parseUint64 stem = .error err) : errorsIs err errNotBlobSSZ = false := by
  unfold parseUint64 at h
  split at h
  · injection h with h
    subst h
    rfl
  · split at h
    · injection h with h
      subst h
      rfl
    · split at h
      · cases h
      · injection h with h
        subst h
        rfl

/-- C17, as stated, fails: for the basenames `abc.ssz` and `18446744073709551616.ssz`, which
have the extension but no unsigned 64-bit decimal number before it, `idxFromPath` returns the
error of `strconv.ParseUint`, which does not match `errNotBlobSSZ`. -/
theorem idxFromPath_parse_error_not_errNotBlobSSZ :
    idxFromPath "blobs/abc.ssz" = (0, some (.foreign "strconv.ParseUint: invalid syntax")) ∧
      idxFromPath "18446744073709551616.ssz" =
        (0, some (.foreign "strconv.ParseUint: value out of range")) ∧
      errorsIs (.foreign "strconv.ParseUint: invalid syntax") errNotBlobSSZ = false ∧
      errorsIs (.foreign "strconv.ParseUint: value out of range") errNotBlobSSZ = false := by
  decide

/-- C17, amended: `idxFromPath(p)` succeeds, returning `n`, exactly when the basename of `p`
is a non-empty string of decimal digits that writes `n`, with `n < 2^64`, followed by `.ssz`;
in every other case it returns index 0 with an error, which matches `errNotBlobSSZ` exactly
when the basename is not some `stem.ssz` with a stem free of dots (the extension is not `.ssz`
or there are more dots), and is the error of `strconv.ParseUint` otherwise. -/
theorem idxFromPath_succeeds_iff (p : String) (n : Nat) :
    (idxFromPath p = (n, none) ↔
        ∃ digits, digits ≠ [] ∧ digits.all Char.isDigit = true ∧ decimalValue digits = n ∧
          n < 2 ^ 64 ∧ (filepathBase p).data = digits ++ ['.', 's', 's', 'z']) ∧
      ((idxFromPath p).2 = none ∨ (idxFromPath p).1 = 0) ∧
      ∀ err, (idxFromPath p).2 = some err →
        (errorsIs err errNotBlobSSZ = true ↔
          ¬ ∃ stem, '.' ∉ stem ∧ (filepathBase p).data = stem ++ ['.', 's', 's', 'z']) := by
  by_cases hform : ∃ stem, '.' ∉ stem ∧ (filepathBase p).data = stem ++ ['.', 's', 's', 'z']
  · obtain ⟨stem, hdot, hbase⟩ := hform
    have hidx := idxFromPath_stem p stem hdot hbase
    have huniq : ∀ digits, (filepathBase p).data = digits ++ ['.', 's', 's', 'z'] →
        digits = stem := by
      intro digits hd
      rw [hbase] at hd
      exact (List.append_cancel_right hd).symm
    cases hparse : parseUint64 stem with
    | error e =>
      rw [hparse] at hidx
      simp only at hidx
      refine ⟨?_, ?_, ?_⟩
      · rw [hidx]
        constructor
        · intro h
          cases h
        · rintro ⟨digits, h1, h2, h3, h4, h5⟩
          have := huniq digits h5
          subst this
          have := (parseUint64_ok_iff digits n).mpr ⟨h1, h2, h3, h4⟩
          rw [hparse] at this
          cases this
      · rw [hidx]
        exact Or.inr rfl
      · intro err herr
        rw [hidx] at herr
        simp only [Option.some.injEq] at herr
        subst herr
        rw [parseUint64_error_foreign stem e hparse]
        simp only [Bool.false_eq_true, false_iff, not_not]
        exact ⟨stem, hdot, hbase⟩
    | ok m =>
      rw [hparse] at hidx
      simp only at hidx
      obtain ⟨h1, h2, h3, h4⟩ := (parseUint64_ok_iff stem m).mp hparse
      refine ⟨?_, ?_, ?_⟩
      · rw [hidx]
        constructor
        · intro h
          injection h with h _
          subst h
          exact ⟨stem, h1, h2, h3, h4, hbase⟩
        · rintro ⟨digits, _, _, h3d, _, h5⟩
          have := huniq digits h5
          subst this
          rw [← h3d, h3]
      · rw [hidx]
        exact Or.inl rfl
      · intro err herr
        rw [hidx] at herr
        cases herr
  · obtain ⟨msg, hidx⟩ := idxFromPath_not_stem p hform
    refine ⟨?_, ?_, ?_⟩
    · rw [hidx]
      constructor
      · intro h
        cases h
      · rintro ⟨digits, _, h2, _, _, h5⟩
        refine absurd ⟨digits, ?_, h5⟩ hform
        intro hmem
        have := List.all_eq_true.mp h2 _ hmem
        exact absurd this (by decide)
    · rw [hidx]
      exact Or.inr rfl
    · intro err herr
      rw [hidx] at herr
      simp only [Option.some.injEq] at herr
      subst herr
      simp only [errorsIs, errNotBlobSSZ, decide_True, true_iff]
      exact hform

/-- C17, amended, on the path `blobs/0xaa..aa/5.ssz`, which gives the index 5. -/
theorem idxFromPath_succeeds_iff_witness :
    idxFromPath ("blobs/" ++ rootA ++ "/5.ssz") = (5, none) :=
  (idxFromPath_succeeds_iff ("blobs/" ++ rootA ++ "/5.ssz") 5).1.mpr
    ⟨['5'], by decide, by decide, by decide, by decide, by decide⟩

/-! ## The walk of the iterator against the depth-first list -/

theorem walkIdents_nil (fs : String → DirRead) (layers : List layoutLayer) (path : String)
    (ident : blobIdent) : walkIdents fs layers path ident [] = [] := by
  cases layers <;> simp [walkIdents]

theorem walkSize_nil (fs : String → DirRead) (layers : List layoutLayer) (path : String)
    (ident : blobIdent) : walkSize fs layers path ident [] = 0 := by
  cases layers <;> simp [walkSize]

theorem walkIdents_cons (fs : String → DirRead) (layer : layoutLayer)
    (deeper : List layoutLayer) (path : String) (ident : blobIdent) (e : String)
    (rest : List String) :
    walkIdents fs (layer :: deeper) path ident (e :: rest) =
      walkIdents fs (layer :: deeper) path ident [e] ++
        walkIdents fs (layer :: deeper) path ident rest := by
  simp [walkIdents]

theorem walkSize_cons (fs : String → DirRead) (layer : layoutLayer)
    (deeper : List layoutLayer) (path : String) (ident : blobIdent) (e : String)
    (rest : List String) :
    walkSize fs (layer :: deeper) path ident (e :: rest) =
      walkSize fs (layer :: deeper) path ident [e] +
        walkSize fs (layer :: deeper) path ident rest := by
  simp [walkSize]

theorem consYield_sublist (r : IterResult) (l : List blobIdent) : l.Sublist (consYield r l) := by
  unfold consYield
  split
  · exact List.sublist_cons_self _ _
  · exact List.Sublist.refl _

theorem consYield_append (r : IterResult) (l m : List blobIdent) :
    consYield r (l ++ m) = consYield r l ++ m := by
  unfold consYield
  split <;> rfl

theorem isNil_eq_true (it : identIterator) (h : it.isNil = true) : it = .nil := by
  cases it
  · rfl
  · cases h

theorem wellFormed_mk (path : String) (c : identIterator) (ident : blobIdent)
    (layer : layoutLayer) (deeper : List layoutLayer) (entries : List String) (offset : Nat)
    (eof : Bool) (hc : c.wellFormed = true) (hl : c.isNil = true ∨ deeper ≠ []) :
    (identIterator.mk path c ident (layer :: deeper) entries offset eof).wellFormed = true := by
  cases deeper with
  | nil =>
    rcases hl with h | h
    · simp [identIterator.wellFormed, hc, h]
    · exact absurd rfl h
  | cons _ _ => simp [identIterator.wellFormed, hc]

/-- One run of the loop of `advanceChild` from index `i` on, given what a descent into a fresh
child gives: it returns, the iterator it leaves is of the expected shape, what it yields and
leaves to walk is part of what was left, in order, and it visits an entry unless it returns
`io.EOF`. -/
theorem advanceLoop_step (fs : String → DirRead) (layer : layoutLayer)
    (deeper : List layoutLayer)
    (descend : String → blobIdent → List String → Option (IterResult × identIterator))
    (path : String) (child : identIterator) (ident : blobIdent) (entries : List String)
    (hdesc : deeper ≠ [] → ∀ p id es, ∃ r c, descend p id es = some (r, c) ∧
      c.wellFormed = true ∧ c.isNil = false ∧
      (consYield r (c.remaining fs)).Sublist (walkIdents fs deeper p id es) ∧
      c.pending fs ≤ walkSize fs deeper p id es)
    (hchild : child.wellFormed = true) (hleaf : child.isNil = true ∨ deeper ≠ []) :
    ∀ (rest : List String) (i : Nat), entries.drop i = rest →
      ∃ r it, advanceLoop fs layer deeper descend path child ident (layer :: deeper) entries
          false rest i = some (r, it) ∧
        it.wellFormed = true ∧ it.isNil = false ∧
        (consYield r (it.remaining fs)).Sublist
          (child.remaining fs ++ walkIdents fs (layer :: deeper) path ident rest) ∧
        it.pending fs ≤ child.pending fs + walkSize fs (layer :: deeper) path ident rest ∧
        (r = (blobIdent.zero, some ioEOF) ∨
          it.pending fs < child.pending fs + walkSize fs (layer :: deeper) path ident rest)
  | [], i, hdrop => by
    have hwf := wellFormed_mk path child ident layer deeper entries i false hchild hleaf
    refine ⟨_, _, rfl, hwf, rfl, ?_, ?_, ?_⟩
    · simp [consYield, identIterator.remaining, hdrop]
    · simp [identIterator.pending, hdrop]
    · exact Or.inl rfl
  | e :: rest, i, hdrop => by
    have hdrop1 : entries.drop (i + 1) = rest := by
      rw [← List.drop_drop, hdrop]
      rfl
    have hwf := fun c hc hl =>
      wellFormed_mk path c ident layer deeper entries (i + 1) false hc hl
    obtain ⟨r, it, hrun, hwf1, hnil1, hsub1, hle1, hlt1⟩ :=
      advanceLoop_step fs layer deeper descend path child ident entries hdesc hchild hleaf
        rest (i + 1) hdrop1
    rw [walkIdents_cons, walkSize_cons]
    unfold advanceLoop
    simp only []
    by_cases hfilter : layer.filter (filepathJoin path e) = true
    · simp only [hfilter, Bool.not_true, Bool.false_eq_true, if_false]
      cases hpop : layer.populateIdent ident (filepathJoin path e) with
      | mk id oerr =>
        cases oerr with
        | some err =>
          simp only []
          refine ⟨_, _, rfl, hwf child hchild hleaf, rfl, ?_, ?_, ?_⟩
          · simp only [consYield, identIterator.remaining, hdrop1, Bool.false_eq_true, if_false]
            exact List.Sublist.append_left
              (List.sublist_append_right _ _) _
          · simp only [identIterator.pending, hdrop1]
            omega
          · right
            simp only [identIterator.pending, hdrop1, walkSize, List.map_cons, List.map_nil,
              List.sum_cons, List.sum_nil]
            omega
        | none =>
          simp only []
          by_cases hempty : deeper.isEmpty = true
          · have hd : deeper = [] := List.isEmpty_iff.mp hempty
            have hcn : child = .nil := by
              rcases hleaf with h | h
              · exact isNil_eq_true child h
              · exact absurd hd h
            simp only [hempty, if_true]
            refine ⟨_, _, rfl, hwf child hchild hleaf, rfl, ?_, ?_, ?_⟩
            · subst hcn
              simp [consYield, identIterator.remaining, hdrop1, walkIdents, hfilter, hpop, hd]
            · simp only [identIterator.pending, hdrop1]
              omega
            · right
              simp only [identIterator.pending, hdrop1, walkSize, List.map_cons, List.map_nil,
                List.sum_cons, List.sum_nil]
              omega
          · have hd : deeper ≠ [] := fun h => hempty (List.isEmpty_iff.mpr h)
            simp only [hempty, Bool.false_eq_true, if_false]
            cases hlist : listDir fs (filepathJoin path e) with
            | error err =>
              simp only []
              refine ⟨_, _, rfl, hwf child hchild hleaf, rfl, ?_, ?_, ?_⟩
              · simp only [consYield, identIterator.remaining, hdrop1, Bool.false_eq_true,
                  if_false]
                exact List.Sublist.append_left (List.sublist_append_right _ _) _
              · simp only [identIterator.pending, hdrop1]
                omega
              · right
                simp only [identIterator.pending, hdrop1, walkSize, List.map_cons,
                  List.map_nil, List.sum_cons, List.sum_nil]
                omega
            | ok es =>
              cases es with
              | nil =>
                simp only []
                refine ⟨r, it, hrun, hwf1, hnil1, ?_, ?_, ?_⟩
                · exact hsub1.trans (List.Sublist.append_left (List.sublist_append_right _ _) _)
                · omega
                · rcases hlt1 with h | h
                  · exact Or.inl h
                  · right
                    omega
              | cons e0 es =>
                simp only []
                obtain ⟨r2, c, hd2, hcwf, hcnil, hcsub, hcle⟩ :=
                  hdesc hd (filepathJoin path e) id (e0 :: es)
                rw [hd2]
                simp only []
                refine ⟨_, _, rfl, hwf c hcwf (Or.inr hd), rfl, ?_, ?_, ?_⟩
                · simp only [identIterator.remaining, hdrop1, Bool.false_eq_true, if_false]
                  rw [consYield_append]
                  have hone : walkIdents fs (layer :: deeper) path ident [e] =
                      walkIdents fs deeper (filepathJoin path e) id (e0 :: es) := by
                    simp [walkIdents, hfilter, hpop, hempty, hlist]
                  rw [hone]
                  exact (List.Sublist.append_right hcsub _).trans
                    (List.sublist_append_right _ _)
                · have hone : walkSize fs (layer :: deeper) path ident [e] =
                      1 + walkSize fs deeper (filepathJoin path e) id (e0 :: es) := by
                    simp [walkSize, hfilter, hpop, hempty, hlist]
                  simp only [identIterator.pending, hdrop1, hone]
                  omega
                · right
                  have hone : walkSize fs (layer :: deeper) path ident [e] =
                      1 + walkSize fs deeper (filepathJoin path e) id (e0 :: es) := by
                    simp [walkSize, hfilter, hpop, hempty, hlist]
                  simp only [identIterator.pending, hdrop1, hone]
                  omega
    · simp only [hfilter, Bool.not_false, if_true]
      refine ⟨r, it, hrun, hwf1, hnil1, ?_, ?_, ?_⟩
      · exact hsub1.trans (List.Sublist.append_left (List.sublist_append_right _ _) _)
      · omega
      · rcases hlt1 with h | h
        · exact Or.inl h
        · right
          omega

/-- One call of `advanceChild` on an iterator with a layer: it returns, and what
`advanceLoop_step` says of the loop holds of it from `offset` on. -/
theorem advanceChild_step (fs : String → DirRead) : ∀ (layers : List layoutLayer),
    layers ≠ [] → ∀ (path : String) (child : identIterator) (ident : blobIdent)
      (entries : List String) (offset : Nat), child.wellFormed = true →
      (child.isNil = true ∨ 2 ≤ layers.length) →
      ∃ r it, advanceChild fs layers path child ident layers entries offset false = some (r, it) ∧
        it.wellFormed = true ∧ it.isNil = false ∧
        (consYield r (it.remaining fs)).Sublist
          (child.remaining fs ++ walkIdents fs layers path ident (entries.drop offset)) ∧
        it.pending fs ≤ child.pending fs + walkSize fs layers path ident (entries.drop offset) ∧
        (r = (blobIdent.zero, some ioEOF) ∨
          it.pending fs <
            child.pending fs + walkSize fs layers path ident (entries.drop offset))
  | [], h => absurd rfl h
  | layer :: deeper, _ => by
    intro path child ident entries offset hchild hleaf
    have hleaf2 : child.isNil = true ∨ deeper ≠ [] := by
      rcases hleaf with h | h
      · exact Or.inl h
      · right
        intro hd
        subst hd
        simp at h
    unfold advanceChild
    by_cases hoff : offset < entries.length
    · rw [if_pos hoff]
      refine advanceLoop_step fs layer deeper _ path child ident entries ?_ hchild hleaf2
        (entries.drop offset) offset rfl
      intro hd p id es
      obtain ⟨r, c, h1, h2, h3, h4, h5, _⟩ :=
        advanceChild_step fs deeper hd p .nil id es 0 rfl (Or.inl rfl)
      refine ⟨r, c, h1, h2, h3, ?_, ?_⟩
      · simpa [identIterator.remaining] using h4
      · simpa [identIterator.pending] using h5
    · rw [if_neg hoff]
      have hdrop : entries.drop offset = [] := List.drop_eq_nil_of_le (Nat.le_of_not_lt hoff)
      have hdrop1 : entries.drop (offset + 1) = [] :=
        List.drop_eq_nil_of_le (by omega)
      refine ⟨_, _, rfl, wellFormed_mk path child ident layer deeper entries _ false hchild hleaf2,
        rfl, ?_, ?_, ?_⟩
      · simp [consYield, identIterator.remaining, hdrop, hdrop1, walkIdents_nil]
      · simp [identIterator.pending, hdrop, hdrop1, walkSize_nil]
      · exact Or.inl rfl

theorem next_at_eof (fs : String → DirRead) (path : String) (child : identIterator)
    (ident : blobIdent) (layers : List layoutLayer) (entries : List String) (offset : Nat) :
    identIterator.next fs (.mk path child ident layers entries offset true) =
      some ((blobIdent.zero, some ioEOF), .mk path child ident layers entries offset true) := by
  cases child <;> simp [identIterator.next]

/-- One call of `next` on a well-formed iterator: it returns and leaves a well-formed
iterator; what it yields, followed by what is left to walk, is part of what was left before,
in order; the entries left to visit are no more than before, and fewer unless the call
returned `io.EOF`. -/
theorem next_step (fs : String → DirRead) : ∀ (it : identIterator), it.wellFormed = true →
    it.isNil = false →
    ∃ r it1, it.next fs = some (r, it1) ∧ it1.wellFormed = true ∧ it1.isNil = false ∧
      (consYield r (it1.remaining fs)).Sublist (it.remaining fs) ∧
      it1.pending fs ≤ it.pending fs ∧
      (r = (blobIdent.zero, some ioEOF) ∨ it1.pending fs < it.pending fs)
  | .nil, _, h => by cases h
  | .mk path child ident layers entries offset eof, hwf, _ => by
    have hwf0 := hwf
    simp only [identIterator.wellFormed, Bool.and_eq_true, Bool.or_eq_true,
      decide_eq_true_eq] at hwf
    obtain ⟨⟨hchild, hlen⟩, hleaf⟩ := hwf
    have hlayers : layers ≠ [] := by
      intro h
      subst h
      simp at hlen
    have hreq : ∀ c : identIterator,
        identIterator.remaining fs (.mk path c ident layers entries offset false) =
          c.remaining fs ++ walkIdents fs layers path ident (entries.drop offset) :=
      fun c => by simp [identIterator.remaining]
    have hpeq : ∀ c : identIterator,
        identIterator.pending fs (.mk path c ident layers entries offset false) =
          c.pending fs + walkSize fs layers path ident (entries.drop offset) :=
      fun c => rfl
    cases eof with
    | true =>
      refine ⟨_, _, next_at_eof fs path child ident layers entries offset, hwf0, rfl, ?_, ?_, ?_⟩
      · simp [consYield, identIterator.remaining]
      · exact Nat.le_refl _
      · exact Or.inl rfl
    | false =>
      cases hc : child with
      | nil =>
        subst hc
        obtain ⟨r, it1, h1, h2, h3, h4, h5, h6⟩ :=
          advanceChild_step fs layers hlayers path .nil ident entries offset rfl (Or.inl rfl)
        refine ⟨r, it1, ?_, h2, h3, ?_, ?_, ?_⟩
        · simp only [identIterator.next, Bool.false_eq_true, if_false]
          exact h1
        · simpa [identIterator.remaining] using h4
        · simpa [identIterator.pending] using h5
        · simpa [identIterator.pending] using h6
      | mk p c id ls es o f =>
        subst hc
        have h2len : 2 ≤ layers.length := by
          rcases hleaf with h | h
          · cases h
          · exact h
        obtain ⟨r, c1, h1, h2, h3, h4, h5, h6⟩ :=
          next_step fs (.mk p c id ls es o f) hchild rfl
        obtain ⟨x, oerr⟩ := r
        simp only [identIterator.next, Bool.false_eq_true, if_false, h1]
        cases oerr with
        | none =>
          have hwf1 : (identIterator.mk path c1 ident layers entries offset false).wellFormed
              = true := by
            simp [identIterator.wellFormed, h2, hlen, h2len]
          refine ⟨_, _, rfl, hwf1, rfl, ?_, ?_, ?_⟩
          · rw [hreq, hreq, consYield_append]
            exact List.Sublist.append_right h4 _
          · rw [hpeq, hpeq]
            omega
          · right
            have : c1.pending fs < identIterator.pending fs (.mk p c id ls es o f) := by
              rcases h6 with h | h
              · cases h
              · exact h
            rw [hpeq, hpeq]
            omega
        | some err =>
          by_cases heof : errorsIs err ioEOF = true
          · simp only [heof, Bool.not_true, Bool.false_eq_true, if_false]
            obtain ⟨r2, it2, g1, g2, g3, g4, g5, g6⟩ :=
              advanceChild_step fs layers hlayers path c1 ident entries offset h2 (Or.inr h2len)
            have hrem : (c1.remaining fs).Sublist
                (identIterator.remaining fs (.mk p c id ls es o f)) := by
              simpa [consYield] using h4
            refine ⟨r2, it2, g1, g2, g3, ?_, ?_, ?_⟩
            · rw [hreq]
              exact g4.trans (List.Sublist.append_right hrem _)
            · rw [hpeq]
              omega
            · rcases g6 with h | h
              · exact Or.inl h
              · right
                rw [hpeq]
                omega
          · have heof2 : errorsIs err ioEOF = false := by simpa using heof
            simp only [heof2, Bool.not_false, if_true]
            have hrem : (c1.remaining fs).Sublist
                (identIterator.remaining fs (.mk p c id ls es o f)) := by
              simpa [consYield] using h4
            have hwf1 : (identIterator.mk path c1 ident layers entries offset false).wellFormed
                = true := by
              simp [identIterator.wellFormed, h2, hlen, h2len]
            refine ⟨_, _, rfl, hwf1, rfl, ?_, ?_, ?_⟩
            · rw [hreq, hreq]
              exact List.Sublist.append_right hrem _
            · rw [hpeq, hpeq]
              omega
            · right
              have : c1.pending fs < identIterator.pending fs (.mk p c id ls es o f) := by
                rcases h6 with h | h
                · injection h with _ h
                  injection h with h
                  subst h
                  cases heof2
                · exact h
              rw [hpeq, hpeq]
              omega

theorem yieldedIdents_cons (r : IterResult) (rs : List IterResult) :
    yieldedIdents (r :: rs) = consYield r (yieldedIdents rs) := by
  obtain ⟨x, oerr⟩ := r
  cases oerr <;> simp [yieldedIdents, consYield]

/-- The first `n` calls of `next` on a well-formed iterator: they all return, the idents they
yield, followed by what is left to walk, are part of what was left before, in order, and each
call that does not return `io.EOF` has visited an entry. -/
theorem nexts_step (fs : String → DirRead) : ∀ (n : Nat) (it : identIterator),
    it.wellFormed = true → it.isNil = false →
    ∃ rs it1, nexts fs n it = some (rs, it1) ∧ rs.length = n ∧
      it1.wellFormed = true ∧ it1.isNil = false ∧
      (yieldedIdents rs ++ it1.remaining fs).Sublist (it.remaining fs) ∧
      (rs.filter fun r => decide (r ≠ (blobIdent.zero, some ioEOF))).length + it1.pending fs ≤
        it.pending fs
  | 0, it, hwf, hnil =>
    ⟨[], it, rfl, rfl, hwf, hnil, by simp [yieldedIdents], by simp⟩
  | n + 1, it, hwf, hnil => by
    obtain ⟨r, it1, h1, h2, h3, h4, h5, h6⟩ := next_step fs it hwf hnil
    obtain ⟨rs, it2, g1, g2, g3, g4, g5, g6⟩ := nexts_step fs n it1 h2 h3
    refine ⟨r :: rs, it2, by simp [nexts, h1, g1], by simp [g2], g3, g4, ?_, ?_⟩
    · rw [yieldedIdents_cons, ← consYield_append]
      refine List.Sublist.trans ?_ h4
      unfold consYield
      split
      · exact List.Sublist.cons₂ _ g5
      · exact g5
    · rw [List.filter_cons]
      split
      · rename_i hne
        have hne2 : r ≠ (blobIdent.zero, some ioEOF) := by simpa using hne
        rcases h6 with h | h
        · exact absurd h hne2
        · simp only [List.length_cons]
          omega
      · omega

theorem sublist_flatMap_blocks {α β : Type} (f : α → List β) : ∀ (xs : List α) (l : List β),
    l.Sublist (xs.flatMap f) →
    ∃ blocks : List (List β), l = blocks.flatten ∧
      List.Forall₂ (fun b x => b.Sublist (f x)) blocks xs
  | [], l, h => by
    simp only [List.flatMap_nil, List.sublist_nil] at h
    subst h
    exact ⟨[], rfl, List.Forall₂.nil⟩
  | x :: xs, l, h => by
    rw [List.flatMap_cons, List.sublist_append_iff] at h
    obtain ⟨l1, l2, hl, h1, h2⟩ := h
    obtain ⟨blocks, hb, hall⟩ := sublist_flatMap_blocks f xs l2 h2
    exact ⟨l1 :: blocks, by simp [hl, hb], List.Forall₂.cons h1 hall⟩

theorem walkIdents_single (fs : String → DirRead) (layer : layoutLayer)
    (deeper : List layoutLayer) (path : String) (ident : blobIdent) (entries : List String) :
    walkIdents fs (layer :: deeper) path ident entries =
      entries.flatMap fun e => walkIdents fs (layer :: deeper) path ident [e] := by
  simp [walkIdents]

theorem mem_walkIdents (fs : String → DirRead) (layer : layoutLayer)
    (deeper : List layoutLayer) (path : String) (ident : blobIdent) (entries : List String)
    (x : blobIdent) (h : x ∈ walkIdents fs (layer :: deeper) path ident entries) :
    ∃ e ∈ entries, layer.filter (filepathJoin path e) = true ∧
      ∃ id, layer.populateIdent ident (filepathJoin path e) = (id, none) ∧
        if deeper.isEmpty then x = id
        else ∃ es, listDir fs (filepathJoin path e) = .ok es ∧
          x ∈ walkIdents fs deeper (filepathJoin path e) id es := by
  simp only [walkIdents, List.mem_flatMap] at h
  obtain ⟨e, he, hx⟩ := h
  refine ⟨e, he, ?_⟩
  by_cases hfilter : layer.filter (filepathJoin path e) = true
  · refine ⟨hfilter, ?_⟩
    simp only [hfilter, Bool.not_true, Bool.false_eq_true, if_false] at hx
    cases hpop : layer.populateIdent ident (filepathJoin path e) with
    | mk id oerr =>
      rw [hpop] at hx
      cases oerr with
      | some err => simp at hx
      | none =>
        refine ⟨id, rfl, ?_⟩
        simp only at hx
        by_cases hempty : deeper.isEmpty = true
        · simp only [hempty, if_true, List.mem_singleton] at hx ⊢
          exact hx
        · simp only [hempty, Bool.false_eq_true, if_false] at hx ⊢
          cases hlist : listDir fs (filepathJoin path e) with
          | error err => simp [hlist] at hx
          | ok es =>
            rw [hlist] at hx
            exact ⟨es, rfl, hx⟩
  · simp [hfilter] at hx

/-- C20: on a fresh iterator with at least one layer, each of the first `n` calls of `next`
returns (none indexes past `layers` or `entries`); among the first `walkSize + 1` calls, with
`walkSize` the number of entries in the directories that the walk lists, one returns `io.EOF`;
and the results are those on any other filesystem handle that lists the same names in the
same order. -/
theorem next_reaches_eof_within_bound (fs : String → DirRead) (layer : layoutLayer)
    (deeper : List layoutLayer) (path : String) (ident : blobIdent) (entries : List String)
    (n : Nat) :
    (∃ rs, firstResults fs n (.mk path .nil ident (layer :: deeper) entries 0 false) = some rs ∧
        rs.length = n) ∧
      (∃ rs, firstResults fs (walkSize fs (layer :: deeper) path ident entries + 1)
          (.mk path .nil ident (layer :: deeper) entries 0 false) = some rs ∧
        (blobIdent.zero, some ioEOF) ∈ rs) ∧
      ∀ fs2 : String → DirRead, (∀ p, fs2 p = fs p) →
        firstResults fs2 n (.mk path .nil ident (layer :: deeper) entries 0 false) =
          firstResults fs n (.mk path .nil ident (layer :: deeper) entries 0 false) := by
  refine ⟨?_, ?_, ?_⟩
  · obtain ⟨rs, it1, h1, h2, _⟩ :=
      nexts_step fs n (.mk path .nil ident (layer :: deeper) entries 0 false)
      (wellFormed_mk path .nil ident layer deeper entries 0 false rfl (Or.inl rfl)) rfl
    exact ⟨rs, by simp [firstResults, h1], h2⟩
  · obtain ⟨rs, it1, h1, h2, _, _, _, h6⟩ :=
      nexts_step fs (walkSize fs (layer :: deeper) path ident entries + 1)
        (.mk path .nil ident (layer :: deeper) entries 0 false)
      (wellFormed_mk path .nil ident layer deeper entries 0 false rfl (Or.inl rfl)) rfl
    refine ⟨rs, by simp [firstResults, h1], ?_⟩
    by_contra hmem
    have hall : rs.filter (fun r => decide (r ≠ (blobIdent.zero, some ioEOF))) = rs := by
      rw [List.filter_eq_self]
      intro r hr
      simp only [ne_eq, decide_not, Bool.not_eq_true', decide_eq_false_iff_not]
      intro heq
      exact hmem (heq ▸ hr)
    rw [hall, h2] at h6
    have hp : identIterator.pending fs (.mk path .nil ident (layer :: deeper) entries 0 false) =
        walkSize fs (layer :: deeper) path ident entries := by
      simp [identIterator.pending]
    rw [hp] at h6
    omega
  · intro fs2 hfs
    have : fs2 = fs := funext hfs
    rw [this]
/-! ## Identification errors -/

theorem advanceLoop_passedOver (fs : String → DirRead) (layer : layoutLayer)
    (deeper : List layoutLayer)
    (descend : String → blobIdent → List String → Option (IterResult × identIterator))
    (path : String) (child : identIterator) (ident : blobIdent) (layers : List layoutLayer)
    (entries : List String) (eof : Bool) : ∀ (skipped tail : List String) (i : Nat),
    (∀ s ∈ skipped, passedOver fs layer deeper path ident s = true) →
    advanceLoop fs layer deeper descend path child ident layers entries eof (skipped ++ tail) i =
      advanceLoop fs layer deeper descend path child ident layers entries eof tail
        (i + skipped.length)
  | [], tail, i, _ => rfl
  | s :: skipped, tail, i, h => by
    have hs := h s (List.mem_cons_self _ _)
    have ih := advanceLoop_passedOver fs layer deeper descend path child ident layers entries eof
      skipped tail (i + 1) (fun t ht => h t (List.mem_cons_of_mem _ ht))
    have hidx : i + 1 + skipped.length = i + (s :: skipped).length := by
      simp only [List.length_cons]
      omega
    rw [hidx] at ih
    rw [← ih]
    show advanceLoop fs layer deeper descend path child ident layers entries eof
      (s :: (skipped ++ tail)) i = _
    unfold passedOver at hs
    rw [advanceLoop]
    by_cases hfilter : layer.filter (filepathJoin path s) = true
    · simp only [hfilter, Bool.not_true, Bool.false_eq_true, if_false] at hs ⊢
      cases hpop : layer.populateIdent ident (filepathJoin path s) with
      | mk id oerr =>
        rw [hpop] at hs
        cases oerr with
        | some err => simp at hs
        | none =>
          simp only at hs ⊢
          by_cases hempty : deeper.isEmpty = true
          · simp [hempty] at hs
          · simp only [hempty, Bool.false_eq_true, if_false] at hs ⊢
            cases hlist : listDir fs (filepathJoin path s) with
            | error err => simp [hlist] at hs
            | ok es =>
              cases es with
              | nil => rfl
              | cons e0 es => simp [hlist] at hs
    · simp only [hfilter, Bool.not_false, if_true]

theorem next_of_childAtEnd (fs : String → DirRead) (path : String) (child c1 : identIterator)
    (ident : blobIdent) (layers : List layoutLayer) (entries : List String) (offset : Nat)
    (h : childAtEnd fs child = some c1) :
    identIterator.next fs (.mk path child ident layers entries offset false) =
      advanceChild fs layers path c1 ident layers entries offset false := by
  cases child with
  | nil =>
    simp only [childAtEnd, Option.some.injEq] at h
    subst h
    simp [identIterator.next]
  | mk p c id ls es o f =>
    simp only [childAtEnd] at h
    simp only [identIterator.next, Bool.false_eq_true, if_false]
    cases hn : identIterator.next fs (.mk p c id ls es o f) with
    | none => simp [hn] at h
    | some q =>
      obtain ⟨⟨x, oerr⟩, c2⟩ := q
      rw [hn] at h
      cases oerr with
      | none => simp at h
      | some err =>
        simp only at h ⊢
        by_cases heof : errorsIs err ioEOF = true
        · simp only [heof, if_true, Option.some.injEq] at h
          subst h
          simp [heof]
        · simp [heof] at h

theorem advanceChild_at (fs : String → DirRead) (layer : layoutLayer)
    (deeper : List layoutLayer) (path : String) (child : identIterator) (ident : blobIdent)
    (entries : List String) (offset : Nat) (skipped tail : List String)
    (hne : tail ≠ [])
    (hdrop : entries.drop offset = skipped ++ tail)
    (hskip : ∀ s ∈ skipped, passedOver fs layer deeper path ident s = true) :
    advanceChild fs (layer :: deeper) path child ident (layer :: deeper) entries offset false =
      advanceLoop fs layer deeper
        (fun p id es => advanceChild fs deeper p .nil id deeper es 0 false)
        path child ident (layer :: deeper) entries false tail (offset + skipped.length) := by
  have hoff : offset < entries.length := by
    by_contra hge
    rw [List.drop_eq_nil_of_le (Nat.le_of_not_lt hge)] at hdrop
    have := congrArg List.length hdrop
    cases tail with
    | nil => exact hne rfl
    | cons _ _ =>
      simp only [List.length_nil, List.length_append, List.length_cons] at this
      omega
  rw [advanceChild, if_pos hoff, hdrop]
  exact advanceLoop_passedOver fs layer deeper _ path child ident _ entries false skipped tail
    offset hskip

theorem stringToRoot_error (t : String) (err : GoError)
    (h : (stringToRoot t).2 = some err) : ∃ msg, err = .wrap errInvalidRootString msg := by
  unfold stringToRoot at h
  split at h
  · simp only [Option.some.injEq] at h
    exact ⟨_, h.symm⟩
  · split at h
    · simp only [Option.some.injEq] at h
      exact ⟨_, h.symm⟩
    · cases h

theorem populateRoot_error_not_eof (namer id : blobIdent) (dir : String) (err : GoError)
    (h : populateRoot namer dir = (id, some err)) : errorsIs err ioEOF = false := by
  unfold populateRoot rootFromPath at h
  simp only [] at h
  cases hs : stringToRoot (filepathBase dir) with
  | mk root oerr =>
    rw [hs] at h
    cases oerr with
    | none => simp at h
    | some e =>
      simp only [Prod.mk.injEq, Option.some.injEq] at h
      obtain ⟨msg, hmsg⟩ := stringToRoot_error (filepathBase dir) e (by rw [hs])
      rw [← h.2, hmsg]
      rfl

theorem populateIndex_error_not_eof (namer id : blobIdent) (fname : String) (err : GoError)
    (h : populateIndex namer fname = (id, some err)) : errorsIs err ioEOF = false := by
  unfold populateIndex idxFromPath at h
  simp only [] at h
  split at h
  · rename_i heq
    split at heq
    · simp only [Prod.mk.injEq, Option.some.injEq] at heq h
      obtain ⟨_, h3⟩ := heq
      obtain ⟨_, h4⟩ := h
      subst h3
      subst h4
      rfl
    · split at heq
      · simp only [Prod.mk.injEq, Option.some.injEq] at heq h
        obtain ⟨_, h3⟩ := heq
        obtain ⟨_, h4⟩ := h
        subst h3
        subst h4
        rfl
      · split at heq
        · rename_i e hparse
          simp only [Prod.mk.injEq, Option.some.injEq] at heq h
          obtain ⟨_, h3⟩ := heq
          obtain ⟨_, h4⟩ := h
          subst h3
          subst h4
          unfold parseUint64 at hparse
          split at hparse
          · injection hparse with hparse
            subst hparse
            rfl
          · split at hparse
            · injection hparse with hparse
              subst hparse
              rfl
            · split at hparse
              · cases hparse
              · injection hparse with hparse
                subst hparse
                rfl
        · simp at heq
  · simp at h

theorem next_nil_child (fs : String → DirRead) (path : String) (ident : blobIdent)
    (layers : List layoutLayer) (entries : List String) (offset : Nat) :
    identIterator.next fs (.mk path .nil ident layers entries offset false) =
      advanceChild fs layers path .nil ident layers entries offset false := by
  simp [identIterator.next]

/-- C18, on the tree `treeEofFile`, with a leaf layer whose populator fails with `io.EOF` on
`eof.ssz`. Called on the iterator of the directory of root B itself, `next` returns the
identification error for `eof.ssz`, as the claim has it. Called on the iterator of the base
directory, which meets the same failure through its child, the second call of `next` returns
plain `io.EOF` and no identification error, with `5.ssz` not yet walked, against the doc
comment of `next` (`io.EOF` "once all branches have been traversed"); the calls after it
yield the ident of `5.ssz` and then return `io.EOF`. -/
theorem next_takes_populate_eof_for_end_of_directory :
    populateIndexOrEOF ⟨bytesB, 0, 0⟩ (rootB ++ "/eof.ssz") = (⟨bytesB, 0, 0⟩, some ioEOF) ∧
      firstResults treeEofFile.readdirnames 2
          (.mk rootB .nil ⟨bytesB, 0, 0⟩ [⟨populateIndexOrEOF, isSszFile⟩]
            ["0.ssz", "eof.ssz", "5.ssz"] 0 false) =
        some [(⟨bytesB, 0, 0⟩, none),
          (⟨bytesB, 0, 0⟩,
            some (.identification ioEOF (rootB ++ "/eof.ssz") ⟨bytesB, 0, 0⟩))] ∧
      errorsIs (.identification ioEOF (rootB ++ "/eof.ssz") ⟨bytesB, 0, 0⟩) errIdentFailure =
        true ∧
      firstResults treeEofFile.readdirnames 5
          (.mk "." .nil blobIdent.zero eofLayers [rootB] 0 false) =
        some [(⟨bytesB, 0, 0⟩, none), (blobIdent.zero, some ioEOF), (⟨bytesB, 0, 5⟩, none),
          (blobIdent.zero, some ioEOF), (blobIdent.zero, some ioEOF)] := by
  decide

/-- What `next` returns for a failure of `populateIdent`, at the iterator where it happens and
above it. When the loop of `advanceChild`, in an iterator with no child or whose child has
reported its end, passes over some entries and then comes to an entry that passes the
filter and on which `populateIdent` fails with `err`, `next` returns the partially populated
ident with the identification error of `err`, the path of the entry and that ident, which
matches `errIdentFailure` and otherwise matches what `err` matches; the iterator is left just
past the entry with no child made for it, so the idents that later calls yield are among those
its child had left and those under the entries after it. An iterator above, calling `next` on
this one as its child, returns the same error with the zero ident when `err` does not match
`io.EOF`, and an iterator that has just made this one as a fresh child returns what it
returned. The errors of `populateNoop`, `populateRoot` and `populateIndex` never match
`io.EOF`. -/
theorem next_returns_identification_error (fs : String → DirRead) (layer : layoutLayer)
    (deeper : List layoutLayer) (path : String) (child c1 : identIterator) (ident : blobIdent)
    (entries : List String) (offset : Nat) (skipped : List String) (e : String)
    (rest : List String) (id : blobIdent) (err : GoError)
    (hend : childAtEnd fs child = some c1)
    (hdrop : entries.drop offset = skipped ++ e :: rest)
    (hskip : ∀ s ∈ skipped, passedOver fs layer deeper path ident s = true)
    (hfilter : layer.filter (filepathJoin path e) = true)
    (hpop : layer.populateIdent ident (filepathJoin path e) = (id, some err)) :
    identIterator.next fs (.mk path child ident (layer :: deeper) entries offset false) =
        some ((id, some (.identification err (filepathJoin path e) id)),
          .mk path c1 ident (layer :: deeper) entries (offset + skipped.length + 1) false) ∧
      errorsIs (.identification err (filepathJoin path e) id) errIdentFailure = true ∧
      (∀ target, target ≠ errIdentFailure →
        errorsIs (.identification err (filepathJoin path e) id) target = errorsIs err target) ∧
      (c1.wellFormed = true → (c1.isNil = true ∨ deeper ≠ []) → ∀ n, ∃ rs,
        firstResults fs n
            (.mk path c1 ident (layer :: deeper) entries (offset + skipped.length + 1) false) =
          some rs ∧
        (yieldedIdents rs).Sublist
          (c1.remaining fs ++ walkIdents fs (layer :: deeper) path ident rest)) ∧
      (errorsIs err ioEOF = false →
        ∀ (c c2 : identIterator) (x : blobIdent) (ppath : String) (pident : blobIdent)
          (players : List layoutLayer) (pentries : List String) (poffset : Nat),
          c.isNil = false →
          c.next fs = some ((x, some (.identification err (filepathJoin path e) id)), c2) →
          identIterator.next fs (.mk ppath c pident players pentries poffset false) =
            some ((blobIdent.zero, some (.identification err (filepathJoin path e) id)),
              .mk ppath c2 pident players pentries poffset false)) ∧
      (∀ (player : layoutLayer) (pdeeper : List layoutLayer) (ppath : String)
          (pchild pc1 : identIterator) (pident : blobIdent) (pentries : List String)
          (poffset : Nat) (pskipped : List String) (pe : String) (prest : List String)
          (pid : blobIdent) (es : List String) (r : IterResult) (c2 : identIterator),
          childAtEnd fs pchild = some pc1 →
          pentries.drop poffset = pskipped ++ pe :: prest →
          (∀ s ∈ pskipped, passedOver fs player pdeeper ppath pident s = true) →
          player.filter (filepathJoin ppath pe) = true →
          player.populateIdent pident (filepathJoin ppath pe) = (pid, none) →
          pdeeper ≠ [] → listDir fs (filepathJoin ppath pe) = .ok es → es ≠ [] →
          identIterator.next fs (.mk (filepathJoin ppath pe) .nil pid pdeeper es 0 false) =
            some (r, c2) →
          identIterator.next fs
              (.mk ppath pchild pident (player :: pdeeper) pentries poffset false) =
            some (r, .mk ppath c2 pident (player :: pdeeper) pentries
              (poffset + pskipped.length + 1) false)) ∧
      ∀ (namer id2 : blobIdent) (p : String) (err2 : GoError),
        populateNoop namer p ≠ (id2, some err2) ∧
        (populateRoot namer p = (id2, some err2) → errorsIs err2 ioEOF = false) ∧
        (populateIndex namer p = (id2, some err2) → errorsIs err2 ioEOF = false) := by
  refine ⟨?_, ?_, ?_, ?_, ?_, ?_, ?_⟩
  · rw [next_of_childAtEnd fs path child c1 ident _ entries offset hend,
      advanceChild_at fs layer deeper path c1 ident entries offset skipped (e :: rest)
        (by simp) hdrop hskip, advanceLoop]
    simp [hfilter, hpop, newIdentificationError]
  · simp [errorsIs]
  · intro target htarget
    simp [errorsIs, htarget]
  · intro hwf hleaf n
    obtain ⟨rs, it1, h1, _, _, _, h5, _⟩ := nexts_step fs n
      (.mk path c1 ident (layer :: deeper) entries (offset + skipped.length + 1) false)
      (wellFormed_mk path c1 ident layer deeper entries _ false hwf hleaf) rfl
    have hrest : entries.drop (offset + skipped.length + 1) = rest := by
      have : offset + skipped.length + 1 = offset + (skipped.length + 1) := by omega
      rw [this, ← List.drop_drop, hdrop]
      simp
    have hrem : identIterator.remaining fs
        (.mk path c1 ident (layer :: deeper) entries (offset + skipped.length + 1) false) =
        c1.remaining fs ++ walkIdents fs (layer :: deeper) path ident rest := by
      simp [identIterator.remaining, hrest]
    rw [hrem] at h5
    exact ⟨rs, by simp [firstResults, h1], (List.sublist_append_left _ _).trans h5⟩
  · intro heof c c2 x ppath pident players pentries poffset hnil hnext
    cases c with
    | nil => cases hnil
    | mk p c id0 ls es o f =>
      have hne : ioEOF ≠ errIdentFailure := by decide
      simp [identIterator.next, hnext, errorsIs, heof, hne]
  · intro player pdeeper ppath pchild pc1 pident pentries poffset pskipped pe prest pid es r c2
      hpend hpdrop hpskip hpfilter hppop hpdeeper hlist hes hfresh
    rw [next_nil_child] at hfresh
    have hempty : pdeeper.isEmpty = false := by
      cases pdeeper with
      | nil => exact absurd rfl hpdeeper
      | cons _ _ => rfl
    rw [next_of_childAtEnd fs ppath pchild pc1 pident _ pentries poffset hpend,
      advanceChild_at fs player pdeeper ppath pc1 pident pentries poffset pskipped (pe :: prest)
        (by simp) hpdrop hpskip, advanceLoop]
    cases es with
    | nil => exact absurd rfl hes
    | cons e0 es =>
      simp [hpfilter, hppop, hempty, hlist, hfresh]
  · intro namer id2 p err2
    refine ⟨by simp [populateNoop], populateRoot_error_not_eof namer id2 p err2,
      populateIndex_error_not_eof namer id2 p err2⟩

/-- On the tree `treeSomeUnidentified`, in the directory of root B, after
`0.ssz`, the entry `x.ssz` passes the filter and `populateIndex` fails on it; the call on the
iterator of the directory returns the identification error and leaves it before `5.ssz`. -/
theorem next_returns_identification_error_witness :
    identIterator.next treeSomeUnidentified.readdirnames
        (.mk rootB .nil ⟨bytesB, 0, 0⟩ [⟨populateIndex, isSszFile⟩]
          ["0.ssz", "x.ssz", "5.ssz"] 1 false) =
      some ((⟨bytesB, 0, 0⟩, some (.identification (.foreign "strconv.ParseUint: invalid syntax")
          (filepathJoin rootB "x.ssz") ⟨bytesB, 0, 0⟩)),
        .mk rootB .nil ⟨bytesB, 0, 0⟩ [⟨populateIndex, isSszFile⟩]
          ["0.ssz", "x.ssz", "5.ssz"] (1 + ([] : List String).length + 1) false) :=
  (next_returns_identification_error treeSomeUnidentified.readdirnames
    ⟨populateIndex, isSszFile⟩ [] rootB .nil .nil ⟨bytesB, 0, 0⟩ ["0.ssz", "x.ssz", "5.ssz"] 1
    [] "x.ssz" ["5.ssz"] ⟨bytesB, 0, 0⟩ (.foreign "strconv.ParseUint: invalid syntax")
    rfl rfl (fun _ hs => by cases hs) (by decide) (by decide)).1

/-! ## Layout names and the retention flag -/

/-- C21: `newLayout(name, ...)` returns a nil error exactly when `name` is one of
`LayoutNames`, which are `flat` and `by-epoch`, and it then returns the layout of that name;
for every other name it returns a nil layout and an error that matches
`errInvalidLayoutName`. -/
theorem newLayout_succeeds_iff_known_name {σ : Type} (name : String)
    (newFlatLayout newPeriodicEpochLayout : fsLayout σ) :
    LayoutNames = ["flat", "by-epoch"] ∧
      ((newLayout name newFlatLayout newPeriodicEpochLayout).2 = none ↔ name ∈ LayoutNames) ∧
      (name = "flat" →
        (newLayout name newFlatLayout newPeriodicEpochLayout).1 = some newFlatLayout) ∧
      (name = "by-epoch" →
        (newLayout name newFlatLayout newPeriodicEpochLayout).1 =
          some newPeriodicEpochLayout) ∧
      (name ∉ LayoutNames →
        (newLayout name newFlatLayout newPeriodicEpochLayout).1 = none ∧
        ∃ err, (newLayout name newFlatLayout newPeriodicEpochLayout).2 = some err ∧
          errorsIs err errInvalidLayoutName = true) := by
  have hnames : LayoutNames = ["flat", "by-epoch"] := rfl
  have hflat : LayoutNameFlat = "flat" := rfl
  have hepoch : LayoutNameByEpoch = "by-epoch" := rfl
  refine ⟨hnames, ?_, ?_, ?_, ?_⟩
  · unfold newLayout
    rw [hnames, hflat, hepoch]
    by_cases h1 : name = "flat"
    · simp [h1]
    · by_cases h2 : name = "by-epoch"
      · simp [h2]
      · simp [h1, h2]
  · intro h
    subst h
    rfl
  · intro h
    subst h
    rfl
  · intro h
    rw [hnames] at h
    have h1 : name ≠ "flat" := fun hc => h (by simp [hc])
    have h2 : name ≠ "by-epoch" := fun hc => h (by simp [hc])
    unfold newLayout
    rw [hflat, hepoch, if_neg h1, if_neg h2]
    exact ⟨rfl, _, rfl, by simp [errorsIs, errInvalidLayoutName]⟩

/-- C21, with the layouts on a tree in memory: each name of `LayoutNames` gives its layout,
and the name `bad` of the test gives no layout and an error that matches
`errInvalidLayoutName`. -/
theorem newLayout_succeeds_iff_known_name_witness :
    (newLayout "by-epoch" flatLayout byEpochLayout).2 = none ∧
      (newLayout "bad" flatLayout byEpochLayout).1.isNone = true ∧
      ∃ err, (newLayout "bad" flatLayout byEpochLayout).2 = some err ∧
        errorsIs err errInvalidLayoutName = true :=
  ⟨(newLayout_succeeds_iff_known_name "by-epoch" flatLayout byEpochLayout).2.1.mpr (by decide),
    by
      rw [((newLayout_succeeds_iff_known_name "bad" flatLayout byEpochLayout).2.2.2.2
        (by decide)).1]
      rfl,
    ((newLayout_succeeds_iff_known_name "bad" flatLayout byEpochLayout).2.2.2.2
      (by decide)).2⟩

/-- C22: `blobRetentionEpoch` returns the protocol minimum with a nil error when the flag is
not set; it returns an error exactly when the flag is set to a value below the minimum, and
the error then matches `errInvalidBlobRetentionEpochs`; when the flag is set to a value that
is not below the minimum it returns that value with a nil error; and the epoch it returns is
never below the minimum. -/
theorem blobRetentionEpoch_at_least_minimum (minEpochs : Nat) (isSet : Bool) (flagValue : Nat) :
    (isSet = false → blobRetentionEpoch minEpochs isSet flagValue = (minEpochs, none)) ∧
      ((blobRetentionEpoch minEpochs isSet flagValue).2 ≠ none ↔
        isSet = true ∧ flagValue < minEpochs) ∧
      (∀ err, (blobRetentionEpoch minEpochs isSet flagValue).2 = some err →
        errorsIs err errInvalidBlobRetentionEpochs = true) ∧
      (isSet = true → minEpochs ≤ flagValue →
        blobRetentionEpoch minEpochs isSet flagValue = (flagValue, none)) ∧
      minEpochs ≤ (blobRetentionEpoch minEpochs isSet flagValue).1 := by
  unfold blobRetentionEpoch
  cases isSet with
  | false => simp
  | true =>
    by_cases h : flagValue < minEpochs
    · simp [h, errorsIs, errInvalidBlobRetentionEpochs]
    · simp [h]
      omega

/-- C22, with the minimum of 4096 epochs: the flag set to 4095 is an error, the flag set to
5000 gives 5000, and the flag not set gives 4096. -/
theorem blobRetentionEpoch_at_least_minimum_witness :
    (blobRetentionEpoch 4096 true 4095).2 ≠ none ∧
      blobRetentionEpoch 4096 true 5000 = (5000, none) ∧
      blobRetentionEpoch 4096 false 0 = (4096, none) :=
  ⟨(blobRetentionEpoch_at_least_minimum 4096 true 4095).2.1.mpr ⟨rfl, by decide⟩,
    (blobRetentionEpoch_at_least_minimum 4096 true 5000).2.2.2.1 rfl (by decide),
    (blobRetentionEpoch_at_least_minimum 4096 false 0).1 rfl⟩

/-- C24: whatever the iterator returns and however long the run, no call of `l.remove` that
`pruneBefore` makes is for an ident with the all-zero root; `pruneOne` on an ident with that
root, whatever its epoch and index, makes no call and leaves the summaries and the filesystem
as they were. -/
theorem pruneBefore_never_removes_zero_root {σ : Type} (before : Nat) (fs : Fs σ)
    (l : fsLayout σ) (w : σ) (fuel : Nat) :
    (∀ c ∈ removeCalls (pruneBefore before fs l w fuel).events, c.1.root ≠ zeroHash) ∧
      ∀ (epoch index : Nat) (sums : PruneSums),
        pruneOne ⟨zeroHash, epoch, index⟩ l sums w = (sums, w, []) := by
  refine ⟨?_, fun epoch index sums => by simp [pruneOne]⟩
  intro c hc
  rcases pruneBefore_events before fs l w fuel with h | ⟨iter, h⟩
  · rw [h] at hc
    cases hc
  · rw [h] at hc
    have hmem : c.1 ∈ (removeCalls (pruneLoop fs l before fuel iter blobIdent.zero
        (fun _ => none) w).events).map (·.1) := List.mem_map_of_mem _ hc
    rw [pruneLoop_targets] at hmem
    exact (pruneTargets_epoch_lt before _ blobIdent.zero (Or.inl rfl) c.1 hmem).2

/-- C24, on the tree `treeZeroRoot` with the flat layout and the threshold 5: the walk yields
the ident of the all-zero root and then that of root B, both of epoch 0, and the only call of
`l.remove` is for root B. -/
theorem pruneBefore_never_removes_zero_root_witness :
    nextResults (pruneBefore 5 memFs flatLayout treeZeroRoot 5).events =
        [(⟨zeroHash, 0, 0⟩, none), (⟨bytesB, 0, 0⟩, none), (blobIdent.zero, some ioEOF)] ∧
      (removeCalls (pruneBefore 5 memFs flatLayout treeZeroRoot 5).events).map (·.1) =
        [⟨bytesB, 0, 0⟩] ∧
      bytesB ≠ zeroHash :=
  ⟨by decide, by decide,
    (pruneBefore_never_removes_zero_root 5 memFs flatLayout treeZeroRoot 5).1
      (⟨bytesB, 0, 0⟩, 1, none) (by decide)⟩

/-! ## Names of root directories -/

theorem isLowerHexDigit_hexValue (c : Char) (h : isLowerHexDigit c = true) :
    ∃ v, hexValue c = some v := by
  unfold isLowerHexDigit at h
  simp only [Bool.or_eq_true, Bool.and_eq_true, decide_eq_true_eq] at h
  unfold hexValue
  rcases h with h | h
  · exact ⟨_, by rw [if_pos h]⟩
  · by_cases h9 : '0' ≤ c ∧ c ≤ '9'
    · exact ⟨_, by rw [if_pos h9]⟩
    · exact ⟨_, by rw [if_neg h9, if_pos h]⟩

theorem utf8Len_of_hex_digits : ∀ (l : List Char), l.all isLowerHexDigit = true →
    String.utf8Len l = l.length
  | [], _ => rfl
  | c :: l, h => by
    simp only [List.all_cons, Bool.and_eq_true] at h
    obtain ⟨v, hv⟩ := isLowerHexDigit_hexValue c h.1
    simp only [String.utf8Len_cons, List.length_cons, utf8Len_of_hex_digits l h.2,
      hexValue_ascii c v hv]

/-- C23, as stated, fails: the name `0xzz..zz`, of 66 characters with the prefix `0x`, does
not match `0x[0-9a-f]{64}` and does not decode as a root, and `isRootDir` accepts it; it
accepts the upper-case name `0xAA..AA` too. -/
theorem isRootDir_accepts_name_that_is_not_hex :
    isRootDir rootZ = true ∧ matchesRootPattern (filepathBase rootZ) = false ∧
      (stringToRoot (filepathBase rootZ)).2 ≠ none ∧
      isRootDir "0xAAAAAAAAAAAAAAAAAAAAAAAAAAAAAAAAAAAAAAAAAAAAAAAAAAAAAAAAAAAAAAAA" = true ∧
      matchesRootPattern (filepathBase
        "0xAAAAAAAAAAAAAAAAAAAAAAAAAAAAAAAAAAAAAAAAAAAAAAAAAAAAAAAAAAAAAAAA") = false := by
  decide

/-- C23, amended: `isRootDir` accepts a path exactly when its basename is 66 bytes long and
begins with `0x`; every basename that matches `0x[0-9a-f]{64}` is accepted, and every name
that is not of that length or lacks the prefix is skipped. Of an accepted path, `populateRoot`
reads the root without error exactly when the basename decodes as hex. -/
theorem isRootDir_checks_length_and_prefix_only (p : String) (namer : blobIdent) :
    (isRootDir p = true ↔
        (filepathBase p).utf8ByteSize = 66 ∧ ['0', 'x'] <+: (filepathBase p).data) ∧
      (matchesRootPattern (filepathBase p) = true → isRootDir p = true) ∧
      (isRootDir p = true →
        ((populateRoot namer p).2 = none ↔ hexutilDecode (filepathBase p).data ≠ none)) := by
  have hiff : isRootDir p = true ↔
      (filepathBase p).utf8ByteSize = 66 ∧ ['0', 'x'] <+: (filepathBase p).data := by
    unfold isRootDir rootStringLen
    simp only [Bool.and_eq_true, decide_eq_true_eq, List.isPrefixOf_iff_prefix]
  refine ⟨hiff, ?_, ?_⟩
  · intro hm
    rw [hiff]
    unfold matchesRootPattern at hm
    split at hm
    · rename_i digits hdata
      simp only [Bool.and_eq_true, decide_eq_true_eq] at hm
      have hlen := utf8Len_of_hex_digits digits hm.2
      have hsize : (filepathBase p).utf8ByteSize = String.utf8Len (filepathBase p).data := rfl
      have h0 : ('0' : Char).utf8Size = 1 := rfl
      have hx : ('x' : Char).utf8Size = 1 := rfl
      refine ⟨?_, ?_⟩
      · rw [hsize, hdata]
        simp only [String.utf8Len_cons, hlen, h0, hx, hm.1]
      · rw [hdata]
        exact ⟨digits, rfl⟩
    · cases hm
  · intro hr
    have hlen := (hiff.mp hr).1
    unfold populateRoot rootFromPath stringToRoot rootStringLen
    simp only [hlen, ne_eq, not_true_eq_false, if_false]
    cases hd : hexutilDecode (filepathBase p).data <;> simp

/-- C23, amended, on the path `blobs/0xaa..aa`: the basename matches the pattern, so the
filter accepts the path. -/
theorem isRootDir_checks_length_and_prefix_only_witness :
    isRootDir ("blobs/" ++ rootA) = true :=
  (isRootDir_checks_length_and_prefix_only ("blobs/" ++ rootA) blobIdent.zero).2.1 (by decide)

/-! ## Names written and read back -/

theorem digitValue_ofNat (d : Nat) (h : d < 10) : digitValue (Char.ofNat (48 + d)) = some d := by
  have : ∀ k : Fin 10, digitValue (Char.ofNat (48 + k.val)) = some k.val := by decide
  exact this ⟨d, h⟩

/-- Parsing the digits that `decimalChars` writes for `n` in front of `acc` is parsing `acc`
from the value `n`. -/
theorem parseDigits_decimalChars : ∀ (fuel n : Nat) (acc : List Char), n < fuel →
    parseDigits (decimalChars fuel n acc) 0 = parseDigits acc n
  | 0, n, acc, h => by omega
  | fuel + 1, n, acc, h => by
    rw [decimalChars]
    by_cases hn : n < 10
    · rw [if_pos hn, parseDigits, digitValue_ofNat n hn]
      simp
    · rw [if_neg hn, parseDigits_decimalChars fuel (n / 10) _ (by omega), parseDigits,
        digitValue_ofNat (n % 10) (Nat.mod_lt _ (by omega))]
      simp only []
      rw [Nat.div_add_mod]

theorem decimalChars_ne_nil : ∀ (fuel n : Nat) (acc : List Char), n < fuel →
    decimalChars fuel n acc ≠ []
  | 0, n, acc, h => by omega
  | fuel + 1, n, acc, h => by
    rw [decimalChars]
    by_cases hn : n < 10
    · rw [if_pos hn]
      simp
    · rw [if_neg hn]
      exact decimalChars_ne_nil fuel (n / 10) _ (by omega)

/-- The digits of `formatUint n`: they are not empty, all decimal, and write `n`. -/
theorem formatUint_digits (n : Nat) :
    (formatUint n).data ≠ [] ∧ (formatUint n).data.all Char.isDigit = true ∧
      decimalValue (formatUint n).data = n := by
  have hparse : parseDigits (formatUint n).data 0 = some n := by
    unfold formatUint
    rw [parseDigits_decimalChars (n + 1) n [] (by omega)]
    rfl
  rw [parseDigits_eq] at hparse
  refine ⟨decimalChars_ne_nil (n + 1) n [] (by omega), ?_, ?_⟩
  · by_contra hall
    rw [if_neg hall] at hparse
    cases hparse
  · by_cases hall : (formatUint n).data.all Char.isDigit = true
    · rw [if_pos hall] at hparse
      injection hparse
    · rw [if_neg hall] at hparse
      cases hparse

theorem sszFname_data (ident : blobIdent) :
    ident.sszFname.data = (formatUint ident.index).data ++ ['.', 's', 's', 'z'] := by
  unfold blobIdent.sszFname sszExt
  simp only [String.data_append, List.append_assoc]
  rfl

theorem not_mem_of_all_isDigit (c : Char) (hc : c.isDigit = false) (l : List Char)
    (h : l.all Char.isDigit = true) : c ∉ l := by
  intro hmem
  have := List.all_eq_true.mp h c hmem
  rw [hc] at this
  cases this

theorem takeWhile_up_to_slash (tail : List Char) : ∀ (l : List Char), '/' ∉ l →
    (l ++ '/' :: tail).takeWhile (· ≠ '/') = l
  | [], _ => by simp [List.takeWhile]
  | a :: l, h => by
    have ha : a ≠ '/' := fun hc => h (by simp [hc])
    have hl : '/' ∉ l := fun hc => h (List.mem_cons_of_mem _ hc)
    rw [List.cons_append, List.takeWhile_cons, if_pos (by simpa using ha),
      takeWhile_up_to_slash tail l hl]

theorem takeWhile_no_slash : ∀ (l : List Char), '/' ∉ l → l.takeWhile (· ≠ '/') = l
  | [], _ => rfl
  | a :: l, h => by
    have ha : a ≠ '/' := fun hc => h (by simp [hc])
    have hl : '/' ∉ l := fun hc => h (List.mem_cons_of_mem _ hc)
    rw [List.takeWhile_cons, if_pos (by simpa using ha), takeWhile_no_slash l hl]

theorem dropWhile_slash_of_name (name tail : List Char) (hne : name ≠ []) (hsep : '/' ∉ name) :
    (name.reverse ++ tail).dropWhile (· = '/') = name.reverse ++ tail := by
  cases hr : name.reverse with
  | nil => exact absurd (List.reverse_eq_nil_iff.mp hr) hne
  | cons c cs =>
    have hc : c ≠ '/' := by
      intro h
      apply hsep
      apply List.mem_reverse.mp
      rw [hr, h]
      exact List.mem_cons_self _ _
    rw [List.cons_append, List.dropWhile_cons, if_neg (by simpa using hc)]

/-- The basename of a path that ends in a separator and then a name with no separator in
it is that name. -/
theorem filepathBaseChars_dir_name (dir name : List Char) (hne : name ≠ [])
    (hsep : '/' ∉ name) : filepathBaseChars (dir ++ '/' :: name) = name := by
  unfold filepathBaseChars
  have hnil : dir ++ '/' :: name ≠ [] := by simp
  rw [if_neg hnil]
  simp only []
  have hrev : (dir ++ '/' :: name).reverse = name.reverse ++ '/' :: dir.reverse := by simp
  have hrsep : '/' ∉ name.reverse := fun h => hsep (List.mem_reverse.mp h)
  rw [hrev, dropWhile_slash_of_name name _ hne hsep, takeWhile_up_to_slash _ _ hrsep,
    List.reverse_reverse, if_neg hne]

/-- The basename of a name with no separator in it is the name. -/
theorem filepathBaseChars_name (name : List Char) (hne : name ≠ []) (hsep : '/' ∉ name) :
    filepathBaseChars name = name := by
  unfold filepathBaseChars
  rw [if_neg hne]
  simp only []
  have hrsep : '/' ∉ name.reverse := fun h => hsep (List.mem_reverse.mp h)
  have hdrop := dropWhile_slash_of_name name [] hne hsep
  rw [List.append_nil] at hdrop
  rw [hdrop, takeWhile_no_slash _ hrsep, List.reverse_reverse, if_neg hne]

/-- C27: for every `blobIdent` with an index below `2^64`, `sszFname` is the decimal digits of
the index followed by `.ssz`, and `idxFromPath` returns the index with a nil error on every
path whose basename is `ident.sszFname()`: the name itself, and the name after any directory
and a separator. -/
theorem idxFromPath_sszFname (ident : blobIdent) (dir p : String)
    (hidx : ident.index < 2 ^ 64) :
    (ident.sszFname.data = (formatUint ident.index).data ++ ['.', 's', 's', 'z'] ∧
        (formatUint ident.index).data ≠ [] ∧
        (formatUint ident.index).data.all Char.isDigit = true ∧
        decimalValue (formatUint ident.index).data = ident.index) ∧
      (filepathBase p = ident.sszFname → idxFromPath p = (ident.index, none)) ∧
      idxFromPath ident.sszFname = (ident.index, none) ∧
      idxFromPath (dir ++ "/" ++ ident.sszFname) = (ident.index, none) := by
  obtain ⟨hne, hall, hval⟩ := formatUint_digits ident.index
  have hdot : '.' ∉ (formatUint ident.index).data :=
    not_mem_of_all_isDigit '.' (by decide) _ hall
  have hslash : '/' ∉ ident.sszFname.data := by
    rw [sszFname_data]
    intro hmem
    rcases List.mem_append.mp hmem with h | h
    · exact not_mem_of_all_isDigit '/' (by decide) _ hall h
    · revert h
      decide
  have hfne : ident.sszFname.data ≠ [] := by
    rw [sszFname_data]
    simp
  have hgen : ∀ q : String, (filepathBase q).data = ident.sszFname.data →
      idxFromPath q = (ident.index, none) := by
    intro q hq
    rw [sszFname_data] at hq
    rw [idxFromPath_stem q _ hdot hq,
      (parseUint64_ok_iff _ ident.index).mpr ⟨hne, hall, hval, hidx⟩]
  refine ⟨⟨sszFname_data ident, hne, hall, hval⟩, ?_, ?_, ?_⟩
  · intro hp
    exact hgen p (by rw [hp])
  · apply hgen
    unfold filepathBase
    rw [filepathBaseChars_name _ hfne hslash]
  · apply hgen
    unfold filepathBase
    have hdata : (dir ++ "/" ++ ident.sszFname).data =
        dir.data ++ '/' :: ident.sszFname.data := by
      simp only [String.data_append, List.append_assoc]
      rfl
    rw [hdata, filepathBaseChars_dir_name dir.data _ hfne hslash]

/-- C27, for the index `2^64 - 1` in the directory of root A. -/
theorem idxFromPath_sszFname_witness :
    idxFromPath (rootA ++ "/" ++ (⟨bytesA, 0, 2 ^ 64 - 1⟩ : blobIdent).sszFname) =
      (2 ^ 64 - 1, none) :=
  (idxFromPath_sszFname ⟨bytesA, 0, 2 ^ 64 - 1⟩ rootA "" (by decide)).2.2.2

theorem hexValue_hexDigitChar (d : Fin 16) :
    hexValue (hexDigitChar d.val) = some d ∧ isLowerHexDigit (hexDigitChar d.val) = true := by
  revert d
  decide

theorem hexDecodeChars_encode : ∀ (l : List (Fin 256)),
    hexDecodeChars (l.flatMap fun b => [hexDigitChar (b.val / 16), hexDigitChar (b.val % 16)]) =
        some l ∧
      (l.flatMap fun b =>
        [hexDigitChar (b.val / 16), hexDigitChar (b.val % 16)]).all isLowerHexDigit = true
  | [] => ⟨rfl, rfl⟩
  | b :: l => by
    obtain ⟨ih1, ih2⟩ := hexDecodeChars_encode l
    have hhi := hexValue_hexDigitChar ⟨b.val / 16, by omega⟩
    have hlo := hexValue_hexDigitChar ⟨b.val % 16, by omega⟩
    simp only at hhi hlo
    have hcons : ((b :: l).flatMap fun b =>
        [hexDigitChar (b.val / 16), hexDigitChar (b.val % 16)]) =
        hexDigitChar (b.val / 16) :: hexDigitChar (b.val % 16) ::
          l.flatMap fun b => [hexDigitChar (b.val / 16), hexDigitChar (b.val % 16)] := by
      rw [List.flatMap_cons]
      rfl
    rw [hcons]
    refine ⟨?_, ?_⟩
    · rw [hexDecodeChars, hhi.1, hlo.1, ih1]
      simp only [Option.some.injEq, List.cons.injEq, and_true]
      apply Fin.ext
      simp only [Fin.ofNat, Nat.div_add_mod]
      exact Nat.mod_eq_of_lt b.isLt
    · simp only [List.all_cons, hhi.2, hlo.2, ih2, Bool.and_self]

/-- C28: for every 32-byte root, `rootToString` gives `0x` followed by 64 digits from `0` to
`9` and `a` to `f`, a string of 66 characters and 66 bytes, and `stringToRoot` returns the root
from it with a nil error. -/
theorem stringToRoot_rootToString (r : Bytes32) :
    matchesRootPattern (rootToString r) = true ∧
      (rootToString r).length = 66 ∧ (rootToString r).utf8ByteSize = 66 ∧
      stringToRoot (rootToString r) = (r, none) := by
  obtain ⟨hdec, hall⟩ := hexDecodeChars_encode r.val
  have hlen : (r.val.flatMap fun b =>
      [hexDigitChar (b.val / 16), hexDigitChar (b.val % 16)]).length = 64 := by
    have := (hexDecodeChars_ascii _ _ hdec).1
    rw [this, r.property]
  have hdecode : hexutilDecode (rootToString r).data = some r.val := by
    unfold rootToString hexutilDecode
    simp only [true_or, if_true]
    exact hdec
  have hsize : (rootToString r).utf8ByteSize = 66 := by
    have h := hexutilDecode_ascii _ _ hdecode
    have h2 : (rootToString r).utf8ByteSize = String.utf8Len (rootToString r).data := rfl
    rw [h2, h.2, h.1, r.property]
  refine ⟨?_, ?_, hsize, ?_⟩
  · unfold matchesRootPattern rootToString
    simp only [hlen, hall, decide_True, Bool.and_self]
  · unfold rootToString String.length
    simp only [List.length_cons, hlen]
  · unfold stringToRoot rootStringLen
    rw [if_neg (by simp [hsize])]
    simp only [hdecode]
    congr 1
    exact Subtype.ext (toBytes32_of_length r.val r.property)

/-- C28, for the root of 32 bytes `0xbb`: its string is `rootB`, which reads back as the
root. -/
theorem stringToRoot_rootToString_witness :
    rootToString bytesB = rootB ∧ stringToRoot rootB = (bytesB, none) :=
  ⟨by decide, by
    have h := (stringToRoot_rootToString bytesB).2.2.2
    have hs : rootToString bytesB = rootB := by decide
    rw [hs] at h
    exact h⟩

/-! ## The indices of a blob request -/

/-- What the loop of `parseIndices` returns: the valid values not yet in `indices` are added
at their first occurrence, and the raw values that are not valid are added to
`invalidIndices`. -/
theorem parseIndicesLoop_eq (maxBlobs : Nat) : ∀ (raws : List String) (indices : List Nat)
    (invalidIndices : List String),
    parseIndicesLoop maxBlobs raws indices invalidIndices =
      (indices ++ (firstOccurrences ((raws.filter (validIndex maxBlobs)).map indexValue)).filter
          (fun ix => decide (ix ∉ indices)),
        invalidIndices ++ raws.filter fun raw => !validIndex maxBlobs raw)
  | [], indices, invalidIndices => by simp [parseIndicesLoop, firstOccurrences]
  | raw :: rest, indices, invalidIndices => by
    rw [parseIndicesLoop]
    cases hp : parseUint64 raw.data with
    | error e =>
      have hv : validIndex maxBlobs raw = false := by simp [validIndex, hp]
      simp only [parseIndicesLoop_eq maxBlobs rest, List.filter_cons, hv, Bool.false_eq_true,
        if_false, Bool.not_false, if_true, List.append_assoc, List.singleton_append]
    | ok ix =>
      simp only []
      by_cases hge : ix ≥ maxBlobs
      · have hv : validIndex maxBlobs raw = false := by
          simp only [validIndex, hp, decide_eq_false_iff_not]
          omega
        simp only [hge, if_true, parseIndicesLoop_eq maxBlobs rest, List.filter_cons, hv,
          Bool.false_eq_true, if_false, Bool.not_false, List.append_assoc,
          List.singleton_append]
      · have hv : validIndex maxBlobs raw = true := by
          simp only [validIndex, hp, decide_eq_true_eq]
          omega
        have hval : indexValue raw = ix := by simp [indexValue, hp]
        simp only [hge, if_false, List.filter_cons, hv, if_true, Bool.not_true,
          Bool.false_eq_true, List.map_cons, hval, firstOccurrences]
        by_cases hmem : ix ∈ indices
        · simp only [hmem, if_true, parseIndicesLoop_eq maxBlobs rest, not_true_eq_false,
            decide_False, Bool.false_eq_true, if_false, List.filter_filter, Prod.mk.injEq,
            List.append_cancel_left_eq, and_true]
          apply List.filter_congr
          intro a _
          by_cases ha : a = ix
          · subst ha
            simp [hmem]
          · simp [ha]
        · simp only [hmem, if_false, parseIndicesLoop_eq maxBlobs rest, not_false_eq_true,
            decide_True, if_true, List.filter_filter, List.append_assoc, List.singleton_append,
            Prod.mk.injEq, List.append_cancel_left_eq, List.cons.injEq, true_and, and_true]
          apply List.filter_congr
          intro a _
          by_cases ha : a = ix
          · subst ha
            simp
          · simp [ha, hmem]

theorem mem_firstOccurrences (x : Nat) : ∀ (l : List Nat), x ∈ firstOccurrences l ↔ x ∈ l
  | [] => by simp [firstOccurrences]
  | a :: l => by
    simp only [firstOccurrences, List.mem_cons, List.mem_filter, mem_firstOccurrences x l,
      ne_eq, decide_not, Bool.not_eq_true', decide_eq_false_iff_not]
    constructor
    · rintro (h | ⟨h, _⟩)
      · exact Or.inl h
      · exact Or.inr h
    · rintro (h | h)
      · exact Or.inl h
      · by_cases hx : x = a
        · exact Or.inl hx
        · exact Or.inr ⟨h, hx⟩

theorem firstOccurrences_nodup : ∀ (l : List Nat),
    (firstOccurrences l).Nodup ∧ (firstOccurrences l).Sublist l
  | [] => by simp [firstOccurrences]
  | a :: l => by
    obtain ⟨h1, h2⟩ := firstOccurrences_nodup l
    simp only [firstOccurrences]
    refine ⟨List.nodup_cons.mpr ⟨by simp, h1.filter _⟩, ?_⟩
    exact List.Sublist.cons₂ _ ((List.filter_sublist _).trans h2)

/-- C25, at the request `indices=1&indices=7` with the bound 6 (and likewise at
`indices=1&indices=7&indices=2` and `indices=1&indices=x`): `parseIndices` does not return the
valid values that remain, `[1]`, as the claim and the doc comment of the function ("filters
out invalid and duplicate blob indices") have it; it returns a nil slice and an error that
names the invalid values. -/
theorem parseIndices_fails_on_invalid_index :
    parseIndices ["1", "7"] 6 =
        (none, some (.foreign "requested blob indices [7] are invalid")) ∧
      parseIndices ["1", "7", "2"] 6 =
        (none, some (.foreign "requested blob indices [7] are invalid")) ∧
      parseIndices ["1", "x"] 6 =
        (none, some (.foreign "requested blob indices [x] are invalid")) := by
  decide

/-- What `parseIndices` returns in general. A raw value is valid when it is a non-empty string
of decimal digits that writes a number below `2^64` and below `MaxBlobsPerBlock(slot)`. When
every requested value is valid, `parseIndices` returns the numbers with the repetitions
filtered out, each at the place of its first occurrence, and a nil error; when some value is
not valid, it returns a nil slice and an error that names the values that are not valid, in
the order of the request. -/
theorem parseIndices_all_valid_or_error (rawIndices : List String) (maxBlobs : Nat) :
    (∀ raw, validIndex maxBlobs raw = true ↔
        raw.data ≠ [] ∧ raw.data.all Char.isDigit = true ∧ decimalValue raw.data < 2 ^ 64 ∧
          decimalValue raw.data < maxBlobs ∧ indexValue raw = decimalValue raw.data) ∧
      ((∀ raw ∈ rawIndices, validIndex maxBlobs raw = true) →
        parseIndices rawIndices maxBlobs =
          (some (firstOccurrences (rawIndices.map indexValue)), none)) ∧
      ((∃ raw ∈ rawIndices, validIndex maxBlobs raw = false) →
        parseIndices rawIndices maxBlobs =
          (none, some (.foreign ("requested blob indices " ++
            formatStrings (rawIndices.filter fun raw => !validIndex maxBlobs raw) ++
            " are invalid")))) ∧
      (firstOccurrences (rawIndices.map indexValue)).Nodup ∧
      (firstOccurrences (rawIndices.map indexValue)).Sublist (rawIndices.map indexValue) ∧
      ∀ x, x ∈ firstOccurrences (rawIndices.map indexValue) ↔
        x ∈ rawIndices.map indexValue := by
  refine ⟨?_, ?_, ?_, (firstOccurrences_nodup _).1, (firstOccurrences_nodup _).2,
    fun x => mem_firstOccurrences x _⟩
  · intro raw
    unfold validIndex indexValue
    cases hp : parseUint64 raw.data with
    | error e =>
      simp only [Bool.false_eq_true, false_iff, not_and]
      intro h1 h2 h3 _ _
      have := (parseUint64_ok_iff raw.data (decimalValue raw.data)).mpr ⟨h1, h2, rfl, h3⟩
      rw [hp] at this
      cases this
    | ok ix =>
      obtain ⟨h1, h2, h3, h4⟩ := (parseUint64_ok_iff raw.data ix).mp hp
      simp only [decide_eq_true_eq, h3]
      constructor
      · intro h
        exact ⟨h1, h2, h4, h, trivial⟩
      · intro h
        exact h.2.2.2.1
  · intro hall
    unfold parseIndices
    rw [parseIndicesLoop_eq]
    have hinv : rawIndices.filter (fun raw => !validIndex maxBlobs raw) = [] := by
      rw [List.filter_eq_nil_iff]
      intro raw hraw
      simp [hall raw hraw]
    have hval : rawIndices.filter (validIndex maxBlobs) = rawIndices := by
      rw [List.filter_eq_self]
      exact hall
    simp [hinv, hval]
  · rintro ⟨raw, hraw, hbad⟩
    unfold parseIndices
    rw [parseIndicesLoop_eq]
    have hmem : raw ∈ rawIndices.filter (fun raw => !validIndex maxBlobs raw) :=
      List.mem_filter.mpr ⟨hraw, by simp [hbad]⟩
    have hpos : (rawIndices.filter fun raw => !validIndex maxBlobs raw).length > 0 :=
      List.length_pos_of_mem hmem
    simp only [List.nil_append]
    rw [if_pos hpos]

/-- On the request `indices=1&indices=2&indices=1&indices=3` with the bound 6 all four values
are valid and the indices returned are 1, 2 and 3: duplicates are filtered out. -/
theorem parseIndices_filters_duplicates :
    parseIndices ["1", "2", "1", "3"] 6 = (some [1, 2, 3], none) :=
  (parseIndices_all_valid_or_error ["1", "2", "1", "3"] 6).2.1 (by decide)

/-! ## The queue of pending attestations -/

/-- The inner loop of `validatePendingAtts` on the indices below `n`: it does not index past
the end, it removes the stale attestations among the first `n` and keeps the others and all
that stand from index `n` on, in order. -/
theorem removeStaleAtts_eq (slot slotsPerEpoch : Nat) : ∀ (n : Nat)
    (atts : List SignedAggregateAttAndProof), n ≤ atts.length →
    removeStaleAtts slot slotsPerEpoch n atts =
      some ((atts.take n).filter (fun att => !attIsStale slot slotsPerEpoch att) ++ atts.drop n)
  | 0, atts, _ => by simp [removeStaleAtts]
  | i + 1, atts, h => by
    have hi : i < atts.length := by omega
    have hget : atts[i]? = some atts[i] := List.getElem?_eq_getElem hi
    have htake : atts.take (i + 1) = atts.take i ++ [atts[i]] := by
      rw [List.take_succ, hget]
      rfl
    have hdrop : atts.drop i = atts[i] :: atts.drop (i + 1) := List.drop_eq_getElem_cons hi
    rw [removeStaleAtts, hget]
    simp only []
    by_cases hstale : attIsStale slot slotsPerEpoch atts[i] = true
    · rw [if_pos hstale, removeStaleAtts_eq slot slotsPerEpoch i _ (by simp; omega)]
      have hlen : (atts.take i).length = i := by simp; omega
      rw [List.take_append_of_le_length (by omega), List.take_of_length_le (by omega),
        List.drop_append_of_le_length (by omega), List.drop_of_length_le (by omega), htake,
        List.filter_append]
      simp [hstale]
    · rw [if_neg hstale, removeStaleAtts_eq slot slotsPerEpoch i atts (by omega), htake,
        List.filter_append, hdrop]
      simp [hstale]

theorem freshAtts_some (slot slotsPerEpoch : Nat) (atts : List SignedAggregateAttAndProof) :
    freshAtts slot slotsPerEpoch (some atts) =
      if atts.filter (fun att => !attIsStale slot slotsPerEpoch att) = [] then none
      else some (atts.filter fun att => !attIsStale slot slotsPerEpoch att) := rfl

theorem freshAtts_idem (slot slotsPerEpoch : Nat)
    (p : Option (List SignedAggregateAttAndProof)) :
    freshAtts slot slotsPerEpoch (freshAtts slot slotsPerEpoch p) =
      freshAtts slot slotsPerEpoch p := by
  cases p with
  | none => rfl
  | some atts =>
    rw [freshAtts_some]
    by_cases hnil : atts.filter (fun att => !attIsStale slot slotsPerEpoch att) = []
    · rw [if_pos hnil]
      rfl
    · rw [if_neg hnil, freshAtts_some, List.filter_filter]
      simp only [Bool.and_self]
      rw [if_neg hnil]

theorem validatePendingAtts_cons (slot slotsPerEpoch : Nat) (bRoot : Bytes32)
    (keys : List Bytes32) (m : PendingAtts) :
    validatePendingAtts slot slotsPerEpoch (bRoot :: keys) m =
      validatePendingAtts slot slotsPerEpoch keys
        (Function.update m bRoot (freshAtts slot slotsPerEpoch (m bRoot))) := by
  rw [validatePendingAtts]
  cases hm : m bRoot with
  | none =>
    simp only []
    have : Function.update m bRoot (freshAtts slot slotsPerEpoch none) = m := by
      funext r
      by_cases hr : r = bRoot
      · subst hr
        rw [Function.update_same, hm]
        rfl
      · rw [Function.update_noteq hr]
    rw [this]
  | some atts =>
    simp only []
    rw [removeStaleAtts_eq slot slotsPerEpoch atts.length atts (Nat.le_refl _), freshAtts_some]
    simp only [List.take_length, List.drop_length, List.append_nil, Function.update_same,
      Option.getD_some, List.length_eq_zero, Function.update_idem]
    by_cases hnil : atts.filter (fun att => !attIsStale slot slotsPerEpoch att) = []
    · rw [if_pos hnil, if_pos hnil]
    · rw [if_neg hnil, if_neg hnil]

theorem validatePendingAtts_eq (slot slotsPerEpoch : Nat) : ∀ (keys : List Bytes32)
    (m : PendingAtts),
    validatePendingAtts slot slotsPerEpoch keys m =
      some fun r => if r ∈ keys then freshAtts slot slotsPerEpoch (m r) else m r
  | [], m => by simp [validatePendingAtts]
  | bRoot :: keys, m => by
    rw [validatePendingAtts_cons, validatePendingAtts_eq slot slotsPerEpoch keys]
    congr 1
    funext r
    by_cases hr : r = bRoot
    · subst hr
      simp only [Function.update_same, freshAtts_idem, List.mem_cons, true_or, if_true,
        ite_self]
    · simp only [Function.update_noteq hr, List.mem_cons, hr, false_or]

/-- C26: `validatePendingAtts(ctx, slot)` returns without indexing past a list, and after it
the pending list of every block root is the list it had before without the attestations for
which `slot >= att.slot + SlotsPerEpoch`, the others staying in their order, so that it
holds exactly the attestations with `slot < att.slot + SlotsPerEpoch`; no root is left with
an empty list. The sum is that of `primitives.Slot`, a 64-bit number, and is the plain sum
when it is below `2^64`. -/
theorem validatePendingAtts_keeps_fresh (slot slotsPerEpoch : Nat) (keys : List Bytes32)
    (m : PendingAtts) (hkeys : ∀ r, m r ≠ none → r ∈ keys) :
    ∃ m1, validatePendingAtts slot slotsPerEpoch keys m = some m1 ∧
      (∀ r, m1 r = freshAtts slot slotsPerEpoch (m r)) ∧
      (∀ r, (m1 r).getD [] = ((m r).getD []).filter fun att =>
        decide (slot < (att.Slot + slotsPerEpoch) % 2 ^ 64)) ∧
      (∀ r, m1 r ≠ some []) ∧
      ∀ att : SignedAggregateAttAndProof, att.Slot + slotsPerEpoch < 2 ^ 64 →
        (slot < (att.Slot + slotsPerEpoch) % 2 ^ 64 ↔ slot < att.Slot + slotsPerEpoch) := by
  have hm1 : ∀ r, (if r ∈ keys then freshAtts slot slotsPerEpoch (m r) else m r) =
      freshAtts slot slotsPerEpoch (m r) := by
    intro r
    by_cases hr : r ∈ keys
    · rw [if_pos hr]
    · rw [if_neg hr]
      have : m r = none := by
        by_contra hne
        exact hr (hkeys r hne)
      rw [this]
      rfl
  have hfilter : ∀ atts : List SignedAggregateAttAndProof,
      atts.filter (fun att => !attIsStale slot slotsPerEpoch att) =
        atts.filter fun att => decide (slot < (att.Slot + slotsPerEpoch) % 2 ^ 64) := by
    intro atts
    apply List.filter_congr
    intro att _
    unfold attIsStale
    generalize (att.Slot + slotsPerEpoch) % 2 ^ 64 = x
    by_cases h : slot < x
    · have h2 : ¬ slot ≥ x := by omega
      simp [h, h2]
    · have h2 : slot ≥ x := by omega
      simp [h, h2]
  refine ⟨_, validatePendingAtts_eq slot slotsPerEpoch keys m, hm1, ?_, ?_, ?_⟩
  · intro r
    rw [hm1]
    cases hmr : m r with
    | none => rfl
    | some atts =>
      rw [freshAtts_some, ← hfilter]
      by_cases hnil : atts.filter (fun att => !attIsStale slot slotsPerEpoch att) = []
      · rw [if_pos hnil]
        simp [hnil]
      · rw [if_neg hnil]
        rfl
  · intro r
    rw [hm1]
    cases hmr : m r with
    | none =>
      intro h
      cases h
    | some atts =>
      rw [freshAtts_some]
      by_cases hnil : atts.filter (fun att => !attIsStale slot slotsPerEpoch att) = []
      · rw [if_pos hnil]
        intro h
        cases h
      · rw [if_neg hnil]
        intro h
        injection h with h
        exact hnil h
  · intro att hlt
    rw [Nat.mod_eq_of_lt hlt]

/-- C26, on the queue `pendingSample` at slot 75 with 32 slots per epoch: of root A the
attestation of slot 70 stays and those of slots 10 and 40 go; root B, whose only attestation
is of slot 10, is no longer in the map. -/
theorem validatePendingAtts_keeps_fresh_witness :
    ∃ m1, validatePendingAtts 75 32 [bytesB, bytesA] pendingSample = some m1 ∧
      m1 bytesA = some [⟨70, 2⟩] ∧ m1 bytesB = none := by
  obtain ⟨m1, h1, h2, _⟩ := validatePendingAtts_keeps_fresh 75 32 [bytesB, bytesA]
    pendingSample (by
      intro r hr
      unfold pendingSample at hr
      by_cases ha : r = bytesA
      · simp [ha]
      · by_cases hb : r = bytesB
        · simp [hb]
        · simp [ha, hb] at hr)
  refine ⟨m1, h1, ?_, ?_⟩
  · rw [h2]
    decide
  · rw [h2]
    decide

/-! ## After the first `io.EOF` -/

/-- Once a well-formed iterator has no entry left to visit, every call of `next` returns
`io.EOF` with the zero ident. -/
theorem nexts_eof_when_nothing_pending (fs : String → DirRead) (n : Nat) (it : identIterator)
    (hwf : it.wellFormed = true) (hnil : it.isNil = false) (hpending : it.pending fs = 0) :
    ∃ rs it1, nexts fs n it = some (rs, it1) ∧ rs.length = n ∧
      ∀ r ∈ rs, r = (blobIdent.zero, some ioEOF) := by
  obtain ⟨rs, it1, h1, h2, _, _, _, h6⟩ := nexts_step fs n it hwf hnil
  refine ⟨rs, it1, h1, h2, ?_⟩
  rw [hpending] at h6
  have hlen : (rs.filter fun r => decide (r ≠ (blobIdent.zero, some ioEOF))).length = 0 := by
    omega
  have hfil := List.length_eq_zero.mp hlen
  intro r hr
  by_contra hne
  have : r ∈ rs.filter fun r => decide (r ≠ (blobIdent.zero, some ioEOF)) :=
    List.mem_filter.mpr ⟨hr, by simpa using hne⟩
  rw [hfil] at this
  cases this

/-- C29, at the failing input `treeStalePartTwoFiles`: the first call of `next` on the
iterator of the flat layout returns `io.EOF`, the two calls after it yield the idents of
`0.ssz` and `3.ssz` of root B, and only then does `io.EOF` come again and stay; a caller that
stops at the first `io.EOF` has seen none of the two idents of the walk. -/
theorem next_yields_idents_after_eof :
    firstResults treeStalePartTwoFiles.readdirnames 5 (flatIterator treeStalePartTwoFiles) =
        some [(blobIdent.zero, some ioEOF), (⟨bytesB, 0, 0⟩, none), (⟨bytesB, 0, 3⟩, none),
          (blobIdent.zero, some ioEOF), (blobIdent.zero, some ioEOF)] ∧
      untilEOF treeStalePartTwoFiles.readdirnames 5 (flatIterator treeStalePartTwoFiles) =
        some [] ∧
      walkIdents treeStalePartTwoFiles.readdirnames flatLayers "." blobIdent.zero [rootA, rootB] =
        [⟨bytesB, 0, 0⟩, ⟨bytesB, 0, 3⟩] := by
  decide

/-! ## The committee index of an attestation -/

/-- When `validateCommitteeIndexAndCount` accepts: the attestation is from before Electra or
the committee index of its data is 0, the count of active validators is known, and the
committee index is at most the committee count, the count itself included. -/
theorem validateCommitteeIndexAndCount_accept_iff (electra : Nat) (toEpoch : Nat → Nat)
    (ActiveValidatorCount : Nat → Except GoError Nat) (SlotCommitteeCount : Nat → Nat)
    (a : Att) :
    (validateCommitteeIndexAndCount electra toEpoch ActiveValidatorCount SlotCommitteeCount
        a).2.2.1 = .ValidationAccept ↔
      ¬ (a.Version ≥ electra ∧ a.DataCommitteeIndex ≠ 0) ∧
        ∃ valCount, ActiveValidatorCount (toEpoch a.Slot) = .ok valCount ∧
          a.CommitteeIndex ≤ SlotCommitteeCount valCount := by
  unfold validateCommitteeIndexAndCount
  by_cases h1 : a.Version ≥ electra ∧ a.DataCommitteeIndex ≠ 0
  · simp [h1]
  · rw [if_neg h1]
    cases hv : ActiveValidatorCount (toEpoch a.Slot) with
    | error err => simp [h1]
    | ok valCount =>
      simp only []
      by_cases h2 : a.CommitteeIndex > SlotCommitteeCount valCount
      · rw [if_pos h2]
        simp only [reduceCtorEq, false_iff, not_and, not_exists]
        intro _ v hveq
        injection hveq with hveq
        subst hveq
        omega
      · rw [if_neg h2]
        simp only [true_iff]
        exact ⟨h1, valCount, rfl, by omega⟩

/-- C30, at the failing input: an attestation from before Electra with the committee index 4,
for a slot with 16384 active validators and so 4 committees, whose indices are 0 to 3;
`validateCommitteeIndexAndCount` returns `ValidationAccept` with the committee index 4, which
is not below the committee count. -/
theorem validateCommitteeIndexAndCount_accepts_index_equal_to_count :
    validateCommitteeIndexAndCount 5 (· / 32) (fun _ => .ok 16384) sampleSlotCommitteeCount
        ⟨4, 100, 4, 4⟩ = (4, 16384, .ValidationAccept, none) ∧
      sampleSlotCommitteeCount 16384 = 4 ∧ ¬ (4 < sampleSlotCommitteeCount 16384) := by
  decide

/-! ## What a migration keeps of the files -/

theorem isUnder_iff (d p : List Char) :
    isUnder d p = true ↔ p = d ∨ ∃ r, p = d ++ '/' :: r := by
  unfold isUnder
  rw [Bool.or_eq_true, decide_eq_true_eq, List.isPrefixOf_iff_prefix]
  constructor
  · rintro (h | ⟨r, h⟩)
    · exact Or.inl h
    · exact Or.inr ⟨r, by rw [← h]; simp⟩
  · rintro (h | ⟨r, h⟩)
    · exact Or.inl h
    · exact Or.inr ⟨r, by rw [h]; simp⟩

theorem isUnder_self (d : List Char) : isUnder d d = true :=
  (isUnder_iff d d).mpr (Or.inl rfl)

theorem isUnder_slash (d r : List Char) : isUnder d (d ++ '/' :: r) = true :=
  (isUnder_iff d _).mpr (Or.inr ⟨r, rfl⟩)

/-- A path that lies at or under `b` and is a name in the directory `a` is that very path, or
`a` lies at or under `b`. -/
theorem isUnder_name (a b name : List Char) (hname : '/' ∉ name)
    (h : isUnder b (a ++ '/' :: name) = true) :
    b = a ++ '/' :: name ∨ isUnder b a = true := by
  rcases (isUnder_iff b _).mp h with h | ⟨r, h⟩
  · exact Or.inl h.symm
  · right
    rcases List.append_eq_append_iff.mp h with ⟨c, h1, h2⟩ | ⟨c, h1, h2⟩
    · -- b = a ++ c
      cases c with
      | nil => rw [h1]; simp [isUnder_self]
      | cons x c =>
        simp only [List.cons_append, List.cons.injEq] at h2
        exfalso
        apply hname
        rw [h2.2]
        simp
    · cases c with
      | nil =>
        simp only [List.append_nil] at h1
        rw [h1]
        exact isUnder_self _
      | cons x c =>
        simp only [List.cons_append, List.cons.injEq] at h2
        rw [h1, ← h2.1]
        exact isUnder_slash _ _

theorem takeWhile_before_slash (tail : List Char) : ∀ (l : List Char),
    (l ++ '/' :: tail).takeWhile (· ≠ '/') = l.takeWhile (· ≠ '/')
  | [] => by simp [List.takeWhile]
  | a :: l => by
    rw [List.cons_append, List.takeWhile_cons, List.takeWhile_cons,
      takeWhile_before_slash tail l]

theorem lastPiece_slash (x r : List Char) : lastPiece (x ++ '/' :: r) = lastPiece r := by
  unfold lastPiece
  rw [List.reverse_append, List.reverse_cons, List.append_assoc, List.singleton_append,
    takeWhile_before_slash]

theorem dropWhile_before_slash (tail : List Char) : ∀ (l : List Char),
    (l ++ '/' :: tail).dropWhile (· ≠ '/') =
      if '/' ∈ l then l.dropWhile (· ≠ '/') ++ '/' :: tail else '/' :: tail
  | [] => by simp [List.dropWhile]
  | a :: l => by
    rw [List.cons_append, List.dropWhile_cons, List.dropWhile_cons]
    by_cases ha : a = '/'
    · subst ha
      simp
    · have hmem : '/' ∈ a :: l ↔ '/' ∈ l := by
        constructor
        · intro h
          rcases List.mem_cons.mp h with h | h
          · exact absurd h.symm ha
          · exact h
        · exact List.mem_cons_of_mem _
      have hd : decide (a ≠ '/') = true := by simpa using ha
      rw [if_pos hd, if_pos hd, dropWhile_before_slash tail l]
      by_cases hl : '/' ∈ l
      · rw [if_pos hl, if_pos (hmem.mpr hl)]
      · rw [if_neg hl, if_neg (fun hc => hl (hmem.mp hc))]

theorem dropWhile_slash_ne_nil : ∀ (l : List Char), '/' ∈ l →
    ∃ t, l.dropWhile (· ≠ '/') = '/' :: t
  | [], h => by cases h
  | a :: l, h => by
    rw [List.dropWhile_cons]
    by_cases ha : a = '/'
    · subst ha
      exact ⟨l, by simp⟩
    · have hl : '/' ∈ l := by
        rcases List.mem_cons.mp h with h | h
        · exact absurd h.symm ha
        · exact h
      obtain ⟨t, ht⟩ := dropWhile_slash_ne_nil l hl
      have hd : decide (a ≠ '/') = true := by simpa using ha
      rw [if_pos hd]
      exact ⟨t, ht⟩

theorem dirPart_slash (x r : List Char) :
    dirPart (x ++ '/' :: r) = if '/' ∈ r then x ++ '/' :: dirPart r else x := by
  unfold dirPart
  rw [List.reverse_append, List.reverse_cons, List.append_assoc, List.singleton_append,
    dropWhile_before_slash]
  by_cases h : '/' ∈ r
  · have h2 : '/' ∈ r.reverse := List.mem_reverse.mpr h
    rw [if_pos h2, if_pos h]
    obtain ⟨t, ht⟩ := dropWhile_slash_ne_nil r.reverse h2
    rw [ht]
    simp
  · have h2 : '/' ∉ r.reverse := fun hc => h (List.mem_reverse.mp hc)
    rw [if_neg h2, if_neg h]
    simp

/-- The name of a file under a directory and the name of the directory it lies in stay the
same when the directory moves to a path with the same last piece. -/
theorem sidecar_names_slash (o n r : List Char) (h : lastPiece o = lastPiece n) :
    lastPiece (dirPart (o ++ '/' :: r)) = lastPiece (dirPart (n ++ '/' :: r)) ∧
      lastPiece (o ++ '/' :: r) = lastPiece (n ++ '/' :: r) := by
  rw [lastPiece_slash, lastPiece_slash, dirPart_slash, dirPart_slash]
  refine ⟨?_, rfl⟩
  by_cases hr : '/' ∈ r
  · rw [if_pos hr, if_pos hr, lastPiece_slash, lastPiece_slash]
  · rw [if_neg hr, if_neg hr, h]
theorem lookup_cons_pair (p k : String) (x : FileData) (m : MemFs) :
    List.lookup p ((k, x) :: m) = if p = k then some x else List.lookup p m := by
  rw [List.lookup_cons]
  by_cases h : p = k
  · subst h
    simp
  · have hb : (p == k) = false := by simpa using h
    rw [hb, if_neg h]

theorem lookup_mem : ∀ (m : MemFs) (p : String) (x : FileData),
    m.lookup p = some x → (p, x) ∈ m
  | [], p, x, h => by cases h
  | (k, y) :: m, p, x, h => by
    rw [lookup_cons_pair] at h
    by_cases hk : p = k
    · rw [if_pos hk] at h
      injection h with h
      subst h
      subst hk
      exact List.mem_cons_self _ _
    · rw [if_neg hk] at h
      exact List.mem_cons_of_mem _ (lookup_mem m p x h)

theorem lookup_filter_ne (p q : String) (hpq : p ≠ q) : ∀ (m : MemFs),
    (m.filter fun e => decide (e.1 ≠ q)).lookup p = m.lookup p
  | [] => rfl
  | (k, y) :: m => by
    by_cases hk : k = q
    · rw [List.filter_cons_of_neg (by simpa using hk), lookup_cons_pair,
        if_neg (fun h => hpq (h.trans hk))]
      exact lookup_filter_ne p q hpq m
    · rw [List.filter_cons_of_pos (by simpa using hk), lookup_cons_pair, lookup_cons_pair,
        lookup_filter_ne p q hpq m]

theorem lookup_map_key (f : String → String) (p : String) : ∀ (m : MemFs),
    (∀ e ∈ m, f e.1 = f p → e.1 = p) →
    (m.map fun e => (f e.1, e.2)).lookup (f p) = m.lookup p
  | [], _ => rfl
  | (k, y) :: m, h => by
    have ih := lookup_map_key f p m (fun e he => h e (List.mem_cons_of_mem _ he))
    rw [List.map_cons, lookup_cons_pair, lookup_cons_pair, ih]
    by_cases hk : p = k
    · subst hk
      rw [if_pos rfl, if_pos rfl]
    · have hf : f p ≠ f k := fun hc => hk (h (k, y) (List.mem_cons_self _ _) hc.symm).symm
      rw [if_neg hk, if_neg hf]

theorem lookup_append_some (m l : MemFs) (p : String) (x : FileData)
    (h : m.lookup p = some x) : (m ++ l).lookup p = some x := by
  induction m with
  | nil => cases h
  | cons e m ih =>
    obtain ⟨k, y⟩ := e
    rw [List.cons_append, lookup_cons_pair]
    rw [lookup_cons_pair] at h
    by_cases hk : p = k
    · rw [if_pos hk] at h ⊢
      exact h
    · rw [if_neg hk] at h ⊢
      exact ih h

/-- The path at which `MemFs.move` puts what was at `k`. -/
theorem move_eq_map (m : MemFs) (o n : String) :
    MemFs.move m o n = m.map fun e =>
      ((if isUnder o.data e.1.data then (⟨n.data ++ e.1.data.drop o.data.length⟩ : String)
        else e.1), e.2) := by
  unfold MemFs.move
  apply List.map_congr_left
  intro e _
  split <;> rfl

theorem drop_of_isUnder (o k : List Char) (h : isUnder o k = true) :
    k = o ++ k.drop o.length := by
  rcases (isUnder_iff o k).mp h with h | ⟨r, h⟩
  · rw [h]
    simp
  · rw [h]
    simp

theorem isUnder_moved (o n k : List Char) (h : isUnder o k = true) :
    isUnder n (n ++ k.drop o.length) = true := by
  rcases (isUnder_iff o k).mp h with h | ⟨r, h⟩
  · rw [h]
    simp [isUnder_self]
  · rw [h, List.drop_left]
    exact isUnder_slash n r

theorem mem_below (m : MemFs) (n : String) (e : String × FileData) (he : e ∈ m)
    (hne : e.1 ≠ n) (hu : isUnder n.data e.1.data = true) : e ∈ m.below n := by
  unfold MemFs.below
  rw [List.mem_filter]
  exact ⟨he, by simp [hne, hu]⟩

/-- After a move of `o` to `n`, a path under `o` is under `n` with what it held. -/
theorem move_lookup_under (m : MemFs) (o n p : String) (hbelow : m.below n = [])
    (hon : isUnder o.data n.data = false) (hp : isUnder o.data p.data = true) :
    (MemFs.move (m.filter fun e => decide (e.1 ≠ n)) o n).lookup
        ⟨n.data ++ p.data.drop o.data.length⟩ = m.lookup p := by
  have hpn : p ≠ n := by
    intro hc
    rw [hc, hon] at hp
    cases hp
  rw [move_eq_map]
  have hfp : (fun k : String => if isUnder o.data k.data then
      (⟨n.data ++ k.data.drop o.data.length⟩ : String) else k) p =
      ⟨n.data ++ p.data.drop o.data.length⟩ := by
    simp only [hp, if_true]
  rw [← hfp]
  rw [lookup_map_key (fun k : String => if isUnder o.data k.data then
      (⟨n.data ++ k.data.drop o.data.length⟩ : String) else k) p]
  · exact lookup_filter_ne p n hpn m
  · intro e he hfe
    rw [List.mem_filter] at he
    obtain ⟨he1, he2⟩ := he
    have hen : e.1 ≠ n := by simpa using he2
    simp only [hp, if_true] at hfe
    by_cases heo : isUnder o.data e.1.data = true
    · simp only [heo, if_true] at hfe
      have h1 := congrArg String.data hfe
      simp only [List.append_cancel_left_eq] at h1
      apply String.ext
      rw [drop_of_isUnder _ _ heo, drop_of_isUnder _ _ hp, h1]
    · simp only [heo, Bool.false_eq_true, if_false] at hfe
      exfalso
      have hu : isUnder n.data e.1.data = true := by
        rw [hfe]
        exact isUnder_moved _ _ _ hp
      have := mem_below m n e he1 hen hu
      rw [hbelow] at this
      cases this

/-- After a move of `o` to `n`, a path that holds something, does not lie at or under `o` and
is not `n` holds what it held. -/
theorem move_lookup_other (m : MemFs) (o n p : String) (x : FileData)
    (hbelow : m.below n = []) (hp : isUnder o.data p.data = false) (hpn : p ≠ n)
    (hx : m.lookup p = some x) :
    (MemFs.move (m.filter fun e => decide (e.1 ≠ n)) o n).lookup p = some x := by
  have hpu : isUnder n.data p.data = false := by
    by_contra hc
    have hu : isUnder n.data p.data = true := by simpa using hc
    have := mem_below m n (p, x) (lookup_mem m p x hx) hpn hu
    rw [hbelow] at this
    cases this
  rw [move_eq_map]
  have hfp : (fun k : String => if isUnder o.data k.data then
      (⟨n.data ++ k.data.drop o.data.length⟩ : String) else k) p = p := by
    simp only [hp, Bool.false_eq_true, if_false]
  rw [← hx, ← lookup_filter_ne p n hpn m]
  conv_lhs => rw [← hfp]
  refine lookup_map_key (fun k : String => if isUnder o.data k.data then
      (⟨n.data ++ k.data.drop o.data.length⟩ : String) else k) p _ ?_
  intro e he hfe
  simp only [hp, Bool.false_eq_true, if_false] at hfe
  by_cases heo : isUnder o.data e.1.data = true
  · simp only [heo, if_true] at hfe
    exfalso
    have hu : isUnder n.data p.data = true := by
      rw [← hfe]
      exact isUnder_moved _ _ _ heo
    rw [hpu] at hu
    cases hu
  · simp only [heo, Bool.false_eq_true, if_false] at hfe
    exact hfe
theorem sidecarFiles_filter_ne (q : String) : ∀ (m : MemFs),
    (∀ e ∈ m, isFileEntry e = true → e.1 ≠ q) →
    sidecarFiles (m.filter fun e => decide (e.1 ≠ q)) = sidecarFiles m
  | [], _ => rfl
  | (k, y) :: m, h => by
    have ih := sidecarFiles_filter_ne q m (fun e he => h e (List.mem_cons_of_mem _ he))
    unfold sidecarFiles at ih ⊢
    by_cases hk : k = q
    · rw [List.filter_cons_of_neg (by simpa using hk), ih, List.filterMap_cons]
      cases y with
      | dir => rfl
      | file bytes => exact absurd hk (h (k, .file bytes) (List.mem_cons_self _ _) rfl)
    · rw [List.filter_cons_of_pos (by simpa using hk), List.filterMap_cons, List.filterMap_cons,
        ih]

theorem sidecarFiles_move (o n : String) (hlast : lastPiece o.data = lastPiece n.data)
    (m : MemFs) (h : ∀ e ∈ m, isFileEntry e = true → e.1 ≠ o) :
    sidecarFiles (MemFs.move m o n) = sidecarFiles m := by
  unfold sidecarFiles MemFs.move
  rw [List.filterMap_map]
  apply List.filterMap_congr
  intro e he
  obtain ⟨k, y⟩ := e
  simp only [Function.comp]
  by_cases hu : isUnder o.data k.data = true
  · simp only [hu, if_true]
    cases y with
    | dir => rfl
    | file bytes =>
      have hko : k ≠ o := h (k, .file bytes) he rfl
      rcases (isUnder_iff _ _).mp hu with hk | ⟨r, hk⟩
      · exact absurd (String.ext hk) hko
      · obtain ⟨h1, h2⟩ := sidecar_names_slash o.data n.data r hlast
        simp only [hk, List.drop_left, ← h1, ← h2]
  · simp only [hu, Bool.false_eq_true, if_false]

theorem sidecarFiles_append_dir (m : MemFs) (d : String) :
    sidecarFiles (m ++ [(d, .dir)]) = sidecarFiles m := by
  unfold sidecarFiles
  rw [List.filterMap_append]
  simp

theorem noFileAt_filter (dirs : List String) (m : MemFs) (f : String × FileData → Bool)
    (h : noFileAt dirs m) : noFileAt dirs (m.filter f) :=
  fun e he => h e (List.mem_filter.mp he).1

theorem noFileAt_append_dir (dirs : List String) (m : MemFs) (d : String)
    (h : noFileAt dirs m) : noFileAt dirs (m ++ [(d, .dir)]) := by
  intro e he hf
  rcases List.mem_append.mp he with he | he
  · exact h e he hf
  · rw [List.mem_singleton] at he
    subst he
    cases hf

/-- A move of `o` to `n` puts no regular file at a path of `dirs`, when no regular file is at
`o` and no path of `dirs` lies under `n`. -/
theorem noFileAt_move (dirs : List String) (m : MemFs) (o n : String)
    (h : noFileAt dirs m) (ho : ∀ e ∈ m, isFileEntry e = true → e.1 ≠ o)
    (hn : ∀ k ∈ dirs, isUnder n.data k.data = true → k = n) :
    noFileAt dirs (MemFs.move m o n) := by
  intro e he hf
  unfold MemFs.move at he
  rw [List.mem_map] at he
  obtain ⟨e0, he0, heq⟩ := he
  by_cases hu : isUnder o.data e0.1.data = true
  · simp only [hu, if_true] at heq
    subst heq
    have hf0 : isFileEntry e0 = true := hf
    have hne : e0.1 ≠ o := ho e0 he0 hf0
    rcases (isUnder_iff _ _).mp hu with hk | ⟨r, hk⟩
    · exact absurd (String.ext hk) hne
    · intro hmem
      simp only [hk, List.drop_left] at hmem
      have := hn _ hmem (isUnder_slash n.data r)
      have hlen := congrArg (fun s : String => s.data.length) this
      simp at hlen
  · simp only [hu, Bool.false_eq_true, if_false] at heq
    subst heq
    exact h e0 he0 hf

theorem mkdirs_keeps : ∀ (ds : List String) (m : MemFs),
    (∀ p x, m.lookup p = some x → (m.mkdirs ds).2.lookup p = some x) ∧
      sidecarFiles (m.mkdirs ds).2 = sidecarFiles m ∧
      ∀ dirs, noFileAt dirs m → noFileAt dirs (m.mkdirs ds).2
  | [], m => ⟨fun _ _ h => h, rfl, fun _ h => h⟩
  | d :: rest, m => by
    unfold MemFs.mkdirs
    split
    · exact ⟨fun _ _ h => h, rfl, fun _ h => h⟩
    · exact mkdirs_keeps rest m
    · obtain ⟨h1, h2, h3⟩ := mkdirs_keeps rest (m ++ [(d, .dir)])
      refine ⟨fun p x h => h1 p x (lookup_append_some m _ p x h), ?_, fun dirs h => ?_⟩
      · rw [h2, sidecarFiles_append_dir]
      · exact h3 dirs (noFileAt_append_dir dirs m d h)

/-- What a call of `MkdirAll` keeps of a tree in memory: what every path holds, the sidecar
files, and the paths that hold no regular file. -/
theorem memFs_mkdirAll_keeps (m : MemFs) (path : String) :
    (∀ p x, m.lookup p = some x → (memFs.MkdirAll m path).2.lookup p = some x) ∧
      sidecarFiles (memFs.MkdirAll m path).2 = sidecarFiles m ∧
      ∀ dirs, noFileAt dirs m → noFileAt dirs (memFs.MkdirAll m path).2 :=
  mkdirs_keeps _ m

theorem string_mk_data (a : String) (h : isCleanPath a = true) :
    (⟨filepathCleanChars a.data⟩ : String) = a := by
  unfold isCleanPath at h
  rw [decide_eq_true_eq] at h
  rw [h]

/-- What a call of `Remove` on a path of `dirs` keeps of a tree in memory in which no path of
`dirs` holds a regular file: what every path with a regular file holds, the sidecar files,
and that no path of `dirs` holds a regular file. -/
theorem memFs_remove_keeps (dirs : List String) (m : MemFs) (d : String)
    (hd : isCleanPath d = true) (hmem : d ∈ dirs) (h : noFileAt dirs m) :
    (∀ p bytes, m.lookup p = some (.file bytes) →
        (memFs.Remove m d).2.lookup p = some (.file bytes)) ∧
      sidecarFiles (memFs.Remove m d).2 = sidecarFiles m ∧
      noFileAt dirs (memFs.Remove m d).2 := by
  simp only [memFs, MemFs.Remove, string_mk_data d hd]
  split
  · exact ⟨fun _ _ hp => hp, rfl, h⟩
  · split
    · exact ⟨fun _ _ hp => hp, rfl, h⟩
    · refine ⟨fun p bytes hp => ?_, ?_, noFileAt_filter dirs m _ h⟩
      · have hpd : p ≠ d := by
          intro hc
          subst hc
          exact h (p, .file bytes) (lookup_mem m p _ hp) rfl hmem
        rw [lookup_filter_ne p d hpd m]
        exact hp
      · exact sidecarFiles_filter_ne d m (fun e he hf hc => h e he hf (hc ▸ hmem))

/-- What a call of `Rename` that returns nil on a tree in memory has done, for clean paths
that differ: the target had no entry under it and did not lie under the source, and the tree
after the call is the tree with the entry of the target taken out and the source moved to the
target. -/
theorem memFs_rename_ok (m m1 : MemFs) (a b : String) (ha : isCleanPath a = true)
    (hb : isCleanPath b = true) (hne : a ≠ b) (h : memFs.Rename m a b = (none, m1)) :
    m.below b = [] ∧ isUnder a.data b.data = false ∧
      m1 = MemFs.move (m.filter fun e => decide (e.1 ≠ b)) a b := by
  have ha1 : filepathCleanChars a.data = a.data := by
    unfold isCleanPath at ha
    exact of_decide_eq_true ha
  have hb1 : filepathCleanChars b.data = b.data := by
    unfold isCleanPath at hb
    exact of_decide_eq_true hb
  simp only [memFs, MemFs.Rename, string_mk_data a ha, string_mk_data b hb, ha1, hb1] at h
  split at h
  · cases (Prod.mk.inj h).1
  · split at h
    · cases (Prod.mk.inj h).1
    · try rw [if_neg hne] at h
      split at h
      · cases (Prod.mk.inj h).1
      · rename_i hu
        split at h
        · cases (Prod.mk.inj h).1
        · split at h
          · cases (Prod.mk.inj h).1
          · cases (Prod.mk.inj h).1
          · split at h
            · rename_i hemp
              refine ⟨List.isEmpty_iff.mp hemp, by simpa using hu, (Prod.mk.inj h).2.symm⟩
            · cases (Prod.mk.inj h).1
theorem path_data (d name : String) :
    (d ++ "/" ++ name).data = d.data ++ '/' :: name.data := by
  simp [String.data_append]

theorem sszFname_no_slash (ident : blobIdent) : '/' ∉ ident.sszFname.data := by
  rw [sszFname_data]
  intro h
  rcases List.mem_append.mp h with h | h
  · exact not_mem_of_all_isDigit '/' (by decide) _ (formatUint_digits ident.index).2.1 h
  · revert h
    decide

theorem apart_not_under (a b : String) (h : apart a b = true) :
    isUnder a.data b.data = false ∧ isUnder b.data a.data = false := by
  unfold apart at h
  simpa using h

theorem apart_ne (a b : String) (h : apart a b = true) : a ≠ b := by
  intro hc
  have := (apart_not_under a b h).1
  rw [hc, isUnder_self] at this
  cases this

theorem same_or_apart_under (a b : String) (h : a = b ∨ apart a b = true)
    (hu : isUnder a.data b.data = true ∨ isUnder b.data a.data = true) : a = b := by
  rcases h with h | h
  · exact h
  · obtain ⟨h1, h2⟩ := apart_not_under a b h
    rcases hu with hu | hu
    · rw [h1] at hu
      cases hu
    · rw [h2] at hu
      cases hu

theorem slash_ne_self (a r : List Char) : a ++ '/' :: r ≠ a := by
  intro h
  have := congrArg List.length h
  simp at this

theorem mem_migrationDirs {σ : Type} (src tgt : fsLayout σ) (ids : List blobIdent)
    (k : String) :
    k ∈ migrationDirs src tgt ids ↔
      ∃ i ∈ ids, k = src.dir i ∨ k = tgt.dir i ∨ k ∈ src.blockParentDirs i := by
  unfold migrationDirs
  simp [List.mem_flatMap]

/-- No directory of a migration lies under the target of one of its renames, the target itself
apart. -/
theorem migrationDirs_under_target {σ : Type} (src tgt : fsLayout σ) (ids : List blobIdent)
    (hag : layoutsAgree src tgt ids) (f : blobIdent) (hf : f ∈ ids) :
    ∀ k ∈ migrationDirs src tgt ids, isUnder (tgt.dir f).data k.data = true → k = tgt.dir f := by
  intro k hk hu
  obtain ⟨i, hi, hk⟩ := (mem_migrationDirs src tgt ids k).mp hk
  obtain ⟨_, _, _, _, _, _, hpair⟩ := hag i hi
  obtain ⟨h1, _, h3, _, h5⟩ := hpair f hf
  rcases hk with hk | hk | hk
  · subst hk
    rw [(apart_not_under _ _ h1).2] at hu
    cases hu
  · subst hk
    exact same_or_apart_under _ _ h3 (Or.inr hu)
  · rw [h5 k hk] at hu
    cases hu

/-- What a call of `Rename` of a migration that returns nil keeps of a tree in memory in which
no directory of the migration holds a regular file: the sidecar files, and that no directory of
the migration holds a regular file. -/
theorem memFs_rename_keeps (src tgt : fsLayout MemFs) (ids : List blobIdent)
    (hag : layoutsAgree src tgt ids) (f : blobIdent) (hf : f ∈ ids) (m m1 : MemFs)
    (hno : noFileAt (migrationDirs src tgt ids) m)
    (h : memFs.Rename m (src.dir f) (tgt.dir f) = (none, m1)) :
    m.below (tgt.dir f) = [] ∧
      m1 = MemFs.move (m.filter fun e => decide (e.1 ≠ tgt.dir f)) (src.dir f) (tgt.dir f) ∧
      noFileAt (migrationDirs src tgt ids) m1 ∧ sidecarFiles m1 = sidecarFiles m := by
  obtain ⟨_, _, hc1, hc2, hlast, _, hpair⟩ := hag f hf
  obtain ⟨hap, _⟩ := hpair f hf
  obtain ⟨hbelow, _, hm1⟩ := memFs_rename_ok m m1 _ _ hc1 hc2 (apart_ne _ _ hap) h
  have hsrc : src.dir f ∈ migrationDirs src tgt ids :=
    (mem_migrationDirs src tgt ids _).mpr ⟨f, hf, Or.inl rfl⟩
  have htgt : tgt.dir f ∈ migrationDirs src tgt ids :=
    (mem_migrationDirs src tgt ids _).mpr ⟨f, hf, Or.inr (Or.inl rfl)⟩
  have hfilt : noFileAt (migrationDirs src tgt ids)
      (m.filter fun e => decide (e.1 ≠ tgt.dir f)) := noFileAt_filter _ m _ hno
  have ho : ∀ e ∈ m.filter (fun e => decide (e.1 ≠ tgt.dir f)), isFileEntry e = true →
      e.1 ≠ src.dir f := fun e he hfe hc => hfilt e he hfe (hc ▸ hsrc)
  refine ⟨hbelow, hm1, ?_, ?_⟩
  · rw [hm1]
    exact noFileAt_move _ _ _ _ hfilt ho (migrationDirs_under_target src tgt ids hag f hf)
  · rw [hm1, sidecarFiles_move _ _ hlast _ ho]
    exact sidecarFiles_filter_ne _ m (fun e he hfe hc => hno e he hfe (hc ▸ htgt))

/-- The calls of a migration, made from a tree in memory in which no directory of the migration
holds a regular file, keep the sidecar files, and no directory of the migration holds a regular
file after them. -/
theorem replay_keeps_sidecars (src tgt : fsLayout MemFs) (ids : List blobIdent)
    (hag : layoutsAgree src tgt ids) : ∀ (evs : List Event) (w : MemFs),
    migrationCalls src tgt ids evs → recordsFsCalls memFs evs w →
    noFileAt (migrationDirs src tgt ids) w →
    noFileAt (migrationDirs src tgt ids) (replayFsCalls memFs evs w) ∧
      sidecarFiles (replayFsCalls memFs evs w) = sidecarFiles w
  | [], w, _, _, hno => ⟨hno, rfl⟩
  | ev :: evs, w, hcalls, hrec, hno => by
    have hcalls1 : migrationCalls src tgt ids evs :=
      fun e he => hcalls e (List.mem_cons_of_mem _ he)
    have hev := hcalls ev (List.mem_cons_self _ _)
    obtain ⟨hrec0, hrec1⟩ := hrec
    rw [replayFsCalls_cons]
    have hstep : noFileAt (migrationDirs src tgt ids) (applyFsCall memFs w ev) ∧
        sidecarFiles (applyFsCall memFs w ev) = sidecarFiles w := by
      cases ev with
      | next ident err => exact ⟨hno, rfl⟩
      | ensure ident err => exact ⟨hno, rfl⟩
      | remove ident removed err => exact ⟨hno, rfl⟩
      | mkdirAll path err =>
        obtain ⟨_, h2, h3⟩ := memFs_mkdirAll_keeps w path
        exact ⟨h3 _ hno, h2⟩
      | rename source target err =>
        obtain ⟨herr, f, hf, hs, ht⟩ := hev
        subst hs ht herr
        obtain ⟨_, _, h3, h4⟩ := memFs_rename_keeps src tgt ids hag f hf w
          (memFs.Rename w (src.dir f) (tgt.dir f)).2 hno (Prod.ext hrec0 rfl)
        exact ⟨h3, h4⟩
      | fsRemove dir err =>
        obtain ⟨i, hi, hd⟩ := hev
        obtain ⟨_, _, _, _, _, hclean, _⟩ := hag i hi
        obtain ⟨_, h2, h3⟩ := memFs_remove_keeps (migrationDirs src tgt ids) w dir
          (hclean dir hd) ((mem_migrationDirs src tgt ids _).mpr ⟨i, hi, Or.inr (Or.inr hd)⟩)
          hno
        exact ⟨h3, h2⟩
    obtain ⟨h1, h2⟩ := replay_keeps_sidecars src tgt ids hag evs _ hcalls1 hrec1 hstep.1
    exact ⟨h1, h2.trans hstep.2⟩
/-- The calls of a migration leave the file of an ident where it is in the layout `to`, once
it is there. -/
theorem replay_keeps_target_file (src tgt : fsLayout MemFs) (ids : List blobIdent)
    (hag : layoutsAgree src tgt ids) (i : blobIdent) (hi : i ∈ ids) (bytes : List Nat) :
    ∀ (evs : List Event) (w : MemFs),
    migrationCalls src tgt ids evs → recordsFsCalls memFs evs w →
    noFileAt (migrationDirs src tgt ids) w →
    w.lookup (tgt.dir i ++ "/" ++ i.sszFname) = some (.file bytes) →
    (replayFsCalls memFs evs w).lookup (tgt.dir i ++ "/" ++ i.sszFname) = some (.file bytes)
  | [], w, _, _, _, hx => hx
  | ev :: evs, w, hcalls, hrec, hno, hx => by
    have hcalls1 : migrationCalls src tgt ids evs :=
      fun e he => hcalls e (List.mem_cons_of_mem _ he)
    have hev := hcalls ev (List.mem_cons_self _ _)
    have hkeep := replay_keeps_sidecars src tgt ids hag [ev] w
      (fun e he => hcalls e (by rw [List.mem_singleton] at he; rw [he]; exact List.mem_cons_self _ _))
      ⟨hrec.1, trivial⟩ hno
    obtain ⟨hrec0, hrec1⟩ := hrec
    rw [replayFsCalls_cons]
    refine replay_keeps_target_file src tgt ids hag i hi bytes evs _ hcalls1 hrec1 hkeep.1 ?_
    cases ev with
    | next ident err => exact hx
    | ensure ident err => exact hx
    | remove ident removed err => exact hx
    | mkdirAll path err => exact (memFs_mkdirAll_keeps w path).1 _ _ hx
    | rename source target err =>
      obtain ⟨herr, f, hf, hs, ht⟩ := hev
      subst hs ht herr
      obtain ⟨hbelow, hm1, _, _⟩ := memFs_rename_keeps src tgt ids hag f hf w
        (memFs.Rename w (src.dir f) (tgt.dir f)).2 hno (Prod.ext hrec0 rfl)
      show (memFs.Rename w (src.dir f) (tgt.dir f)).2.lookup _ = _
      rw [hm1]
      obtain ⟨_, _, _, _, _, _, hpair⟩ := hag i hi
      obtain ⟨_, _, h3, _, _⟩ := hpair f hf
      obtain ⟨_, _, _, _, _, _, hpairf⟩ := hag f hf
      obtain ⟨h1f, _, _, _, _⟩ := hpairf i hi
      apply move_lookup_other w _ _ _ _ hbelow ?_ ?_ hx
      · by_contra hc
        have hu : isUnder (src.dir f).data (tgt.dir i ++ "/" ++ i.sszFname).data = true := by
          simpa using hc
        rw [path_data] at hu
        rcases isUnder_name _ _ _ (sszFname_no_slash i) hu with h | h
        · have h2 : isUnder (tgt.dir i).data (src.dir f).data = true := by
            rw [h]
            exact isUnder_slash _ _
          rw [(apart_not_under _ _ h1f).2] at h2
          cases h2
        · rw [(apart_not_under _ _ h1f).1] at h
          cases h
      · intro hc
        have hd := congrArg String.data hc
        rw [path_data] at hd
        have h2 : isUnder (tgt.dir i).data (tgt.dir f).data = true := by
          rw [← hd]
          exact isUnder_slash _ _
        have h4 := same_or_apart_under _ _ h3 (Or.inl h2)
        rw [← h4] at hd
        exact slash_ne_self _ _ hd
    | fsRemove dir err =>
      obtain ⟨j, hj, hd⟩ := hev
      obtain ⟨_, _, _, _, _, hclean, _⟩ := hag j hj
      exact (memFs_remove_keeps (migrationDirs src tgt ids) w dir (hclean dir hd)
        ((mem_migrationDirs src tgt ids _).mpr ⟨j, hj, Or.inr (Or.inr hd)⟩) hno).1 _ _ hx

/-- The calls of a migration, when one of them renames the directory of an ident in `from`,
take the file of the ident from where it is in `from` to where it is in `to`. -/
theorem replay_moves_source_file (src tgt : fsLayout MemFs) (ids : List blobIdent)
    (hag : layoutsAgree src tgt ids) (i : blobIdent) (hi : i ∈ ids) (bytes : List Nat) :
    ∀ (evs : List Event) (w : MemFs),
    migrationCalls src tgt ids evs → recordsFsCalls memFs evs w →
    noFileAt (migrationDirs src tgt ids) w →
    w.lookup (src.dir i ++ "/" ++ i.sszFname) = some (.file bytes) →
    (∃ t err, Event.rename (src.dir i) t err ∈ evs) →
    (replayFsCalls memFs evs w).lookup (tgt.dir i ++ "/" ++ i.sszFname) = some (.file bytes)
  | [], w, _, _, _, _, hex => by
    obtain ⟨t, err, h⟩ := hex
    cases h
  | ev :: evs, w, hcalls, hrec, hno, hx, hex => by
    have hcalls1 : migrationCalls src tgt ids evs :=
      fun e he => hcalls e (List.mem_cons_of_mem _ he)
    have hev := hcalls ev (List.mem_cons_self _ _)
    have hkeep := replay_keeps_sidecars src tgt ids hag [ev] w
      (fun e he => hcalls e (by rw [List.mem_singleton] at he; rw [he]; exact List.mem_cons_self _ _))
      ⟨hrec.1, trivial⟩ hno
    obtain ⟨hrec0, hrec1⟩ := hrec
    rw [replayFsCalls_cons]
    have hrest : ∀ (hne : ∀ t err, ev ≠ Event.rename (src.dir i) t err),
        (applyFsCall memFs w ev).lookup (src.dir i ++ "/" ++ i.sszFname) = some (.file bytes) →
        (replayFsCalls memFs evs (applyFsCall memFs w ev)).lookup
          (tgt.dir i ++ "/" ++ i.sszFname) = some (.file bytes) := by
      intro hne hx1
      refine replay_moves_source_file src tgt ids hag i hi bytes evs _ hcalls1 hrec1 hkeep.1
        hx1 ?_
      obtain ⟨t, err, h⟩ := hex
      rcases List.mem_cons.mp h with h | h
      · exact absurd h.symm (hne t err)
      · exact ⟨t, err, h⟩
    cases ev with
    | next ident err => exact hrest (fun _ _ h => by cases h) hx
    | ensure ident err => exact hrest (fun _ _ h => by cases h) hx
    | remove ident removed err => exact hrest (fun _ _ h => by cases h) hx
    | mkdirAll path err =>
      exact hrest (fun _ _ h => by cases h) ((memFs_mkdirAll_keeps w path).1 _ _ hx)
    | fsRemove dir err =>
      obtain ⟨j, hj, hd⟩ := hev
      obtain ⟨_, _, _, _, _, hclean, _⟩ := hag j hj
      exact hrest (fun _ _ h => by cases h)
        ((memFs_remove_keeps (migrationDirs src tgt ids) w dir (hclean dir hd)
          ((mem_migrationDirs src tgt ids _).mpr ⟨j, hj, Or.inr (Or.inr hd)⟩) hno).1 _ _ hx)
    | rename source target err =>
      obtain ⟨herr, f, hf, hs, ht⟩ := hev
      subst hs ht herr
      obtain ⟨hbelow, hm1, _, _⟩ := memFs_rename_keeps src tgt ids hag f hf w
        (memFs.Rename w (src.dir f) (tgt.dir f)).2 hno (Prod.ext hrec0 rfl)
      obtain ⟨_, _, _, _, _, _, hpair⟩ := hag i hi
      obtain ⟨h1, h2, _, h4, _⟩ := hpair f hf
      by_cases hsame : src.dir f = src.dir i
      · -- the directory of the ident moves
        have htgt : tgt.dir f = tgt.dir i := (h4 hsame.symm).symm
        refine replay_keeps_target_file src tgt ids hag i hi bytes evs _ hcalls1 hrec1
          hkeep.1 ?_
        show (memFs.Rename w (src.dir f) (tgt.dir f)).2.lookup _ = _
        rw [hm1, hsame, htgt]
        have hon : isUnder (src.dir i).data (tgt.dir i).data = false := by
          obtain ⟨h1i, _⟩ := hpair i hi
          exact (apart_not_under _ _ h1i).1
        have hbelow2 : w.below (tgt.dir i) = [] := htgt ▸ hbelow
        have hmv := move_lookup_under w (src.dir i) (tgt.dir i)
          (src.dir i ++ "/" ++ i.sszFname) hbelow2 hon
          (by rw [path_data]; exact isUnder_slash _ _)
        have hkey : (⟨(tgt.dir i).data ++
            (src.dir i ++ "/" ++ i.sszFname).data.drop (src.dir i).data.length⟩ : String) =
            tgt.dir i ++ "/" ++ i.sszFname := by
          apply String.ext
          rw [path_data, path_data, List.drop_left]
        rw [hkey] at hmv
        rw [hmv]
        exact hx
      · apply hrest
        · intro t err hc
          injection hc with hc1 _ _
          exact hsame hc1
        · show (memFs.Rename w (src.dir f) (tgt.dir f)).2.lookup _ = _
          rw [hm1]
          apply move_lookup_other w _ _ _ _ hbelow ?_ ?_ hx
          · by_contra hc
            have hu : isUnder (src.dir f).data (src.dir i ++ "/" ++ i.sszFname).data = true := by
              simpa using hc
            rw [path_data] at hu
            rcases isUnder_name _ _ _ (sszFname_no_slash i) hu with h | h
            · have h5 : isUnder (src.dir i).data (src.dir f).data = true := by
                rw [h]
                exact isUnder_slash _ _
              exact hsame (same_or_apart_under _ _ h2 (Or.inl h5)).symm
            · exact hsame (same_or_apart_under _ _ h2 (Or.inr h)).symm
          · intro hc
            have hd := congrArg String.data hc
            rw [path_data] at hd
            have h5 : isUnder (src.dir i).data (tgt.dir f).data = true := by
              rw [← hd]
              exact isUnder_slash _ _
            rw [(apart_not_under _ _ h1).1] at h5
            cases h5
theorem mem_renameCalls (s t : String) (err : Option GoError) : ∀ (evs : List Event),
    Event.rename s t err ∈ evs ↔ (s, t, err) ∈ renameCalls evs
  | [] => by simp [renameCalls]
  | ev :: evs => by
    have ih := mem_renameCalls s t err evs
    cases ev <;> simp [renameCalls, ih]

theorem mem_fsRemoveCalls (d : String) : ∀ (evs : List Event),
    (∃ err, Event.fsRemove d err ∈ evs) ↔ d ∈ fsRemoveCalls evs
  | [] => by simp [fsRemoveCalls]
  | ev :: evs => by
    have ih := mem_fsRemoveCalls d evs
    cases ev <;> simp [fsRemoveCalls, ← ih, exists_or]

theorem mem_moveStarts (dir : blobIdent → String) (f : blobIdent) :
    ∀ (idents : List blobIdent) (lastMoved : String),
      f ∈ moveStarts dir lastMoved idents → f ∈ idents
  | [], _, h => by cases h
  | ident :: rest, lastMoved, h => by
    unfold moveStarts at h
    split at h
    · rcases List.mem_cons.mp h with h | h
      · exact h ▸ List.mem_cons_self _ _
      · exact List.mem_cons_of_mem _ (mem_moveStarts dir f rest _ h)
    · exact List.mem_cons_of_mem _ (mem_moveStarts dir f rest _ h)

theorem stat_path (m : MemFs) (d name : String) :
    m.stat (d ++ "/" ++ name) = m.lookup (d ++ "/" ++ name) := by
  unfold MemFs.stat
  rw [if_neg]
  intro hc
  have hd := congrArg String.data hc
  rw [path_data] at hd
  have hl := congrArg List.length hd
  cases hdd : d.data with
  | nil =>
    rw [hdd] at hd
    simp at hd
  | cons x l =>
    rw [hdd] at hl
    simp at hl

/-- C9: after a run of `migrateLayout(fs, from, to, cache)` on a tree in memory that returns
nil, when the layouts keep to the contract of `fsLayout` on the idents yielded (`layoutsAgree`:
the file of an ident is the file `sszFname` in its directory, and the directories of the two
layouts lie apart), no directory of these idents is a regular file in the tree at the start,
and the idents of each source directory were yielded adjacently (as the depth-first walk
yields them): every ident yielded whose file was at `from.sszPath(ident)` has it at
`to.sszPath(ident)` with the same bytes; the calls of `Rename` are each of `from.dir(ident)` to
`to.dir(ident)` for an ident yielded and returned nil, there is one for every ident yielded,
and no source directory was renamed twice; the bit of every ident yielded is set in the
cache, whose other bits are as before; and the sidecar files of the tree, each with the name of
its directory, its own name and its bytes, are the same after the run as before it, none lost
and none duplicated. -/
theorem migrateLayout_moves_every_sidecar (src tgt : fsLayout MemFs)
    (cache : blobStorageSummaryCache) (w : MemFs) (fuel : Nat)
    (h : (migrateLayout memFs src tgt cache w fuel).outcome = .returned none)
    (hag : layoutsAgree src tgt
      (yieldedIdents (nextResults (migrateLayout memFs src tgt cache w fuel).events)))
    (hno : noFileAt (migrationDirs src tgt
      (yieldedIdents (nextResults (migrateLayout memFs src tgt cache w fuel).events))) w)
    (hadj : adjacentRuns ((yieldedIdents
      (nextResults (migrateLayout memFs src tgt cache w fuel).events)).map src.dir)) :
    (∀ i ∈ yieldedIdents (nextResults (migrateLayout memFs src tgt cache w fuel).events),
      ∀ bytes, w.stat (src.sszPath i) = some (.file bytes) →
        (migrateLayout memFs src tgt cache w fuel).fs.stat (tgt.sszPath i) =
          some (.file bytes)) ∧
      (∀ c ∈ renameCalls (migrateLayout memFs src tgt cache w fuel).events,
        ∃ f ∈ yieldedIdents (nextResults (migrateLayout memFs src tgt cache w fuel).events),
          c = (src.dir f, tgt.dir f, none)) ∧
      (∀ i ∈ yieldedIdents (nextResults (migrateLayout memFs src tgt cache w fuel).events),
        (src.dir i, tgt.dir i, none) ∈
          renameCalls (migrateLayout memFs src tgt cache w fuel).events) ∧
      ((renameCalls (migrateLayout memFs src tgt cache w fuel).events).map (·.1)).Nodup ∧
      (∀ i ∈ yieldedIdents (nextResults (migrateLayout memFs src tgt cache w fuel).events),
        (migrateLayout memFs src tgt cache w fuel).cache.HasIndex i.root i.index = true) ∧
      (∀ (root : Bytes32) (i : Nat),
        ((migrateLayout memFs src tgt cache w fuel).cache.HasIndex root i = true ↔
          cache.HasIndex root i = true ∨
            ∃ ident ∈ yieldedIdents
                (nextResults (migrateLayout memFs src tgt cache w fuel).events),
              ident.root = root ∧ ident.index = i)) ∧
      sidecarFiles (migrateLayout memFs src tgt cache w fuel).fs = sidecarFiles w := by
  obtain ⟨hren, _, hcache, hnodup, _, hrm, _⟩ :=
    migrateLayout_renames_each_source_dir memFs src tgt cache w fuel h
  obtain ⟨hfs, hrec⟩ := migrateLayout_replay memFs src tgt cache w fuel
  have hne : "" ∉ (yieldedIdents (nextResults
      (migrateLayout memFs src tgt cache w fuel).events)).map src.dir := by
    intro hc
    obtain ⟨i, hi, hd⟩ := List.mem_map.mp hc
    obtain ⟨_, _, hc1, _⟩ := hag i hi
    rw [hd] at hc1
    revert hc1
    decide
  obtain ⟨hnd, hmem⟩ := hnodup hadj hne
  have hform : ∀ c ∈ renameCalls (migrateLayout memFs src tgt cache w fuel).events,
      ∃ f ∈ yieldedIdents (nextResults (migrateLayout memFs src tgt cache w fuel).events),
        c = (src.dir f, tgt.dir f, none) := by
    intro c hc
    rw [hren] at hc
    obtain ⟨f, hf, hc⟩ := List.mem_map.mp hc
    exact ⟨f, mem_moveStarts src.dir f _ _ hf, hc.symm⟩
  have hcalls : migrationCalls src tgt
      (yieldedIdents (nextResults (migrateLayout memFs src tgt cache w fuel).events))
      (migrateLayout memFs src tgt cache w fuel).events := by
    intro ev hev
    cases ev with
    | next ident err => trivial
    | ensure ident err => trivial
    | remove ident removed err => trivial
    | mkdirAll path err => trivial
    | rename source target err =>
      obtain ⟨f, hf, hc⟩ := hform _ ((mem_renameCalls source target err _).mp hev)
      injection hc with h1 h2
      injection h2 with h2 h3
      exact ⟨h3, f, hf, h1, h2⟩
    | fsRemove dir err => exact hrm dir ((mem_fsRemoveCalls dir _).mp ⟨err, hev⟩)
  have hall : ∀ i ∈ yieldedIdents (nextResults
      (migrateLayout memFs src tgt cache w fuel).events),
      (src.dir i, tgt.dir i, none) ∈
        renameCalls (migrateLayout memFs src tgt cache w fuel).events := by
    intro i hi
    have h1 : src.dir i ∈ (renameCalls
        (migrateLayout memFs src tgt cache w fuel).events).map (·.1) :=
      (hmem _).mpr (List.mem_map.mpr ⟨i, hi, rfl⟩)
    obtain ⟨c, hc, hci⟩ := List.mem_map.mp h1
    obtain ⟨f, hf, hcf⟩ := hform c hc
    subst hcf
    have hsd : src.dir f = src.dir i := hci
    obtain ⟨_, _, _, _, _, _, hpair⟩ := hag f hf
    obtain ⟨_, _, _, h4, _⟩ := hpair i hi
    rw [← hsd, ← h4 hsd] at *
    exact hc
  refine ⟨fun i hi bytes hx => ?_, hform, hall, hnd, fun i hi => ?_, hcache, ?_⟩
  · obtain ⟨hp1, hp2, _⟩ := hag i hi
    rw [hp1, stat_path] at hx
    rw [hp2, stat_path, hfs]
    exact replay_moves_source_file src tgt _ hag i hi bytes _ w hcalls hrec hno hx
      ⟨tgt.dir i, none, (mem_renameCalls _ _ _ _).mpr (hall i hi)⟩
  · exact (hcache i.root i.index).mpr (Or.inr ⟨i, hi, rfl, rfl⟩)
  · rw [hfs]
    exact (replay_keeps_sidecars src tgt _ hag _ w hcalls hrec hno).2

/-- C9, on the tree `treeTwoRoots`, from the flat layout to the by-epoch layout: the run
returns nil, the three files are where the by-epoch layout has them, with their bytes, and
the sidecar files of the tree are the three it had. -/
theorem migrateLayout_moves_every_sidecar_witness :
    (migrateLayout memFs flatLayout byEpochLayout blobStorageSummaryCache.empty
        treeTwoRoots 4).outcome = .returned none ∧
      treeTwoRoots.stat (flatLayout.sszPath ⟨bytesB, 0, 3⟩) = some (.file [5]) ∧
      (migrateLayout memFs flatLayout byEpochLayout blobStorageSummaryCache.empty
        treeTwoRoots 4).fs.stat ("by-epoch/0/" ++ rootB ++ "/3.ssz") = some (.file [5]) ∧
      (migrateLayout memFs flatLayout byEpochLayout blobStorageSummaryCache.empty
        treeTwoRoots 4).fs.stat ("by-epoch/0/" ++ rootA ++ "/1.ssz") = some (.file [7]) ∧
      renameCalls (migrateLayout memFs flatLayout byEpochLayout blobStorageSummaryCache.empty
        treeTwoRoots 4).events =
        [(rootB, "by-epoch/0/" ++ rootB, none), (rootA, "by-epoch/0/" ++ rootA, none)] ∧
      sidecarFiles (migrateLayout memFs flatLayout byEpochLayout
        blobStorageSummaryCache.empty treeTwoRoots 4).fs =
        [(rootB, "0.ssz", [2]), (rootB, "3.ssz", [5]), (rootA, "1.ssz", [7])] :=
  have h := migrateLayout_moves_every_sidecar flatLayout byEpochLayout
    blobStorageSummaryCache.empty treeTwoRoots 4 (by decide) (by decide) (by decide)
    (by decide)
  ⟨by decide, by decide, h.1 ⟨bytesB, 0, 3⟩ (by decide) [5] (by decide),
    h.1 ⟨bytesA, 0, 1⟩ (by decide) [7] (by decide), by decide,
    h.2.2.2.2.2.2.trans (by decide)⟩

/-! ## The walk yields what the depth-first walk lists -/

theorem walkIdents_passedOver (fs : String → DirRead) (layer : layoutLayer)
    (deeper : List layoutLayer) (path : String) (ident : blobIdent) (e : String)
    (h : passedOver fs layer deeper path ident e = true) :
    walkIdents fs (layer :: deeper) path ident [e] = [] := by
  unfold passedOver at h
  simp only [walkIdents, List.flatMap_cons, List.flatMap_nil, List.append_nil]
  by_cases hfilter : layer.filter (filepathJoin path e) = true
  · simp only [hfilter, Bool.not_true, Bool.false_eq_true, if_false] at h ⊢
    cases hpop : layer.populateIdent ident (filepathJoin path e) with
    | mk id oerr =>
      rw [hpop] at h
      cases oerr with
      | some err => rfl
      | none =>
        simp only at h ⊢
        by_cases hempty : deeper.isEmpty = true
        · simp [hempty] at h
        · simp only [hempty, Bool.false_eq_true, if_false] at h ⊢
          cases hlist : listDir fs (filepathJoin path e) with
          | error err => rfl
          | ok es =>
            rw [hlist] at h
            cases es with
            | nil => exact walkIdents_nil fs deeper _ id
            | cons e0 es => simp at h
  · simp [hfilter]

theorem smoothWalk_cons (fs : String → DirRead) (layer : layoutLayer)
    (deeper : List layoutLayer) (path : String) (ident : blobIdent) (e : String)
    (rest : List String) :
    smoothWalk fs (layer :: deeper) path ident (e :: rest) =
      (smoothWalk fs (layer :: deeper) path ident [e] &&
        smoothWalk fs (layer :: deeper) path ident rest) := by
  simp [smoothWalk]

theorem errorsIs_identification_eof (err : GoError) (path : String) (id : blobIdent) :
    errorsIs (newIdentificationError path id err) ioEOF = errorsIs err ioEOF := by
  have hne : ioEOF ≠ errIdentFailure := by decide
  simp [newIdentificationError, errorsIs, hne]

/-- One run of the loop of `advanceChild` over entries whose walk is smooth, in an iterator
whose child has nothing left to walk: what it yields, followed by what is left to walk, is
what was left to walk, and it returns `io.EOF` only when the loop has passed over every
entry. -/
theorem advanceLoop_exact (fs : String → DirRead) (layer : layoutLayer)
    (deeper : List layoutLayer)
    (descend : String → blobIdent → List String → Option (IterResult × identIterator))
    (path : String) (child : identIterator) (ident : blobIdent) (entries : List String)
    (hdesc : deeper ≠ [] → ∀ p id es, smoothWalk fs deeper p id es = true →
      ∃ r c, descend p id es = some (r, c) ∧ c.smooth fs = true ∧
        consYield r (c.remaining fs) = walkIdents fs deeper p id es ∧
        (errorsIsOpt r.2 ioEOF = true → ∀ e ∈ es, passedOverIn fs deeper p id e = true))
    (hchild : child.smooth fs = true) (hrem : child.remaining fs = []) :
    ∀ (rest : List String) (i : Nat), entries.drop i = rest →
      smoothWalk fs (layer :: deeper) path ident rest = true →
      ∃ r it, advanceLoop fs layer deeper descend path child ident (layer :: deeper) entries
          false rest i = some (r, it) ∧
        it.smooth fs = true ∧
        consYield r (it.remaining fs) = walkIdents fs (layer :: deeper) path ident rest ∧
        (errorsIsOpt r.2 ioEOF = true →
          ∀ e ∈ rest, passedOver fs layer deeper path ident e = true)
  | [], i, hdrop, _ => by
    refine ⟨_, _, rfl, ?_, ?_, ?_⟩
    · simp [identIterator.smooth, hchild, hdrop, smoothWalk]
    · simp [consYield, identIterator.remaining, hdrop, hrem, walkIdents_nil]
    · intro _ e he
      cases he
  | e :: rest, i, hdrop, hsm => by
    have hdrop1 : entries.drop (i + 1) = rest := by
      rw [← List.drop_drop, hdrop]
      rfl
    rw [smoothWalk_cons, Bool.and_eq_true] at hsm
    obtain ⟨hsm0, hsm1⟩ := hsm
    obtain ⟨r, it, hrun, hsmooth1, hex1, heof1⟩ :=
      advanceLoop_exact fs layer deeper descend path child ident entries hdesc hchild hrem
        rest (i + 1) hdrop1 hsm1
    have hsmk : ∀ c : identIterator, c.smooth fs = true →
        identIterator.smooth fs (.mk path c ident (layer :: deeper) entries (i + 1) false) =
          true := by
      intro c hc
      simp [identIterator.smooth, hc, hdrop1, hsm1]
    have hremk : ∀ c : identIterator,
        identIterator.remaining fs (.mk path c ident (layer :: deeper) entries (i + 1) false) =
          c.remaining fs ++ walkIdents fs (layer :: deeper) path ident rest := by
      intro c
      simp [identIterator.remaining, hdrop1]
    rw [walkIdents_cons]
    unfold advanceLoop
    simp only []
    by_cases hfilter : layer.filter (filepathJoin path e) = true
    · simp only [hfilter, Bool.not_true, Bool.false_eq_true, if_false]
      simp only [smoothWalk, List.all_cons, List.all_nil, Bool.and_true, hfilter, Bool.not_true,
        Bool.false_eq_true, if_false] at hsm0
      cases hpop : layer.populateIdent ident (filepathJoin path e) with
      | mk id oerr =>
        rw [hpop] at hsm0
        cases oerr with
        | some err =>
          simp only at hsm0 ⊢
          have hne : errorsIs err ioEOF = false := by simpa using hsm0
          refine ⟨_, _, rfl, hsmk child hchild, ?_, ?_⟩
          · rw [hremk, hrem]
            simp [consYield, walkIdents, hfilter, hpop]
          · intro h
            simp only [errorsIsOpt, errorsIs_identification_eof, hne] at h
            cases h
        | none =>
          simp only at hsm0 ⊢
          by_cases hempty : deeper.isEmpty = true
          · simp only [hempty, if_true]
            refine ⟨_, _, rfl, hsmk child hchild, ?_, ?_⟩
            · rw [hremk, hrem]
              simp [consYield, walkIdents, hfilter, hpop, hempty]
            · intro h
              simp [errorsIsOpt] at h
          · have hd : deeper ≠ [] := fun h => hempty (List.isEmpty_iff.mpr h)
            simp only [hempty, Bool.false_eq_true, if_false] at hsm0 ⊢
            cases hlist : listDir fs (filepathJoin path e) with
            | error err =>
              rw [hlist] at hsm0
              simp only at hsm0 ⊢
              have hne : errorsIs err ioEOF = false := by simpa using hsm0
              refine ⟨_, _, rfl, hsmk child hchild, ?_, ?_⟩
              · rw [hremk, hrem]
                simp [consYield, walkIdents, hfilter, hpop, hempty, hlist]
              · intro h
                simp only [errorsIsOpt, hne] at h
                cases h
            | ok es =>
              rw [hlist] at hsm0
              cases es with
              | nil =>
                simp only []
                have hpo : passedOver fs layer deeper path ident e = true := by
                  simp [passedOver, hfilter, hpop, hempty, hlist]
                refine ⟨r, it, hrun, hsmooth1, ?_, ?_⟩
                · rw [hex1, walkIdents_passedOver fs layer deeper path ident e hpo]
                  rfl
                · intro h x hx
                  rcases List.mem_cons.mp hx with hx | hx
                  · exact hx ▸ hpo
                  · exact heof1 h x hx
              | cons e0 es =>
                simp only [List.isEmpty_cons, Bool.false_or, Bool.and_eq_true] at hsm0 ⊢
                obtain ⟨hany, hsmd⟩ := hsm0
                obtain ⟨r2, c, hd2, hcs, hcex, hceof⟩ :=
                  hdesc hd (filepathJoin path e) id (e0 :: es) hsmd
                rw [hd2]
                simp only []
                have hone : walkIdents fs (layer :: deeper) path ident [e] =
                    walkIdents fs deeper (filepathJoin path e) id (e0 :: es) := by
                  simp [walkIdents, hfilter, hpop, hempty, hlist]
                refine ⟨_, _, rfl, hsmk c hcs, ?_, ?_⟩
                · rw [hremk, consYield_append, hcex, hone]
                · intro h
                  exfalso
                  have hall := hceof h
                  rw [List.any_eq_true] at hany
                  obtain ⟨x, hx, hnp⟩ := hany
                  rw [hall x hx] at hnp
                  cases hnp
    · have hpo : passedOver fs layer deeper path ident e = true := by
        simp [passedOver, hfilter]
      simp only [hfilter, Bool.not_false, if_true]
      refine ⟨r, it, hrun, hsmooth1, ?_, ?_⟩
      · rw [hex1, walkIdents_passedOver fs layer deeper path ident e hpo]
        rfl
      · intro h x hx
        rcases List.mem_cons.mp hx with hx | hx
        · exact hx ▸ hpo
        · exact heof1 h x hx
theorem walkIdents_all_passedOver (fs : String → DirRead) (layers : List layoutLayer)
    (path : String) (ident : blobIdent) : ∀ (entries : List String),
    (∀ e ∈ entries, passedOverIn fs layers path ident e = true) →
    walkIdents fs layers path ident entries = []
  | [], _ => walkIdents_nil fs layers path ident
  | e :: rest, h => by
    cases layers with
    | nil => rfl
    | cons layer deeper =>
      rw [walkIdents_cons,
        walkIdents_passedOver fs layer deeper path ident e (h e (List.mem_cons_self _ _)),
        walkIdents_all_passedOver fs (layer :: deeper) path ident rest
          (fun x hx => h x (List.mem_cons_of_mem _ hx))]
      rfl

/-- One call of `advanceChild` over entries whose walk is smooth, in an iterator whose child
has nothing left to walk: what `advanceLoop_exact` says of the loop holds of it from `offset`
on. -/
theorem advanceChild_exact (fs : String → DirRead) : ∀ (layers : List layoutLayer),
    layers ≠ [] → ∀ (path : String) (child : identIterator) (ident : blobIdent)
      (entries : List String) (offset : Nat), child.smooth fs = true →
      child.remaining fs = [] →
      smoothWalk fs layers path ident (entries.drop offset) = true →
      ∃ r it, advanceChild fs layers path child ident layers entries offset false = some (r, it) ∧
        it.smooth fs = true ∧
        consYield r (it.remaining fs) = walkIdents fs layers path ident (entries.drop offset) ∧
        (errorsIsOpt r.2 ioEOF = true →
          ∀ e ∈ entries.drop offset, passedOverIn fs layers path ident e = true)
  | [], h => absurd rfl h
  | layer :: deeper, _ => by
    intro path child ident entries offset hchild hrem hsm
    unfold advanceChild
    by_cases hoff : offset < entries.length
    · rw [if_pos hoff]
      refine advanceLoop_exact fs layer deeper _ path child ident entries ?_ hchild hrem
        (entries.drop offset) offset rfl hsm
      intro hd p id es hes
      obtain ⟨r, c, h1, h2, h3, h4⟩ :=
        advanceChild_exact fs deeper hd p .nil id es 0 rfl rfl (by simpa using hes)
      refine ⟨r, c, h1, h2, ?_, ?_⟩
      · simpa using h3
      · simpa using h4
    · rw [if_neg hoff]
      have hdrop : entries.drop offset = [] := List.drop_eq_nil_of_le (Nat.le_of_not_lt hoff)
      have hdrop1 : entries.drop (offset + 1) = [] :=
        List.drop_eq_nil_of_le (by omega)
      refine ⟨_, _, rfl, ?_, ?_, ?_⟩
      · simp [identIterator.smooth, hchild, hdrop1, smoothWalk]
      · simp [consYield, identIterator.remaining, hdrop, hdrop1, hrem, walkIdents_nil]
      · intro _ e he
        rw [hdrop] at he
        cases he

/-- One call of `next` on a well-formed iterator that has a smooth walk left: it leaves an
iterator with a smooth walk left; what it yields, followed by what is left to walk, is what
was left to walk before; and it returns `io.EOF` only when nothing was left to walk. -/
theorem next_exact (fs : String → DirRead) : ∀ (it : identIterator), it.wellFormed = true →
    it.isNil = false → it.smooth fs = true →
    ∃ r it1, it.next fs = some (r, it1) ∧ it1.smooth fs = true ∧
      consYield r (it1.remaining fs) = it.remaining fs ∧
      (errorsIsOpt r.2 ioEOF = true → it.remaining fs = [])
  | .nil, _, h, _ => by cases h
  | .mk path child ident layers entries offset eof, hwf, _, hsm => by
    simp only [identIterator.wellFormed, Bool.and_eq_true, Bool.or_eq_true,
      decide_eq_true_eq] at hwf
    obtain ⟨⟨hchild, hlen⟩, hleaf⟩ := hwf
    have hlayers : layers ≠ [] := by
      intro h
      subst h
      simp at hlen
    simp only [identIterator.smooth, Bool.and_eq_true, Bool.not_eq_true'] at hsm
    obtain ⟨⟨heof, hcsm⟩, hwalk⟩ := hsm
    subst heof
    have hreq : ∀ c : identIterator,
        identIterator.remaining fs (.mk path c ident layers entries offset false) =
          c.remaining fs ++ walkIdents fs layers path ident (entries.drop offset) :=
      fun c => by simp [identIterator.remaining]
    have hsmk : ∀ c : identIterator, c.smooth fs = true →
        identIterator.smooth fs (.mk path c ident layers entries offset false) = true := by
      intro c hc
      simp [identIterator.smooth, hc, hwalk]
    cases hc : child with
    | nil =>
      subst hc
      obtain ⟨r, it1, h1, h2, h3, h4⟩ :=
        advanceChild_exact fs layers hlayers path .nil ident entries offset rfl rfl hwalk
      refine ⟨r, it1, ?_, h2, ?_, ?_⟩
      · simp only [identIterator.next, Bool.false_eq_true, if_false]
        exact h1
      · rw [hreq, h3]
        rfl
      · intro h
        rw [hreq, walkIdents_all_passedOver fs layers path ident _ (h4 h)]
        rfl
    | mk p c id ls es o f =>
      subst hc
      obtain ⟨r, c1, h1, h2, h3, h4⟩ :=
        next_exact fs (.mk p c id ls es o f) hchild rfl hcsm
      obtain ⟨x, oerr⟩ := r
      simp only [identIterator.next, Bool.false_eq_true, if_false, h1]
      cases oerr with
      | none =>
        refine ⟨_, _, rfl, hsmk c1 h2, ?_, ?_⟩
        · rw [hreq, hreq, consYield_append, h3]
        · intro h
          simp [errorsIsOpt] at h
      | some err =>
        have hrem1 : c1.remaining fs = identIterator.remaining fs (.mk p c id ls es o f) := by
          simpa [consYield] using h3
        by_cases herr : errorsIs err ioEOF = true
        · simp only [herr, Bool.not_true, Bool.false_eq_true, if_false]
          have hnone : identIterator.remaining fs (.mk p c id ls es o f) = [] :=
            h4 (by simpa [errorsIsOpt] using herr)
          obtain ⟨r2, it2, g1, g2, g3, g4⟩ :=
            advanceChild_exact fs layers hlayers path c1 ident entries offset h2
              (hrem1.trans hnone) hwalk
          refine ⟨r2, it2, g1, g2, ?_, ?_⟩
          · rw [hreq, hnone, g3]
            rfl
          · intro h
            rw [hreq, hnone, walkIdents_all_passedOver fs layers path ident _ (g4 h)]
            rfl
        · have herr2 : errorsIs err ioEOF = false := by simpa using herr
          simp only [herr2, Bool.not_false, if_true]
          refine ⟨_, _, rfl, hsmk c1 h2, ?_, ?_⟩
          · rw [hreq, hreq, hrem1]
            rfl
          · intro h
            simp only [errorsIsOpt, herr2] at h
            cases h

/-- The calls of `next` up to the first `io.EOF`, on a well-formed iterator that has a smooth
walk left, with a budget above the number of entries left to visit: they yield, in order, the
idents left to walk, all of them. -/
theorem untilEOF_exact (fs : String → DirRead) : ∀ (fuel : Nat) (it : identIterator),
    it.wellFormed = true → it.isNil = false → it.smooth fs = true → it.pending fs < fuel →
    ∃ rs, untilEOF fs fuel it = some rs ∧ yieldedIdents rs = it.remaining fs
  | 0, _, _, _, _, h => by omega
  | fuel + 1, it, hwf, hnil, hsm, hlt => by
    obtain ⟨r, it1, h1, h2, h3, _, _, h6⟩ := next_step fs it hwf hnil
    obtain ⟨r2, it2, g1, g2, g3, g4⟩ := next_exact fs it hwf hnil hsm
    rw [h1] at g1
    injection g1 with g1
    injection g1 with g1r g1i
    subst g1r g1i
    unfold untilEOF
    simp only [h1]
    by_cases heof : errorsIsOpt r.2 ioEOF = true
    · rw [if_pos heof]
      exact ⟨[], rfl, (g4 heof).symm ▸ rfl⟩
    · rw [if_neg heof]
      have hdec : it1.pending fs < it.pending fs := by
        rcases h6 with h | h
        · exfalso
          apply heof
          rw [h]
          decide
        · exact h
      obtain ⟨rs, hrs, hy⟩ := untilEOF_exact fs fuel it1 h2 h3 g2 (by omega)
      refine ⟨r :: rs, by simp [hrs], ?_⟩
      rw [yieldedIdents_cons, hy, g3]
/-- At the leaf layer, when the loop of `advanceChild` has passed the entries before `e` that
the filter rejects and `e` passes the filter and the populator, `next` yields the ident that
the populator gives for `e` and leaves the iterator just past `e`. -/
theorem next_yields_leaf_entry (fs : String → DirRead) (leaf : layoutLayer) (path : String)
    (ident : blobIdent) (entries : List String) (offset : Nat) (skipped : List String)
    (e : String) (rest : List String) (id : blobIdent)
    (hdrop : entries.drop offset = skipped ++ e :: rest)
    (hskip : ∀ s ∈ skipped, leaf.filter (filepathJoin path s) = false)
    (hfilter : leaf.filter (filepathJoin path e) = true)
    (hpop : leaf.populateIdent ident (filepathJoin path e) = (id, none)) :
    identIterator.next fs (.mk path .nil ident [leaf] entries offset false) =
      some ((id, none), .mk path .nil ident [leaf] entries (offset + skipped.length + 1) false) := by
  rw [next_nil_child, advanceChild_at fs leaf [] path .nil ident entries offset skipped
    (e :: rest) (by simp) hdrop
    (fun s hs => by simp [passedOver, hskip s hs])]
  rw [advanceLoop]
  simp [hfilter, hpop]

/-- An iterator whose child yields an ident yields that ident. -/
theorem next_passes_yield_up (fs : String → DirRead) (path : String) (ident : blobIdent)
    (layers : List layoutLayer) (entries : List String) (offset : Nat)
    (child c1 : identIterator) (x : blobIdent)
    (h : child.next fs = some ((x, none), c1)) :
    identIterator.next fs (.mk path child ident layers entries offset false) =
      some ((x, none), .mk path c1 ident layers entries offset false) := by
  cases child with
  | nil => simp [identIterator.next] at h
  | mk p c id ls es o f =>
    simp only [identIterator.next, Bool.false_eq_true, if_false, h]

/-- C19: the first `n` calls of `next` on a fresh iterator return, and the idents they yield
are, in order, part of the depth-first walk in listing order `walkIdents`: they split into
consecutive blocks, one for each entry of the directory in listing order, the block of an
entry holding idents under that entry only, in the order of the walk under it, so that every
ident under one entry comes before any ident under a later entry and the idents under one
entry are adjacent; each yielded ident has passed the filter and the populator of the layer of
each entry on its path and is what these populators give. Idents are yielded: at the leaf
layer an entry that passes the filter and the populator is yielded by the call that comes to
it, and an iterator whose child yields an ident yields it; and when the walk is smooth (no
directory gone into is without an entry that counts and no error matches `io.EOF`), the calls
up to the first `io.EOF` yield the whole depth-first walk, every ident of it, in its
order. -/
theorem next_yields_depth_first (fs : String → DirRead) (layer : layoutLayer)
    (deeper : List layoutLayer) (path : String) (ident : blobIdent) (entries : List String)
    (n : Nat) :
    (∃ rs, firstResults fs n (.mk path .nil ident (layer :: deeper) entries 0 false) = some rs ∧
      (yieldedIdents rs).Sublist (walkIdents fs (layer :: deeper) path ident entries) ∧
      (∃ blocks : List (List blobIdent), yieldedIdents rs = blocks.flatten ∧
        List.Forall₂ (fun b e => b.Sublist (walkIdents fs (layer :: deeper) path ident [e]))
          blocks entries) ∧
      ∀ x ∈ yieldedIdents rs, ∃ e ∈ entries, layer.filter (filepathJoin path e) = true ∧
        ∃ id, layer.populateIdent ident (filepathJoin path e) = (id, none) ∧
          if deeper.isEmpty then x = id
          else ∃ es, listDir fs (filepathJoin path e) = .ok es ∧
            x ∈ walkIdents fs deeper (filepathJoin path e) id es) ∧
      (smoothWalk fs (layer :: deeper) path ident entries = true →
        ∃ rs, untilEOF fs (walkSize fs (layer :: deeper) path ident entries + 1)
            (.mk path .nil ident (layer :: deeper) entries 0 false) = some rs ∧
          yieldedIdents rs = walkIdents fs (layer :: deeper) path ident entries) ∧
      (∀ (leaf : layoutLayer) (p : String) (id0 : blobIdent) (es : List String) (offset : Nat)
          (skipped : List String) (e : String) (rest : List String) (id : blobIdent),
        es.drop offset = skipped ++ e :: rest →
        (∀ s ∈ skipped, leaf.filter (filepathJoin p s) = false) →
        leaf.filter (filepathJoin p e) = true →
        leaf.populateIdent id0 (filepathJoin p e) = (id, none) →
        identIterator.next fs (.mk p .nil id0 [leaf] es offset false) =
          some ((id, none), .mk p .nil id0 [leaf] es (offset + skipped.length + 1) false)) ∧
      ∀ (p : String) (id0 : blobIdent) (ls : List layoutLayer) (es : List String) (offset : Nat)
          (child c1 : identIterator) (x : blobIdent),
        child.next fs = some ((x, none), c1) →
        identIterator.next fs (.mk p child id0 ls es offset false) =
          some ((x, none), .mk p c1 id0 ls es offset false) := by
  have hwf := wellFormed_mk path .nil ident layer deeper entries 0 false rfl (Or.inl rfl)
  have hrem : identIterator.remaining fs (.mk path .nil ident (layer :: deeper) entries 0 false) =
      walkIdents fs (layer :: deeper) path ident entries := by
    simp [identIterator.remaining]
  refine ⟨?_, ?_, ?_, ?_⟩
  · obtain ⟨rs, it1, h1, _, _, _, h5, _⟩ :=
      nexts_step fs n (.mk path .nil ident (layer :: deeper) entries 0 false) hwf rfl
    have hsub : (yieldedIdents rs).Sublist
        (walkIdents fs (layer :: deeper) path ident entries) := by
      rw [hrem] at h5
      exact (List.sublist_append_left _ _).trans h5
    refine ⟨rs, by simp [firstResults, h1], hsub, ?_, ?_⟩
    · rw [walkIdents_single] at hsub
      exact sublist_flatMap_blocks _ entries _ hsub
    · intro x hx
      exact mem_walkIdents fs layer deeper path ident entries x (hsub.subset hx)
  · intro hsm
    obtain ⟨rs, h1, h2⟩ := untilEOF_exact fs
      (walkSize fs (layer :: deeper) path ident entries + 1)
      (.mk path .nil ident (layer :: deeper) entries 0 false) hwf rfl
      (by simp [identIterator.smooth, hsm])
      (by simp [identIterator.pending])
    exact ⟨rs, h1, h2.trans hrem⟩
  · intro leaf p id0 es offset skipped e rest id hdrop hskip hfilter hpop
    exact next_yields_leaf_entry fs leaf p id0 es offset skipped e rest id hdrop hskip hfilter
      hpop
  · intro p id0 ls es offset child c1 x h
    exact next_passes_yield_up fs p id0 ls es offset child c1 x h

/-- C19, on the tree `treeTwoRoots` with the layers of the flat walk: the walk is smooth, and
the calls of `next` up to the first `io.EOF` yield the two idents of root B and then the ident
of root A, which is the whole depth-first walk. -/
theorem next_yields_depth_first_witness :
    smoothWalk treeTwoRoots.readdirnames (⟨populateRoot, isRootDir⟩ :: [⟨populateIndex, isSszFile⟩])
        "." blobIdent.zero [rootB, rootA] = true ∧
      walkIdents treeTwoRoots.readdirnames
        (⟨populateRoot, isRootDir⟩ :: [⟨populateIndex, isSszFile⟩]) "." blobIdent.zero
        [rootB, rootA] = [⟨bytesB, 0, 0⟩, ⟨bytesB, 0, 3⟩, ⟨bytesA, 0, 1⟩] ∧
      ∃ rs, untilEOF treeTwoRoots.readdirnames
          (walkSize treeTwoRoots.readdirnames
            (⟨populateRoot, isRootDir⟩ :: [⟨populateIndex, isSszFile⟩]) "." blobIdent.zero
            [rootB, rootA] + 1)
          (.mk "." .nil blobIdent.zero
            (⟨populateRoot, isRootDir⟩ :: [⟨populateIndex, isSszFile⟩]) [rootB, rootA] 0
            false) = some rs ∧
        yieldedIdents rs = [⟨bytesB, 0, 0⟩, ⟨bytesB, 0, 3⟩, ⟨bytesA, 0, 1⟩] :=
  have h := (next_yields_depth_first treeTwoRoots.readdirnames ⟨populateRoot, isRootDir⟩
    [⟨populateIndex, isSszFile⟩] "." blobIdent.zero [rootB, rootA] 0).2.1 (by decide)
  have hw : walkIdents treeTwoRoots.readdirnames
      (⟨populateRoot, isRootDir⟩ :: [⟨populateIndex, isSszFile⟩]) "." blobIdent.zero
      [rootB, rootA] = [⟨bytesB, 0, 0⟩, ⟨bytesB, 0, 3⟩, ⟨bytesA, 0, 1⟩] := by decide
  ⟨by decide, hw, h.elim fun rs hrs => ⟨rs, hrs.1, hrs.2.trans hw⟩⟩

end Filesystem
